import Mathlib

/-! NapCatQQ `serialize.cpp`: a verification development.

Shallow embedding of `src/remote/serialize.cpp`: the Base64 transform, the
envelope encoder and decoder, and the JSON text codec.

Conventions of the embedding.

* A C `char` is a Lean `Char` and a `std::string` is a `List Char`: the program
  only ever compares code units with ASCII constants, every other code unit is
  passed through unchanged.
* An `unsigned char` / `uint8_t` is a `Nat` below 256; a `uint32_t` is a `Nat`
  reduced modulo `2 ^ 32` wherever the C++ operation can overflow.
* The index loops of the Base64 functions are functions of the index with a fuel
  argument that bounds the number of iterations; the entry points supply enough
  fuel for the loop to run to completion. A `for` loop over the indices
  `0, ..., n - 1` of a host array, or over the property names of a host object,
  is a `List.foldl` over `List.range n`, or over the names, of the loop body.
* A recursive traversal takes a `fuel` argument that bounds the depth of the
  recursion; with too little fuel the innermost calls return the failure value.
* Every Node-API call on a valid handle is taken to succeed unless the
  documentation of the call says otherwise for the kind of value it is given.
-/

namespace Serialize

/-! ## Base64 (`serialize.cpp` lines 10-94) -/

/-- The table `BASE64_CHARS`. -/
def BASE64_CHARS : List Char :=
  ['A', 'B', 'C', 'D', 'E', 'F', 'G', 'H', 'I', 'J', 'K', 'L', 'M',
   'N', 'O', 'P', 'Q', 'R', 'S', 'T', 'U', 'V', 'W', 'X', 'Y', 'Z',
   'a', 'b', 'c', 'd', 'e', 'f', 'g', 'h', 'i', 'j', 'k', 'l', 'm',
   'n', 'o', 'p', 'q', 'r', 's', 't', 'u', 'v', 'w', 'x', 'y', 'z',
   '0', '1', '2', '3', '4', '5', '6', '7', '8', '9', '+', '/']

/-- The body of the `for (i = 0; i < len; i += 3)` loop of `base64_encode`,
started at index `i`; `fuel` bounds the number of iterations. -/
def base64_encode_loop (data : List Nat) : Nat → Nat → List Char
  | 0, _ => []
  | fuel + 1, i =>
    if i < data.length then
      let value0 := (data.getD i 0 <<< 16) % 2 ^ 32
      let value1 :=
        if i + 1 < data.length then value0 ||| ((data.getD (i + 1) 0 <<< 8) % 2 ^ 32)
        else value0
      let value :=
        if i + 2 < data.length then value1 ||| data.getD (i + 2) 0 else value1
      [BASE64_CHARS.getD ((value >>> 18) &&& 0x3F) 'A',
       BASE64_CHARS.getD ((value >>> 12) &&& 0x3F) 'A',
       if i + 1 < data.length then BASE64_CHARS.getD ((value >>> 6) &&& 0x3F) 'A' else '=',
       if i + 2 < data.length then BASE64_CHARS.getD (value &&& 0x3F) 'A' else '=']
        ++ base64_encode_loop data fuel (i + 3)
    else []

/-- The function `base64_encode(data, len)`; `data` is the `len` bytes. -/
def base64_encode (data : List Nat) : List Char :=
  if data.length = 0 then [] else base64_encode_loop data data.length 0

/-- The lambda `get_base64_index` of `base64_decode`. -/
def get_base64_index (c : Char) : Int :=
  if 'A' ≤ c ∧ c ≤ 'Z' then (c.toNat : Int) - ('A'.toNat : Int)
  else if 'a' ≤ c ∧ c ≤ 'z' then (c.toNat : Int) - ('a'.toNat : Int) + 26
  else if '0' ≤ c ∧ c ≤ '9' then (c.toNat : Int) - ('0'.toNat : Int) + 52
  else if c = '+' then 62
  else if c = '/' then 63
  else -1

/-- The inner loop `for (j = 0; j < 4 && i + j < encoded.size(); j++)` of
`base64_decode`, started at `j` with the current `value` and `valid_chars`;
it returns their final values. -/
def base64_decode_group (encoded : List Char) (i : Nat) : Nat → Nat → Nat → Nat → Nat × Nat
  | 0, _, value, valid_chars => (value, valid_chars)
  | fuel + 1, j, value, valid_chars =>
    if j < 4 ∧ i + j < encoded.length then
      let c := encoded.getD (i + j) '='
      if c = '=' then (value, valid_chars)
      else
        let index := get_base64_index c
        if index = -1 then base64_decode_group encoded i fuel (j + 1) value valid_chars
        else
          base64_decode_group encoded i fuel (j + 1)
            (((value <<< 6) % 2 ^ 32) ||| index.toNat) (valid_chars + 1)
    else (value, valid_chars)

/-- The bytes one group pushes onto `result` (the `if (valid_chars >= 2)` block). -/
def base64_decode_push (value valid_chars : Nat) : List Nat :=
  if valid_chars ≥ 2 then
    let value := (value <<< ((4 - valid_chars) * 6)) % 2 ^ 32
    [(value >>> 16) &&& 0xFF]
      ++ (if valid_chars ≥ 3 then [(value >>> 8) &&& 0xFF] else [])
      ++ (if valid_chars ≥ 4 then [value &&& 0xFF] else [])
  else []

/-- The outer loop `for (i = 0; i < encoded.size(); i += 4)` of `base64_decode`,
started at index `i`; `fuel` bounds the number of iterations. -/
def base64_decode_loop (encoded : List Char) : Nat → Nat → List Nat
  | 0, _ => []
  | fuel + 1, i =>
    if i < encoded.length then
      let r := base64_decode_group encoded i 4 0 0 0
      base64_decode_push r.1 r.2 ++ base64_decode_loop encoded fuel (i + 4)
    else []

/-- The function `base64_decode(encoded)`. -/
def base64_decode (encoded : List Char) : List Nat :=
  if encoded.length = 0 then [] else base64_decode_loop encoded encoded.length 0

/-! ### Auxiliary views used by the proofs about Base64 -/

/-- The four characters one iteration of the encoder loop appends, as a function
of the bytes from the current index on (`l = data.drop i`). -/
def encode_quad (l : List Nat) : List Char :=
  let value0 := (l.getD 0 0 <<< 16) % 2 ^ 32
  let value1 := if 1 < l.length then value0 ||| ((l.getD 1 0 <<< 8) % 2 ^ 32) else value0
  let value := if 2 < l.length then value1 ||| l.getD 2 0 else value1
  [BASE64_CHARS.getD ((value >>> 18) &&& 0x3F) 'A',
   BASE64_CHARS.getD ((value >>> 12) &&& 0x3F) 'A',
   if 1 < l.length then BASE64_CHARS.getD ((value >>> 6) &&& 0x3F) 'A' else '=',
   if 2 < l.length then BASE64_CHARS.getD (value &&& 0x3F) 'A' else '=']

/-- The consecutive 4-character groups of a text; the last one may be shorter. -/
def groups4 : List Char → List (List Char)
  | c0 :: c1 :: c2 :: c3 :: rest => [c0, c1, c2, c3] :: groups4 rest
  | [] => []
  | l => [l]

/-- The 6-bit values of the alphabet characters of a group that occur before its
first `=` (or its end). -/
def group_sextets (g : List Char) : List Nat :=
  ((g.takeWhile (fun c => c ≠ '=')).filter (fun c => get_base64_index c ≠ -1)).map
    (fun c => (get_base64_index c).toNat)

/-- The 6-bit values packed left-aligned into 24 bits. -/
def pack24 (ss : List Nat) : Nat :=
  ss.foldl (fun v s => v * 64 + s) 0 * 64 ^ (4 - ss.length)

/-- The contribution of a group, as the specification words it: no byte for fewer
than two alphabet characters, otherwise the leading `k - 1` bytes of the packed
24 bits. -/
def group_contribution (g : List Char) : List Nat :=
  let ss := group_sextets g
  if ss.length < 2 then []
  else [pack24 ss / 65536 % 256, pack24 ss / 256 % 256, pack24 ss % 256].take (ss.length - 1)


/-- The decoder's inner loop as a scan over the characters of one group. -/
def decode_scan : List Char → Nat → Nat → Nat × Nat
  | [], value, valid_chars => (value, valid_chars)
  | c :: g, value, valid_chars =>
    if c = '=' then (value, valid_chars)
    else if get_base64_index c = -1 then decode_scan g value valid_chars
    else decode_scan g (((value <<< 6) % 2 ^ 32) ||| (get_base64_index c).toNat) (valid_chars + 1)

/-- The bytes the decoder pushes for the group `g` (at most four characters). -/
def decode_group_bytes (g : List Char) : List Nat :=
  base64_decode_push (decode_scan g 0 0).1 (decode_scan g 0 0).2

/-! ## The host values (Node-API)

`serialize.cpp` works on `napi_value` handles of the JavaScript engine. The
embedding represents a handle by the value it denotes, as far as the program can
observe it, and every Node-API call by a function on these values; a call that
does not return `napi_ok` is `none`.

* A number is a rational: the finite doubles are rationals. `NaN`, the
  infinities and the sign of zero are not represented, and the rounding that
  `strtod` performs is not modelled.
* An object is the list of its own enumerable string-keyed data properties, in
  the host's enumeration order; prototypes (inherited members) are not
  represented, and two distinct occurrences of an object in a value are two
  distinct objects.
* `buffer` is a Node `Buffer` (or a plain `Uint8Array`, which the program reads
  the same way); `func` is any value whose `napi_typeof` is none of
  `undefined`, `null`, `boolean`, `number`, `string`, `object` (a function, a
  symbol, a bigint, an external).
* An array is the list of its slots; `none` is a slot that was never set.
* The assignment `napi_set_named_property` is described for ordinary property
  names (`ordinary_key`): the host assigns `__proto__` through the setter of
  `Object.prototype`, which creates no own property, and enumerates array-index
  names before the other names. The statements that depend on the presence or on
  the place of an assigned member assume ordinary names.
* A JavaScript exception raised by a Node-API call stays pending and makes the
  later calls fail. `decode_value` describes the runs in which no call raises an
  exception; `decode_value_pending` carries the pending exception.
-/

/-- The enumeration `napi_valuetype`. -/
inductive napi_valuetype where
  | napi_undefined
  | napi_null
  | napi_boolean
  | napi_number
  | napi_string
  | napi_object
  | napi_function
  deriving DecidableEq, Repr

/-- A JavaScript value, as `serialize.cpp` can observe it. -/
inductive JSValue where
  | undefined
  | null
  | boolean (b : Bool)
  | number (x : ℚ)
  | string (s : List Char)
  | func
  | buffer (bytes : List Nat)
  | array (elems : List (Option JSValue))
  | map (entries : List (JSValue × JSValue))
  | object (props : List (List Char × JSValue))

instance : Inhabited JSValue := ⟨JSValue.undefined⟩

mutual
/-- The number of nested `encode_value` (or `decode_value`, `value_to_json`)
calls a traversal of the value makes: 1 for a value without members. -/
def JSValue.depth : JSValue → Nat
  | .array elems => depth_elems elems + 1
  | .map entries => depth_entries entries + 1
  | .object props => depth_props props + 1
  | _ => 1
/-- The largest depth of the elements of an array. -/
def depth_elems : List (Option JSValue) → Nat
  | [] => 0
  | none :: t => max 1 (depth_elems t)
  | some v :: t => max v.depth (depth_elems t)
/-- The largest depth of the keys and values of a map. -/
def depth_entries : List (JSValue × JSValue) → Nat
  | [] => 0
  | (k, v) :: t => max (max k.depth v.depth) (depth_entries t)
/-- The largest depth of the property values of an object. -/
def depth_props : List (List Char × JSValue) → Nat
  | [] => 0
  | (_, v) :: t => max v.depth (depth_props t)
end

/-- The decimal digit `d` as a character. -/
def digit_char (d : Nat) : Char := Char.ofNat (48 + d % 10)

/-- The decimal numeral of `n`, most significant digit first, in front of `acc`;
`fuel` bounds the number of digits. -/
def decimal_digits : Nat → Nat → List Char → List Char
  | 0, _, acc => acc
  | fuel + 1, n, acc =>
    if n < 10 then digit_char n :: acc
    else decimal_digits fuel (n / 10) (digit_char n :: acc)

/-- The decimal numeral of a natural number (the host's `ToString` of an index,
`std::to_string` of a non-negative integer). -/
def to_string_nat (n : Nat) : List Char := decimal_digits (n + 1) n []

/-- The function `napi_typeof`. -/
def napi_typeof : JSValue → napi_valuetype
  | .undefined => .napi_undefined
  | .null => .napi_null
  | .boolean _ => .napi_boolean
  | .number _ => .napi_number
  | .string _ => .napi_string
  | .func => .napi_function
  | _ => .napi_object

/-- The indexed properties of an array whose slots from index `i` on are `elems`. -/
def index_props : Nat → List (Option JSValue) → List (List Char × JSValue)
  | _, [] => []
  | i, none :: t => index_props (i + 1) t
  | i, some x :: t => (to_string_nat i, x) :: index_props (i + 1) t

/-- The own enumerable string-keyed properties of a value converted to an object,
in enumeration order. -/
def own_props : JSValue → List (List Char × JSValue)
  | .object props => props
  | .array elems => index_props 0 elems
  | .buffer bytes => index_props 0 (bytes.map (fun b => some (.number (b : ℚ))))
  | .string s => index_props 0 (s.map (fun c => some (.string [c])))
  | _ => []

/-- The property name `length`. -/
def LENGTH : List Char := ['l', 'e', 'n', 'g', 't', 'h']

/-- The `length` property of arrays, buffers and strings (not enumerable). -/
def length_prop : JSValue → Option JSValue
  | .array elems => some (.number (elems.length : ℚ))
  | .buffer bytes => some (.number (bytes.length : ℚ))
  | .string s => some (.number (s.length : ℚ))
  | _ => none

/-- The named property `name` of a value converted to an object, if it has one. -/
def find_property (v : JSValue) (name : List Char) : Option JSValue :=
  match (own_props v).lookup name with
  | some x => some x
  | none => if name = LENGTH then length_prop v else none

/-- The function `napi_has_named_property`: `none` (not `napi_ok`) for `null` and
`undefined`, which cannot be converted to an object. -/
def napi_has_named_property (v : JSValue) (name : List Char) : Option Bool :=
  match v with
  | .undefined => none
  | .null => none
  | _ => some (find_property v name).isSome

/-- The function `napi_get_named_property`; an absent property reads as
`undefined`. -/
def napi_get_named_property (v : JSValue) (name : List Char) : Option JSValue :=
  match v with
  | .undefined => none
  | .null => none
  | _ => some ((find_property v name).getD .undefined)

/-- The function `napi_has_own_property`, for a property name that is a string. -/
def napi_has_own_property (v : JSValue) (name : List Char) : Option Bool :=
  napi_has_named_property v name

/-- The function `napi_get_property_names`: the names of the enumerable
string-keyed properties. -/
def napi_get_property_names (v : JSValue) : Option (List (List Char)) :=
  match v with
  | .undefined => none
  | .null => none
  | _ => some ((own_props v).map Prod.fst)

/-- The function `napi_get_array_length`: `none` (`napi_array_expected`) for a
value that is not an array. -/
def napi_get_array_length : JSValue → Option Nat
  | .array elems => some elems.length
  | _ => none

/-- The function `napi_get_element`; a slot that was never set reads as
`undefined`. -/
def napi_get_element (v : JSValue) (i : Nat) : Option JSValue :=
  match v with
  | .array elems => some ((elems.getD i none).getD .undefined)
  | _ => napi_get_named_property v (to_string_nat i)

/-- The slots of an array after `napi_set_element` at index `i`. -/
def set_slot (elems : List (Option JSValue)) (i : Nat) (x : JSValue) : List (Option JSValue) :=
  if i < elems.length then elems.set i (some x)
  else elems ++ List.replicate (i - elems.length) none ++ [some x]

/-- The function `napi_set_element` on an array. -/
def napi_set_element (arr : JSValue) (i : Nat) (x : JSValue) : JSValue :=
  match arr with
  | .array elems => .array (set_slot elems i x)
  | _ => arr

/-- The properties of an object after an assignment to the property `name`: an
existing property keeps its place, a new one is enumerated last. This is the host's
assignment for an ordinary name (`ordinary_key`); the host assigns `__proto__`
through a setter and enumerates array-index names first. -/
def set_prop : List (List Char × JSValue) → List Char → JSValue → List (List Char × JSValue)
  | [], name, x => [(name, x)]
  | (k, v) :: t, name, x => if k = name then (k, x) :: t else (k, v) :: set_prop t name x

/-- The function `napi_set_named_property` on a plain object, for an ordinary
property name (`ordinary_key`). -/
def napi_set_named_property (obj : JSValue) (name : List Char) (x : JSValue) : JSValue :=
  match obj with
  | .object props => .object (set_prop props name x)
  | _ => obj

/-- The C string a `std::string` hands to Node-API through `c_str()`: it ends at
the first NUL. -/
def c_str (s : List Char) : List Char := s.takeWhile (fun c => c ≠ Char.ofNat 0)

/-! ## The envelope encoder and decoder (`serialize.cpp` lines 96-699)

The recursive functions take a `fuel` argument that bounds the depth of the
recursion; `JSValue.depth` is enough fuel. The helpers `encode_map`,
`encode_array` and `encode_object` call back into `encode_value`, which they
receive as the argument `enc`.
-/

/-- The property name `$type`. -/
def TYPE_KEY : List Char := ['$', 't', 'y', 'p', 'e']

/-- The property name `$value`. -/
def VALUE_KEY : List Char := ['$', 'v', 'a', 'l', 'u', 'e']

/-- The tag `null`. -/
def TAG_NULL : List Char := ['n', 'u', 'l', 'l']

/-- The tag `undefined`. -/
def TAG_UNDEFINED : List Char := ['u', 'n', 'd', 'e', 'f', 'i', 'n', 'e', 'd']

/-- The tag `number`. -/
def TAG_NUMBER : List Char := ['n', 'u', 'm', 'b', 'e', 'r']

/-- The tag `string`. -/
def TAG_STRING : List Char := ['s', 't', 'r', 'i', 'n', 'g']

/-- The tag `boolean`. -/
def TAG_BOOLEAN : List Char := ['b', 'o', 'o', 'l', 'e', 'a', 'n']

/-- The tag `Buffer`. -/
def TAG_BUFFER : List Char := ['B', 'u', 'f', 'f', 'e', 'r']

/-- The tag `Array`. -/
def TAG_ARRAY : List Char := ['A', 'r', 'r', 'a', 'y']

/-- The tag `Object`. -/
def TAG_OBJECT : List Char := ['O', 'b', 'j', 'e', 'c', 't']

/-- The tag `Map`. -/
def TAG_MAP : List Char := ['M', 'a', 'p']

/-- The function `create_string`. -/
def create_string (str : List Char) : JSValue := .string str

/-- The function `create_typed_object`: a fresh object with the property `$type`. -/
def create_typed_object (type_name : List Char) : JSValue :=
  napi_set_named_property (.object []) TYPE_KEY (.string type_name)

/-- The function `get_string_value`: the text of a string, the empty text for any
other value (`napi_get_value_string_utf8` fails). -/
def get_string_value : JSValue → List Char
  | .string s => s
  | _ => []

/-- The function `is_buffer`. -/
def is_buffer : JSValue → Bool
  | .buffer _ => true
  | _ => false

/-- The function `is_uint8_array`. -/
def is_uint8_array : JSValue → Bool
  | .buffer _ => true
  | _ => false

/-- The function `is_array`. -/
def is_array : JSValue → Bool
  | .array _ => true
  | _ => false

/-- The function `is_map`. -/
def is_map : JSValue → Bool
  | .map _ => true
  | _ => false

/-- The function `is_array_like`. -/
def is_array_like (val : JSValue) : Bool :=
  if is_array val then true
  else if napi_typeof val ≠ .napi_object then false
  else
    match napi_has_named_property val LENGTH with
    | some true =>
      match napi_get_named_property val LENGTH with
      | some length_val => decide (napi_typeof length_val = .napi_number)
      | none => false
    | _ => false

/-- The function `napi_get_value_double`. -/
def napi_get_value_double : JSValue → Option ℚ
  | .number x => some x
  | _ => none

/-- The conversion `static_cast<uint32_t>` of a double: truncation towards zero.
The C++ conversion is undefined outside `[0, 2 ^ 32)`; the model reduces modulo
`2 ^ 32` there. -/
def double_to_uint32 (x : ℚ) : Nat := (Rat.floor x).toNat % 2 ^ 32

/-- The bytes `napi_get_buffer_info` / `napi_get_typedarray_info` give. -/
def buffer_data : JSValue → Option (List Nat)
  | .buffer bytes => some bytes
  | _ => none

/-- The entries the iterator `map.entries()` yields. -/
def map_entries : JSValue → List (JSValue × JSValue)
  | .map entries => entries
  | _ => []

/-- The `while (true)` loop of `encode_map` over the entries the iterator still
has to yield; the state is `entries_array` and `index`. The loop is left at the
first entry whose key or value is not encoded. -/
def encode_map_loop (enc : JSValue → Option JSValue) :
    List (JSValue × JSValue) → JSValue → Nat → JSValue
  | [], entries_array, _ => entries_array
  | (key, value) :: rest, entries_array, index =>
    match enc key, enc value with
    | some encoded_key, some encoded_value =>
      let encoded_pair :=
        napi_set_element
          (napi_set_element (.array (List.replicate 2 none)) 0 encoded_key) 1 encoded_value
      encode_map_loop enc rest (napi_set_element entries_array index encoded_pair) (index + 1)
    | _, _ => entries_array

/-- The function `encode_map`. -/
def encode_map (enc : JSValue → Option JSValue) (map : JSValue) : Option JSValue :=
  let result := create_typed_object TAG_MAP
  let entries_array := encode_map_loop enc (map_entries map) (.array []) 0
  some (napi_set_named_property result VALUE_KEY entries_array)

/-- One iteration of the `for` loop of `encode_array`. -/
def encode_array_step (enc : JSValue → Option JSValue) (arr : JSValue)
    (encoded_array : JSValue) (i : Nat) : JSValue :=
  match napi_get_element arr i with
  | none => encoded_array
  | some element =>
    match enc element with
    | some encoded_element => napi_set_element encoded_array i encoded_element
    | none => encoded_array

/-- The function `encode_array`. -/
def encode_array (enc : JSValue → Option JSValue) (arr : JSValue) : Option JSValue :=
  let result := create_typed_object TAG_ARRAY
  let length? : Option Nat :=
    if is_array arr then napi_get_array_length arr
    else
      match napi_get_named_property arr LENGTH with
      | none => none
      | some length_val =>
        match napi_get_value_double length_val with
        | none => none
        | some length_double => some (double_to_uint32 length_double)
  match length? with
  | none => none
  | some length =>
    let encoded_array :=
      (List.range length).foldl (encode_array_step enc arr) (.array (List.replicate length none))
    some (napi_set_named_property result VALUE_KEY encoded_array)

/-- One iteration of the `for` loop of `encode_object`, for the property name
`prop_name`. -/
def encode_object_step (enc : JSValue → Option JSValue) (obj : JSValue)
    (encoded_obj : JSValue) (prop_name : List Char) : JSValue :=
  let key := get_string_value (.string prop_name)
  if key = [] then encoded_obj
  else
    match napi_has_own_property obj prop_name with
    | some true =>
      match napi_get_named_property obj (c_str key) with
      | none => encoded_obj
      | some prop_value =>
        match enc prop_value with
        | some encoded_value => napi_set_named_property encoded_obj (c_str key) encoded_value
        | none => encoded_obj
    | _ => encoded_obj

/-- The function `encode_object`. -/
def encode_object (enc : JSValue → Option JSValue) (obj : JSValue) : Option JSValue :=
  let result := create_typed_object TAG_OBJECT
  match napi_get_property_names obj with
  | none => none
  | some prop_names =>
    let encoded_obj := prop_names.foldl (encode_object_step enc obj) (.object [])
    some (napi_set_named_property result VALUE_KEY encoded_obj)

/-- The function `encode_value`; `none` is the `nullptr` result. -/
def encode_value : Nat → JSValue → Option JSValue
  | 0, _ => none
  | fuel + 1, value =>
    match value with
    | .null => some (create_typed_object TAG_NULL)
    | .undefined => some (create_typed_object TAG_UNDEFINED)
    | _ =>
      match napi_typeof value with
      | .napi_number =>
        some (napi_set_named_property (create_typed_object TAG_NUMBER) VALUE_KEY value)
      | .napi_string =>
        some (napi_set_named_property (create_typed_object TAG_STRING) VALUE_KEY value)
      | .napi_boolean =>
        some (napi_set_named_property (create_typed_object TAG_BOOLEAN) VALUE_KEY value)
      | .napi_object =>
        if is_buffer value || is_uint8_array value then
          match buffer_data value with
          | none => none
          | some data =>
            let base64_str := base64_encode data
            let result := create_typed_object TAG_BUFFER
            let base64_val := create_string base64_str
            some (napi_set_named_property result VALUE_KEY base64_val)
        else if is_map value then encode_map (encode_value fuel) value
        else if is_array_like value then encode_array (encode_value fuel) value
        else encode_object (encode_value fuel) value
      | _ => none

/-- The method `Map.prototype.set` compares keys with SameValueZero: by value for
primitives, by identity for objects (two occurrences are two objects). -/
def same_value_zero : JSValue → JSValue → Bool
  | .undefined, .undefined => true
  | .null, .null => true
  | .boolean a, .boolean b => a == b
  | .number a, .number b => a == b
  | .string a, .string b => a == b
  | _, _ => false

/-- The entries of a map after `map.set(key, value)`: an existing key keeps its
place and gets the new value, a new key is appended. -/
def map_set : List (JSValue × JSValue) → JSValue → JSValue → List (JSValue × JSValue)
  | [], key, value => [(key, value)]
  | (k, v) :: t, key, value =>
    if same_value_zero k key then (k, value) :: t else (k, v) :: map_set t key value

/-- One iteration of the `for` loop of the `Array` branch of `decode_value`, in a
run in which no JavaScript exception is raised (`decode_array_step_pending` carries
the pending exception). -/
def decode_array_step (dec : JSValue → Option JSValue) (value_obj : JSValue)
    (result : JSValue) (i : Nat) : JSValue :=
  match napi_get_element value_obj i with
  | some element =>
    match dec element with
    | some decoded_element => napi_set_element result i decoded_element
    | none => result
  | none => result

/-- One iteration of the `for` loop of the `Object` branch of `decode_value` in
`src/remote/serialize.cpp`, which skips a property whose value is `undefined`, in a
run in which no JavaScript exception is raised (`decode_object_step_pending` carries
the pending exception). -/
def decode_object_step (dec : JSValue → Option JSValue) (value_obj : JSValue)
    (result : JSValue) (prop_name : List Char) : JSValue :=
  let key := get_string_value (.string prop_name)
  if key = [] then result
  else
    match napi_get_named_property value_obj (c_str key) with
    | none => result
    | some prop_value =>
      match prop_value with
      | .undefined => result
      | _ =>
        match dec prop_value with
        | some decoded_value => napi_set_named_property result (c_str key) decoded_value
        | none => result

/-- One iteration of the `for` loop of the `Map` branch of `decode_value`; the
state is the entries of `map_instance`. It describes a run in which no JavaScript
exception is raised (`decode_map_step_pending` carries the pending exception). -/
def decode_map_step (dec : JSValue → Option JSValue) (value_obj : JSValue)
    (map_instance : List (JSValue × JSValue)) (i : Nat) : List (JSValue × JSValue) :=
  match napi_get_element value_obj i with
  | none => map_instance
  | some pair =>
    match napi_get_element pair 0 with
    | none => map_instance
    | some key =>
      match napi_get_element pair 1 with
      | none => map_instance
      | some value =>
        match dec key, dec value with
        | some decoded_key, some decoded_value => map_set map_instance decoded_key decoded_value
        | _, _ => map_instance

/-- The function `decode_value` of `src/remote/serialize.cpp`; `none` is the
`nullptr` result. It gives the value returned in a run in which no Node-API call
raises a JavaScript exception; `decode_value_pending` carries the pending
exception. -/
def decode_value : Nat → JSValue → Option JSValue
  | 0, _ => none
  | fuel + 1, obj =>
    if napi_typeof obj ≠ .napi_object then none
    else
      match napi_has_named_property obj TYPE_KEY with
      | some true =>
        match napi_get_named_property obj TYPE_KEY with
        | none => none
        | some type_val =>
          let type_str := get_string_value type_val
          if type_str = [] then none
          else if type_str = TAG_NULL then some .null
          else if type_str = TAG_UNDEFINED then some .undefined
          else
            match napi_get_named_property obj VALUE_KEY with
            | none => none
            | some value_obj =>
              if type_str = TAG_NUMBER ∨ type_str = TAG_STRING ∨ type_str = TAG_BOOLEAN then
                some value_obj
              else if type_str = TAG_BUFFER then
                let base64_str := get_string_value value_obj
                let data := base64_decode base64_str
                some (.buffer data)
              else if type_str = TAG_ARRAY then
                match napi_get_array_length value_obj with
                | none => none
                | some length =>
                  some ((List.range length).foldl (decode_array_step (decode_value fuel) value_obj)
                    (.array (List.replicate length none)))
              else if type_str = TAG_OBJECT then
                match napi_get_property_names value_obj with
                | none => none
                | some prop_names =>
                  some (prop_names.foldl (decode_object_step (decode_value fuel) value_obj)
                    (.object []))
              else if type_str = TAG_MAP then
                match napi_get_array_length value_obj with
                | none => some (.map [])
                | some length =>
                  some (.map ((List.range length).foldl
                    (decode_map_step (decode_value fuel) value_obj) []))
              else none
      | _ => none

/-- The exported function `rpc_encode` applied to one argument: the encoded value,
or the thrown error. -/
def rpc_encode (fuel : Nat) (arg : JSValue) : Except String JSValue :=
  match encode_value fuel arg with
  | some result => .ok result
  | none => .error "Unsupported type"

/-- The exported function `rpc_decode` applied to one argument: the decoded value,
or the thrown error, in a run in which no JavaScript exception is pending
(`rpc_decode_pending` carries the pending exception). -/
def rpc_decode (fuel : Nat) (arg : JSValue) : Except String JSValue :=
  match decode_value fuel arg with
  | some result => .ok result
  | none => .error "Invalid encoded object"

/-! ### The values the round trip is stated for -/

/-- The keys of a map are pairwise different for `Map.prototype.set`. -/
def distinct_map_keys : List (JSValue × JSValue) → Bool
  | [] => true
  | (k, _) :: t => t.all (fun e => !same_value_zero k e.1) && distinct_map_keys t

/-- The property names of an object are pairwise different. -/
def distinct_names : List (List Char × JSValue) → Bool
  | [] => true
  | (k, _) :: t => t.all (fun e => !(k == e.1)) && distinct_names t

mutual
/-- The representation invariant of host values: the bytes of a buffer are below
256, an object has no two properties of the same name, a map has no two entries
with the same key. -/
def JSValue.valid : JSValue → Bool
  | .buffer bytes => bytes.all (fun b => decide (b < 256))
  | .array elems => valid_elems elems
  | .map entries => valid_entries entries && distinct_map_keys entries
  | .object props => valid_props props && distinct_names props
  | _ => true
/-- Every set slot of an array holds a valid value. -/
def valid_elems : List (Option JSValue) → Bool
  | [] => true
  | none :: t => valid_elems t
  | some v :: t => v.valid && valid_elems t
/-- Every key and value of a map is valid. -/
def valid_entries : List (JSValue × JSValue) → Bool
  | [] => true
  | (k, v) :: t => k.valid && v.valid && valid_entries t
/-- Every property value of an object is valid. -/
def valid_props : List (List Char × JSValue) → Bool
  | [] => true
  | (_, v) :: t => v.valid && valid_props t
end

mutual
/-- The values on which the round trip is exact: no unsupported value and no
unset array slot anywhere inside, and every Record has only non-empty property
names without a NUL character and no number-valued property `length`. -/
def JSValue.plain : JSValue → Bool
  | .func => false
  | .array elems => plain_elems elems
  | .map entries => plain_entries entries
  | .object props => plain_props props && !(is_array_like (.object props))
  | _ => true
/-- Every slot of an array is set and holds a plain value. -/
def plain_elems : List (Option JSValue) → Bool
  | [] => true
  | none :: _ => false
  | some v :: t => v.plain && plain_elems t
/-- Every key and value of a map is plain. -/
def plain_entries : List (JSValue × JSValue) → Bool
  | [] => true
  | (k, v) :: t => k.plain && v.plain && plain_entries t
/-- Every property of an object has a non-empty NUL-free name and a plain value. -/
def plain_props : List (List Char × JSValue) → Bool
  | [] => true
  | (k, v) :: t => !(k == []) && (c_str k == k) && v.plain && plain_props t
end

/-- The slot of a `Map` payload that holds the pair `[p.1, p.2]`. -/
def pair_slot (p : JSValue × JSValue) : Option JSValue := some (.array [some p.1, some p.2])

/-- The encoded entries `encode_map` collects: the entries before the first one
whose key or value is not encoded. -/
def encode_entries (enc : JSValue → Option JSValue) :
    List (JSValue × JSValue) → List (JSValue × JSValue)
  | [] => []
  | (key, value) :: rest =>
    match enc key, enc value with
    | some encoded_key, some encoded_value =>
      (encoded_key, encoded_value) :: encode_entries enc rest
    | _, _ => []

/-- The nine tags `encode_value` writes and `decode_value` recognizes. -/
def RECOGNIZED_TAGS : List (List Char) :=
  [TAG_NULL, TAG_UNDEFINED, TAG_NUMBER, TAG_STRING, TAG_BOOLEAN, TAG_BUFFER, TAG_ARRAY,
   TAG_OBJECT, TAG_MAP]

/-- The tags the specification lists: `binary`, `array`, `object`, `map` in place
of `Buffer`, `Array`, `Object`, `Map`. -/
def SPEC_TAGS : List (List Char) :=
  [TAG_NULL, TAG_UNDEFINED, TAG_NUMBER, TAG_STRING, TAG_BOOLEAN,
   ['b', 'i', 'n', 'a', 'r', 'y'], ['a', 'r', 'r', 'a', 'y'], ['o', 'b', 'j', 'e', 'c', 't'],
   ['m', 'a', 'p']]

/-- The envelope invariant: a Record with the fields `$type` and, unless the tag
is `null` or `undefined`, `$value`, and nothing else; the tag is one of the nine
tags of the program; every envelope nested in an `Array`, `Object` or `Map`
payload satisfies the same invariant. -/
inductive Envelope : JSValue → Prop where
  | null : Envelope (.object [(TYPE_KEY, .string TAG_NULL)])
  | undefined : Envelope (.object [(TYPE_KEY, .string TAG_UNDEFINED)])
  | number (x : JSValue) (h : napi_typeof x = .napi_number) :
      Envelope (.object [(TYPE_KEY, .string TAG_NUMBER), (VALUE_KEY, x)])
  | string (x : JSValue) (h : napi_typeof x = .napi_string) :
      Envelope (.object [(TYPE_KEY, .string TAG_STRING), (VALUE_KEY, x)])
  | boolean (x : JSValue) (h : napi_typeof x = .napi_boolean) :
      Envelope (.object [(TYPE_KEY, .string TAG_BOOLEAN), (VALUE_KEY, x)])
  | buffer (text : List Char) :
      Envelope (.object [(TYPE_KEY, .string TAG_BUFFER), (VALUE_KEY, .string text)])
  | array (slots : List (Option JSValue))
      (h : ∀ e, some e ∈ slots → Envelope e) :
      Envelope (.object [(TYPE_KEY, .string TAG_ARRAY), (VALUE_KEY, .array slots)])
  | object (fields : List (List Char × JSValue))
      (h : ∀ p, p ∈ fields → Envelope p.2) :
      Envelope (.object [(TYPE_KEY, .string TAG_OBJECT), (VALUE_KEY, .object fields)])
  | map (pairs : List (JSValue × JSValue))
      (hk : ∀ p, p ∈ pairs → Envelope p.1) (hv : ∀ p, p ∈ pairs → Envelope p.2) :
      Envelope (.object [(TYPE_KEY, .string TAG_MAP),
        (VALUE_KEY, .array (pairs.map pair_slot))])

/-! ## The JSON text codec (`src/remote/serialize.cpp` lines 701-1209)

The parser state `pos` is represented by the input that is still to be read: the
characters `json[pos], ..., json[len - 1]`.
-/

/-- The lower-case hexadecimal digit of `d % 16`. -/
def hex_char (d : Nat) : Char :=
  if d % 16 < 10 then Char.ofNat (48 + d % 16) else Char.ofNat (87 + d % 16)

/-- What `escape_json_string` appends for the character `c`. -/
def escape_char (c : Char) : List Char :=
  if c = '"' then ['\\', '"']
  else if c = '\\' then ['\\', '\\']
  else if c = '\x08' then ['\\', 'b']
  else if c = '\x0c' then ['\\', 'f']
  else if c = '\n' then ['\\', 'n']
  else if c = '\r' then ['\\', 'r']
  else if c = '\t' then ['\\', 't']
  else if c.toNat < 32 then
    ['\\', 'u', hex_char (c.toNat / 4096), hex_char (c.toNat / 256), hex_char (c.toNat / 16),
      hex_char c.toNat]
  else [c]

/-- The function `escape_json_string`. -/
def escape_json_string (str : List Char) : List Char := str.flatMap escape_char

/-- The function `std::to_string` on an `int64_t`. -/
def to_string_int (n : Int) : List Char :=
  if n < 0 then '-' :: to_string_nat n.natAbs else to_string_nat n.toNat

/-- The conversion `static_cast<int64_t>` of a double: truncation towards zero
(undefined in C++ outside the range of `int64_t`). -/
def double_to_int64 (x : ℚ) : Int := Int.tdiv x.num x.den

/-- The function `std::to_string` on a double, the `printf` format `%f`: six
decimals, rounded to nearest, ties to even. -/
def to_string_double (x : ℚ) : List Char :=
  let scaled := x.num.natAbs * 10 ^ 6
  let q := scaled / x.den
  let r := scaled % x.den
  let n := if x.den < 2 * r ∨ (2 * r = x.den ∧ q % 2 = 1) then q + 1 else q
  (if x.num < 0 then ['-'] else []) ++ to_string_nat (n / 10 ^ 6) ++ ['.']
    ++ (to_string_nat (10 ^ 6 + n % 10 ^ 6)).drop 1

/-- The text `null`. -/
def NULL_TEXT : List Char := ['n', 'u', 'l', 'l']

/-- The text `true`. -/
def TRUE_TEXT : List Char := ['t', 'r', 'u', 'e']

/-- The text `false`. -/
def FALSE_TEXT : List Char := ['f', 'a', 'l', 's', 'e']

/-- One iteration of the array loop of `value_to_json`. -/
def json_array_step (to_json : JSValue → List Char) (value : JSValue)
    (result : List Char) (i : Nat) : List Char :=
  let result := if i > 0 then result ++ [','] else result
  match napi_get_element value i with
  | some element => result ++ to_json element
  | none => result ++ NULL_TEXT

/-- One iteration of the object loop of `value_to_json`; the state is `result` and
`first`. -/
def json_object_step (to_json : JSValue → List Char) (value : JSValue)
    (state : List Char × Bool) (prop_name : List Char) : List Char × Bool :=
  let key := get_string_value (.string prop_name)
  if key ≠ [] then
    match napi_get_named_property value (c_str key) with
    | some prop_value =>
      let result := if !state.2 then state.1 ++ [','] else state.1
      (result ++ ['"'] ++ escape_json_string key ++ ['"', ':'] ++ to_json prop_value, false)
    | none => state
  else state

/-- The function `value_to_json`; `fuel` bounds the depth of the recursion. -/
def value_to_json : Nat → JSValue → List Char
  | 0, _ => []
  | fuel + 1, value =>
    match value with
    | .null => NULL_TEXT
    | .undefined => NULL_TEXT
    | _ =>
      match napi_typeof value with
      | .napi_boolean =>
        match value with
        | .boolean bool_val => if bool_val then TRUE_TEXT else FALSE_TEXT
        | _ => NULL_TEXT
      | .napi_number =>
        match napi_get_value_double value with
        | some num_val =>
          if num_val = ((double_to_int64 num_val : Int) : ℚ) then
            to_string_int (double_to_int64 num_val)
          else to_string_double num_val
        | none => NULL_TEXT
      | .napi_string => ['"'] ++ escape_json_string (get_string_value value) ++ ['"']
      | .napi_object =>
        if is_array value then
          match napi_get_array_length value with
          | some length =>
            (List.range length).foldl (json_array_step (value_to_json fuel) value) ['[']
              ++ [']']
          | none => ['[', ']']
        else
          match napi_get_property_names value with
          | some prop_names =>
            (prop_names.foldl (json_object_step (value_to_json fuel) value) (['{'], true)).1
              ++ ['}']
          | none => ['{', '}']
      | _ => NULL_TEXT

/-- The characters `skip_whitespace` skips. -/
def is_json_space (c : Char) : Bool := c = ' ' || c = '\t' || c = '\n' || c = '\r'

/-- The method `JSONParser::skip_whitespace`. -/
def skip_whitespace : List Char → List Char
  | [] => []
  | c :: rest => if is_json_space c then skip_whitespace rest else c :: rest

/-- The method `JSONParser::match_string`: the input after `str` when the input
starts with `str`, `none` (no character consumed) otherwise. -/
def match_string (str input : List Char) : Option (List Char) :=
  if input.take str.length = str then some (input.drop str.length) else none

/-- The value of a hexadecimal digit. -/
def hex_value (c : Char) : Option Nat :=
  if '0' ≤ c ∧ c ≤ '9' then some (c.toNat - 48)
  else if 'a' ≤ c ∧ c ≤ 'f' then some (c.toNat - 87)
  else if 'A' ≤ c ∧ c ≤ 'F' then some (c.toNat - 55)
  else none

/-- The value of the longest prefix of hexadecimal digits, continuing from `v`. -/
def hex_prefix_value : List Char → Nat → Nat
  | [], v => v
  | c :: rest, v =>
    match hex_value c with
    | some d => hex_prefix_value rest (v * 16 + d)
    | none => v

/-- The characters the C function `isspace` accepts. -/
def is_c_space (c : Char) : Bool :=
  c = ' ' || c = '\t' || c = '\n' || c = '\x0b' || c = '\x0c' || c = '\r'

/-- The call `strtoul(hex_str, nullptr, 16)` on the text `s`: leading white space,
an optional sign, an optional `0x`, then the longest run of hexadecimal digits; a
negative value wraps modulo `2 ^ 64`. -/
def strtoul16 (s : List Char) : Nat :=
  let s1 := s.dropWhile is_c_space
  let neg := s1.head? = some '-'
  let s2 := if s1.head? = some '-' ∨ s1.head? = some '+' then s1.drop 1 else s1
  let s3 :=
    match s2 with
    | z :: x :: h :: rest =>
      if z = '0' ∧ (x = 'x' ∨ x = 'X') ∧ (hex_value h).isSome then h :: rest else s2
    | _ => s2
  let v := hex_prefix_value s3 0
  if neg then (2 ^ 64 - v) % 2 ^ 64 else v

/-- The `while` loop of `JSONParser::parse_string` on the input after the opening
quote; it returns the text read and the input left (at the closing quote, or
empty). `fuel` bounds the number of iterations. -/
def parse_string_loop : Nat → List Char → List Char → List Char × List Char
  | 0, input, result => (result, input)
  | fuel + 1, input, result =>
    match input with
    | [] => (result, [])
    | c :: rest =>
      if c = '"' then (result, input)
      else if c = '\\' ∧ rest ≠ [] then
        match rest with
        | [] => (result, input)
        | e :: rest' =>
          if e = '"' then parse_string_loop fuel rest' (result ++ ['"'])
          else if e = '\\' then parse_string_loop fuel rest' (result ++ ['\\'])
          else if e = '/' then parse_string_loop fuel rest' (result ++ ['/'])
          else if e = 'b' then parse_string_loop fuel rest' (result ++ ['\x08'])
          else if e = 'f' then parse_string_loop fuel rest' (result ++ ['\x0c'])
          else if e = 'n' then parse_string_loop fuel rest' (result ++ ['\n'])
          else if e = 'r' then parse_string_loop fuel rest' (result ++ ['\r'])
          else if e = 't' then parse_string_loop fuel rest' (result ++ ['\t'])
          else if e = 'u' then
            if 4 ≤ rest'.length then
              let code_point := strtoul16 (rest'.take 4) % 2 ^ 32
              let result := if code_point ≤ 0x7F then result ++ [Char.ofNat code_point] else result
              parse_string_loop fuel (rest'.drop 4) result
            else parse_string_loop fuel rest' result
          else parse_string_loop fuel rest' (result ++ [e])
      else parse_string_loop fuel rest (result ++ [c])

/-- The method `JSONParser::parse_string`: the text read and the input left. -/
def parse_string (input : List Char) : List Char × List Char :=
  match input with
  | [] => ([], input)
  | c :: rest =>
    if c = '"' then
      let r := parse_string_loop rest.length rest []
      match r.2 with
      | [] => r
      | q :: rest' => if q = '"' then (r.1, rest') else r
    else ([], input)

/-- A decimal digit. -/
def is_digit (c : Char) : Bool := decide ('0' ≤ c ∧ c ≤ '9')

/-- The value of a run of decimal digits. -/
def digits_value (ds : List Char) : Nat := ds.foldl (fun v c => v * 10 + (c.toNat - 48)) 0

/-- The call `strtod(num_str, nullptr)` on a text made of an optional sign, digits,
an optional fraction and an optional exponent: its exact value. The rounding to the
nearest double is not modelled. A text without a digit in its mantissa converts to
0, and an exponent without a digit is ignored. -/
def strtod (s : List Char) : ℚ :=
  let neg := s.head? = some '-'
  let s1 := if s.head? = some '-' ∨ s.head? = some '+' then s.drop 1 else s
  let int_part := s1.takeWhile is_digit
  let s2 := s1.dropWhile is_digit
  let frac_part := if s2.head? = some '.' then (s2.drop 1).takeWhile is_digit else []
  let s3 := if s2.head? = some '.' then (s2.drop 1).dropWhile is_digit else s2
  if int_part = [] ∧ frac_part = [] then 0
  else
    let s4 := if s3.head? = some 'e' ∨ s3.head? = some 'E' then s3.drop 1 else []
    let exp_neg := s4.head? = some '-'
    let s5 := if s4.head? = some '-' ∨ s4.head? = some '+' then s4.drop 1 else s4
    let exp_digits := s5.takeWhile is_digit
    let exponent : Int :=
      if exp_neg then -(digits_value exp_digits : Int) else (digits_value exp_digits : Int)
    let mantissa : Int :=
      if neg then -(digits_value (int_part ++ frac_part) : Int)
      else (digits_value (int_part ++ frac_part) : Int)
    let scale : Int := exponent - (frac_part.length : Int)
    if 0 ≤ scale then ((mantissa * 10 ^ scale.toNat : Int) : ℚ)
    else mkRat mantissa (10 ^ (-scale).toNat)

/-- The scan of `JSONParser::parse_number`: the input left after the optional
`-`, the integer part (a single `0`, or a non-zero digit and the digits after
it), the optional fraction and the optional exponent. -/
def parse_number_scan (input : List Char) : List Char :=
  let p1 := if input.head? = some '-' then input.drop 1 else input
  let p2 :=
    match p1 with
    | [] => p1
    | c :: rest =>
      if c = '0' then rest
      else if '1' ≤ c ∧ c ≤ '9' then p1.dropWhile is_digit
      else p1
  let p3 := if p2.head? = some '.' then (p2.drop 1).dropWhile is_digit else p2
  if p3.head? = some 'e' ∨ p3.head? = some 'E' then
    let q := p3.drop 1
    let q' := if q.head? = some '+' ∨ q.head? = some '-' then q.drop 1 else q
    q'.dropWhile is_digit
  else p3

/-- The method `JSONParser::parse_number`: the number read, `strtod` of the
characters scanned (`num_str`), and the input left. -/
def parse_number (input : List Char) : ℚ × List Char :=
  let rest := parse_number_scan input
  let num_str := input.take (input.length - rest.length)
  (strtod num_str, rest)

mutual
/-- The method `JSONParser::parse_value`: the value (`none` is `nullptr`) and the
input left. `fuel` bounds the recursion. -/
def parse_value : Nat → List Char → Option JSValue × List Char
  | 0, input => (none, input)
  | fuel + 1, input =>
    match skip_whitespace input with
    | [] => (none, [])
    | c :: rest =>
      if c = 'n' ∧ (match_string NULL_TEXT (c :: rest)).isSome then
        (some .null, ((match_string NULL_TEXT (c :: rest)).getD []))
      else if c = 't' ∧ (match_string TRUE_TEXT (c :: rest)).isSome then
        (some (.boolean true), ((match_string TRUE_TEXT (c :: rest)).getD []))
      else if c = 'f' ∧ (match_string FALSE_TEXT (c :: rest)).isSome then
        (some (.boolean false), ((match_string FALSE_TEXT (c :: rest)).getD []))
      else if c = '"' then
        (some (create_string (parse_string (c :: rest)).1), (parse_string (c :: rest)).2)
      else if c = '-' ∨ ('0' ≤ c ∧ c ≤ '9') then
        (some (.number (parse_number (c :: rest)).1), (parse_number (c :: rest)).2)
      else if c = '[' then
        match skip_whitespace rest with
        | [] => parse_array_loop fuel [] (.array []) 0
        | d :: rest' =>
          if d = ']' then (some (.array []), rest')
          else parse_array_loop fuel (d :: rest') (.array []) 0
      else if c = '{' then
        match skip_whitespace rest with
        | [] => parse_object_loop fuel [] (.object [])
        | d :: rest' =>
          if d = '}' then (some (.object []), rest')
          else parse_object_loop fuel (d :: rest') (.object [])
      else (none, c :: rest)
/-- The `while (pos < len)` loop of the array branch of `parse_value`; the state
is `array` and `index`. -/
def parse_array_loop : Nat → List Char → JSValue → Nat → Option JSValue × List Char
  | 0, input, array, _ => (some array, input)
  | fuel + 1, input, array, index =>
    match input with
    | [] => (some array, [])
    | _ :: _ =>
      let r := parse_value fuel input
      let array' :=
        match r.1 with
        | some element => napi_set_element array index element
        | none => array
      let index' :=
        match r.1 with
        | some _ => index + 1
        | none => index
      match skip_whitespace r.2 with
      | [] => (some array', [])
      | d :: rest' =>
        if d = ',' then parse_array_loop fuel (skip_whitespace rest') array' index'
        else if d = ']' then (some array', rest')
        else (some array', d :: rest')
/-- The `while (pos < len)` loop of the object branch of `parse_value`; the state
is `obj`. -/
def parse_object_loop : Nat → List Char → JSValue → Option JSValue × List Char
  | 0, input, obj => (some obj, input)
  | fuel + 1, input, obj =>
    match input with
    | [] => (some obj, [])
    | _ :: _ =>
      match skip_whitespace input with
      | [] => (some obj, [])
      | q :: after_quote =>
        if q ≠ '"' then (some obj, q :: after_quote)
        else
          let k := parse_string (q :: after_quote)
          if k.1 = [] then (some obj, k.2)
          else
            match skip_whitespace k.2 with
            | [] => (some obj, [])
            | colon :: after_colon =>
              if colon ≠ ':' then (some obj, colon :: after_colon)
              else
                let r := parse_value fuel after_colon
                let obj' :=
                  match r.1 with
                  | some value => napi_set_named_property obj (c_str k.1) value
                  | none => obj
                match skip_whitespace r.2 with
                | [] => (some obj', [])
                | d :: rest' =>
                  if d = ',' then parse_object_loop fuel (skip_whitespace rest') obj'
                  else if d = '}' then (some obj', rest')
                  else (some obj', d :: rest')
end

/-- The function `json_to_value`: `none` is `nullptr`. The parser reads the C
string `json_str.c_str()`; the fuel `2 * len + 2` lets it run to completion. -/
def json_to_value (json_str : List Char) : Option JSValue :=
  if json_str = [] then none
  else (parse_value (2 * (c_str json_str).length + 2) (c_str json_str)).1

/-! ### The values the JSON round trip is stated for -/

/-- Texts joined by commas. -/
def comma_join : List (List Char) → List Char
  | [] => []
  | [x] => x
  | x :: y :: t => x ++ ',' :: comma_join (y :: t)

/-- The text of one member of an object: the quoted, escaped key, a colon and the
text of the value. -/
def json_member (to_json : JSValue → List Char) (p : List Char × JSValue) : List Char :=
  '"' :: (escape_json_string p.1 ++ '"' :: ':' :: to_json p.2)

/-- The characters a JSON text written by `value_to_json` starts with. -/
def json_start (c : Char) : Bool :=
  c = 'n' || c = 't' || c = 'f' || c = '"' || c = '-' || c = '[' || c = '{' || is_digit c

/-- The input after a value does not continue a numeral: it is empty or starts
with a character that is no digit, `.`, `e` or `E`. -/
def follows_ok (rest : List Char) : Prop :=
  ∀ c, rest.head? = some c → is_digit c = false ∧ c ≠ '.' ∧ c ≠ 'e' ∧ c ≠ 'E'

mutual
/-- The Envelope Domain values on which the JSON round trip is exact: Null, Bool,
Text, the integral Numbers of absolute value below `2 ^ 53`, Lists without unset
slots and Records whose property names are non-empty and without a NUL character,
all of whose members are such values. -/
def JSValue.jsonable : JSValue → Bool
  | .null => true
  | .boolean _ => true
  | .number x => decide (x.den = 1) && decide (x.num.natAbs < 2 ^ 53)
  | .string _ => true
  | .array elems => jsonable_elems elems
  | .object props => jsonable_props props
  | _ => false
/-- Every slot of an array is set and holds a value the round trip is exact on. -/
def jsonable_elems : List (Option JSValue) → Bool
  | [] => true
  | none :: _ => false
  | some v :: t => v.jsonable && jsonable_elems t
/-- Every property of an object has a non-empty NUL-free name and a value the
round trip is exact on. -/
def jsonable_props : List (List Char × JSValue) → Bool
  | [] => true
  | (k, v) :: t => !(k == []) && (c_str k == k) && v.jsonable && jsonable_props t
end

/-- The values of the Envelope Domain of the specification: Null, Bool, Number,
Text, List and Record, nothing else inside. -/
inductive EnvelopeDomain : JSValue → Prop where
  | null : EnvelopeDomain .null
  | boolean (b : Bool) : EnvelopeDomain (.boolean b)
  | number (x : ℚ) : EnvelopeDomain (.number x)
  | string (s : List Char) : EnvelopeDomain (.string s)
  | array (elems : List JSValue) (h : ∀ e, e ∈ elems → EnvelopeDomain e) :
      EnvelopeDomain (.array (elems.map some))
  | object (props : List (List Char × JSValue)) (h : ∀ p, p ∈ props → EnvelopeDomain p.2) :
      EnvelopeDomain (.object props)

/-- The text `t` parses back to the value `e`: it starts like a JSON value, has no
NUL character, and `parse_value`, given fuel for twice its length, reads exactly
`t` and returns `e`, whatever follows that cannot extend a numeral. -/
def parses_back (t : List Char) (e : JSValue) : Prop :=
  (∃ c tl, t = c :: tl ∧ json_start c = true)
    ∧ (∀ c ∈ t, c ≠ Char.ofNat 0)
    ∧ ∀ (fuel : Nat) (rest : List Char), 2 * t.length + 1 ≤ fuel → follows_ok rest →
        parse_value fuel (t ++ rest) = (some e, rest)


/-- The entries a `Map` payload is decoded to, before they are inserted with
`map.set`: the pairs whose key and value are both decoded, in payload order. -/
def decode_entries (dec : JSValue → Option JSValue) :
    List (JSValue × JSValue) → List (JSValue × JSValue)
  | [] => []
  | (key, value) :: rest =>
    match dec key, dec value with
    | some decoded_key, some decoded_value =>
      (decoded_key, decoded_value) :: decode_entries dec rest
    | _, _ => decode_entries dec rest


/-- A scan of a text as the body of a JSON string; `escaped` says that the
character before was a backslash that escapes the current one. The result says
whether a `"` occurs that no backslash escapes. -/
def unescaped_quote_scan : Bool → List Char → Bool
  | _, [] => false
  | true, _ :: rest => unescaped_quote_scan false rest
  | false, c :: rest =>
    if c = '\\' then unescaped_quote_scan true rest
    else if c = '"' then true
    else unescaped_quote_scan false rest

/-- The text has a `"` that is not escaped by a backslash. -/
def has_unescaped_quote (s : List Char) : Bool := unescaped_quote_scan false s

/-- A character `base64_decode` recognizes: an alphabet character or `=`. -/
def is_base64_char (c : Char) : Bool := decide (get_base64_index c ≠ -1) || decide (c = '=')

/-- The text without the characters that are neither alphabet characters nor `=`. -/
def strip_unrecognized (t : List Char) : List Char := t.filter is_base64_char

/-- The input left after the longest prefix of the form
`-? digits (. digits*)? ([eE] [+-]? digits*)?`, as the specification words the
number syntax: an optional `-`, the run of digits that follows, an optional `.`
with the run of digits after it, an optional `e` or `E` with an optional sign and
the run of digits after it; every run is taken as long as it goes. -/
def greedy_number_scan (input : List Char) : List Char :=
  let p1 := if input.head? = some '-' then input.drop 1 else input
  let p2 := p1.dropWhile is_digit
  let p3 := if p2.head? = some '.' then (p2.drop 1).dropWhile is_digit else p2
  if p3.head? = some 'e' ∨ p3.head? = some 'E' then
    let q := p3.drop 1
    let q' := if q.head? = some '+' ∨ q.head? = some '-' then q.drop 1 else q
    q'.dropWhile is_digit
  else p3

/-- One iteration of the `for` loop of the `Object` branch of `decode_value` in
`src/framework/proxy/serialize.cpp`: the property value is decoded without a test
for `undefined`. -/
def Framework.decode_object_step (dec : JSValue → Option JSValue) (value_obj : JSValue)
    (result : JSValue) (prop_name : List Char) : JSValue :=
  let key := get_string_value (.string prop_name)
  if key = [] then result
  else
    match napi_get_named_property value_obj (c_str key) with
    | none => result
    | some prop_value =>
      match dec prop_value with
      | some decoded_value => napi_set_named_property result (c_str key) decoded_value
      | none => result

/-- The function `decode_value` of `src/framework/proxy/serialize.cpp`; `none` is
the `nullptr` result. -/
def Framework.decode_value : Nat → JSValue → Option JSValue
  | 0, _ => none
  | fuel + 1, obj =>
    if napi_typeof obj ≠ .napi_object then none
    else
      match napi_has_named_property obj TYPE_KEY with
      | some true =>
        match napi_get_named_property obj TYPE_KEY with
        | none => none
        | some type_val =>
          let type_str := get_string_value type_val
          if type_str = [] then none
          else if type_str = TAG_NULL then some .null
          else if type_str = TAG_UNDEFINED then some .undefined
          else
            match napi_get_named_property obj VALUE_KEY with
            | none => none
            | some value_obj =>
              if type_str = TAG_NUMBER ∨ type_str = TAG_STRING ∨ type_str = TAG_BOOLEAN then
                some value_obj
              else if type_str = TAG_BUFFER then
                let base64_str := get_string_value value_obj
                let data := base64_decode base64_str
                some (.buffer data)
              else if type_str = TAG_ARRAY then
                match napi_get_array_length value_obj with
                | none => none
                | some length =>
                  some ((List.range length).foldl
                    (decode_array_step (Framework.decode_value fuel) value_obj)
                    (.array (List.replicate length none)))
              else if type_str = TAG_OBJECT then
                match napi_get_property_names value_obj with
                | none => none
                | some prop_names =>
                  some (prop_names.foldl
                    (Framework.decode_object_step (Framework.decode_value fuel) value_obj)
                    (.object []))
              else if type_str = TAG_MAP then
                match napi_get_array_length value_obj with
                | none => some (.map [])
                | some length =>
                  some (.map ((List.range length).foldl
                    (decode_map_step (Framework.decode_value fuel) value_obj) []))
              else none
      | _ => none

mutual
/-- The method `JSONParser::parse_value` with its work counted: every call of
`parse_value` and every iteration of the array and object loops takes one unit of
`budget`, and the result is `none` when the budget runs out before the method
returns. -/
def parse_value_counted : Nat → List Char → Option (Option JSValue × List Char)
  | 0, _ => none
  | budget + 1, input =>
    match skip_whitespace input with
    | [] => some (none, [])
    | c :: rest =>
      if c = 'n' ∧ (match_string NULL_TEXT (c :: rest)).isSome then
        some (some .null, ((match_string NULL_TEXT (c :: rest)).getD []))
      else if c = 't' ∧ (match_string TRUE_TEXT (c :: rest)).isSome then
        some (some (.boolean true), ((match_string TRUE_TEXT (c :: rest)).getD []))
      else if c = 'f' ∧ (match_string FALSE_TEXT (c :: rest)).isSome then
        some (some (.boolean false), ((match_string FALSE_TEXT (c :: rest)).getD []))
      else if c = '"' then
        some (some (create_string (parse_string (c :: rest)).1), (parse_string (c :: rest)).2)
      else if c = '-' ∨ ('0' ≤ c ∧ c ≤ '9') then
        some (some (.number (parse_number (c :: rest)).1), (parse_number (c :: rest)).2)
      else if c = '[' then
        match skip_whitespace rest with
        | [] => parse_array_loop_counted budget [] (.array []) 0
        | d :: rest' =>
          if d = ']' then some (some (.array []), rest')
          else parse_array_loop_counted budget (d :: rest') (.array []) 0
      else if c = '{' then
        match skip_whitespace rest with
        | [] => parse_object_loop_counted budget [] (.object [])
        | d :: rest' =>
          if d = '}' then some (some (.object []), rest')
          else parse_object_loop_counted budget (d :: rest') (.object [])
      else some (none, c :: rest)
/-- The array loop of `parse_value` with its work counted. -/
def parse_array_loop_counted :
    Nat → List Char → JSValue → Nat → Option (Option JSValue × List Char)
  | 0, _, _, _ => none
  | budget + 1, input, array, index =>
    match input with
    | [] => some (some array, [])
    | _ :: _ =>
      match parse_value_counted budget input with
      | none => none
      | some r =>
        let array' :=
          match r.1 with
          | some element => napi_set_element array index element
          | none => array
        let index' :=
          match r.1 with
          | some _ => index + 1
          | none => index
        match skip_whitespace r.2 with
        | [] => some (some array', [])
        | d :: rest' =>
          if d = ',' then parse_array_loop_counted budget (skip_whitespace rest') array' index'
          else if d = ']' then some (some array', rest')
          else some (some array', d :: rest')
/-- The object loop of `parse_value` with its work counted. -/
def parse_object_loop_counted :
    Nat → List Char → JSValue → Option (Option JSValue × List Char)
  | 0, _, _ => none
  | budget + 1, input, obj =>
    match input with
    | [] => some (some obj, [])
    | _ :: _ =>
      match skip_whitespace input with
      | [] => some (some obj, [])
      | q :: after_quote =>
        if q ≠ '"' then some (some obj, q :: after_quote)
        else
          let k := parse_string (q :: after_quote)
          if k.1 = [] then some (some obj, k.2)
          else
            match skip_whitespace k.2 with
            | [] => some (some obj, [])
            | colon :: after_colon =>
              if colon ≠ ':' then some (some obj, colon :: after_colon)
              else
                match parse_value_counted budget after_colon with
                | none => none
                | some r =>
                  let obj' :=
                    match r.1 with
                    | some value => napi_set_named_property obj (c_str k.1) value
                    | none => obj
                  match skip_whitespace r.2 with
                  | [] => some (some obj', [])
                  | d :: rest' =>
                    if d = ',' then parse_object_loop_counted budget (skip_whitespace rest') obj'
                    else if d = '}' then some (some obj', rest')
                    else some (some obj', d :: rest')
end

/-! ### The value of a text and the members of an object text -/


/-- The value the parser reads from the text `t`, given fuel for twice its length
(`undefined` stands for `nullptr`). -/
def parsed_value (t : List Char) : JSValue :=
  ((parse_value (2 * t.length + 1) t).1).getD .undefined

/-- The text of one member of an object, from the key and the text of the value. -/
def member_text (m : List Char × List Char) : List Char :=
  '"' :: (escape_json_string m.1 ++ '"' :: ':' :: m.2)

/-- The members the object loop of `value_to_json` writes for the property names of
`props`: an empty name is skipped, and the value of a name is read through its C
string (`undefined` when the object has no such property). -/
def object_members (to_json : JSValue → List Char) (props : List (List Char × JSValue)) :
    List (List Char × JSValue) → List (List Char × List Char)
  | [] => []
  | (k, _) :: rest =>
    if k = [] then object_members to_json props rest
    else (k, to_json ((props.lookup (c_str k)).getD .undefined))
      :: object_members to_json props rest

/-- The properties of the object the parser builds when it reads the members `ms`,
given as key and text of the value, into an object with the properties `done`: each
member is assigned through the C string of its key, as `set_prop` describes the
assignment. -/
def read_members (ms : List (List Char × List Char)) (done : List (List Char × JSValue)) :
    List (List Char × JSValue) :=
  ms.foldl (fun ps m => set_prop ps (c_str m.1) (parsed_value m.2)) done

/-- The parser reads the text `t` whole, whatever follows it: given fuel for twice
its length, `parse_value` on `t ++ rest` returns the value of `t` and leaves `rest`. -/
def reads_whole (t : List Char) : Prop :=
  ∀ (fuel : Nat) (rest : List Char), 2 * t.length + 1 ≤ fuel →
    parse_value fuel (t ++ rest) = (some (parsed_value t), rest)

/-! ### Property names for which the object model is exact -/

/-- The property name `__proto__`. -/
def PROTO_KEY : List Char := ['_', '_', 'p', 'r', 'o', 't', 'o', '_', '_']

/-- An ordinary property name: it has no NUL character (it is its own C string), it
is not `__proto__`, which the host assigns through the setter of `Object.prototype`
(no own property is created), and it is not a non-empty run of decimal digits, which
the host may treat as an array index and enumerate before the other names. For an
ordinary name `napi_set_named_property` creates or updates an own property, and a
new property is enumerated last, as `set_prop` says. -/
def ordinary_key (k : List Char) : Bool :=
  (c_str k == k) && !(k == PROTO_KEY) && !(!(k == []) && k.all is_digit)

mutual
/-- Every Record inside the value has only ordinary property names. -/
def JSValue.ordinary_keys : JSValue → Bool
  | .array elems => ordinary_elems elems
  | .map entries => ordinary_entries entries
  | .object props => ordinary_props props
  | _ => true
/-- Every set slot of an array has only ordinary property names inside. -/
def ordinary_elems : List (Option JSValue) → Bool
  | [] => true
  | none :: t => ordinary_elems t
  | some v :: t => v.ordinary_keys && ordinary_elems t
/-- Every key and value of a map has only ordinary property names inside. -/
def ordinary_entries : List (JSValue × JSValue) → Bool
  | [] => true
  | (k, v) :: t => k.ordinary_keys && v.ordinary_keys && ordinary_entries t
/-- Every property has an ordinary name and a value with only ordinary property
names inside. -/
def ordinary_props : List (List Char × JSValue) → Bool
  | [] => true
  | (k, v) :: t => ordinary_key k && v.ordinary_keys && ordinary_props t
end

/-! ### The decoder with the pending JavaScript exception

A Node-API call that has to convert `null` or `undefined` to an object
(`napi_get_property_names`, `napi_get_element`) fails with a `TypeError` that stays
pending in the environment. While an exception is pending, the calls that may run
JavaScript (`napi_get_element`, `napi_set_element`, `napi_has_named_property`,
`napi_get_named_property`, `napi_set_named_property`, `napi_get_property_names`,
`napi_call_function`, `napi_throw_error`) return `napi_pending_exception` and do
nothing; `napi_typeof`, `napi_get_array_length` and the functions that create values
still work. The definitions below are `decode_value` and its loops with this state:
the second component of a result says whether an exception is pending. A call of
`decode_value_pending` starts with no exception pending.
-/

/-- One iteration of the `for` loop of the `Array` branch of `decode_value`; the
state is `result` and whether an exception is pending. -/
def decode_array_step_pending (dec : JSValue → Option JSValue × Bool) (value_obj : JSValue)
    (state : JSValue × Bool) (i : Nat) : JSValue × Bool :=
  if state.2 then state
  else
    match napi_get_element value_obj i with
    | some element =>
      match (dec element).1 with
      | some decoded_element =>
        if (dec element).2 then (state.1, true)
        else (napi_set_element state.1 i decoded_element, false)
      | none => (state.1, (dec element).2)
    | none => state

/-- One iteration of the `for` loop of the `Object` branch of `decode_value`; the
state is `result` and whether an exception is pending. -/
def decode_object_step_pending (dec : JSValue → Option JSValue × Bool) (value_obj : JSValue)
    (state : JSValue × Bool) (prop_name : List Char) : JSValue × Bool :=
  if state.2 then state
  else
    let key := get_string_value (.string prop_name)
    if key = [] then state
    else
      match napi_get_named_property value_obj (c_str key) with
      | none => state
      | some prop_value =>
        match prop_value with
        | .undefined => state
        | _ =>
          match (dec prop_value).1 with
          | some decoded_value =>
            if (dec prop_value).2 then (state.1, true)
            else (napi_set_named_property state.1 (c_str key) decoded_value, false)
          | none => (state.1, (dec prop_value).2)

/-- One iteration of the `for` loop of the `Map` branch of `decode_value`; the state
is the entries of `map_instance` and whether an exception is pending. A pair that is
`null` or `undefined` makes `napi_get_element` throw; when the decode of the key
leaves an exception pending, the decode of the value returns `nullptr`. -/
def decode_map_step_pending (dec : JSValue → Option JSValue × Bool) (value_obj : JSValue)
    (state : List (JSValue × JSValue) × Bool) (i : Nat) : List (JSValue × JSValue) × Bool :=
  if state.2 then state
  else
    match napi_get_element value_obj i with
    | none => state
    | some pair =>
      match napi_get_element pair 0 with
      | none => (state.1, true)
      | some key =>
        match napi_get_element pair 1 with
        | none => (state.1, true)
        | some value =>
          if (dec key).2 then (state.1, true)
          else
            match (dec key).1, (dec value).1 with
            | some decoded_key, some decoded_value =>
              if (dec value).2 then (state.1, true)
              else (map_set state.1 decoded_key decoded_value, false)
            | _, _ => (state.1, (dec value).2)

/-- The function `decode_value` of `src/remote/serialize.cpp` with the pending
exception: the value returned (`none` is `nullptr`) and whether a JavaScript
exception is pending when it returns. -/
def decode_value_pending : Nat → JSValue → Option JSValue × Bool
  | 0, _ => (none, false)
  | fuel + 1, obj =>
    if napi_typeof obj ≠ .napi_object then (none, false)
    else
      match napi_has_named_property obj TYPE_KEY with
      | some true =>
        match napi_get_named_property obj TYPE_KEY with
        | none => (none, false)
        | some type_val =>
          let type_str := get_string_value type_val
          if type_str = [] then (none, false)
          else if type_str = TAG_NULL then (some .null, false)
          else if type_str = TAG_UNDEFINED then (some .undefined, false)
          else
            match napi_get_named_property obj VALUE_KEY with
            | none => (none, false)
            | some value_obj =>
              if type_str = TAG_NUMBER ∨ type_str = TAG_STRING ∨ type_str = TAG_BOOLEAN then
                (some value_obj, false)
              else if type_str = TAG_BUFFER then
                let base64_str := get_string_value value_obj
                let data := base64_decode base64_str
                (some (.buffer data), false)
              else if type_str = TAG_ARRAY then
                match napi_get_array_length value_obj with
                | none => (none, false)
                | some length =>
                  let r := (List.range length).foldl
                    (decode_array_step_pending (decode_value_pending fuel) value_obj)
                    (.array (List.replicate length none), false)
                  (some r.1, r.2)
              else if type_str = TAG_OBJECT then
                match napi_get_property_names value_obj with
                | none => (none, true)
                | some prop_names =>
                  let r := prop_names.foldl
                    (decode_object_step_pending (decode_value_pending fuel) value_obj)
                    (.object [], false)
                  (some r.1, r.2)
              else if type_str = TAG_MAP then
                match napi_get_array_length value_obj with
                | none => (some (.map []), false)
                | some length =>
                  let r := (List.range length).foldl
                    (decode_map_step_pending (decode_value_pending fuel) value_obj) ([], false)
                  (some (.map r.1), r.2)
              else (none, false)
      | _ => (none, false)

/-- How a call of the exported function `rpc_decode` ends. -/
inductive DecodeOutcome where
  /-- The call returns the decoded value. -/
  | returned (value : JSValue)
  /-- The call throws the error `Invalid encoded object`. -/
  | invalid_encoded_object
  /-- The call throws the `TypeError` of the host that was pending. -/
  | host_type_error

/-- The exported function `rpc_decode` applied to one argument, with the pending
exception: `napi_throw_error` does nothing while an exception is pending, and the
host throws the pending exception when the function returns, whatever it returns. -/
def rpc_decode_pending (fuel : Nat) (arg : JSValue) : DecodeOutcome :=
  if (decode_value_pending fuel arg).2 then .host_type_error
  else
    match (decode_value_pending fuel arg).1 with
    | some result => .returned result
    | none => .invalid_encoded_object

/-- The slots of the List the `Array` branch returns, in the words of the amended
claim: the slot of an element holds what its decode returns as long as no decode has
raised an exception; the slot of the element whose decode raises one and every later
slot are gaps. -/
def slots_until_exception (dec : JSValue → Option JSValue × Bool) :
    List (Option JSValue) → List (Option JSValue)
  | [] => []
  | slot :: rest =>
    if (dec (slot.getD .undefined)).2 then List.replicate (rest.length + 1) none
    else (dec (slot.getD .undefined)).1 :: slots_until_exception dec rest

/-- The entries the `Map` branch inserts, in the words of the amended claim: the
pairs whose key and value both decode, up to the first pair whose key or value
raises an exception when it is decoded. -/
def entries_until_exception (dec : JSValue → Option JSValue × Bool) :
    List (JSValue × JSValue) → List (JSValue × JSValue)
  | [] => []
  | (key, value) :: rest =>
    if (dec key).2 then []
    else if (dec value).2 then []
    else
      match (dec key).1, (dec value).1 with
      | some decoded_key, some decoded_value =>
        (decoded_key, decoded_value) :: entries_until_exception dec rest
      | _, _ => entries_until_exception dec rest

/-! ## Lemmas about Base64 -/

theorem getD_drop_add {α : Type} (l : List α) (k i : Nat) (d : α) :
    (l.drop k).getD i d = l.getD (i + k) d := by
  simp [List.getD_eq_getElem?_getD, List.getElem?_drop, Nat.add_comm]

theorem base64_encode_loop_shift (data : List Nat) (k : Nat) :
    ∀ fuel i, base64_encode_loop data fuel (i + k) = base64_encode_loop (data.drop k) fuel i := by
  intro fuel
  induction fuel with
  | zero => intro i; rfl
  | succ fuel ih =>
    intro i
    have h0 : (i + k < data.length) = (i < (data.drop k).length) := by
      simp only [List.length_drop, eq_iff_iff]; omega
    have h1 : (i + k + 1 < data.length) = (i + 1 < (data.drop k).length) := by
      simp only [List.length_drop, eq_iff_iff]; omega
    have h2 : (i + k + 2 < data.length) = (i + 2 < (data.drop k).length) := by
      simp only [List.length_drop, eq_iff_iff]; omega
    have e1 : i + k + 1 = (i + 1) + k := by omega
    have e2 : i + k + 2 = (i + 2) + k := by omega
    have e3 : i + k + 3 = (i + 3) + k := by omega
    simp only [base64_encode_loop, h0, h1, h2, getD_drop_add]
    rw [e3, ih (i + 3), e1, e2]

theorem base64_encode_loop_step (data : List Nat) (fuel : Nat) :
    base64_encode_loop data (fuel + 1) 0 =
      if 0 < data.length then encode_quad data ++ base64_encode_loop (data.drop 3) fuel 0
      else [] := by
  have h := base64_encode_loop_shift data 3 fuel 0
  simp only [Nat.zero_add] at h
  simp only [base64_encode_loop, encode_quad, Nat.zero_add, h]

theorem encode_quad_length (l : List Nat) : (encode_quad l).length = 4 := by
  simp [encode_quad]

theorem base64_encode_loop_length (fuel : Nat) :
    ∀ data : List Nat, data.length ≤ 3 * fuel →
      (base64_encode_loop data fuel 0).length = (data.length + 2) / 3 * 4 := by
  induction fuel with
  | zero =>
    intro data h
    have : data.length = 0 := by omega
    simp [base64_encode_loop, this]
  | succ fuel ih =>
    intro data h
    rw [base64_encode_loop_step]
    by_cases h0 : 0 < data.length
    · rw [if_pos h0, List.length_append, encode_quad_length, ih (data.drop 3)]
      · simp only [List.length_drop]; omega
      · simp only [List.length_drop]; omega
    · have : data.length = 0 := by omega
      simp [this]

theorem base64_encode_eq_loop (data : List Nat) :
    base64_encode data = base64_encode_loop data data.length 0 := by
  unfold base64_encode
  split
  · rename_i h; rw [h]; rfl
  · rfl

/-- The decoder's inner loop as a scan of the characters of one group. -/
theorem base64_decode_group_shift (encoded : List Char) (i : Nat) :
    ∀ fuel j value valid_chars,
      base64_decode_group encoded i fuel j value valid_chars =
        base64_decode_group (encoded.drop i) 0 fuel j value valid_chars := by
  intro fuel
  induction fuel with
  | zero => intros; rfl
  | succ fuel ih =>
    intro j value valid_chars
    have h0 : (i + j < encoded.length) = (0 + j < (encoded.drop i).length) := by
      simp only [List.length_drop, eq_iff_iff]; omega
    have e : i + j = (0 + j) + i := by omega
    simp only [base64_decode_group, h0, getD_drop_add, ih]
    rw [e]

theorem base64_decode_loop_shift (encoded : List Char) (k : Nat) :
    ∀ fuel i, base64_decode_loop encoded fuel (i + k) =
      base64_decode_loop (encoded.drop k) fuel i := by
  intro fuel
  induction fuel with
  | zero => intro i; rfl
  | succ fuel ih =>
    intro i
    have h0 : (i + k < encoded.length) = (i < (encoded.drop k).length) := by
      simp only [List.length_drop, eq_iff_iff]; omega
    have e3 : i + k + 4 = (i + 4) + k := by omega
    simp only [base64_decode_loop, h0]
    rw [e3, ih (i + 4), base64_decode_group_shift encoded (i + k),
      base64_decode_group_shift (encoded.drop k) i, List.drop_drop]
    rw [Nat.add_comm k i]

theorem char_le_iff (a b : Char) : a ≤ b ↔ a.toNat ≤ b.toNat := by
  simp only [Char.le_def, UInt32.le_def, Char.toNat]
  rfl

theorem get_base64_index_range (c : Char) :
    get_base64_index c = -1 ∨ (0 ≤ get_base64_index c ∧ get_base64_index c < 64) := by
  unfold get_base64_index
  simp only [char_le_iff]
  have hA : 'A'.toNat = 65 := rfl
  have hZ : 'Z'.toNat = 90 := rfl
  have ha : 'a'.toNat = 97 := rfl
  have hz : 'z'.toNat = 122 := rfl
  have h0 : '0'.toNat = 48 := rfl
  have h9 : '9'.toNat = 57 := rfl
  rw [hA, hZ, ha, hz, h0, h9]
  split_ifs <;> omega

theorem base64_decode_group_eq_scan (l : List Char) :
    ∀ fuel j value valid_chars, 4 ≤ fuel + j →
      base64_decode_group l 0 fuel j value valid_chars =
        decode_scan ((l.take 4).drop j) value valid_chars := by
  intro fuel
  induction fuel with
  | zero =>
    intro j value valid_chars h
    have : (l.take 4).drop j = [] := by
      apply List.drop_eq_nil_of_le
      simp only [List.length_take]; omega
    rw [this]; rfl
  | succ fuel ih =>
    intro j value valid_chars h
    simp only [base64_decode_group, Nat.zero_add]
    by_cases hj : j < 4 ∧ j < l.length
    · have hlen : j < (l.take 4).length := by simp only [List.length_take]; omega
      have hd : (l.take 4).drop j = l.getD j '=' :: (l.take 4).drop (j + 1) := by
        rw [List.drop_eq_getElem_cons hlen]
        congr 1
        rw [List.getElem_take, List.getD_eq_getElem?_getD, List.getElem?_eq_getElem hj.2]
        rfl
      rw [if_pos hj, hd, ih (j + 1) _ _ (by omega), ih (j + 1) _ _ (by omega)]
      simp only [decode_scan]
    · have : (l.take 4).drop j = [] := by
        apply List.drop_eq_nil_of_le
        simp only [List.length_take]; omega
      rw [if_neg hj, this]; rfl

theorem base64_decode_loop_step (encoded : List Char) (fuel : Nat) :
    base64_decode_loop encoded (fuel + 1) 0 =
      if 0 < encoded.length then
        decode_group_bytes (encoded.take 4) ++ base64_decode_loop (encoded.drop 4) fuel 0
      else [] := by
  have h := base64_decode_loop_shift encoded 4 fuel 0
  simp only [Nat.zero_add] at h
  simp only [base64_decode_loop, Nat.zero_add, h, decode_group_bytes,
    base64_decode_group_eq_scan encoded 4 0 0 0 (by omega), List.drop_zero]

theorem groups4_eq (t : List Char) (h : 0 < t.length) :
    groups4 t = t.take 4 :: groups4 (t.drop 4) := by
  match t, h with
  | [c0], _ => rfl
  | [c0, c1], _ => rfl
  | [c0, c1, c2], _ => rfl
  | c0 :: c1 :: c2 :: c3 :: rest, _ => simp [groups4]

theorem base64_decode_loop_eq_groups (fuel : Nat) :
    ∀ t : List Char, t.length ≤ 4 * fuel →
      base64_decode_loop t fuel 0 = ((groups4 t).map decode_group_bytes).flatten := by
  induction fuel with
  | zero =>
    intro t h
    have : t = [] := List.eq_nil_of_length_eq_zero (by omega)
    subst this; rfl
  | succ fuel ih =>
    intro t h
    rw [base64_decode_loop_step]
    by_cases h0 : 0 < t.length
    · rw [if_pos h0, groups4_eq t h0, ih (t.drop 4) (by simp only [List.length_drop]; omega)]
      simp
    · have : t = [] := List.eq_nil_of_length_eq_zero (by omega)
      subst this; rfl

theorem base64_decode_eq_groups (t : List Char) :
    base64_decode t = ((groups4 t).map decode_group_bytes).flatten := by
  unfold base64_decode
  split
  · rename_i h
    have : t = [] := List.eq_nil_of_length_eq_zero h
    subst this; rfl
  · exact base64_decode_loop_eq_groups _ _ (by omega)

theorem group_sextets_nil : group_sextets [] = [] := rfl

theorem group_sextets_cons_eq (g : List Char) : group_sextets ('=' :: g) = [] := by
  simp [group_sextets]

theorem group_sextets_cons_skip (c : Char) (g : List Char) (h1 : c ≠ '=')
    (h2 : get_base64_index c = -1) : group_sextets (c :: g) = group_sextets g := by
  simp [group_sextets, List.takeWhile_cons, h1, h2]

theorem group_sextets_cons_valid (c : Char) (g : List Char) (h1 : c ≠ '=')
    (h2 : get_base64_index c ≠ -1) :
    group_sextets (c :: g) = (get_base64_index c).toNat :: group_sextets g := by
  simp [group_sextets, List.takeWhile_cons, h1, h2]

theorem group_sextets_length_le (g : List Char) : (group_sextets g).length ≤ g.length := by
  unfold group_sextets
  rw [List.length_map]
  exact le_trans (List.length_filter_le _ _) (List.takeWhile_sublist _).length_le

theorem group_sextets_lt (g : List Char) : ∀ s ∈ group_sextets g, s < 64 := by
  intro s hs
  unfold group_sextets at hs
  simp only [List.mem_map, List.mem_filter] at hs
  obtain ⟨c, ⟨_, hc⟩, rfl⟩ := hs
  rcases get_base64_index_range c with h | h
  · simp [h] at hc
  · omega

theorem shl6_or (v s : Nat) (hv : v < 2 ^ 26) (hs : s < 64) :
    ((v <<< 6) % 2 ^ 32) ||| s = v * 64 + s := by
  rw [Nat.shiftLeft_eq, Nat.mod_eq_of_lt (by omega)]
  exact (Nat.mul_comm _ _ ▸ (Nat.mul_add_lt_is_or (i := 6) (by omega : s < 2 ^ 6) v).symm)

theorem decode_scan_eq (g : List Char) :
    ∀ (v n m : Nat), v < 64 ^ m → m + g.length ≤ 5 →
      decode_scan g v n =
        ((group_sextets g).foldl (fun v s => v * 64 + s) v, n + (group_sextets g).length) := by
  induction g with
  | nil => intro v n m _ _; rfl
  | cons c g ih =>
    intro v n m hv hm
    simp only [List.length_cons] at hm
    simp only [decode_scan]
    by_cases h1 : c = '='
    · subst h1; simp [group_sextets_cons_eq]
    · rw [if_neg h1]
      by_cases h2 : get_base64_index c = -1
      · rw [if_pos h2, group_sextets_cons_skip c g h1 h2]
        exact ih v n m hv (by omega)
      · rw [if_neg h2, group_sextets_cons_valid c g h1 h2]
        have hs : (get_base64_index c).toNat < 64 := by
          rcases get_base64_index_range c with h | h
          · exact absurd h h2
          · omega
        have hm4 : m ≤ 4 := by omega
        have hv26 : v < 2 ^ 26 := by
          calc v < 64 ^ m := hv
            _ ≤ 64 ^ 4 := Nat.pow_le_pow_right (by omega) hm4
            _ ≤ 2 ^ 26 := by norm_num
        rw [shl6_or v _ hv26 hs]
        have hv' : v * 64 + (get_base64_index c).toNat < 64 ^ (m + 1) := by
          rw [Nat.pow_succ]; nlinarith
        rw [ih _ (n + 1) (m + 1) hv' (by omega)]
        simp only [List.foldl_cons, List.length_cons]
        congr 1; omega

theorem shr_and_255 (x n : Nat) : (x >>> n) &&& 0xFF = x / 2 ^ n % 256 := by
  rw [Nat.shiftRight_eq_div_pow]
  exact Nat.and_pow_two_sub_one_eq_mod _ 8

theorem and_255 (x : Nat) : x &&& 0xFF = x % 256 :=
  Nat.and_pow_two_sub_one_eq_mod _ 8

theorem and_63 (x : Nat) : x &&& 0x3F = x % 64 :=
  Nat.and_pow_two_sub_one_eq_mod _ 6

theorem foldl_sextets_lt (ss : List Nat) (h : ∀ s ∈ ss, s < 64) :
    ∀ v m, v < 64 ^ m → ss.foldl (fun v s => v * 64 + s) v < 64 ^ (m + ss.length) := by
  induction ss with
  | nil => intro v m hv; simpa using hv
  | cons s ss ih =>
    intro v m hv
    have hs : s < 64 := h s (List.mem_cons_self _ _)
    have hv' : v * 64 + s < 64 ^ (m + 1) := by rw [Nat.pow_succ]; nlinarith
    have := ih (fun x hx => h x (List.mem_cons_of_mem _ hx)) _ (m + 1) hv'
    simp only [List.foldl_cons, List.length_cons]
    rw [show m + (ss.length + 1) = m + 1 + ss.length by omega]
    exact this

theorem decode_group_bytes_eq (g : List Char) (hg : g.length ≤ 4) :
    decode_group_bytes g = group_contribution g := by
  have hscan := decode_scan_eq g 0 0 0 (by norm_num) (by omega)
  have hlen : (group_sextets g).length ≤ 4 := le_trans (group_sextets_length_le g) hg
  have hlt := foldl_sextets_lt (group_sextets g) (group_sextets_lt g) 0 0 (by norm_num)
  unfold decode_group_bytes group_contribution pack24
  rw [hscan]
  simp only [Nat.zero_add] at hlt ⊢
  generalize group_sextets g = ss at hlen hlt
  generalize hV : List.foldl (fun v s => v * 64 + s) 0 ss = V at hlt
  generalize hk : ss.length = k at hlen hlt
  unfold base64_decode_push
  simp only [shr_and_255, and_255, Nat.shiftLeft_eq]
  interval_cases k
  · simp
  · simp
  all_goals
    norm_num at hlt
    simp [Nat.shiftRight_eq_div_pow]
    omega

theorem groups4_length_le (t : List Char) : ∀ g ∈ groups4 t, g.length ≤ 4 := by
  induction t using groups4.induct with
  | case1 c0 c1 c2 c3 rest ih =>
    intro g hg
    simp only [groups4, List.mem_cons] at hg
    rcases hg with rfl | hg
    · simp
    · exact ih g hg
  | case2 => intro g hg; simp [groups4] at hg
  | case3 l h1 h2 =>
    intro g hg
    have hl : l.length < 4 := by
      match l, h1, h2 with
      | [], _, h2 => exact absurd rfl h2
      | [_], _, _ => simp
      | [_, _], _, _ => simp
      | [_, _, _], _, _ => simp
      | c0 :: c1 :: c2 :: c3 :: rest, h1, _ => exact absurd rfl (h1 c0 c1 c2 c3 rest)
    rw [groups4] at hg
    · simp only [List.mem_singleton] at hg; subst hg; omega
    · exact h1
    · exact h2

theorem alphabet_index :
    ∀ s, s < 64 → get_base64_index (BASE64_CHARS.getD s 'A') = (s : Int)
      ∧ BASE64_CHARS.getD s 'A' ≠ '=' ∧ BASE64_CHARS.getD s 'A' ∈ BASE64_CHARS := by
  decide

theorem group_sextets_alphabet (s : Nat) (hs : s < 64) (g : List Char) :
    group_sextets (BASE64_CHARS.getD s 'A' :: g) = s :: group_sextets g := by
  obtain ⟨h1, h2, _⟩ := alphabet_index s hs
  rw [group_sextets_cons_valid _ _ h2 (by rw [h1]; omega), h1]
  rfl

theorem or_eq_add_of_lt_pow (a b i : Nat) (hb : b < 2 ^ i) :
    a * 2 ^ i ||| b = a * 2 ^ i + b := by
  rw [Nat.mul_comm, Nat.mul_add_lt_is_or hb]

theorem pack3 (b0 b1 b2 : Nat) (h0 : b0 < 256) (h1 : b1 < 256) (h2 : b2 < 256) :
    ((b0 <<< 16) % 2 ^ 32 ||| (b1 <<< 8) % 2 ^ 32) ||| b2 = b0 * 65536 + b1 * 256 + b2 := by
  rw [Nat.shiftLeft_eq, Nat.shiftLeft_eq, Nat.mod_eq_of_lt (by omega), Nat.mod_eq_of_lt (by omega),
    or_eq_add_of_lt_pow b0 (b1 * 2 ^ 8) 16 (by omega)]
  have e : b0 * 2 ^ 16 + b1 * 2 ^ 8 = (b0 * 256 + b1) * 2 ^ 8 := by omega
  rw [e, or_eq_add_of_lt_pow _ b2 8 (by omega)]
  omega

theorem pack2 (b0 b1 : Nat) (h0 : b0 < 256) (h1 : b1 < 256) :
    ((b0 <<< 16) % 2 ^ 32 ||| (b1 <<< 8) % 2 ^ 32) = b0 * 65536 + b1 * 256 := by
  have := pack3 b0 b1 0 h0 h1 (by omega)
  simpa using this

theorem pack1 (b0 : Nat) (h0 : b0 < 256) : (b0 <<< 16) % 2 ^ 32 = b0 * 65536 := by
  rw [Nat.shiftLeft_eq, Nat.mod_eq_of_lt (by omega)]

theorem encode_quad_three (b0 b1 b2 : Nat) (rest : List Nat)
    (h0 : b0 < 256) (h1 : b1 < 256) (h2 : b2 < 256) :
    encode_quad (b0 :: b1 :: b2 :: rest) =
      [BASE64_CHARS.getD (b0 / 4) 'A', BASE64_CHARS.getD (b0 % 4 * 16 + b1 / 16) 'A',
       BASE64_CHARS.getD (b1 % 16 * 4 + b2 / 64) 'A', BASE64_CHARS.getD (b2 % 64) 'A'] := by
  simp only [encode_quad, List.length_cons, List.getD_cons_zero, List.getD_cons_succ,
    show 1 < rest.length + 1 + 1 + 1 by omega, show 2 < rest.length + 1 + 1 + 1 by omega,
    if_true, pack3 b0 b1 b2 h0 h1 h2, and_63, Nat.shiftRight_eq_div_pow]
  have e0 : (b0 * 65536 + b1 * 256 + b2) / 2 ^ 18 % 64 = b0 / 4 := by omega
  have e1 : (b0 * 65536 + b1 * 256 + b2) / 2 ^ 12 % 64 = b0 % 4 * 16 + b1 / 16 := by omega
  have e2 : (b0 * 65536 + b1 * 256 + b2) / 2 ^ 6 % 64 = b1 % 16 * 4 + b2 / 64 := by omega
  have e3 : (b0 * 65536 + b1 * 256 + b2) % 64 = b2 % 64 := by omega
  rw [e0, e1, e2, e3]

theorem encode_quad_two (b0 b1 : Nat) (h0 : b0 < 256) (h1 : b1 < 256) :
    encode_quad [b0, b1] =
      [BASE64_CHARS.getD (b0 / 4) 'A', BASE64_CHARS.getD (b0 % 4 * 16 + b1 / 16) 'A',
       BASE64_CHARS.getD (b1 % 16 * 4) 'A', '='] := by
  simp only [encode_quad, List.length_cons, List.length_nil, List.getD_cons_zero,
    List.getD_cons_succ, show 1 < 0 + 1 + 1 by omega, show ¬ 2 < 0 + 1 + 1 by omega,
    if_true, if_false, pack2 b0 b1 h0 h1, and_63, Nat.shiftRight_eq_div_pow]
  have e0 : (b0 * 65536 + b1 * 256) / 2 ^ 18 % 64 = b0 / 4 := by omega
  have e1 : (b0 * 65536 + b1 * 256) / 2 ^ 12 % 64 = b0 % 4 * 16 + b1 / 16 := by omega
  have e2 : (b0 * 65536 + b1 * 256) / 2 ^ 6 % 64 = b1 % 16 * 4 := by omega
  rw [e0, e1, e2]

theorem encode_quad_one (b0 : Nat) (h0 : b0 < 256) :
    encode_quad [b0] =
      [BASE64_CHARS.getD (b0 / 4) 'A', BASE64_CHARS.getD (b0 % 4 * 16) 'A', '=', '='] := by
  simp only [encode_quad, List.length_cons, List.length_nil, List.getD_cons_zero,
    show ¬ 1 < 0 + 1 by omega, show ¬ 2 < 0 + 1 by omega,
    if_false, pack1 b0 h0, and_63, Nat.shiftRight_eq_div_pow]
  have e0 : (b0 * 65536) / 2 ^ 18 % 64 = b0 / 4 := by omega
  have e1 : (b0 * 65536) / 2 ^ 12 % 64 = b0 % 4 * 16 := by omega
  rw [e0, e1]

theorem decode_encode_quad (l : List Nat) (hl : l ≠ []) (hb : ∀ b ∈ l, b < 256) :
    decode_group_bytes (encode_quad l) = l.take 3 := by
  rw [decode_group_bytes_eq _ (by rw [encode_quad_length])]
  match l, hl, hb with
  | [b0], _, hb =>
    have h0 : b0 < 256 := hb b0 (by simp)
    rw [encode_quad_one b0 h0, group_contribution,
      group_sextets_alphabet _ (by omega), group_sextets_alphabet _ (by omega),
      group_sextets_cons_eq]
    simp [pack24]
    omega
  | [b0, b1], _, hb =>
    have h0 : b0 < 256 := hb b0 (by simp)
    have h1 : b1 < 256 := hb b1 (by simp)
    rw [encode_quad_two b0 b1 h0 h1, group_contribution,
      group_sextets_alphabet _ (by omega), group_sextets_alphabet _ (by omega),
      group_sextets_alphabet _ (by omega), group_sextets_cons_eq]
    simp [pack24]
    omega
  | b0 :: b1 :: b2 :: rest, _, hb =>
    have h0 : b0 < 256 := hb b0 (by simp)
    have h1 : b1 < 256 := hb b1 (by simp)
    have h2 : b2 < 256 := hb b2 (by simp)
    rw [encode_quad_three b0 b1 b2 rest h0 h1 h2, group_contribution,
      group_sextets_alphabet _ (by omega), group_sextets_alphabet _ (by omega),
      group_sextets_alphabet _ (by omega), group_sextets_alphabet _ (by omega),
      group_sextets_nil]
    simp [pack24]
    omega

theorem base64_decode_append_quad (q r : List Char) (hq : q.length = 4) :
    base64_decode (q ++ r) = decode_group_bytes q ++ base64_decode r := by
  match q, hq with
  | [c0, c1, c2, c3], _ =>
    rw [base64_decode_eq_groups, base64_decode_eq_groups]
    simp [groups4]

theorem base64_decode_encode_loop (fuel : Nat) :
    ∀ data : List Nat, data.length ≤ 3 * fuel → (∀ b ∈ data, b < 256) →
      base64_decode (base64_encode_loop data fuel 0) = data := by
  induction fuel with
  | zero =>
    intro data h _
    have : data = [] := List.eq_nil_of_length_eq_zero (by omega)
    subst this; rfl
  | succ fuel ih =>
    intro data h hb
    rw [base64_encode_loop_step]
    by_cases h0 : 0 < data.length
    · have hne : data ≠ [] := by intro e; rw [e] at h0; exact Nat.lt_irrefl _ h0
      rw [if_pos h0, base64_decode_append_quad _ _ (encode_quad_length data),
        decode_encode_quad data hne hb,
        ih (data.drop 3) (by simp only [List.length_drop]; omega)
          (fun b hm => hb b (List.mem_of_mem_drop hm)),
        List.take_append_drop]
    · have : data = [] := List.eq_nil_of_length_eq_zero (by omega)
      subst this; rfl

theorem alphabet_getD_mem (x : Nat) : BASE64_CHARS.getD (x &&& 0x3F) 'A' ∈ BASE64_CHARS := by
  rw [and_63]
  exact (alphabet_index _ (Nat.mod_lt _ (by omega))).2.2

theorem encode_quad_shape (l : List Nat) (hl : 0 < l.length) :
    ∃ body : List Char, encode_quad l = body ++ List.replicate (3 - min l.length 3) '='
      ∧ ∀ c ∈ body, c ∈ BASE64_CHARS := by
  by_cases h1 : 1 < l.length
  · by_cases h2 : 2 < l.length
    · refine ⟨encode_quad l, ?_, ?_⟩
      · have : 3 - min l.length 3 = 0 := by omega
        simp [this]
      · intro c hc
        simp only [encode_quad, if_pos h1, if_pos h2, List.mem_cons, List.mem_singleton,
          List.mem_nil_iff, or_false] at hc
        rcases hc with rfl | rfl | rfl | rfl <;> exact alphabet_getD_mem _
    · refine ⟨(encode_quad l).take 3, ?_, ?_⟩
      · have : 3 - min l.length 3 = 1 := by omega
        simp [this, encode_quad, if_pos h1, if_neg h2]
      · intro c hc
        simp only [encode_quad, if_pos h1, if_neg h2, List.take_succ_cons, List.take_zero,
          List.mem_cons, List.mem_singleton, List.mem_nil_iff, or_false] at hc
        rcases hc with rfl | rfl | rfl <;> exact alphabet_getD_mem _
  · have h2 : ¬ 2 < l.length := by omega
    refine ⟨(encode_quad l).take 2, ?_, ?_⟩
    · have : 3 - min l.length 3 = 2 := by omega
      simp [this, encode_quad, if_neg h1, if_neg h2]
    · intro c hc
      simp only [encode_quad, if_neg h1, if_neg h2, List.take_succ_cons, List.take_zero,
        List.mem_cons, List.mem_singleton, List.mem_nil_iff, or_false] at hc
      rcases hc with rfl | rfl <;> exact alphabet_getD_mem _

theorem base64_encode_loop_padding (fuel : Nat) :
    ∀ data : List Nat, data.length ≤ 3 * fuel →
      ∃ body : List Char,
        base64_encode_loop data fuel 0 = body ++ List.replicate ((3 - data.length % 3) % 3) '='
        ∧ ∀ c ∈ body, c ∈ BASE64_CHARS := by
  induction fuel with
  | zero =>
    intro data h
    have : data = [] := List.eq_nil_of_length_eq_zero (by omega)
    subst this
    exact ⟨[], rfl, by simp⟩
  | succ fuel ih =>
    intro data h
    rw [base64_encode_loop_step]
    by_cases h0 : 0 < data.length
    · rw [if_pos h0]
      by_cases h3 : 3 ≤ data.length
      · obtain ⟨body, hbody, hmem⟩ := ih (data.drop 3) (by simp only [List.length_drop]; omega)
        obtain ⟨q, hq, hqmem⟩ := encode_quad_shape data h0
        have e0 : 3 - min data.length 3 = 0 := by omega
        have e1 : (data.drop 3).length % 3 = data.length % 3 := by
          simp only [List.length_drop]; omega
        rw [e0] at hq
        rw [e1] at hbody
        refine ⟨q ++ body, ?_, ?_⟩
        · rw [hq, hbody]; simp
        · intro c hc
          rcases List.mem_append.mp hc with hc | hc
          · exact hqmem c hc
          · exact hmem c hc
      · obtain ⟨q, hq, hqmem⟩ := encode_quad_shape data h0
        have hd : data.drop 3 = [] := List.drop_eq_nil_of_le (by omega)
        have hr : base64_encode_loop [] fuel 0 = [] := by
          cases fuel <;> rfl
        have e0 : 3 - min data.length 3 = (3 - data.length % 3) % 3 := by omega
        refine ⟨q, ?_, hqmem⟩
        rw [hd, hr, hq, e0]; simp
    · have : data = [] := List.eq_nil_of_length_eq_zero (by omega)
      subst this
      exact ⟨[], rfl, by simp⟩

/-! ## Base64: the claims -/

/-- C1: for every byte sequence `b` (every element an `unsigned char`, the empty
sequence included), `base64_decode (base64_encode b) = b`. -/
theorem base64_decode_encode (b : List Nat) (hb : ∀ x ∈ b, x < 256) :
    base64_decode (base64_encode b) = b := by
  rw [base64_encode_eq_loop]
  exact base64_decode_encode_loop _ _ (by omega) hb

theorem base64_decode_encode_witness :
    (∀ x ∈ [0, 1, 2, 255, 128], x < 256)
      ∧ base64_decode (base64_encode [0, 1, 2, 255, 128]) = [0, 1, 2, 255, 128] :=
  ⟨by decide, base64_decode_encode [0, 1, 2, 255, 128] (by decide)⟩

/-- C6: for every byte sequence of length `n`, `base64_encode` returns exactly
`ceil (n / 3) * 4` characters, and the empty sequence yields the empty text. -/
theorem base64_encode_length (data : List Nat) :
    (base64_encode data).length = (data.length + 2) / 3 * 4 ∧ base64_encode [] = [] := by
  refine ⟨?_, rfl⟩
  rw [base64_encode_eq_loop]
  exact base64_encode_loop_length _ _ (by omega)

/-- C7: three bytes `b0 b1 b2` are encoded to the four alphabet characters at the
indices `b0 >> 2`, `((b0 & 3) << 4) | (b1 >> 4)`, `((b1 & 15) << 2) | (b2 >> 6)`
and `b2 & 63` (all below 64); `[0x00, 0x01, 0x02]` encodes to `AAEC`, which
decodes back to these three bytes. -/
theorem base64_encode_three (b0 b1 b2 : Nat) (h0 : b0 < 256) (h1 : b1 < 256) (h2 : b2 < 256) :
    base64_encode [b0, b1, b2] =
        [BASE64_CHARS.getD (b0 >>> 2) 'A',
         BASE64_CHARS.getD (((b0 &&& 3) <<< 4) ||| (b1 >>> 4)) 'A',
         BASE64_CHARS.getD (((b1 &&& 15) <<< 2) ||| (b2 >>> 6)) 'A',
         BASE64_CHARS.getD (b2 &&& 63) 'A']
      ∧ b0 >>> 2 < BASE64_CHARS.length
      ∧ ((b0 &&& 3) <<< 4) ||| (b1 >>> 4) < BASE64_CHARS.length
      ∧ ((b1 &&& 15) <<< 2) ||| (b2 >>> 6) < BASE64_CHARS.length
      ∧ b2 &&& 63 < BASE64_CHARS.length
      ∧ base64_encode [0x00, 0x01, 0x02] = ['A', 'A', 'E', 'C']
      ∧ base64_decode ['A', 'A', 'E', 'C'] = [0x00, 0x01, 0x02] := by
  have a3 : b0 &&& 3 = b0 % 4 := Nat.and_pow_two_sub_one_eq_mod _ 2
  have a15 : b1 &&& 15 = b1 % 16 := Nat.and_pow_two_sub_one_eq_mod _ 4
  have a63 : b2 &&& 63 = b2 % 64 := Nat.and_pow_two_sub_one_eq_mod _ 6
  have i1 : ((b0 &&& 3) <<< 4) ||| (b1 >>> 4) = b0 % 4 * 16 + b1 / 16 := by
    rw [a3, Nat.shiftLeft_eq, Nat.shiftRight_eq_div_pow,
      or_eq_add_of_lt_pow _ _ 4 (by omega)]
    omega
  have i2 : ((b1 &&& 15) <<< 2) ||| (b2 >>> 6) = b1 % 16 * 4 + b2 / 64 := by
    rw [a15, Nat.shiftLeft_eq, Nat.shiftRight_eq_div_pow,
      or_eq_add_of_lt_pow _ _ 2 (by omega)]
    omega
  have i0 : b0 >>> 2 = b0 / 4 := by rw [Nat.shiftRight_eq_div_pow]
  have hlen : BASE64_CHARS.length = 64 := rfl
  rw [i0, i1, i2, a63, hlen]
  refine ⟨?_, by omega, by omega, by omega, by omega, by decide, by decide⟩
  rw [base64_encode_eq_loop]
  show base64_encode_loop [b0, b1, b2] 3 0 = _
  rw [base64_encode_loop_step, if_pos (by simp), encode_quad_three b0 b1 b2 [] h0 h1 h2]
  simp [base64_encode_loop]

theorem base64_encode_three_witness :
    (0 < 256 ∧ 1 < 256 ∧ 2 < 256)
      ∧ base64_encode [0, 1, 2] =
        [BASE64_CHARS.getD (0 >>> 2) 'A',
         BASE64_CHARS.getD (((0 &&& 3) <<< 4) ||| (1 >>> 4)) 'A',
         BASE64_CHARS.getD (((1 &&& 15) <<< 2) ||| (2 >>> 6)) 'A',
         BASE64_CHARS.getD (2 &&& 63) 'A'] :=
  ⟨by decide, (base64_encode_three 0 1 2 (by decide) (by decide) (by decide)).1⟩

/-- C8, as the specification states it, fails: one byte is not a multiple of three
bytes, and its encoding `AA==` carries two `=`, not exactly one. -/
theorem base64_encode_one_byte_two_pads :
    [0].length % 3 ≠ 0 ∧ base64_encode [0] = ['A', 'A', '=', '=']
      ∧ (base64_encode [0]).count '=' ≠ 1 := by
  decide

/-- C8, amended: the output of `base64_encode` on `n` bytes is a run of alphabet
characters (none of them `=`) followed by a trailing run of `=` of length
`(3 - n % 3) % 3`: no `=` when `n` is a multiple of 3, two when `n % 3 = 1`, one
when `n % 3 = 2`; the run lies in the final 4-character group. -/
theorem base64_encode_padding (data : List Nat) :
    ∃ body : List Char,
      base64_encode data = body ++ List.replicate ((3 - data.length % 3) % 3) '='
        ∧ (∀ c ∈ body, c ∈ BASE64_CHARS ∧ c ≠ '=')
        ∧ (3 - data.length % 3) % 3 ≤ 2
        ∧ (base64_encode data).length % 4 = 0 := by
  obtain ⟨body, h1, h2⟩ := base64_encode_loop_padding data.length data (by omega)
  refine ⟨body, ?_, ?_, by omega, ?_⟩
  · rw [base64_encode_eq_loop]; exact h1
  · intro c hc
    refine ⟨h2 c hc, ?_⟩
    intro e
    have := h2 c hc
    rw [e] at this
    revert this
    decide
  · have hlen : (base64_encode data).length = (data.length + 2) / 3 * 4 := by
      rw [base64_encode_eq_loop]
      exact base64_encode_loop_length _ _ (by omega)
    rw [hlen]; omega

theorem base64_encode_padding_witness :
    ∃ body : List Char,
      base64_encode [0, 1] = body ++ List.replicate ((3 - [0, 1].length % 3) % 3) '='
        ∧ (∀ c ∈ body, c ∈ BASE64_CHARS ∧ c ≠ '=')
        ∧ (3 - [0, 1].length % 3) % 3 ≤ 2
        ∧ (base64_encode [0, 1]).length % 4 = 0 :=
  base64_encode_padding [0, 1]

/-- C9: `base64_decode` is total, and its output is the concatenation of the
contributions of the consecutive 4-character groups of the text (the last group
may be shorter); a group with `k` alphabet characters before its first `=` (or its
end) contributes nothing when `k < 2`, one byte when `k = 2`, two when `k = 3` and
three when `k = 4`, the leading bytes of the `k` 6-bit values packed left-aligned
into 24 bits. -/
theorem base64_decode_groups (t : List Char) :
    base64_decode t = ((groups4 t).map group_contribution).flatten
      ∧ ∀ g ∈ groups4 t,
          (group_sextets g).length ≤ 4
          ∧ ((group_sextets g).length < 2 → group_contribution g = [])
          ∧ ((group_sextets g).length = 2 →
              group_contribution g = [pack24 (group_sextets g) / 65536 % 256])
          ∧ ((group_sextets g).length = 3 →
              group_contribution g =
                [pack24 (group_sextets g) / 65536 % 256, pack24 (group_sextets g) / 256 % 256])
          ∧ ((group_sextets g).length = 4 →
              group_contribution g =
                [pack24 (group_sextets g) / 65536 % 256, pack24 (group_sextets g) / 256 % 256,
                 pack24 (group_sextets g) % 256]) := by
  constructor
  · rw [base64_decode_eq_groups]
    congr 1
    apply List.map_congr_left
    intro g hg
    exact decode_group_bytes_eq g (groups4_length_le t g hg)
  · intro g hg
    refine ⟨le_trans (group_sextets_length_le g) (groups4_length_le t g hg), ?_, ?_, ?_, ?_⟩
    · intro h; simp [group_contribution, h]
    · intro h; simp [group_contribution, h]
    · intro h; simp [group_contribution, h]
    · intro h; simp [group_contribution, h]

theorem base64_decode_groups_witness :
    ['A', 'A', 'E', '='] ∈ groups4 ['A', 'A', 'E', '=', 'Q', '*']
      ∧ (group_sextets ['A', 'A', 'E', '=']).length = 3
      ∧ group_contribution ['A', 'A', 'E', '='] =
          [pack24 (group_sextets ['A', 'A', 'E', '=']) / 65536 % 256,
           pack24 (group_sextets ['A', 'A', 'E', '=']) / 256 % 256]
      ∧ base64_decode ['A', 'A', 'E', '=', 'Q', '*'] = [0, 1] :=
  ⟨by decide, by decide,
   ((base64_decode_groups ['A', 'A', 'E', '=', 'Q', '*']).2 ['A', 'A', 'E', '=']
      (by decide)).2.2.2.1 (by decide),
   by decide⟩


/-! ## Lemmas about the host values -/

theorem digit_char_is_digit (d : Nat) : '0' ≤ digit_char d ∧ digit_char d ≤ '9' := by
  have h : d % 10 < 10 := Nat.mod_lt _ (by omega)
  unfold digit_char
  generalize d % 10 = r at h
  interval_cases r <;> decide

theorem decimal_digits_all_digits (fuel : Nat) :
    ∀ (n : Nat) (acc : List Char), (∀ c ∈ acc, '0' ≤ c ∧ c ≤ '9') →
      ∀ c ∈ decimal_digits fuel n acc, '0' ≤ c ∧ c ≤ '9' := by
  induction fuel with
  | zero => intro n acc h; simpa [decimal_digits] using h
  | succ fuel ih =>
    intro n acc h
    have hcons : ∀ c ∈ digit_char n :: acc, '0' ≤ c ∧ c ≤ '9' := by
      intro c hc
      rcases List.mem_cons.mp hc with rfl | hc
      · exact digit_char_is_digit n
      · exact h c hc
    unfold decimal_digits
    split
    · exact hcons
    · exact ih _ _ hcons

theorem to_string_nat_all_digits (n : Nat) : ∀ c ∈ to_string_nat n, '0' ≤ c ∧ c ≤ '9' :=
  decimal_digits_all_digits _ _ _ (by simp)

theorem to_string_nat_ne_of_mem (n : Nat) (name : List Char) (c : Char) (hc : c ∈ name)
    (h : ¬ ('0' ≤ c ∧ c ≤ '9')) : to_string_nat n ≠ name := by
  intro e
  exact h (to_string_nat_all_digits n c (e ▸ hc))

theorem index_props_lookup_none (name : List Char) (c : Char) (hc : c ∈ name)
    (h : ¬ ('0' ≤ c ∧ c ≤ '9')) :
    ∀ (elems : List (Option JSValue)) (i : Nat), (index_props i elems).lookup name = none := by
  intro elems
  induction elems with
  | nil => intro i; rfl
  | cons slot t ih =>
    intro i
    cases slot with
    | none => simpa [index_props] using ih (i + 1)
    | some x =>
      have hne : (name == to_string_nat i) = false := by
        simpa using (to_string_nat_ne_of_mem i name c hc h).symm
      simp [index_props, List.lookup, hne, ih (i + 1)]

theorem find_property_type_key_of_not_object (v : JSValue) (h : ∀ props, v ≠ .object props) :
    find_property v TYPE_KEY = none := by
  have hd : ¬ ('0' ≤ '$' ∧ '$' ≤ '9') := by decide
  have hm : '$' ∈ TYPE_KEY := by decide
  have hl : TYPE_KEY ≠ LENGTH := by decide
  cases v with
  | object props => exact absurd rfl (h props)
  | array elems => simp [find_property, own_props, index_props_lookup_none _ _ hm hd, hl]
  | buffer bytes => simp [find_property, own_props, index_props_lookup_none _ _ hm hd, hl]
  | string s => simp [find_property, own_props, index_props_lookup_none _ _ hm hd, hl]
  | _ => simp [find_property, own_props, hl, length_prop]

theorem decode_value_not_object (fuel : Nat) (obj : JSValue) (h : ∀ props, obj ≠ .object props) :
    decode_value fuel obj = none := by
  cases fuel with
  | zero => rfl
  | succ fuel =>
    have hf := find_property_type_key_of_not_object obj h
    cases obj <;> simp [decode_value, napi_typeof, napi_has_named_property, hf]

theorem decode_value_no_type (fuel : Nat) (props : List (List Char × JSValue))
    (h : props.lookup TYPE_KEY = none) : decode_value fuel (.object props) = none := by
  cases fuel with
  | zero => rfl
  | succ fuel =>
    have hl : TYPE_KEY ≠ LENGTH := by decide
    simp [decode_value, napi_typeof, napi_has_named_property, find_property, own_props, h, hl,
      length_prop]

theorem decode_value_unrecognized (fuel : Nat) (props : List (List Char × JSValue))
    (type_val : JSValue) (h : props.lookup TYPE_KEY = some type_val)
    (ht : get_string_value type_val ∉ RECOGNIZED_TAGS) :
    decode_value fuel (.object props) = none := by
  cases fuel with
  | zero => rfl
  | succ fuel =>
    simp only [RECOGNIZED_TAGS, List.mem_cons, List.mem_singleton, List.mem_nil_iff, or_false,
      not_or] at ht
    obtain ⟨h1, h2, h3, h4, h5, h6, h7, h8, h9⟩ := ht
    simp [decode_value, napi_typeof, napi_has_named_property, napi_get_named_property,
      find_property, own_props, h, h1, h2, h3, h4, h5, h6, h7, h8, h9]


theorem set_slot_length_self (elems : List (Option JSValue)) (x : JSValue) :
    set_slot elems elems.length x = elems ++ [some x] := by
  simp [set_slot]

theorem mem_set_slot (elems : List (Option JSValue)) (i : Nat) (x y : JSValue)
    (h : some y ∈ set_slot elems i x) : y = x ∨ some y ∈ elems := by
  unfold set_slot at h
  split at h
  · rcases List.mem_or_eq_of_mem_set h with h | h
    · exact Or.inr h
    · exact Or.inl (Option.some.inj h)
  · simp only [List.mem_append, List.mem_replicate, List.mem_singleton] at h
    rcases h with (h | h) | h
    · exact Or.inr h
    · exact absurd h.2 (by simp)
    · exact Or.inl (Option.some.inj h)

theorem mem_set_prop (props : List (List Char × JSValue)) (name : List Char) (x : JSValue)
    (p : List Char × JSValue) (h : p ∈ set_prop props name x) : p.2 = x ∨ p ∈ props := by
  induction props with
  | nil =>
    simp only [set_prop, List.mem_singleton] at h
    subst h; exact Or.inl rfl
  | cons q t ih =>
    obtain ⟨k, v⟩ := q
    simp only [set_prop] at h
    split at h
    · rcases List.mem_cons.mp h with h | h
      · subst h; exact Or.inl rfl
      · exact Or.inr (List.mem_cons_of_mem _ h)
    · rcases List.mem_cons.mp h with h | h
      · subst h; exact Or.inr (List.mem_cons_self _ _)
      · rcases ih h with h | h
        · exact Or.inl h
        · exact Or.inr (List.mem_cons_of_mem _ h)

/-- A `for` loop that sets slot `i` to `f i` whenever `f i` is a value fills the
fresh array of length `n` with `f 0, ..., f (n - 1)`. -/
theorem foldl_set_range_aux (f : Nat → Option JSValue) (n : Nat) :
    ∀ k, k ≤ n →
      (List.range k).foldl
          (fun acc i => match f i with
            | some x => napi_set_element acc i x
            | none => acc)
          (.array (List.replicate n none))
        = .array ((List.range k).map f ++ List.replicate (n - k) none) := by
  intro k
  induction k with
  | zero => intro _; simp
  | succ k ih =>
    intro hk
    rw [List.range_succ, List.foldl_append, ih (by omega)]
    have hlen : ((List.range k).map f).length = k := by simp
    have hrep : List.replicate (n - k) (none : Option JSValue)
        = none :: List.replicate (n - (k + 1)) none := by
      rw [show n - k = (n - (k + 1)) + 1 by omega, List.replicate_succ]
    simp only [List.foldl_cons, List.foldl_nil, List.map_append, List.map_cons, List.map_nil]
    cases hf : f k with
    | none =>
      simp only [hrep]
      simp
    | some x =>
      simp only [napi_set_element, set_slot, List.length_append, hlen, List.length_replicate]
      rw [if_pos (by omega), hrep]
      congr 1
      rw [List.set_append_right _ _ (by rw [hlen])]
      simp [hlen]

theorem foldl_set_range (f : Nat → Option JSValue) (n : Nat) :
    (List.range n).foldl
        (fun acc i => match f i with
          | some x => napi_set_element acc i x
          | none => acc)
        (.array (List.replicate n none))
      = .array ((List.range n).map f) := by
  have := foldl_set_range_aux f n n (le_refl _)
  simpa using this


theorem encode_array_step_eq (enc : JSValue → Option JSValue) (arr acc : JSValue) (i : Nat) :
    encode_array_step enc arr acc i =
      (match (napi_get_element arr i).bind enc with
        | some x => napi_set_element acc i x
        | none => acc) := by
  unfold encode_array_step
  cases napi_get_element arr i with
  | none => rfl
  | some element => cases h : enc element <;> simp [Option.bind, h]

theorem decode_array_step_eq (dec : JSValue → Option JSValue) (value_obj acc : JSValue)
    (i : Nat) :
    decode_array_step dec value_obj acc i =
      (match (napi_get_element value_obj i).bind dec with
        | some x => napi_set_element acc i x
        | none => acc) := by
  unfold decode_array_step
  cases napi_get_element value_obj i with
  | none => rfl
  | some element => cases h : dec element <;> simp [Option.bind, h]

theorem encode_array_loop_eq (enc : JSValue → Option JSValue) (arr : JSValue) (n : Nat) :
    (List.range n).foldl (encode_array_step enc arr) (.array (List.replicate n none))
      = .array ((List.range n).map (fun i => (napi_get_element arr i).bind enc)) := by
  rw [← foldl_set_range (fun i => (napi_get_element arr i).bind enc) n]
  congr 1
  funext acc i
  exact encode_array_step_eq enc arr acc i

theorem decode_array_loop_eq (dec : JSValue → Option JSValue) (value_obj : JSValue) (n : Nat) :
    (List.range n).foldl (decode_array_step dec value_obj) (.array (List.replicate n none))
      = .array ((List.range n).map (fun i => (napi_get_element value_obj i).bind dec)) := by
  rw [← foldl_set_range (fun i => (napi_get_element value_obj i).bind dec) n]
  congr 1
  funext acc i
  exact decode_array_step_eq dec value_obj acc i

theorem range_map_slots (elems : List (Option JSValue)) (g : JSValue → Option JSValue) :
    (List.range elems.length).map (fun i => (napi_get_element (.array elems) i).bind g)
      = elems.map (fun slot => g (slot.getD .undefined)) := by
  apply List.ext_getElem
  · simp
  · intro i h1 h2
    simp only [List.length_map, List.length_range] at h1
    simp [napi_get_element, List.getD_eq_getElem?_getD, List.getElem?_eq_getElem h1]

theorem typed_object_eq (tag : List Char) (payload : JSValue) :
    napi_set_named_property (create_typed_object tag) VALUE_KEY payload
      = .object [(TYPE_KEY, .string tag), (VALUE_KEY, payload)] := by
  have : TYPE_KEY ≠ VALUE_KEY := by decide
  simp [create_typed_object, napi_set_named_property, set_prop, this]

theorem create_typed_object_eq (tag : List Char) :
    create_typed_object tag = .object [(TYPE_KEY, .string tag)] := rfl

/-- The encoding of a real array: slot by slot, a hole read as `undefined`. -/
theorem encode_array_of_array (enc : JSValue → Option JSValue) (elems : List (Option JSValue)) :
    encode_array enc (.array elems) =
      some (.object [(TYPE_KEY, .string TAG_ARRAY),
        (VALUE_KEY, .array (elems.map (fun slot => enc (slot.getD .undefined))))]) := by
  simp only [encode_array, is_array, if_true, napi_get_array_length, encode_array_loop_eq,
    typed_object_eq, range_map_slots]

/-- The encoding of any array-like value is an `Array` envelope whose payload is
an array of slots. -/
theorem encode_array_shape (enc : JSValue → Option JSValue) (arr e : JSValue)
    (h : encode_array enc arr = some e) :
    ∃ n, e = .object [(TYPE_KEY, .string TAG_ARRAY),
      (VALUE_KEY, .array ((List.range n).map (fun i => (napi_get_element arr i).bind enc)))] := by
  unfold encode_array at h
  simp only [encode_array_loop_eq, typed_object_eq] at h
  split at h
  · exact absurd h (by simp)
  · rename_i n _
    exact ⟨n, (Option.some.inj h).symm⟩


theorem encode_map_loop_eq (enc : JSValue → Option JSValue) :
    ∀ (entries done : List (JSValue × JSValue)),
      encode_map_loop enc entries (.array (done.map pair_slot)) done.length
        = .array ((done ++ encode_entries enc entries).map pair_slot) := by
  intro entries
  induction entries with
  | nil => intro done; simp [encode_map_loop, encode_entries]
  | cons p rest ih =>
    intro done
    obtain ⟨key, value⟩ := p
    simp only [encode_map_loop, encode_entries]
    cases hk : enc key with
    | none => simp
    | some ek =>
      cases hv : enc value with
      | none => simp
      | some ev =>
        have hset : napi_set_element (.array (done.map pair_slot)) done.length
            (napi_set_element (napi_set_element (.array (List.replicate 2 none)) 0 ek) 1 ev)
            = .array ((done ++ [(ek, ev)]).map pair_slot) := by
          have h := set_slot_length_self (done.map pair_slot) (.array [some ek, some ev])
          rw [List.length_map] at h
          simp only [napi_set_element, h]
          simp [pair_slot, set_slot]
        simp only [hset]
        have := ih (done ++ [(ek, ev)])
        rw [List.length_append, List.length_singleton] at this
        rw [this]
        simp

theorem encode_map_eq (enc : JSValue → Option JSValue) (entries : List (JSValue × JSValue)) :
    encode_map enc (.map entries) =
      some (.object [(TYPE_KEY, .string TAG_MAP),
        (VALUE_KEY, .array ((encode_entries enc entries).map pair_slot))]) := by
  have := encode_map_loop_eq enc entries []
  simp only [List.map_nil, List.length_nil, List.nil_append] at this
  simp only [encode_map, map_entries, this, typed_object_eq]

theorem encode_entries_mem (enc : JSValue → Option JSValue) :
    ∀ (entries : List (JSValue × JSValue)) (p : JSValue × JSValue),
      p ∈ encode_entries enc entries →
        ∃ q ∈ entries, enc q.1 = some p.1 ∧ enc q.2 = some p.2 := by
  intro entries
  induction entries with
  | nil => intro p h; simp [encode_entries] at h
  | cons q rest ih =>
    intro p h
    obtain ⟨key, value⟩ := q
    simp only [encode_entries] at h
    cases hk : enc key with
    | none => simp [hk] at h
    | some ek =>
      cases hv : enc value with
      | none => simp [hk, hv] at h
      | some ev =>
        simp only [hk, hv, List.mem_cons] at h
        rcases h with rfl | h
        · exact ⟨(key, value), List.mem_cons_self _ _, hk, hv⟩
        · obtain ⟨q, hq, h1, h2⟩ := ih p h
          exact ⟨q, List.mem_cons_of_mem _ hq, h1, h2⟩


theorem encode_object_step_inv (P : JSValue → Prop) (enc : JSValue → Option JSValue)
    (henc : ∀ x e, enc x = some e → P e) (obj : JSValue) (name : List Char)
    (fields : List (List Char × JSValue)) (hf : ∀ p, p ∈ fields → P p.2) :
    ∃ fields', encode_object_step enc obj (.object fields) name = .object fields'
      ∧ ∀ p, p ∈ fields' → P p.2 := by
  unfold encode_object_step
  simp only [get_string_value]
  split
  · exact ⟨fields, rfl, hf⟩
  · split
    · split
      · exact ⟨fields, rfl, hf⟩
      · rename_i prop_value _
        cases h : enc prop_value with
        | none => exact ⟨fields, rfl, hf⟩
        | some ev =>
          refine ⟨set_prop fields (c_str name) ev, rfl, ?_⟩
          intro p hp
          rcases mem_set_prop _ _ _ _ hp with h' | h'
          · rw [h']; exact henc _ _ h
          · exact hf p h'
    · exact ⟨fields, rfl, hf⟩

theorem encode_object_loop_inv (P : JSValue → Prop) (enc : JSValue → Option JSValue)
    (henc : ∀ x e, enc x = some e → P e) (obj : JSValue) :
    ∀ (names : List (List Char)) (fields : List (List Char × JSValue)),
      (∀ p, p ∈ fields → P p.2) →
      ∃ fields', names.foldl (encode_object_step enc obj) (.object fields) = .object fields'
        ∧ ∀ p, p ∈ fields' → P p.2 := by
  intro names
  induction names with
  | nil => intro fields hf; exact ⟨fields, rfl, hf⟩
  | cons name rest ih =>
    intro fields hf
    obtain ⟨fields', h1, h2⟩ := encode_object_step_inv P enc henc obj name fields hf
    rw [List.foldl_cons, h1]
    exact ih fields' h2

theorem encode_object_shape (P : JSValue → Prop) (enc : JSValue → Option JSValue)
    (henc : ∀ x e, enc x = some e → P e) (obj e : JSValue)
    (h : encode_object enc obj = some e) :
    ∃ fields, e = .object [(TYPE_KEY, .string TAG_OBJECT), (VALUE_KEY, .object fields)]
      ∧ ∀ p, p ∈ fields → P p.2 := by
  unfold encode_object at h
  split at h
  · exact absurd h (by simp)
  · rename_i names _
    obtain ⟨fields, h1, h2⟩ := encode_object_loop_inv P enc henc obj names [] (by simp)
    simp only [h1, typed_object_eq] at h
    exact ⟨fields, (Option.some.inj h).symm, h2⟩

theorem encode_value_envelope (fuel : Nat) :
    ∀ (v e : JSValue), encode_value fuel v = some e → Envelope e := by
  induction fuel with
  | zero => intro v e h; simp [encode_value] at h
  | succ fuel ih =>
    intro v e h
    cases v with
    | null =>
      simp only [encode_value, create_typed_object_eq, Option.some.injEq] at h
      subst h; exact Envelope.null
    | undefined =>
      simp only [encode_value, create_typed_object_eq, Option.some.injEq] at h
      subst h; exact Envelope.undefined
    | boolean b =>
      simp only [encode_value, napi_typeof, typed_object_eq, Option.some.injEq] at h
      subst h; exact Envelope.boolean _ rfl
    | number x =>
      simp only [encode_value, napi_typeof, typed_object_eq, Option.some.injEq] at h
      subst h; exact Envelope.number _ rfl
    | string s =>
      simp only [encode_value, napi_typeof, typed_object_eq, Option.some.injEq] at h
      subst h; exact Envelope.string _ rfl
    | func => simp [encode_value, napi_typeof] at h
    | buffer bytes =>
      simp only [encode_value, napi_typeof, is_buffer, Bool.true_or, if_true, buffer_data,
        typed_object_eq, create_string, Option.some.injEq] at h
      subst h; exact Envelope.buffer _
    | array elems =>
      have hl : is_array_like (.array elems) = true := by simp [is_array_like, is_array]
      simp only [encode_value, napi_typeof, is_buffer, is_uint8_array, is_map, hl,
        Bool.or_self, Bool.false_eq_true, if_false, if_true, encode_array_of_array,
        Option.some.injEq] at h
      subst h
      refine Envelope.array _ ?_
      intro e he
      obtain ⟨slot, _, hs⟩ := List.mem_map.mp he
      exact ih _ _ hs
    | map entries =>
      simp only [encode_value, napi_typeof, is_buffer, is_uint8_array, is_map,
        Bool.or_self, Bool.false_eq_true, if_false, if_true, encode_map_eq,
        Option.some.injEq] at h
      subst h
      refine Envelope.map _ ?_ ?_
      · intro p hp
        obtain ⟨q, _, h1, _⟩ := encode_entries_mem _ _ p hp
        exact ih _ _ h1
      · intro p hp
        obtain ⟨q, _, _, h2⟩ := encode_entries_mem _ _ p hp
        exact ih _ _ h2
    | object props =>
      simp only [encode_value, napi_typeof, is_buffer, is_uint8_array, is_map,
        Bool.or_self, Bool.false_eq_true, if_false] at h
      split at h
      · obtain ⟨n, hn⟩ := encode_array_shape _ _ _ h
        subst hn
        refine Envelope.array _ ?_
        intro e he
        obtain ⟨i, _, hs⟩ := List.mem_map.mp he
        cases hg : napi_get_element (JSValue.object props) i with
        | none => simp [hg] at hs
        | some x =>
          simp only [hg, Option.bind] at hs
          exact ih _ _ hs
      · obtain ⟨fields, hf, hP⟩ := encode_object_shape Envelope _ ih _ _ h
        subst hf
        exact Envelope.object _ hP


theorem distinct_names_iff (l : List (List Char × JSValue)) :
    distinct_names l = true ↔ (l.map Prod.fst).Nodup := by
  induction l with
  | nil => simp [distinct_names]
  | cons p t ih =>
    obtain ⟨k, v⟩ := p
    simp only [distinct_names, Bool.and_eq_true, List.all_eq_true, Bool.not_eq_true',
      beq_eq_false_iff_ne, ne_eq, List.map_cons, List.nodup_cons, List.mem_map, not_exists,
      not_and, ih]
    constructor
    · rintro ⟨h1, h2⟩
      exact ⟨fun x hx e => h1 x hx e.symm, h2⟩
    · rintro ⟨h1, h2⟩
      exact ⟨fun x hx e => h1 x hx e.symm, h2⟩

theorem lookup_of_mem_nodup (l : List (List Char × JSValue)) (h : (l.map Prod.fst).Nodup)
    (p : List Char × JSValue) (hp : p ∈ l) : l.lookup p.1 = some p.2 := by
  induction l with
  | nil => simp at hp
  | cons q t ih =>
    obtain ⟨k, v⟩ := q
    simp only [List.map_cons, List.nodup_cons, List.mem_map, not_exists, not_and] at h
    rcases List.mem_cons.mp hp with rfl | hp
    · simp
    · have hne : p.1 ≠ k := fun e => h.1 p hp e
      rw [List.lookup_cons]
      have : (p.1 == k) = false := by simpa using hne
      rw [this]
      exact ih h.2 hp

theorem set_prop_append (a : List (List Char × JSValue)) (k : List Char) (y : JSValue)
    (h : ∀ q ∈ a, q.1 ≠ k) : set_prop a k y = a ++ [(k, y)] := by
  induction a with
  | nil => rfl
  | cons q t ih =>
    obtain ⟨k', v'⟩ := q
    have hne : k' ≠ k := h (k', v') (List.mem_cons_self _ _)
    simp only [set_prop, if_neg hne, List.cons_append]
    rw [ih (fun q hq => h q (List.mem_cons_of_mem _ hq))]

/-- A loop over the property names of `suf` that assigns `G p.2` to the property
`p.1` of the result whenever `G p.2` is a value. -/
theorem foldl_set_props (step : JSValue → List Char → JSValue)
    (G : JSValue → Option JSValue) :
    ∀ (suf acc : List (List Char × JSValue)),
      (∀ p ∈ suf, ∀ a, step (.object a) p.1 =
        match G p.2 with
        | some y => .object (set_prop a p.1 y)
        | none => .object a) →
      (suf.map Prod.fst).Nodup →
      (∀ p ∈ suf, ∀ q ∈ acc, q.1 ≠ p.1) →
      (suf.map Prod.fst).foldl step (.object acc)
        = .object (acc ++ suf.filterMap (fun p => (G p.2).map (fun y => (p.1, y)))) := by
  intro suf
  induction suf with
  | nil => intro acc _ _ _; simp
  | cons p t ih =>
    intro acc hstep hnd hacc
    obtain ⟨k, v⟩ := p
    simp only [List.map_cons, List.nodup_cons, List.mem_map, not_exists, not_and] at hnd
    have hs := hstep (k, v) (List.mem_cons_self _ _) acc
    simp only [List.map_cons, List.foldl_cons]
    simp only at hs
    rw [hs]
    cases hG : G v with
    | none =>
      simp only [List.filterMap_cons, hG, Option.map_none']
      exact ih acc (fun p hp a => hstep p (List.mem_cons_of_mem _ hp) a) hnd.2
        (fun p hp q hq => hacc p (List.mem_cons_of_mem _ hp) q hq)
    | some y =>
      have happ := set_prop_append acc k y (fun q hq => hacc (k, v) (List.mem_cons_self _ _) q hq)
      simp only [List.filterMap_cons, hG, Option.map_some', happ]
      rw [ih (acc ++ [(k, y)]) (fun p hp a => hstep p (List.mem_cons_of_mem _ hp) a) hnd.2]
      · simp
      · intro p hp q hq
        rcases List.mem_append.mp hq with hq | hq
        · exact hacc p (List.mem_cons_of_mem _ hp) q hq
        · simp only [List.mem_singleton] at hq
          subst hq
          exact fun e => hnd.1 p hp e.symm


theorem find_property_object (props : List (List Char × JSValue)) (name : List Char)
    (x : JSValue) (h : props.lookup name = some x) :
    find_property (.object props) name = some x := by
  simp [find_property, own_props, h]

theorem encode_object_exact (enc : JSValue → Option JSValue)
    (props : List (List Char × JSValue)) (hnd : (props.map Prod.fst).Nodup)
    (hgood : ∀ p ∈ props, p.1 ≠ [] ∧ c_str p.1 = p.1) :
    encode_object enc (.object props) =
      some (.object [(TYPE_KEY, .string TAG_OBJECT),
        (VALUE_KEY, .object (props.filterMap (fun p => (enc p.2).map (fun y => (p.1, y)))))]) := by
  have hfold := foldl_set_props (encode_object_step enc (.object props)) enc props []
    (by
      intro p hp a
      obtain ⟨h1, h2⟩ := hgood p hp
      have hl := lookup_of_mem_nodup props hnd p hp
      have hf := find_property_object props p.1 p.2 hl
      simp only [encode_object_step, get_string_value, h1, if_false, napi_has_own_property,
        napi_has_named_property, hf, Option.isSome_some, h2, napi_get_named_property,
        Option.getD_some]
      cases enc p.2 <;> rfl)
    hnd (by simp)
  simp only [encode_object, napi_get_property_names, own_props, hfold, typed_object_eq,
    List.nil_append]

theorem decode_value_typed (fuel : Nat) (tag : List Char) (payload : JSValue) :
    decode_value (fuel + 1) (.object [(TYPE_KEY, .string tag), (VALUE_KEY, payload)]) =
      if tag = [] then none
      else if tag = TAG_NULL then some .null
      else if tag = TAG_UNDEFINED then some .undefined
      else if tag = TAG_NUMBER ∨ tag = TAG_STRING ∨ tag = TAG_BOOLEAN then some payload
      else if tag = TAG_BUFFER then some (.buffer (base64_decode (get_string_value payload)))
      else if tag = TAG_ARRAY then
        match napi_get_array_length payload with
        | none => none
        | some length =>
          some ((List.range length).foldl (decode_array_step (decode_value fuel) payload)
            (.array (List.replicate length none)))
      else if tag = TAG_OBJECT then
        match napi_get_property_names payload with
        | none => none
        | some prop_names =>
          some (prop_names.foldl (decode_object_step (decode_value fuel) payload) (.object []))
      else if tag = TAG_MAP then
        match napi_get_array_length payload with
        | none => some (.map [])
        | some length =>
          some (.map ((List.range length).foldl
            (decode_map_step (decode_value fuel) payload) []))
      else none := by
  have h1 : (VALUE_KEY == TYPE_KEY) = false := by decide
  simp [decode_value, napi_typeof, napi_has_named_property, napi_get_named_property,
    find_property, own_props, List.lookup, h1, get_string_value]

theorem decode_value_array (fuel : Nat) (slots : List (Option JSValue)) :
    decode_value (fuel + 1) (.object [(TYPE_KEY, .string TAG_ARRAY), (VALUE_KEY, .array slots)])
      = some (.array (slots.map (fun slot => decode_value fuel (slot.getD .undefined)))) := by
  rw [decode_value_typed]
  have : TAG_ARRAY ≠ [] ∧ TAG_ARRAY ≠ TAG_NULL ∧ TAG_ARRAY ≠ TAG_UNDEFINED
      ∧ TAG_ARRAY ≠ TAG_NUMBER ∧ TAG_ARRAY ≠ TAG_STRING ∧ TAG_ARRAY ≠ TAG_BOOLEAN
      ∧ TAG_ARRAY ≠ TAG_BUFFER := by decide
  obtain ⟨h0, h1, h2, h3, h4, h5, h6⟩ := this
  simp only [h0, h1, h2, h3, h4, h5, h6, if_false, or_self, if_true, napi_get_array_length,
    decode_array_loop_eq, range_map_slots]

theorem decode_value_object (fuel : Nat) (fields : List (List Char × JSValue))
    (hnd : (fields.map Prod.fst).Nodup) (hgood : ∀ p ∈ fields, p.1 ≠ [] ∧ c_str p.1 = p.1) :
    decode_value (fuel + 1)
        (.object [(TYPE_KEY, .string TAG_OBJECT), (VALUE_KEY, .object fields)])
      = some (.object (fields.filterMap (fun p =>
          (match p.2 with
            | .undefined => none
            | x => decode_value fuel x).map (fun y => (p.1, y))))) := by
  rw [decode_value_typed]
  have : TAG_OBJECT ≠ [] ∧ TAG_OBJECT ≠ TAG_NULL ∧ TAG_OBJECT ≠ TAG_UNDEFINED
      ∧ TAG_OBJECT ≠ TAG_NUMBER ∧ TAG_OBJECT ≠ TAG_STRING ∧ TAG_OBJECT ≠ TAG_BOOLEAN
      ∧ TAG_OBJECT ≠ TAG_BUFFER ∧ TAG_OBJECT ≠ TAG_ARRAY := by decide
  obtain ⟨h0, h1, h2, h3, h4, h5, h6, h7⟩ := this
  have hfold := foldl_set_props (decode_object_step (decode_value fuel) (.object fields))
    (fun x => match x with
      | .undefined => none
      | x => decode_value fuel x) fields []
    (by
      intro p hp a
      obtain ⟨g1, g2⟩ := hgood p hp
      have hl := lookup_of_mem_nodup fields hnd p hp
      have hf := find_property_object fields p.1 p.2 hl
      simp only [decode_object_step, get_string_value, g1, if_false, g2,
        napi_get_named_property, hf, Option.getD_some]
      cases hp2 : p.2 <;> simp only [napi_set_named_property])
    hnd (by simp)
  simp only [h0, h1, h2, h3, h4, h5, h6, h7, if_false, or_self, if_true,
    napi_get_property_names, own_props, hfold, List.nil_append]


theorem foldl_range_eq_foldl {α β : Type} (h : β → α → β) (step : β → Nat → β) :
    ∀ (l : List α) (a : β),
      (∀ acc i (hi : i < l.length), step acc i = h acc (l.get ⟨i, hi⟩)) →
      (List.range l.length).foldl step a = l.foldl h a := by
  intro l
  induction l using List.reverseRecOn with
  | nil => intro a _; rfl
  | append_singleton l x ih =>
    intro a hstep
    rw [List.length_append, List.length_singleton, List.range_succ, List.foldl_append,
      List.foldl_append]
    rw [ih a (by
      intro acc i hi
      have := hstep acc i (by rw [List.length_append]; omega)
      rw [this]
      congr 1
      simp [List.getElem_append_left hi])]
    simp only [List.foldl_cons, List.foldl_nil]
    rw [hstep _ l.length (by simp)]
    congr 1
    simp

theorem decode_map_loop_eq (dec : JSValue → Option JSValue) (pairs : List (JSValue × JSValue))
    (acc : List (JSValue × JSValue)) :
    (List.range pairs.length).foldl
        (decode_map_step dec (.array (pairs.map pair_slot))) acc
      = pairs.foldl (fun m p =>
          match dec p.1, dec p.2 with
          | some k, some v => map_set m k v
          | _, _ => m) acc := by
  have := foldl_range_eq_foldl
    (fun m (p : JSValue × JSValue) =>
      match dec p.1, dec p.2 with
      | some k, some v => map_set m k v
      | _, _ => m)
    (decode_map_step dec (.array (pairs.map pair_slot))) pairs acc
    (by
      intro m i hi
      have hi' : i < (pairs.map pair_slot).length := by simpa using hi
      simp only [decode_map_step, napi_get_element, List.getD_eq_getElem?_getD,
        List.getElem?_eq_getElem hi', List.getElem_map, pair_slot, Option.getD_some,
        List.getElem?_cons_zero, List.getElem?_cons_succ, List.get_eq_getElem])
  exact this

theorem map_set_append (m : List (JSValue × JSValue)) (k v : JSValue)
    (h : ∀ e ∈ m, same_value_zero e.1 k = false) : map_set m k v = m ++ [(k, v)] := by
  induction m with
  | nil => rfl
  | cons q t ih =>
    obtain ⟨k', v'⟩ := q
    have hne : same_value_zero k' k = false := h (k', v') (List.mem_cons_self _ _)
    simp only [map_set, hne, Bool.false_eq_true, if_false, List.cons_append]
    rw [ih (fun e he => h e (List.mem_cons_of_mem _ he))]

theorem foldl_map_set_distinct :
    ∀ (entries acc : List (JSValue × JSValue)),
      distinct_map_keys (acc ++ entries) = true →
      entries.foldl (fun m p => map_set m p.1 p.2) acc = acc ++ entries := by
  intro entries
  induction entries with
  | nil => intro acc _; simp
  | cons p t ih =>
    intro acc hd
    have hacc : ∀ e ∈ acc, same_value_zero e.1 p.1 = false := by
      clear ih
      induction acc with
      | nil => intro e he; simp at he
      | cons q acc' ih' =>
        obtain ⟨kq, vq⟩ := q
        simp only [List.cons_append, distinct_map_keys, Bool.and_eq_true, List.all_eq_true,
          Bool.not_eq_true'] at hd
        intro e he
        rcases List.mem_cons.mp he with rfl | he
        · exact hd.1 p (by simp)
        · exact ih' hd.2 e he
    simp only [List.foldl_cons]
    rw [map_set_append acc p.1 p.2 hacc, ih (acc ++ [p]) (by simpa using hd)]
    simp

theorem decode_value_map (fuel : Nat) (pairs : List (JSValue × JSValue)) :
    decode_value (fuel + 1)
        (.object [(TYPE_KEY, .string TAG_MAP), (VALUE_KEY, .array (pairs.map pair_slot))])
      = some (.map (pairs.foldl (fun m p =>
          match decode_value fuel p.1, decode_value fuel p.2 with
          | some k, some v => map_set m k v
          | _, _ => m) [])) := by
  rw [decode_value_typed]
  have : TAG_MAP ≠ [] ∧ TAG_MAP ≠ TAG_NULL ∧ TAG_MAP ≠ TAG_UNDEFINED
      ∧ TAG_MAP ≠ TAG_NUMBER ∧ TAG_MAP ≠ TAG_STRING ∧ TAG_MAP ≠ TAG_BOOLEAN
      ∧ TAG_MAP ≠ TAG_BUFFER ∧ TAG_MAP ≠ TAG_ARRAY ∧ TAG_MAP ≠ TAG_OBJECT := by decide
  obtain ⟨h0, h1, h2, h3, h4, h5, h6, h7, h8⟩ := this
  have hl : (pairs.map pair_slot).length = pairs.length := by simp
  simp only [h0, h1, h2, h3, h4, h5, h6, h7, h8, if_false, or_self, if_true,
    napi_get_array_length, hl, decode_map_loop_eq]


theorem depth_pos (v : JSValue) : 1 ≤ v.depth := by
  cases v <;> simp [JSValue.depth]

theorem depth_elems_mem (elems : List (Option JSValue)) (v : JSValue) (h : some v ∈ elems) :
    v.depth ≤ depth_elems elems := by
  induction elems with
  | nil => simp at h
  | cons slot t ih =>
    cases slot with
    | none =>
      simp only [List.mem_cons, reduceCtorEq, false_or] at h
      simp only [depth_elems]
      exact le_trans (ih h) (le_max_right _ _)
    | some x =>
      simp only [depth_elems]
      rcases List.mem_cons.mp h with h | h
      · rw [Option.some.inj h]; exact le_max_left _ _
      · exact le_trans (ih h) (le_max_right _ _)

theorem depth_entries_mem (entries : List (JSValue × JSValue)) (p : JSValue × JSValue)
    (h : p ∈ entries) : p.1.depth ≤ depth_entries entries ∧ p.2.depth ≤ depth_entries entries := by
  induction entries with
  | nil => simp at h
  | cons q t ih =>
    obtain ⟨k, v⟩ := q
    simp only [depth_entries]
    rcases List.mem_cons.mp h with rfl | h
    · exact ⟨le_trans (le_max_left _ _) (le_max_left _ _),
        le_trans (le_max_right _ _) (le_max_left _ _)⟩
    · exact ⟨le_trans (ih h).1 (le_max_right _ _), le_trans (ih h).2 (le_max_right _ _)⟩

theorem depth_props_mem (props : List (List Char × JSValue)) (p : List Char × JSValue)
    (h : p ∈ props) : p.2.depth ≤ depth_props props := by
  induction props with
  | nil => simp at h
  | cons q t ih =>
    obtain ⟨k, v⟩ := q
    simp only [depth_props]
    rcases List.mem_cons.mp h with rfl | h
    · exact le_max_left _ _
    · exact le_trans (ih h) (le_max_right _ _)

theorem valid_elems_mem (elems : List (Option JSValue)) (h : valid_elems elems = true)
    (v : JSValue) (hv : some v ∈ elems) : v.valid = true := by
  induction elems with
  | nil => simp at hv
  | cons slot t ih =>
    cases slot with
    | none =>
      simp only [List.mem_cons, reduceCtorEq, false_or] at hv
      simp only [valid_elems] at h
      exact ih h hv
    | some x =>
      simp only [valid_elems, Bool.and_eq_true] at h
      rcases List.mem_cons.mp hv with hv | hv
      · rw [Option.some.inj hv]; exact h.1
      · exact ih h.2 hv

theorem valid_entries_mem (entries : List (JSValue × JSValue)) (h : valid_entries entries = true)
    (p : JSValue × JSValue) (hp : p ∈ entries) : p.1.valid = true ∧ p.2.valid = true := by
  induction entries with
  | nil => simp at hp
  | cons q t ih =>
    obtain ⟨k, v⟩ := q
    simp only [valid_entries, Bool.and_eq_true] at h
    rcases List.mem_cons.mp hp with rfl | hp
    · exact ⟨h.1.1, h.1.2⟩
    · exact ih h.2 hp

theorem valid_props_mem (props : List (List Char × JSValue)) (h : valid_props props = true)
    (p : List Char × JSValue) (hp : p ∈ props) : p.2.valid = true := by
  induction props with
  | nil => simp at hp
  | cons q t ih =>
    obtain ⟨k, v⟩ := q
    simp only [valid_props, Bool.and_eq_true] at h
    rcases List.mem_cons.mp hp with rfl | hp
    · exact h.1
    · exact ih h.2 hp

theorem plain_elems_mem (elems : List (Option JSValue)) (h : plain_elems elems = true)
    (slot : Option JSValue) (hs : slot ∈ elems) : ∃ v, slot = some v ∧ v.plain = true := by
  induction elems with
  | nil => simp at hs
  | cons s t ih =>
    cases s with
    | none => simp [plain_elems] at h
    | some x =>
      simp only [plain_elems, Bool.and_eq_true] at h
      rcases List.mem_cons.mp hs with rfl | hs
      · exact ⟨x, rfl, h.1⟩
      · exact ih h.2 hs

theorem plain_entries_mem (entries : List (JSValue × JSValue)) (h : plain_entries entries = true)
    (p : JSValue × JSValue) (hp : p ∈ entries) : p.1.plain = true ∧ p.2.plain = true := by
  induction entries with
  | nil => simp at hp
  | cons q t ih =>
    obtain ⟨k, v⟩ := q
    simp only [plain_entries, Bool.and_eq_true] at h
    rcases List.mem_cons.mp hp with rfl | hp
    · exact ⟨h.1.1, h.1.2⟩
    · exact ih h.2 hp

theorem plain_props_mem (props : List (List Char × JSValue)) (h : plain_props props = true)
    (p : List Char × JSValue) (hp : p ∈ props) :
    (p.1 ≠ [] ∧ c_str p.1 = p.1) ∧ p.2.plain = true := by
  induction props with
  | nil => simp at hp
  | cons q t ih =>
    obtain ⟨k, v⟩ := q
    simp only [plain_props, Bool.and_eq_true, Bool.not_eq_true', beq_eq_false_iff_ne, ne_eq,
      beq_iff_eq] at h
    rcases List.mem_cons.mp hp with rfl | hp
    · exact ⟨⟨h.1.1.1, h.1.1.2⟩, h.1.2⟩
    · exact ih h.2 hp

theorem encode_entries_all (enc : JSValue → Option JSValue) :
    ∀ (entries : List (JSValue × JSValue)),
      (∀ p ∈ entries, (enc p.1).isSome ∧ (enc p.2).isSome) →
      encode_entries enc entries
        = entries.map (fun p => ((enc p.1).getD .undefined, (enc p.2).getD .undefined)) := by
  intro entries
  induction entries with
  | nil => intro _; rfl
  | cons q t ih =>
    intro h
    obtain ⟨k, v⟩ := q
    have hq := h (k, v) (List.mem_cons_self _ _)
    obtain ⟨ek, hk⟩ := Option.isSome_iff_exists.mp hq.1
    obtain ⟨ev, hv⟩ := Option.isSome_iff_exists.mp hq.2
    simp only at hk hv
    simp only [encode_entries, hk, hv, List.map_cons, Option.getD_some]
    rw [ih (fun p hp => h p (List.mem_cons_of_mem _ hp))]

theorem decode_value_null (fuel : Nat) :
    decode_value (fuel + 1) (.object [(TYPE_KEY, .string TAG_NULL)]) = some .null := by
  simp [decode_value, napi_typeof, napi_has_named_property, napi_get_named_property,
    find_property, own_props, List.lookup, get_string_value]
  decide

theorem decode_value_undefined (fuel : Nat) :
    decode_value (fuel + 1) (.object [(TYPE_KEY, .string TAG_UNDEFINED)]) = some .undefined := by
  simp [decode_value, napi_typeof, napi_has_named_property, napi_get_named_property,
    find_property, own_props, List.lookup, get_string_value]
  decide


theorem base64_roundtrip (b : List Nat) (hb : ∀ x ∈ b, x < 256) :
    base64_decode (base64_encode b) = b := by
  rw [base64_encode_eq_loop]
  exact base64_decode_encode_loop _ _ (by omega) hb

theorem decode_value_skip_undefined (fuel : Nat) (x : JSValue) :
    (match x with
      | .undefined => none
      | x => decode_value fuel x) = decode_value fuel x := by
  cases x <;> first | rfl | exact (decode_value_not_object fuel _ (by simp)).symm

theorem decode_value_primitive (fuel : Nat) (tag : List Char) (payload : JSValue)
    (h : tag = TAG_NUMBER ∨ tag = TAG_STRING ∨ tag = TAG_BOOLEAN) :
    decode_value (fuel + 1) (.object [(TYPE_KEY, .string tag), (VALUE_KEY, payload)])
      = some payload := by
  rw [decode_value_typed]
  rcases h with rfl | rfl | rfl <;>
    rw [if_neg (by decide), if_neg (by decide), if_neg (by decide), if_pos (by decide)]

theorem decode_value_buffer (fuel : Nat) (payload : JSValue) :
    decode_value (fuel + 1) (.object [(TYPE_KEY, .string TAG_BUFFER), (VALUE_KEY, payload)])
      = some (.buffer (base64_decode (get_string_value payload))) := by
  rw [decode_value_typed, if_neg (by decide), if_neg (by decide), if_neg (by decide),
    if_neg (by decide), if_pos rfl]

/-- The round trip on the values that are valid and plain, with fuel for the
nesting depth of the value. -/
theorem encode_decode_roundtrip (fuel : Nat) :
    ∀ v : JSValue, v.depth ≤ fuel → v.valid = true → v.plain = true →
      ∃ e, encode_value fuel v = some e ∧ decode_value fuel e = some v := by
  induction fuel with
  | zero =>
    intro v hd _ _
    have := depth_pos v
    omega
  | succ fuel ih =>
    intro v hd hvalid hplain
    cases v with
    | null => exact ⟨_, rfl, decode_value_null fuel⟩
    | undefined => exact ⟨_, rfl, decode_value_undefined fuel⟩
    | boolean b =>
      refine ⟨_, by simp only [encode_value, napi_typeof, typed_object_eq]; rfl, ?_⟩
      exact decode_value_primitive fuel _ _ (Or.inr (Or.inr rfl))
    | number x =>
      refine ⟨_, by simp only [encode_value, napi_typeof, typed_object_eq]; rfl, ?_⟩
      exact decode_value_primitive fuel _ _ (Or.inl rfl)
    | string s =>
      refine ⟨_, by simp only [encode_value, napi_typeof, typed_object_eq]; rfl, ?_⟩
      exact decode_value_primitive fuel _ _ (Or.inr (Or.inl rfl))
    | func => simp [JSValue.plain] at hplain
    | buffer bytes =>
      refine ⟨_, by simp only [encode_value, napi_typeof, is_buffer, Bool.true_or, if_true,
        buffer_data, typed_object_eq, create_string]; rfl, ?_⟩
      have hb : ∀ x ∈ bytes, x < 256 := by
        simpa [JSValue.valid] using hvalid
      rw [decode_value_buffer, get_string_value, base64_roundtrip bytes hb]
    | array elems =>
      have hl : is_array_like (.array elems) = true := by simp [is_array_like, is_array]
      simp only [JSValue.depth] at hd
      simp only [JSValue.valid] at hvalid
      simp only [JSValue.plain] at hplain
      refine ⟨_, by simp only [encode_value, napi_typeof, is_buffer, is_uint8_array, is_map, hl,
        Bool.or_self, Bool.false_eq_true, if_false, if_true, encode_array_of_array]; rfl, ?_⟩
      rw [decode_value_array, List.map_map]
      congr 2
      conv_rhs => rw [← List.map_id elems]
      apply List.map_congr_left
      intro slot hs
      obtain ⟨x, rfl, hx⟩ := plain_elems_mem elems hplain slot hs
      obtain ⟨e, h1, h2⟩ := ih x
        (by have := depth_elems_mem elems x hs; omega) (valid_elems_mem elems hvalid x hs) hx
      simp [h1, h2]
    | map entries =>
      simp only [JSValue.depth] at hd
      simp only [JSValue.valid, Bool.and_eq_true] at hvalid
      simp only [JSValue.plain] at hplain
      have hrt : ∀ p ∈ entries,
          (∃ e, encode_value fuel p.1 = some e ∧ decode_value fuel e = some p.1)
          ∧ (∃ e, encode_value fuel p.2 = some e ∧ decode_value fuel e = some p.2) := by
        intro p hp
        have hdp := depth_entries_mem entries p hp
        have hvp := valid_entries_mem entries hvalid.1 p hp
        have hpp := plain_entries_mem entries hplain p hp
        exact ⟨ih p.1 (by omega) hvp.1 hpp.1, ih p.2 (by omega) hvp.2 hpp.2⟩
      have hall := encode_entries_all (encode_value fuel) entries (by
        intro p hp
        obtain ⟨⟨e1, h1, _⟩, ⟨e2, h2, _⟩⟩ := hrt p hp
        simp [h1, h2])
      refine ⟨_, by simp only [encode_value, napi_typeof, is_buffer, is_uint8_array, is_map,
        Bool.or_self, Bool.false_eq_true, if_false, if_true, encode_map_eq, hall]; rfl, ?_⟩
      rw [decode_value_map, List.foldl_map]
      congr 2
      have hfm := foldl_map_set_distinct entries [] (by simpa using hvalid.2)
      rw [List.nil_append] at hfm
      refine Eq.trans ?_ hfm
      apply List.foldl_ext
      intro m p hp
      obtain ⟨⟨e1, h1, h1'⟩, ⟨e2, h2, h2'⟩⟩ := hrt p hp
      simp [h1, h2, h1', h2']
    | object props =>
      simp only [JSValue.depth] at hd
      simp only [JSValue.valid, Bool.and_eq_true] at hvalid
      simp only [JSValue.plain, Bool.and_eq_true, Bool.not_eq_true'] at hplain
      have hnd : (props.map Prod.fst).Nodup := (distinct_names_iff props).mp hvalid.2
      have hgood : ∀ p ∈ props, p.1 ≠ [] ∧ c_str p.1 = p.1 :=
        fun p hp => (plain_props_mem props hplain.1 p hp).1
      have hrt : ∀ p ∈ props,
          ∃ e, encode_value fuel p.2 = some e ∧ decode_value fuel e = some p.2 := by
        intro p hp
        exact ih p.2 (by have := depth_props_mem props p hp; omega)
          (valid_props_mem props hvalid.1 p hp) (plain_props_mem props hplain.1 p hp).2
      have hfields : props.filterMap (fun p => (encode_value fuel p.2).map (fun y => (p.1, y)))
          = props.map (fun p => (p.1, (encode_value fuel p.2).getD .undefined)) := by
        rw [← List.filterMap_eq_map]
        apply List.filterMap_congr
        intro p hp
        obtain ⟨e, h1, _⟩ := hrt p hp
        simp [h1]
      refine ⟨_, by simp only [encode_value, napi_typeof, is_buffer, is_uint8_array, is_map,
        Bool.or_self, Bool.false_eq_true, if_false, hplain.2,
        encode_object_exact _ props hnd hgood, hfields]; rfl, ?_⟩
      rw [decode_value_object fuel _ (by simpa [List.map_map] using hnd)
        (by
          intro q hq
          obtain ⟨p, hp, rfl⟩ := List.mem_map.mp hq
          exact hgood p hp)]
      congr 2
      rw [List.filterMap_map]
      conv_rhs => rw [← List.filterMap_some props]
      apply List.filterMap_congr
      intro p hp
      obtain ⟨e, h1, h2⟩ := hrt p hp
      simp only [Function.comp, h1, Option.getD_some, decode_value_skip_undefined, h2,
        Option.map_some']


theorem envelope_fields (e : JSValue) (h : Envelope e) :
    ∃ tag, tag ∈ RECOGNIZED_TAGS
      ∧ napi_get_named_property e TYPE_KEY = some (.string tag)
      ∧ (napi_has_named_property e VALUE_KEY = some true ↔
          (tag ≠ TAG_NULL ∧ tag ≠ TAG_UNDEFINED)) := by
  have hvt : (VALUE_KEY == TYPE_KEY) = false := by decide
  have hvl : VALUE_KEY ≠ LENGTH := by decide
  cases h with
  | null =>
    refine ⟨TAG_NULL, by decide, by simp [napi_get_named_property, find_property, own_props], ?_⟩
    simp [napi_has_named_property, find_property, own_props, List.lookup, hvt, hvl, length_prop]
  | undefined =>
    refine ⟨TAG_UNDEFINED, by decide,
      by simp [napi_get_named_property, find_property, own_props], ?_⟩
    simp [napi_has_named_property, find_property, own_props, List.lookup, hvt, hvl, length_prop]
  | number x hx =>
    refine ⟨TAG_NUMBER, by decide, by simp [napi_get_named_property, find_property, own_props], ?_⟩
    simp [napi_has_named_property, find_property, own_props, List.lookup, hvt]
    decide
  | string x hx =>
    refine ⟨TAG_STRING, by decide, by simp [napi_get_named_property, find_property, own_props], ?_⟩
    simp [napi_has_named_property, find_property, own_props, List.lookup, hvt]
    decide
  | boolean x hx =>
    refine ⟨TAG_BOOLEAN, by decide,
      by simp [napi_get_named_property, find_property, own_props], ?_⟩
    simp [napi_has_named_property, find_property, own_props, List.lookup, hvt]
    decide
  | buffer text =>
    refine ⟨TAG_BUFFER, by decide, by simp [napi_get_named_property, find_property, own_props], ?_⟩
    simp [napi_has_named_property, find_property, own_props, List.lookup, hvt]
    decide
  | array slots hs =>
    refine ⟨TAG_ARRAY, by decide, by simp [napi_get_named_property, find_property, own_props], ?_⟩
    simp [napi_has_named_property, find_property, own_props, List.lookup, hvt]
    decide
  | object fields hf =>
    refine ⟨TAG_OBJECT, by decide, by simp [napi_get_named_property, find_property, own_props], ?_⟩
    simp [napi_has_named_property, find_property, own_props, List.lookup, hvt]
    decide
  | map pairs hk hv =>
    refine ⟨TAG_MAP, by decide, by simp [napi_get_named_property, find_property, own_props], ?_⟩
    simp [napi_has_named_property, find_property, own_props, List.lookup, hvt]
    decide

/-! ## The envelope encoder and decoder: the claims -/

/-- C2, as the specification states it, fails: the Record with the single property
`"" : null`, the Record with the single property `length : 2`, and the Record whose
only key is `a`, NUL, `b` are built from Records, Null and Numbers, yet their
encodings decode to the empty Record, to a List of two `undefined`, and to a
Record with the key `a`. -/
theorem encode_decode_not_identity :
    (encode_value 2 (.object [([], .null)])).bind (decode_value 2) = some (.object [])
      ∧ JSValue.object [] ≠ .object [([], .null)]
      ∧ (encode_value 2 (.object [(LENGTH, .number 2)])).bind (decode_value 2)
          = some (.array [some .undefined, some .undefined])
      ∧ JSValue.array [some .undefined, some .undefined] ≠ .object [(LENGTH, .number 2)]
      ∧ (encode_value 2 (.object [(['a', Char.ofNat 0, 'b'], .number 1)])).bind (decode_value 2)
          = some (.object [(['a'], .undefined)])
      ∧ JSValue.object [(['a'], .undefined)] ≠ .object [(['a', Char.ofNat 0, 'b'], .number 1)] := by
  refine ⟨rfl, by simp, rfl, by simp, rfl, by simp⟩

/-- C5, as the specification states it, fails: the tag of an encoded Blob is
`Buffer`, which is not one of the nine tags the specification lists. -/
theorem encode_value_buffer_tag :
    encode_value 1 (.buffer [0, 1, 2])
        = some (.object [(TYPE_KEY, .string TAG_BUFFER),
            (VALUE_KEY, .string ['A', 'A', 'E', 'C'])])
      ∧ TAG_BUFFER ∉ SPEC_TAGS := by
  exact ⟨rfl, by decide⟩

/-- C5, amended: every value returned by a successful `encode_value` is a
well-formed envelope: a Record with the field `$type`, whose tag is one of `null`,
`undefined`, `number`, `string`, `boolean`, `Buffer`, `Array`, `Object`, `Map`, and
with the field `$value` exactly when the tag is neither `null` nor `undefined`, and
no other field; every envelope nested in an `Array`, `Object` or `Map` payload
satisfies the same invariant. -/
theorem encode_value_well_formed (fuel : Nat) (v e : JSValue)
    (h : encode_value fuel v = some e) :
    Envelope e
      ∧ ∃ tag, tag ∈ RECOGNIZED_TAGS
          ∧ napi_get_named_property e TYPE_KEY = some (.string tag)
          ∧ (napi_has_named_property e VALUE_KEY = some true ↔
              (tag ≠ TAG_NULL ∧ tag ≠ TAG_UNDEFINED)) :=
  ⟨encode_value_envelope fuel v e h, envelope_fields e (encode_value_envelope fuel v e h)⟩

theorem encode_value_well_formed_witness :
    Envelope (.object [(TYPE_KEY, .string TAG_ARRAY),
        (VALUE_KEY, .array [some (.object [(TYPE_KEY, .string TAG_NULL)]), none])])
      ∧ ∃ tag, tag ∈ RECOGNIZED_TAGS
          ∧ napi_get_named_property (.object [(TYPE_KEY, .string TAG_ARRAY),
              (VALUE_KEY, .array [some (.object [(TYPE_KEY, .string TAG_NULL)]), none])]) TYPE_KEY
              = some (.string tag)
          ∧ (napi_has_named_property (.object [(TYPE_KEY, .string TAG_ARRAY),
              (VALUE_KEY, .array [some (.object [(TYPE_KEY, .string TAG_NULL)]), none])]) VALUE_KEY
              = some true ↔ (tag ≠ TAG_NULL ∧ tag ≠ TAG_UNDEFINED)) :=
  encode_value_well_formed 2 (.array [some .null, some .func]) _ rfl

/-- C10: `decode_value` fails, and `rpc_decode` throws `Invalid encoded object`, for
every input that is not a Record, for every Record without a `$type` field, and for
every Record whose `$type` is not one of the recognized tags (a `$type` that is not a
text reads as the empty text, which is not recognized). -/
theorem decode_value_invalid (fuel : Nat) :
    (∀ obj : JSValue, (∀ props, obj ≠ .object props) →
        decode_value fuel obj = none ∧ rpc_decode fuel obj = .error "Invalid encoded object")
      ∧ (∀ props : List (List Char × JSValue), props.lookup TYPE_KEY = none →
          decode_value fuel (.object props) = none
            ∧ rpc_decode fuel (.object props) = .error "Invalid encoded object")
      ∧ (∀ (props : List (List Char × JSValue)) (type_val : JSValue),
          props.lookup TYPE_KEY = some type_val →
          get_string_value type_val ∉ RECOGNIZED_TAGS →
          decode_value fuel (.object props) = none
            ∧ rpc_decode fuel (.object props) = .error "Invalid encoded object")
      ∧ ([] : List Char) ∉ RECOGNIZED_TAGS := by
  refine ⟨?_, ?_, ?_, by decide⟩
  · intro obj h
    have := decode_value_not_object fuel obj h
    exact ⟨this, by simp [rpc_decode, this]⟩
  · intro props h
    have := decode_value_no_type fuel props h
    exact ⟨this, by simp [rpc_decode, this]⟩
  · intro props type_val h ht
    have := decode_value_unrecognized fuel props type_val h ht
    exact ⟨this, by simp [rpc_decode, this]⟩

theorem decode_value_invalid_witness :
    (decode_value 5 (.array [some .null]) = none
        ∧ rpc_decode 5 (.array [some .null]) = .error "Invalid encoded object")
      ∧ (decode_value 5 (.object [(VALUE_KEY, .number 1)]) = none
        ∧ rpc_decode 5 (.object [(VALUE_KEY, .number 1)]) = .error "Invalid encoded object")
      ∧ (decode_value 5 (.object [(TYPE_KEY, .string ['b', 'i', 'n', 'a', 'r', 'y']),
            (VALUE_KEY, .string [])]) = none
        ∧ rpc_decode 5 (.object [(TYPE_KEY, .string ['b', 'i', 'n', 'a', 'r', 'y']),
            (VALUE_KEY, .string [])]) = .error "Invalid encoded object") :=
  ⟨(decode_value_invalid 5).1 _ (by simp),
   (decode_value_invalid 5).2.1 _ rfl,
   (decode_value_invalid 5).2.2.1 _ (.string ['b', 'i', 'n', 'a', 'r', 'y']) rfl (by decide)⟩



/-! ## Lemmas about the JSON text codec -/

theorem strtoul16_hex4 :
    ∀ n, n < 32 →
      strtoul16 [hex_char (n / 4096), hex_char (n / 256), hex_char (n / 16), hex_char n] % 2 ^ 32
        = n := by
  decide

theorem parse_string_loop_escape (fuel : Nat) (c : Char) (tail acc : List Char) :
    parse_string_loop (fuel + 1) (escape_char c ++ tail) acc
      = parse_string_loop fuel tail (acc ++ [c]) := by
  unfold escape_char
  split
  · rename_i h; subst h; simp [parse_string_loop]
  split
  · rename_i h; subst h; simp [parse_string_loop]
  split
  · rename_i h; subst h; simp [parse_string_loop]
  split
  · rename_i h; subst h; simp [parse_string_loop]
  split
  · rename_i h; subst h; simp [parse_string_loop]
  split
  · rename_i h; subst h; simp [parse_string_loop]
  split
  · rename_i h; subst h; simp [parse_string_loop]
  split
  · rename_i h1 h2 h3 h4 h5 h6 h7 h
    have hcp : strtoul16 [hex_char (c.toNat / 4096), hex_char (c.toNat / 256),
        hex_char (c.toNat / 16), hex_char c.toNat] % 4294967296 = c.toNat :=
      strtoul16_hex4 c.toNat h
    have hle : c.toNat ≤ 127 := by omega
    simp only [parse_string_loop, List.cons_append, List.nil_append]
    simp [hcp, hle, Char.ofNat_toNat]
  · rename_i h1 h2 h3 h4 h5 h6 h7 h
    simp [parse_string_loop, h1, h2]


theorem escape_json_string_cons (c : Char) (s : List Char) :
    escape_json_string (c :: s) = escape_char c ++ escape_json_string s := by
  simp [escape_json_string]

theorem escape_char_length_pos (c : Char) : 1 ≤ (escape_char c).length := by
  unfold escape_char
  split_ifs <;> simp

theorem escape_json_string_length (s : List Char) : s.length ≤ (escape_json_string s).length := by
  induction s with
  | nil => simp [escape_json_string]
  | cons c s ih =>
    rw [escape_json_string_cons, List.length_append, List.length_cons]
    have := escape_char_length_pos c
    omega

theorem parse_string_loop_escaped (s : List Char) :
    ∀ (fuel : Nat) (acc rest : List Char), s.length + 1 ≤ fuel →
      parse_string_loop fuel (escape_json_string s ++ '"' :: rest) acc
        = (acc ++ s, '"' :: rest) := by
  induction s with
  | nil =>
    intro fuel acc rest h
    obtain ⟨f, rfl⟩ : ∃ f, fuel = f + 1 := ⟨fuel - 1, by omega⟩
    simp [escape_json_string, parse_string_loop]
  | cons c s ih =>
    intro fuel acc rest h
    obtain ⟨f, rfl⟩ : ∃ f, fuel = f + 1 := ⟨fuel - 1, by omega⟩
    rw [escape_json_string_cons, List.append_assoc, parse_string_loop_escape,
      ih f _ rest (by simp only [List.length_cons] at h; omega)]
    simp

theorem parse_string_escaped (s rest : List Char) :
    parse_string ('"' :: (escape_json_string s ++ '"' :: rest)) = (s, rest) := by
  have h := parse_string_loop_escaped s (escape_json_string s ++ '"' :: rest).length [] rest
    (by
      have := escape_json_string_length s
      simp only [List.length_append, List.length_cons]
      omega)
  simp only [parse_string, if_true, h]
  simp

theorem digit_char_toNat (n : Nat) : (digit_char n).toNat - 48 = n % 10 := by
  have h : n % 10 < 10 := Nat.mod_lt _ (by omega)
  unfold digit_char
  generalize n % 10 = r at h
  interval_cases r <;> rfl

theorem digit_char_eq_zero (n : Nat) (h : digit_char n = '0') : n % 10 = 0 := by
  have := digit_char_toNat n
  rw [h] at this
  exact this.symm

theorem is_digit_digit_char (n : Nat) : is_digit (digit_char n) = true := by
  have := digit_char_is_digit n
  simp [is_digit, this.1, this.2]

theorem digits_value_append (l : List Char) (c : Char) :
    digits_value (l ++ [c]) = digits_value l * 10 + (c.toNat - 48) := by
  simp [digits_value, List.foldl_append]

/-- The numeral `decimal_digits` writes in front of `acc`: its digits, its value,
and no leading zero except for the numeral `0`. -/
theorem decimal_digits_spec (fuel : Nat) :
    ∀ (n : Nat) (acc : List Char), n < fuel →
      ∃ L : List Char, decimal_digits fuel n acc = L ++ acc
        ∧ digits_value L = n ∧ (∀ c ∈ L, is_digit c = true) ∧ L ≠ []
        ∧ (L.head? = some '0' → L = ['0']) := by
  induction fuel with
  | zero => intro n acc h; omega
  | succ fuel ih =>
    intro n acc h
    unfold decimal_digits
    split
    · rename_i hn
      refine ⟨[digit_char n], rfl, ?_, ?_, by simp, ?_⟩
      · have := digit_char_toNat n
        simp only [digits_value, List.foldl_cons, List.foldl_nil, Nat.zero_mul, Nat.zero_add,
          this]
        omega
      · intro c hc
        simp only [List.mem_singleton] at hc
        subst hc; exact is_digit_digit_char n
      · intro h0
        simp only [List.head?_cons, Option.some.injEq] at h0
        rw [h0]
    · rename_i hn
      obtain ⟨L, h1, h2, h3, h4, h5⟩ := ih (n / 10) (digit_char n :: acc) (by omega)
      refine ⟨L ++ [digit_char n], by rw [h1]; simp, ?_, ?_, by simp, ?_⟩
      · rw [digits_value_append, h2, digit_char_toNat]
        omega
      · intro c hc
        rcases List.mem_append.mp hc with hc | hc
        · exact h3 c hc
        · simp only [List.mem_singleton] at hc
          subst hc; exact is_digit_digit_char n
      · intro h0
        exfalso
        cases L with
        | nil => exact h4 rfl
        | cons d t =>
          simp only [List.cons_append, List.head?_cons, Option.some.injEq] at h0
          have := h5 (by simp [h0])
          rw [this] at h2
          have hz : digits_value ['0'] = 0 := rfl
          rw [hz] at h2
          omega

theorem to_string_nat_spec (n : Nat) :
    digits_value (to_string_nat n) = n ∧ (∀ c ∈ to_string_nat n, is_digit c = true)
      ∧ to_string_nat n ≠ [] ∧ ((to_string_nat n).head? = some '0' → to_string_nat n = ['0']) := by
  obtain ⟨L, h1, h2, h3, h4, h5⟩ := decimal_digits_spec (n + 1) n [] (by omega)
  have : to_string_nat n = L := by simp [to_string_nat, h1]
  rw [this]
  exact ⟨h2, h3, h4, h5⟩

theorem takeWhile_digits_append (L rest : List Char) (hL : ∀ c ∈ L, is_digit c = true)
    (hrest : ∀ c, rest.head? = some c → is_digit c = false) :
    (L ++ rest).takeWhile is_digit = L ∧ (L ++ rest).dropWhile is_digit = rest := by
  induction L with
  | nil =>
    cases rest with
    | nil => simp
    | cons c t =>
      have := hrest c rfl
      simp [List.takeWhile_cons, List.dropWhile_cons, this]
  | cons d t ih =>
    have hd := hL d (List.mem_cons_self _ _)
    have := ih (fun c hc => hL c (List.mem_cons_of_mem _ hc))
    simp [List.takeWhile_cons, List.dropWhile_cons, hd, this.1, this.2]

theorem is_digit_iff (c : Char) : is_digit c = true ↔ 48 ≤ c.toNat ∧ c.toNat ≤ 57 := by
  simp only [is_digit, decide_eq_true_eq, char_le_iff]
  exact Iff.rfl

theorem char_eq_of_toNat (c d : Char) (h : c.toNat = d.toNat) : c = d := by
  rw [← Char.ofNat_toNat c, ← Char.ofNat_toNat d, h]

theorem digits_value_nil : digits_value [] = 0 := rfl

theorem strtod_digits (L : List Char) (hL : ∀ c ∈ L, is_digit c = true) (hne : L ≠ []) :
    strtod L = ((digits_value L : Int) : ℚ) ∧ strtod ('-' :: L) = ((-(digits_value L : Int) : Int) : ℚ) := by
  have htd := takeWhile_digits_append L [] hL (by simp)
  simp only [List.append_nil] at htd
  obtain ⟨d, t, rfl⟩ : ∃ d t, L = d :: t := by
    cases L with
    | nil => exact absurd rfl hne
    | cons d t => exact ⟨d, t, rfl⟩
  have hd : is_digit d = true := hL d (List.mem_cons_self _ _)
  have hd1 : d ≠ '-' := by
    intro e; rw [e] at hd; exact absurd hd (by decide)
  have hd2 : d ≠ '+' := by
    intro e; rw [e] at hd; exact absurd hd (by decide)
  constructor
  · simp [strtod, hd1, hd2, htd.1, htd.2, digits_value_nil]
  · simp [strtod, htd.1, htd.2, digits_value_nil]

theorem strtod_to_string_int (n : Int) : strtod (to_string_int n) = (n : ℚ) := by
  unfold to_string_int
  split
  · rename_i h
    obtain ⟨h1, h2, h3, _⟩ := to_string_nat_spec n.natAbs
    rw [(strtod_digits _ h2 h3).2, h1]
    congr 1
    omega
  · rename_i h
    obtain ⟨h1, h2, h3, _⟩ := to_string_nat_spec n.toNat
    rw [(strtod_digits _ h2 h3).1, h1]
    congr 1
    omega

/-- The scan stops right after a numeral that is followed by a character that
cannot extend it. -/
theorem parse_number_scan_digits (L rest : List Char) (hL : ∀ c ∈ L, is_digit c = true)
    (hne : L ≠ []) (hz : L.head? = some '0' → L = ['0'])
    (hrest : ∀ c, rest.head? = some c → is_digit c = false ∧ c ≠ '.' ∧ c ≠ 'e' ∧ c ≠ 'E') :
    parse_number_scan (L ++ rest) = rest ∧ parse_number_scan ('-' :: (L ++ rest)) = rest := by
  have htd := takeWhile_digits_append L rest hL (fun c hc => (hrest c hc).1)
  obtain ⟨d, t, rfl⟩ : ∃ d t, L = d :: t := by
    cases L with
    | nil => exact absurd rfl hne
    | cons d t => exact ⟨d, t, rfl⟩
  have hd : is_digit d = true := hL d (List.mem_cons_self _ _)
  have hd1 : d ≠ '-' := by
    intro e; rw [e] at hd; exact absurd hd (by decide)
  have hdot : rest.head? ≠ some '.' := fun e => (hrest _ e).2.1 rfl
  have he : rest.head? ≠ some 'e' := fun e => (hrest _ e).2.2.1 rfl
  have hE : rest.head? ≠ some 'E' := fun e => (hrest _ e).2.2.2 rfl
  by_cases h0 : d = '0'
  · have ht : t = [] := by
      have := hz (by simp [h0])
      exact (List.cons.inj this).2
    subst ht; subst h0
    constructor <;> simp [parse_number_scan, hdot, he, hE]
  · have hrange : '1' ≤ d ∧ d ≤ '9' := by
      have := (is_digit_iff d).mp hd
      have hne0 : d.toNat ≠ 48 := fun e => h0 (char_eq_of_toNat d '0' e)
      rw [char_le_iff, char_le_iff]
      have h1 : '1'.toNat = 49 := rfl
      have h9 : '9'.toNat = 57 := rfl
      omega
    have htd' := htd
    simp only [List.cons_append] at htd'
    constructor
    · simp [parse_number_scan, hd1, h0, hrange, htd'.2, hdot, he, hE]
    · simp [parse_number_scan, h0, hrange, htd'.2, hdot, he, hE]

theorem take_length_sub (pre rest : List Char) :
    (pre ++ rest).take ((pre ++ rest).length - rest.length) = pre := by
  rw [List.length_append, Nat.add_sub_cancel]
  simp

theorem parse_number_digits (L rest : List Char) (hL : ∀ c ∈ L, is_digit c = true)
    (hne : L ≠ []) (hz : L.head? = some '0' → L = ['0'])
    (hrest : ∀ c, rest.head? = some c → is_digit c = false ∧ c ≠ '.' ∧ c ≠ 'e' ∧ c ≠ 'E') :
    parse_number (L ++ rest) = (strtod L, rest)
      ∧ parse_number ('-' :: (L ++ rest)) = (strtod ('-' :: L), rest) := by
  obtain ⟨h1, h2⟩ := parse_number_scan_digits L rest hL hne hz hrest
  constructor
  · simp only [parse_number, h1, take_length_sub]
  · have := take_length_sub ('-' :: L) rest
    simp only [List.cons_append] at this
    simp only [parse_number, h2, this]

theorem parse_number_to_string_int (n : Int) (rest : List Char)
    (hrest : ∀ c, rest.head? = some c → is_digit c = false ∧ c ≠ '.' ∧ c ≠ 'e' ∧ c ≠ 'E') :
    parse_number (to_string_int n ++ rest) = ((n : ℚ), rest) := by
  rw [← strtod_to_string_int n]
  unfold to_string_int
  split
  · obtain ⟨_, h2, h3, h4⟩ := to_string_nat_spec n.natAbs
    exact (parse_number_digits _ rest h2 h3 h4 hrest).2
  · obtain ⟨_, h2, h3, h4⟩ := to_string_nat_spec n.toNat
    exact (parse_number_digits _ rest h2 h3 h4 hrest).1




theorem comma_join_cons (x : List Char) (l : List (List Char)) :
    comma_join (x :: l) = x ++ (if l = [] then [] else ',' :: comma_join l) := by
  cases l with
  | nil => simp [comma_join]
  | cons y t => simp [comma_join]

theorem comma_join_concat (l : List (List Char)) (x : List Char) :
    comma_join (l ++ [x]) = if l = [] then x else comma_join l ++ ',' :: x := by
  induction l with
  | nil => simp [comma_join]
  | cons y t ih =>
    rw [List.cons_append, comma_join_cons, ih, comma_join_cons]
    by_cases ht : t = []
    · subst ht; simp
    · simp [ht]

/-- The text the array loop of `value_to_json` builds. -/
theorem json_array_loop_eq (f : JSValue → List Char) (elems : List (Option JSValue)) :
    ∀ k, k ≤ elems.length →
      (List.range k).foldl (json_array_step f (.array elems)) ['[']
        = '[' :: comma_join ((elems.take k).map (fun slot => f (slot.getD .undefined))) := by
  intro k
  induction k with
  | zero => intro _; simp [comma_join]
  | succ k ih =>
    intro hk
    have hk' : k < elems.length := by omega
    rw [List.range_succ, List.foldl_append, ih (by omega)]
    have htake : elems.take (k + 1) = elems.take k ++ [elems.getD k none] := by
      rw [List.take_succ, List.getD_eq_getElem?_getD, List.getElem?_eq_getElem hk']
      simp
    rw [htake, List.map_append, List.map_singleton, comma_join_concat]
    simp only [List.foldl_cons, List.foldl_nil, json_array_step, napi_get_element]
    by_cases h0 : k = 0
    · subst h0; simp [comma_join]
    · have hne : (elems.take k).map (fun slot => f (slot.getD .undefined)) ≠ [] := by
        intro e
        have := congrArg List.length e
        simp only [List.length_map, List.length_take, List.length_nil] at this
        omega
      rw [if_neg hne, if_pos (Nat.pos_of_ne_zero h0)]
      simp

theorem json_array_eq (fuel : Nat) (elems : List (Option JSValue)) :
    value_to_json (fuel + 1) (.array elems)
      = '[' :: (comma_join (elems.map (fun slot => value_to_json fuel (slot.getD .undefined)))
          ++ [']']) := by
  have := json_array_loop_eq (value_to_json fuel) elems elems.length (le_refl _)
  simp only [List.take_length] at this
  simp only [value_to_json, napi_typeof, is_array, if_true, napi_get_array_length, this,
    List.cons_append]

/-- The text the object loop of `value_to_json` builds, for properties with
distinct, non-empty, NUL-free names. -/
theorem json_object_loop_eq (f : JSValue → List Char) (obj : JSValue) :
    ∀ (suf : List (List Char × JSValue)) (st : List Char × Bool),
      (∀ p ∈ suf, ∀ st : List Char × Bool, json_object_step f obj st p.1 =
        ((if st.2 then st.1 else st.1 ++ [',']) ++ json_member f p, false)) →
      ((suf.map Prod.fst).foldl (json_object_step f obj) st).1
        = st.1 ++ (if suf.isEmpty then []
            else (if st.2 then [] else [',']) ++ comma_join (suf.map (json_member f))) := by
  intro suf
  induction suf with
  | nil => intro st _; simp
  | cons p t ih =>
    intro st hstep
    rw [List.map_cons, List.foldl_cons, hstep p (List.mem_cons_self _ _) st,
      ih _ (fun q hq => hstep q (List.mem_cons_of_mem _ hq))]
    rw [List.map_cons, comma_join_cons]
    cases t with
    | nil => cases st.2 <;> simp
    | cons q t' => cases st.2 <;> simp

theorem json_object_eq (fuel : Nat) (props : List (List Char × JSValue))
    (hnd : (props.map Prod.fst).Nodup) (hgood : ∀ p ∈ props, p.1 ≠ [] ∧ c_str p.1 = p.1) :
    value_to_json (fuel + 1) (.object props)
      = '{' :: (comma_join (props.map (json_member (value_to_json fuel))) ++ ['}']) := by
  have h := json_object_loop_eq (value_to_json fuel) (.object props) props (['{'], true)
    (by
      intro p hp st
      obtain ⟨h1, h2⟩ := hgood p hp
      have hl := lookup_of_mem_nodup props hnd p hp
      have hf := find_property_object props p.1 p.2 hl
      simp only [json_object_step, get_string_value, ne_eq, h1, not_false_eq_true, if_true, h2,
        napi_get_named_property, hf, Option.getD_some, json_member]
      cases st.2 <;> simp)
  simp only [value_to_json, napi_typeof, is_array, Bool.false_eq_true, if_false,
    napi_get_property_names, own_props, h]
  cases props with
  | nil => simp [comma_join]
  | cons p t => simp

theorem digit_not_special (c : Char) (h : is_digit c = true) :
    is_json_space c = false ∧ c ≠ 'n' ∧ c ≠ 't' ∧ c ≠ 'f' ∧ c ≠ '"' ∧ c ≠ '-' ∧ c ≠ '['
      ∧ c ≠ '{' ∧ c ≠ ']' ∧ c ≠ '}' ∧ c ≠ ',' := by
  have hb := (is_digit_iff c).mp h
  have key : ∀ d : Char, ¬ (48 ≤ d.toNat ∧ d.toNat ≤ 57) → c ≠ d := by
    intro d hd e
    rw [e] at hb
    exact hd hb
  refine ⟨?_, key _ (by decide), key _ (by decide), key _ (by decide), key _ (by decide),
    key _ (by decide), key _ (by decide), key _ (by decide), key _ (by decide),
    key _ (by decide), key _ (by decide)⟩
  simp [is_json_space, key ' ' (by decide), key '\t' (by decide), key '\n' (by decide),
    key '\r' (by decide)]

theorem json_start_spec (c : Char) (h : json_start c = true) :
    is_json_space c = false ∧ c ≠ ']' ∧ c ≠ '}' ∧ c ≠ ',' := by
  simp only [json_start, Bool.or_eq_true, decide_eq_true_eq] at h
  rcases h with ((((((h | h) | h) | h) | h) | h) | h) | h
  · subst h; decide
  · subst h; decide
  · subst h; decide
  · subst h; decide
  · subst h; decide
  · subst h; decide
  · subst h; decide
  · have := digit_not_special c h
    exact ⟨this.1, this.2.2.2.2.2.2.2.2.1, this.2.2.2.2.2.2.2.2.2.1, this.2.2.2.2.2.2.2.2.2.2⟩

theorem skip_whitespace_cons (c : Char) (t : List Char) (h : is_json_space c = false) :
    skip_whitespace (c :: t) = c :: t := by
  simp [skip_whitespace, h]

theorem follows_ok_nil : follows_ok [] := by
  intro c h; simp at h

theorem follows_ok_cons (d : Char) (t : List Char)
    (h : d = ',' ∨ d = ']' ∨ d = '}') : follows_ok (d :: t) := by
  intro c hc
  simp only [List.head?_cons, Option.some.injEq] at hc
  subst hc
  rcases h with h | h | h <;> subst h <;> decide

theorem parse_value_null (fuel : Nat) (rest : List Char) :
    parse_value (fuel + 1) (NULL_TEXT ++ rest) = (some .null, rest) := by
  simp [parse_value, NULL_TEXT, skip_whitespace, is_json_space, match_string]

theorem parse_value_true (fuel : Nat) (rest : List Char) :
    parse_value (fuel + 1) (TRUE_TEXT ++ rest) = (some (.boolean true), rest) := by
  simp [parse_value, TRUE_TEXT, NULL_TEXT, skip_whitespace, is_json_space, match_string]

theorem parse_value_false (fuel : Nat) (rest : List Char) :
    parse_value (fuel + 1) (FALSE_TEXT ++ rest) = (some (.boolean false), rest) := by
  simp [parse_value, FALSE_TEXT, TRUE_TEXT, NULL_TEXT, skip_whitespace, is_json_space,
    match_string]

theorem parse_value_string (fuel : Nat) (s rest : List Char) :
    parse_value (fuel + 1) ('"' :: (escape_json_string s ++ '"' :: rest))
      = (some (.string s), rest) := by
  have h := parse_string_escaped s rest
  simp [parse_value, skip_whitespace, is_json_space, h, create_string]

theorem to_string_int_start (n : Int) :
    ∃ c t, to_string_int n = c :: t ∧ (c = '-' ∨ is_digit c = true) := by
  unfold to_string_int
  split
  · exact ⟨'-', _, rfl, Or.inl rfl⟩
  · obtain ⟨_, h2, h3, _⟩ := to_string_nat_spec n.toNat
    cases h : to_string_nat n.toNat with
    | nil => exact absurd h h3
    | cons c t => exact ⟨c, t, rfl, Or.inr (h2 c (by rw [h]; exact List.mem_cons_self _ _))⟩

theorem parse_value_number (fuel : Nat) (n : Int) (rest : List Char) (hrest : follows_ok rest) :
    parse_value (fuel + 1) (to_string_int n ++ rest) = (some (.number (n : ℚ)), rest) := by
  have hp := parse_number_to_string_int n rest hrest
  obtain ⟨c, t, hct, hc⟩ := to_string_int_start n
  rw [hct] at hp ⊢
  rcases hc with rfl | hc
  · simp only [List.cons_append] at hp ⊢
    simp [parse_value, skip_whitespace, is_json_space, hp]
  · obtain ⟨h0, h1, h2, h3, h4, h5, h6, h7, _⟩ := digit_not_special c hc
    have hd := (is_digit_iff c).mp hc
    have hle : '0' ≤ c ∧ c ≤ '9' := by
      rw [char_le_iff, char_le_iff]; exact hd
    simp only [List.cons_append] at hp ⊢
    simp [parse_value, skip_whitespace, h0, h1, h2, h3, h4, hle, hp]

theorem parse_array_loop_last (fuel : Nat) (j tail : List Char) (e arr : JSValue) (idx : Nat)
    (hj : j ≠ []) (hp : parse_value fuel (j ++ ']' :: tail) = (some e, ']' :: tail)) :
    parse_array_loop (fuel + 1) (j ++ ']' :: tail) arr idx
      = (some (napi_set_element arr idx e), tail) := by
  obtain ⟨c, tl, rfl⟩ : ∃ c tl, j = c :: tl := by
    cases j with
    | nil => exact absurd rfl hj
    | cons c tl => exact ⟨c, tl, rfl⟩
  simp only [List.cons_append] at hp ⊢
  simp [parse_array_loop, hp, skip_whitespace, is_json_space]

theorem parse_array_loop_next (fuel : Nat) (j tail : List Char) (e arr : JSValue) (idx : Nat)
    (hj : j ≠ []) (hp : parse_value fuel (j ++ ',' :: tail) = (some e, ',' :: tail)) :
    parse_array_loop (fuel + 1) (j ++ ',' :: tail) arr idx
      = parse_array_loop fuel (skip_whitespace tail) (napi_set_element arr idx e) (idx + 1) := by
  obtain ⟨c, tl, rfl⟩ : ∃ c tl, j = c :: tl := by
    cases j with
    | nil => exact absurd rfl hj
    | cons c tl => exact ⟨c, tl, rfl⟩
  simp only [List.cons_append] at hp ⊢
  simp [parse_array_loop, hp, skip_whitespace, is_json_space]

theorem comma_join_start (j : JSValue → List Char) (e : JSValue) (t : List JSValue)
    (he : parses_back (j e) e) :
    ∃ c tl, comma_join ((e :: t).map j) = c :: tl ∧ json_start c = true := by
  obtain ⟨⟨c, tl, h1, h2⟩, _⟩ := he
  rw [List.map_cons, comma_join_cons, h1]
  exact ⟨c, _, rfl, h2⟩

theorem parse_array_loop_elems (j : JSValue → List Char) (rest : List Char) :
    ∀ (es : List JSValue), es ≠ [] → (∀ e ∈ es, parses_back (j e) e) →
      ∀ (done : List JSValue) (fuel : Nat), 2 * (comma_join (es.map j)).length + 2 ≤ fuel →
        parse_array_loop fuel (comma_join (es.map j) ++ ']' :: rest)
            (.array (done.map some)) done.length
          = (some (.array ((done ++ es).map some)), rest) := by
  intro es
  induction es with
  | nil => intro h; exact absurd rfl h
  | cons e t ih =>
    intro _ hall done fuel hfuel
    obtain ⟨f, rfl⟩ : ∃ f, fuel = f + 1 := ⟨fuel - 1, by omega⟩
    have he := hall e (List.mem_cons_self _ _)
    obtain ⟨⟨c, tl, hc1, hc2⟩, _, hparse⟩ := he
    have hjne : j e ≠ [] := by rw [hc1]; simp
    have hset : napi_set_element (.array (done.map some)) done.length e
        = .array ((done ++ [e]).map some) := by
      have := set_slot_length_self (done.map some) e
      rw [List.length_map] at this
      simp [napi_set_element, this]
    cases t with
    | nil =>
      simp only [List.map_cons, List.map_nil, comma_join] at hfuel ⊢
      rw [parse_array_loop_last f (j e) rest e _ _ hjne
        (hparse f _ (by omega) (follows_ok_cons _ _ (Or.inr (Or.inl rfl)))), hset]
    | cons e2 t' =>
      have hcj : comma_join ((e :: e2 :: t').map j)
          = j e ++ ',' :: comma_join ((e2 :: t').map j) := by
        simp [comma_join]
      rw [hcj] at hfuel ⊢
      simp only [List.length_append, List.length_cons] at hfuel
      rw [List.append_assoc, List.cons_append,
        parse_array_loop_next f (j e) _ e _ _ hjne
          (hparse f _ (by omega) (follows_ok_cons _ _ (Or.inl rfl))), hset]
      obtain ⟨c2, tl2, hs1, hs2⟩ := comma_join_start j e2 t' (hall e2 (by simp))
      have hsk : skip_whitespace (comma_join ((e2 :: t').map j) ++ ']' :: rest)
          = comma_join ((e2 :: t').map j) ++ ']' :: rest := by
        rw [hs1, List.cons_append]
        exact skip_whitespace_cons _ _ (json_start_spec c2 hs2).1
      rw [hsk]
      have := ih (by simp) (fun x hx => hall x (List.mem_cons_of_mem _ hx)) (done ++ [e]) f
        (by omega)
      rw [List.length_append, List.length_singleton] at this
      rw [this]
      simp

theorem parse_value_array (fuel : Nat) (j : JSValue → List Char) (es : List JSValue)
    (rest : List Char) (hall : ∀ e ∈ es, parses_back (j e) e)
    (hfuel : 2 * (comma_join (es.map j)).length + 3 ≤ fuel) :
    parse_value fuel ('[' :: (comma_join (es.map j) ++ ']' :: rest))
      = (some (.array (es.map some)), rest) := by
  obtain ⟨f, rfl⟩ : ∃ f, fuel = f + 1 := ⟨fuel - 1, by omega⟩
  cases es with
  | nil => simp [parse_value, skip_whitespace, is_json_space, comma_join, match_string]
  | cons e t =>
    obtain ⟨c, tl, hs1, hs2⟩ := comma_join_start j e t (hall e (List.mem_cons_self _ _))
    obtain ⟨h1, h2, _, _⟩ := json_start_spec c hs2
    have hloop := parse_array_loop_elems j rest (e :: t) (by simp) hall [] f (by omega)
    simp only [List.map_nil, List.length_nil, List.nil_append] at hloop
    rw [hs1] at hloop ⊢
    simp only [List.cons_append] at hloop ⊢
    have hsk := skip_whitespace_cons c (tl ++ ']' :: rest) h1
    have hsk0 := skip_whitespace_cons '[' (c :: (tl ++ ']' :: rest)) (by decide)
    simp only [parse_value, hsk0, hsk]
    simp [match_string, h2, hloop]

theorem parse_object_loop_last (fuel : Nat) (k jv tail : List Char) (v obj : JSValue)
    (hk : k ≠ [])
    (hp : parse_value fuel (jv ++ '}' :: tail) = (some v, '}' :: tail)) :
    parse_object_loop (fuel + 1)
        ('"' :: (escape_json_string k ++ '"' :: ':' :: (jv ++ '}' :: tail))) obj
      = (some (napi_set_named_property obj (c_str k) v), tail) := by
  have hs := parse_string_escaped k (':' :: (jv ++ '}' :: tail))
  have hsk0 := skip_whitespace_cons '"'
    (escape_json_string k ++ '"' :: ':' :: (jv ++ '}' :: tail)) (by decide)
  have hsk1 := skip_whitespace_cons ':' (jv ++ '}' :: tail) (by decide)
  have hsk2 := skip_whitespace_cons '}' tail (by decide)
  simp only [parse_object_loop, hsk0, hs, hsk1, hp, hsk2]
  simp [hk]

theorem parse_object_loop_next (fuel : Nat) (k jv tail : List Char) (v obj : JSValue)
    (hk : k ≠ [])
    (hp : parse_value fuel (jv ++ ',' :: tail) = (some v, ',' :: tail)) :
    parse_object_loop (fuel + 1)
        ('"' :: (escape_json_string k ++ '"' :: ':' :: (jv ++ ',' :: tail))) obj
      = parse_object_loop fuel (skip_whitespace tail)
          (napi_set_named_property obj (c_str k) v) := by
  have hs := parse_string_escaped k (':' :: (jv ++ ',' :: tail))
  have hsk0 := skip_whitespace_cons '"'
    (escape_json_string k ++ '"' :: ':' :: (jv ++ ',' :: tail)) (by decide)
  have hsk1 := skip_whitespace_cons ':' (jv ++ ',' :: tail) (by decide)
  have hsk2 := skip_whitespace_cons ',' tail (by decide)
  simp only [parse_object_loop, hsk0, hs, hsk1, hp, hsk2]
  simp [hk]

theorem json_member_eq (j : JSValue → List Char) (p : List Char × JSValue) (tail : List Char) :
    json_member j p ++ tail
      = '"' :: (escape_json_string p.1 ++ '"' :: ':' :: (j p.2 ++ tail)) := by
  simp [json_member]

theorem json_member_length (j : JSValue → List Char) (p : List Char × JSValue) :
    (json_member j p).length = (escape_json_string p.1).length + (j p.2).length + 3 := by
  simp [json_member]
  omega

theorem parse_object_loop_members (j : JSValue → List Char) (rest : List Char) :
    ∀ (ps : List (List Char × JSValue)), ps ≠ [] →
      (∀ p ∈ ps, (p.1 ≠ [] ∧ c_str p.1 = p.1) ∧ parses_back (j p.2) p.2) →
      ∀ (done : List (List Char × JSValue)) (fuel : Nat),
        ((done ++ ps).map Prod.fst).Nodup →
        2 * (comma_join (ps.map (json_member j))).length + 2 ≤ fuel →
        parse_object_loop fuel (comma_join (ps.map (json_member j)) ++ '}' :: rest)
            (.object done)
          = (some (.object (done ++ ps)), rest) := by
  intro ps
  induction ps with
  | nil => intro h; exact absurd rfl h
  | cons p t ih =>
    intro _ hall done fuel hnd hfuel
    obtain ⟨f, rfl⟩ : ∃ f, fuel = f + 1 := ⟨fuel - 1, by omega⟩
    obtain ⟨⟨hk1, hk2⟩, _, _, hparse⟩ := hall p (List.mem_cons_self _ _)
    have hset : napi_set_named_property (.object done) (c_str p.1) p.2
        = .object (done ++ [p]) := by
      rw [hk2]
      have hnot : ∀ q ∈ done, q.1 ≠ p.1 := by
        intro q hq e
        rw [List.map_append, List.nodup_append] at hnd
        exact hnd.2.2 (List.mem_map_of_mem _ hq) (by rw [e]; simp)
      simp [napi_set_named_property, set_prop_append done p.1 p.2 hnot]
    cases t with
    | nil =>
      simp only [List.map_cons, List.map_nil, comma_join] at hfuel ⊢
      rw [json_member_length] at hfuel
      rw [json_member_eq,
        parse_object_loop_last f p.1 (j p.2) rest p.2 _ hk1
          (hparse f _ (by omega) (follows_ok_cons _ _ (Or.inr (Or.inr rfl)))), hset]
    | cons p2 t' =>
      have hcj : comma_join ((p :: p2 :: t').map (json_member j))
          = json_member j p ++ ',' :: comma_join ((p2 :: t').map (json_member j)) := by
        simp [comma_join]
      rw [hcj] at hfuel ⊢
      simp only [List.length_append, List.length_cons, json_member_length] at hfuel
      rw [List.append_assoc, List.cons_append, json_member_eq,
        parse_object_loop_next f p.1 (j p.2) _ p.2 _ hk1
          (hparse f _ (by omega) (follows_ok_cons _ _ (Or.inl rfl))), hset]
      have hsk : skip_whitespace (comma_join ((p2 :: t').map (json_member j)) ++ '}' :: rest)
          = comma_join ((p2 :: t').map (json_member j)) ++ '}' :: rest := by
        rw [List.map_cons, comma_join_cons, json_member]
        exact skip_whitespace_cons _ _ (by decide)
      rw [hsk]
      have := ih (by simp) (fun x hx => hall x (List.mem_cons_of_mem _ hx)) (done ++ [p]) f
        (by simpa using hnd) (by omega)
      rw [this]
      simp

theorem parse_value_object (fuel : Nat) (j : JSValue → List Char)
    (ps : List (List Char × JSValue)) (rest : List Char)
    (hall : ∀ p ∈ ps, (p.1 ≠ [] ∧ c_str p.1 = p.1) ∧ parses_back (j p.2) p.2)
    (hnd : (ps.map Prod.fst).Nodup)
    (hfuel : 2 * (comma_join (ps.map (json_member j))).length + 3 ≤ fuel) :
    parse_value fuel ('{' :: (comma_join (ps.map (json_member j)) ++ '}' :: rest))
      = (some (.object ps), rest) := by
  obtain ⟨f, rfl⟩ : ∃ f, fuel = f + 1 := ⟨fuel - 1, by omega⟩
  cases ps with
  | nil => simp [parse_value, skip_whitespace, is_json_space, comma_join, match_string]
  | cons p t =>
    have hloop := parse_object_loop_members j rest (p :: t) (by simp) hall [] f
      (by simpa using hnd) (by omega)
    simp only [List.nil_append] at hloop
    have hstart : ∃ tl, comma_join ((p :: t).map (json_member j)) = '"' :: tl := by
      rw [List.map_cons, comma_join_cons, json_member]
      exact ⟨_, rfl⟩
    obtain ⟨tl, htl⟩ := hstart
    rw [htl] at hloop ⊢
    simp only [List.cons_append] at hloop ⊢
    have hsk := skip_whitespace_cons '"' (tl ++ '}' :: rest) (by decide)
    have hsk0 := skip_whitespace_cons '{' ('"' :: (tl ++ '}' :: rest)) (by decide)
    simp only [parse_value, hsk0, hsk]
    simp [match_string, hloop]

theorem hex_char_ne_nul (d : Nat) : hex_char d ≠ Char.ofNat 0 := by
  have h : d % 16 < 16 := Nat.mod_lt _ (by omega)
  unfold hex_char
  generalize d % 16 = r at h
  interval_cases r <;> decide

theorem escape_char_no_nul (x : Char) : ∀ c ∈ escape_char x, c ≠ Char.ofNat 0 := by
  intro c hc
  unfold escape_char at hc
  split_ifs at hc with h1 h2 h3 h4 h5 h6 h7 h8
  all_goals simp only [List.mem_cons, List.mem_singleton, List.mem_nil_iff, or_false] at hc
  · rcases hc with rfl | rfl <;> decide
  · rcases hc with rfl | rfl <;> decide
  · rcases hc with rfl | rfl <;> decide
  · rcases hc with rfl | rfl <;> decide
  · rcases hc with rfl | rfl <;> decide
  · rcases hc with rfl | rfl <;> decide
  · rcases hc with rfl | rfl <;> decide
  · rcases hc with rfl | rfl | rfl | rfl | rfl | rfl
    · decide
    · decide
    · exact hex_char_ne_nul _
    · exact hex_char_ne_nul _
    · exact hex_char_ne_nul _
    · exact hex_char_ne_nul _
  · subst hc
    intro e
    rw [e] at h8
    exact h8 (by decide)

theorem escape_json_string_no_nul (s : List Char) :
    ∀ c ∈ escape_json_string s, c ≠ Char.ofNat 0 := by
  intro c hc
  simp only [escape_json_string, List.mem_flatMap] at hc
  obtain ⟨x, _, hx⟩ := hc
  exact escape_char_no_nul x c hx

theorem comma_join_mem (l : List (List Char)) (c : Char) (h : c ∈ comma_join l) :
    c = ',' ∨ ∃ x ∈ l, c ∈ x := by
  induction l with
  | nil => simp [comma_join] at h
  | cons x t ih =>
    rw [comma_join_cons] at h
    rcases List.mem_append.mp h with h | h
    · exact Or.inr ⟨x, List.mem_cons_self _ _, h⟩
    · split at h
      · simp at h
      · rcases List.mem_cons.mp h with h | h
        · exact Or.inl h
        · rcases ih h with h | ⟨y, hy, hc⟩
          · exact Or.inl h
          · exact Or.inr ⟨y, List.mem_cons_of_mem _ hy, hc⟩

theorem to_string_int_no_nul (n : Int) : ∀ c ∈ to_string_int n, c ≠ Char.ofNat 0 := by
  intro c hc
  have hdig : ∀ m : Nat, ∀ c ∈ to_string_nat m, c ≠ Char.ofNat 0 := by
    intro m c hc e
    have := (to_string_nat_spec m).2.1 c hc
    rw [e] at this
    exact absurd this (by decide)
  unfold to_string_int at hc
  split at hc
  · rcases List.mem_cons.mp hc with rfl | hc
    · decide
    · exact hdig _ c hc
  · exact hdig _ c hc

theorem jsonable_elems_spec (elems : List (Option JSValue)) (h : jsonable_elems elems = true) :
    ∃ es : List JSValue, elems = es.map some ∧ ∀ e ∈ es, e.jsonable = true := by
  induction elems with
  | nil => exact ⟨[], rfl, by simp⟩
  | cons s t ih =>
    cases s with
    | none => simp [jsonable_elems] at h
    | some x =>
      simp only [jsonable_elems, Bool.and_eq_true] at h
      obtain ⟨es, h1, h2⟩ := ih h.2
      refine ⟨x :: es, by rw [h1]; rfl, ?_⟩
      intro e he
      rcases List.mem_cons.mp he with rfl | he
      · exact h.1
      · exact h2 e he

theorem jsonable_props_mem (props : List (List Char × JSValue))
    (h : jsonable_props props = true) (p : List Char × JSValue) (hp : p ∈ props) :
    (p.1 ≠ [] ∧ c_str p.1 = p.1) ∧ p.2.jsonable = true := by
  induction props with
  | nil => simp at hp
  | cons q t ih =>
    obtain ⟨k, v⟩ := q
    simp only [jsonable_props, Bool.and_eq_true, Bool.not_eq_true', beq_eq_false_iff_ne, ne_eq,
      beq_iff_eq] at h
    rcases List.mem_cons.mp hp with rfl | hp
    · exact ⟨⟨h.1.1.1, h.1.1.2⟩, h.1.2⟩
    · exact ih h.2 hp

theorem value_to_json_int (fuel : Nat) (n : Int) :
    value_to_json (fuel + 1) (.number (n : ℚ)) = to_string_int n := by
  simp [value_to_json, napi_typeof, napi_get_value_double, double_to_int64, Int.tdiv_one]

/-- The text `value_to_json` writes for a valid value of the exact domain parses
back to that value. -/
theorem value_to_json_parses_back (d : Nat) :
    ∀ e : JSValue, e.depth ≤ d → e.valid = true → e.jsonable = true →
      parses_back (value_to_json d e) e := by
  induction d with
  | zero =>
    intro e hd _ _
    have := depth_pos e
    omega
  | succ d ih =>
    intro e hd hvalid hjson
    cases e with
    | undefined => simp [JSValue.jsonable] at hjson
    | func => simp [JSValue.jsonable] at hjson
    | buffer bytes => simp [JSValue.jsonable] at hjson
    | map entries => simp [JSValue.jsonable] at hjson
    | null =>
      refine ⟨⟨'n', _, rfl, rfl⟩, (by show ∀ c ∈ NULL_TEXT, c ≠ Char.ofNat 0; decide), ?_⟩
      intro fuel rest hf _
      obtain ⟨f, rfl⟩ : ∃ f, fuel = f + 1 := ⟨fuel - 1, by omega⟩
      exact parse_value_null f rest
    | boolean b =>
      cases b with
      | true =>
        refine ⟨⟨'t', _, rfl, rfl⟩, (by show ∀ c ∈ TRUE_TEXT, c ≠ Char.ofNat 0; decide), ?_⟩
        intro fuel rest hf _
        obtain ⟨f, rfl⟩ : ∃ f, fuel = f + 1 := ⟨fuel - 1, by omega⟩
        exact parse_value_true f rest
      | false =>
        refine ⟨⟨'f', _, rfl, rfl⟩, (by show ∀ c ∈ FALSE_TEXT, c ≠ Char.ofNat 0; decide), ?_⟩
        intro fuel rest hf _
        obtain ⟨f, rfl⟩ : ∃ f, fuel = f + 1 := ⟨fuel - 1, by omega⟩
        exact parse_value_false f rest
    | number x =>
      simp only [JSValue.jsonable, Bool.and_eq_true, decide_eq_true_eq] at hjson
      have hx : ((x.num : Int) : ℚ) = x := Rat.coe_int_num_of_den_eq_one hjson.1
      rw [← hx, value_to_json_int]
      refine ⟨?_, to_string_int_no_nul _, ?_⟩
      · obtain ⟨c, t, h1, h2⟩ := to_string_int_start x.num
        refine ⟨c, t, h1, ?_⟩
        rcases h2 with rfl | h2
        · rfl
        · simp [json_start, h2]
      · intro fuel rest hf hrest
        obtain ⟨f, rfl⟩ : ∃ f, fuel = f + 1 := ⟨fuel - 1, by omega⟩
        exact parse_value_number f x.num rest hrest
    | string s =>
      have ht : value_to_json (d + 1) (.string s) = '"' :: (escape_json_string s ++ ['"']) := by
        simp [value_to_json, napi_typeof, get_string_value]
      rw [ht]
      refine ⟨⟨'"', _, rfl, rfl⟩, ?_, ?_⟩
      · intro c hc
        rcases List.mem_cons.mp hc with rfl | hc
        · decide
        · rcases List.mem_append.mp hc with hc | hc
          · exact escape_json_string_no_nul s c hc
          · simp only [List.mem_singleton] at hc
            subst hc; decide
      · intro fuel rest hf _
        obtain ⟨f, rfl⟩ : ∃ f, fuel = f + 1 := ⟨fuel - 1, by omega⟩
        have := parse_value_string f s rest
        simpa using this
    | array elems =>
      simp only [JSValue.depth] at hd
      simp only [JSValue.valid] at hvalid
      simp only [JSValue.jsonable] at hjson
      obtain ⟨es, rfl, hes⟩ := jsonable_elems_spec elems hjson
      have hall : ∀ e ∈ es, parses_back (value_to_json d e) e := by
        intro e he
        have hmem : some e ∈ es.map some := List.mem_map_of_mem _ he
        exact ih e (by have := depth_elems_mem _ e hmem; omega)
          (valid_elems_mem _ hvalid e hmem) (hes e he)
      have ht : value_to_json (d + 1) (.array (es.map some))
          = '[' :: (comma_join (es.map (value_to_json d)) ++ [']']) := by
        rw [json_array_eq, List.map_map]
        rfl
      rw [ht]
      refine ⟨⟨'[', _, rfl, rfl⟩, ?_, ?_⟩
      · intro c hc
        rcases List.mem_cons.mp hc with rfl | hc
        · decide
        · rcases List.mem_append.mp hc with hc | hc
          · rcases comma_join_mem _ c hc with rfl | ⟨x, hx, hcx⟩
            · decide
            · obtain ⟨e, he, rfl⟩ := List.mem_map.mp hx
              exact (hall e he).2.1 c hcx
          · simp only [List.mem_singleton] at hc
            subst hc; decide
      · intro fuel rest hf _
        have := parse_value_array fuel (value_to_json d) es rest hall
          (by simp only [List.length_cons, List.length_append, List.length_singleton] at hf; omega)
        simpa using this
    | object props =>
      simp only [JSValue.depth] at hd
      simp only [JSValue.valid, Bool.and_eq_true] at hvalid
      simp only [JSValue.jsonable] at hjson
      have hnd : (props.map Prod.fst).Nodup := (distinct_names_iff props).mp hvalid.2
      have hall : ∀ p ∈ props,
          (p.1 ≠ [] ∧ c_str p.1 = p.1) ∧ parses_back (value_to_json d p.2) p.2 := by
        intro p hp
        obtain ⟨h1, h2⟩ := jsonable_props_mem props hjson p hp
        exact ⟨h1, ih p.2 (by have := depth_props_mem props p hp; omega)
          (valid_props_mem props hvalid.1 p hp) h2⟩
      rw [json_object_eq d props hnd (fun p hp => (hall p hp).1)]
      refine ⟨⟨'{', _, rfl, rfl⟩, ?_, ?_⟩
      · intro c hc
        rcases List.mem_cons.mp hc with rfl | hc
        · decide
        · rcases List.mem_append.mp hc with hc | hc
          · rcases comma_join_mem _ c hc with rfl | ⟨x, hx, hcx⟩
            · decide
            · obtain ⟨p, hp, rfl⟩ := List.mem_map.mp hx
              simp only [json_member, List.mem_cons, List.mem_append] at hcx
              rcases hcx with rfl | hcx | rfl | rfl | hcx
              · decide
              · exact escape_json_string_no_nul _ c hcx
              · decide
              · decide
              · exact (hall p hp).2.2.1 c hcx
          · simp only [List.mem_singleton] at hc
            subst hc; decide
      · intro fuel rest hf _
        have := parse_value_object fuel (value_to_json d) props rest hall hnd
          (by simp only [List.length_cons, List.length_append, List.length_singleton] at hf; omega)
        simpa using this


theorem c_str_of_no_nul (s : List Char) (h : ∀ c ∈ s, c ≠ Char.ofNat 0) : c_str s = s := by
  unfold c_str
  rw [List.takeWhile_eq_self_iff]
  intro c hc
  simpa using h c hc

theorem json_to_value_of_parses_back (t : List Char) (e : JSValue) (h : parses_back t e) :
    json_to_value t = some e := by
  obtain ⟨⟨c, tl, h1, _⟩, h2, h3⟩ := h
  have hne : t ≠ [] := by rw [h1]; simp
  have := h3 (2 * t.length + 2) [] (by omega) follows_ok_nil
  rw [List.append_nil] at this
  simp [json_to_value, hne, c_str_of_no_nul t h2, this]

/-! ## The JSON text codec: the claims -/

/-- C3, as the specification states it, fails on three Envelope Domain values: the
Record with the single member `"" : null` is written as `{}` and read back as the
empty Record; the Number `2 ^ (-24)` is written as `0.000000` and read back as 0;
the Record whose only key is `a`, NUL, `b` is read back with the key `a`. -/
theorem json_roundtrip_fails :
    EnvelopeDomain (.object [([], .null)])
      ∧ value_to_json 2 (.object [([], .null)]) = ['{', '}']
      ∧ json_to_value (value_to_json 2 (.object [([], .null)])) = some (.object [])
      ∧ JSValue.object [] ≠ .object [([], .null)]
      ∧ EnvelopeDomain (.number (mkRat 1 16777216))
      ∧ value_to_json 1 (.number (mkRat 1 16777216)) = ['0', '.', '0', '0', '0', '0', '0', '0']
      ∧ json_to_value (value_to_json 1 (.number (mkRat 1 16777216))) = some (.number 0)
      ∧ JSValue.number 0 ≠ .number (mkRat 1 16777216)
      ∧ EnvelopeDomain (.object [(['a', Char.ofNat 0, 'b'], .number 1)])
      ∧ json_to_value (value_to_json 2 (.object [(['a', Char.ofNat 0, 'b'], .number 1)]))
          = some (.object [(['a'], .null)])
      ∧ JSValue.object [(['a'], .null)] ≠ .object [(['a', Char.ofNat 0, 'b'], .number 1)] := by
  refine ⟨EnvelopeDomain.object _ ?_, rfl, rfl, by simp, EnvelopeDomain.number _, rfl, rfl, ?_,
    EnvelopeDomain.object _ ?_, rfl, by simp⟩
  · intro p hp
    simp only [List.mem_singleton] at hp
    subst hp; exact EnvelopeDomain.null
  · intro h
    have := congrArg (fun v => match v with
      | JSValue.number x => x.den
      | _ => 0) h
    revert this
    decide
  · intro p hp
    simp only [List.mem_singleton] at hp
    subst hp; exact EnvelopeDomain.number _

/-- C3, amended: for every Envelope Domain value `e` built from Null, Bool, Text,
integral Numbers of absolute value below `2 ^ 53`, Lists without unset slots and
Records whose keys are pairwise different, non-empty and without a NUL character,
and in which every property name of a Record is ordinary (`ordinary_keys`: not
`__proto__`, not a run of digits), `json_to_value (value_to_json e) = e`. The
hypothesis on the property names is not used by the proof: it keeps the statement to
the names for which the assignment of the host is described exactly. -/
theorem json_to_value_value_to_json (fuel : Nat) (e : JSValue) (hfuel : e.depth ≤ fuel)
    (hvalid : e.valid = true) (hjson : e.jsonable = true)
    (_hkeys : e.ordinary_keys = true) :
    json_to_value (value_to_json fuel e) = some e :=
  json_to_value_of_parses_back _ _ (value_to_json_parses_back fuel e hfuel hvalid hjson)

theorem json_to_value_value_to_json_witness :
    json_to_value (value_to_json 3
        (.object [(['a'], .array [some (.number (-12)), some (.string ['x', '"', '\n']),
          some .null, some (.boolean true)]), (['b'], .object [])]))
      = some (.object [(['a'], .array [some (.number (-12)), some (.string ['x', '"', '\n']),
          some .null, some (.boolean true)]), (['b'], .object [])]) :=
  json_to_value_value_to_json 3 _ (by decide) rfl rfl rfl

/-- C4: for every integral Number `n` with `|n| < 2 ^ 53` the full pipeline returns
it unchanged: encoding gives the envelope with `$type` `number` and `$value` `n`,
whose JSON text is `{"$type":"number","$value":n}`; parsing that text gives the
envelope back and decoding it gives `n`. -/
theorem pipeline_integral_number (n : Int) (hn : n.natAbs < 2 ^ 53) :
    encode_value 1 (.number (n : ℚ))
        = some (.object [(TYPE_KEY, .string TAG_NUMBER), (VALUE_KEY, .number (n : ℚ))])
      ∧ value_to_json 2 (.object [(TYPE_KEY, .string TAG_NUMBER), (VALUE_KEY, .number (n : ℚ))])
          = ['{', '"', '$', 't', 'y', 'p', 'e', '"', ':', '"', 'n', 'u', 'm', 'b', 'e', 'r', '"',
              ',', '"', '$', 'v', 'a', 'l', 'u', 'e', '"', ':'] ++ to_string_int n ++ ['}']
      ∧ json_to_value
          (value_to_json 2
            (.object [(TYPE_KEY, .string TAG_NUMBER), (VALUE_KEY, .number (n : ℚ))]))
          = some (.object [(TYPE_KEY, .string TAG_NUMBER), (VALUE_KEY, .number (n : ℚ))])
      ∧ decode_value 1 (.object [(TYPE_KEY, .string TAG_NUMBER), (VALUE_KEY, .number (n : ℚ))])
          = some (.number (n : ℚ)) := by
  refine ⟨by simp only [encode_value, napi_typeof, typed_object_eq], ?_, ?_,
    decode_value_primitive 0 _ _ (Or.inl rfl)⟩
  · have hnd : ([(TYPE_KEY, JSValue.string TAG_NUMBER),
        (VALUE_KEY, JSValue.number (n : ℚ))].map Prod.fst).Nodup := by
      show [TYPE_KEY, VALUE_KEY].Nodup
      decide
    rw [json_object_eq 1 _ hnd (by
      intro p hp
      simp only [List.mem_cons, List.mem_singleton, List.mem_nil_iff, or_false] at hp
      rcases hp with rfl | rfl
      · show TYPE_KEY ≠ [] ∧ c_str TYPE_KEY = TYPE_KEY
        decide
      · show VALUE_KEY ≠ [] ∧ c_str VALUE_KEY = VALUE_KEY
        decide)]
    simp only [List.map_cons, List.map_nil, comma_join, json_member, value_to_json_int]
    rfl
  · apply json_to_value_of_parses_back
    apply value_to_json_parses_back 2 _ (by simp [JSValue.depth, depth_props])
    · have hk : (TYPE_KEY == VALUE_KEY) = false := by decide
      simp [JSValue.valid, valid_props, distinct_names, hk]
    · have h1 : (TYPE_KEY == []) = false := by decide
      have h2 : (VALUE_KEY == []) = false := by decide
      have h3 : c_str TYPE_KEY = TYPE_KEY := by decide
      have h4 : c_str VALUE_KEY = VALUE_KEY := by decide
      simp only [JSValue.jsonable, jsonable_props, Rat.den_intCast, Rat.num_intCast, hn,
        decide_True, Bool.and_self, Bool.and_true, h1, h2, h3, h4, Bool.not_false,
        beq_self_eq_true]

theorem pipeline_integral_number_witness :
    (3 : Int).natAbs < 2 ^ 53
      ∧ encode_value 1 (.number ((3 : Int) : ℚ))
          = some (.object [(TYPE_KEY, .string TAG_NUMBER), (VALUE_KEY, .number ((3 : Int) : ℚ))])
      ∧ json_to_value
          (value_to_json 2
            (.object [(TYPE_KEY, .string TAG_NUMBER), (VALUE_KEY, .number ((3 : Int) : ℚ))]))
          = some (.object [(TYPE_KEY, .string TAG_NUMBER), (VALUE_KEY, .number ((3 : Int) : ℚ))])
      ∧ decode_value 1
          (.object [(TYPE_KEY, .string TAG_NUMBER), (VALUE_KEY, .number ((3 : Int) : ℚ))])
          = some (.number ((3 : Int) : ℚ)) :=
  ⟨by decide, (pipeline_integral_number 3 (by decide)).1,
    (pipeline_integral_number 3 (by decide)).2.2.1,
    (pipeline_integral_number 3 (by decide)).2.2.2⟩

theorem find_property_value_key (props : List (List Char × JSValue)) :
    (find_property (.object props) VALUE_KEY).getD .undefined
      = (props.lookup VALUE_KEY).getD .undefined := by
  have hl : VALUE_KEY ≠ LENGTH := by decide
  unfold find_property
  cases h : props.lookup VALUE_KEY <;> simp [own_props, h, hl]

/-- The branch `decode_value` takes on a Record whose `$type` property is the
string `tag`; the payload is the `$value` property, `undefined` when absent. -/
theorem decode_value_record (fuel : Nat) (props : List (List Char × JSValue))
    (tag : List Char) (h : props.lookup TYPE_KEY = some (.string tag)) :
    decode_value (fuel + 1) (.object props) =
      decode_value (fuel + 1)
        (.object [(TYPE_KEY, .string tag),
          (VALUE_KEY, (props.lookup VALUE_KEY).getD .undefined)]) := by
  have h1 : (VALUE_KEY == TYPE_KEY) = false := by decide
  have hv := find_property_value_key props
  have hv2 := find_property_value_key
    [(TYPE_KEY, .string tag), (VALUE_KEY, (props.lookup VALUE_KEY).getD .undefined)]
  have ht : find_property (.object props) TYPE_KEY = some (.string tag) :=
    find_property_object props TYPE_KEY _ h
  have ht2 : find_property (.object [(TYPE_KEY, JSValue.string tag),
      (VALUE_KEY, (props.lookup VALUE_KEY).getD .undefined)]) TYPE_KEY = some (.string tag) :=
    find_property_object _ TYPE_KEY _ (by simp [List.lookup])
  have hv3 : (find_property (.object [(TYPE_KEY, JSValue.string tag),
      (VALUE_KEY, (props.lookup VALUE_KEY).getD .undefined)]) VALUE_KEY).getD .undefined
      = (props.lookup VALUE_KEY).getD .undefined := by
    rw [hv2]; simp [List.lookup, h1]
  simp only [decode_value, napi_typeof, napi_has_named_property, napi_get_named_property,
    ht, ht2, hv, hv3]


/-- C12, as the specification states it, fails: the Records with the tag `number`,
`string` or `boolean` and no `$value` field are decoded to `undefined`, the one with
the tag `Buffer` to the empty Blob and the one with the tag `Map` to the empty
OrderedMap; `rpc_decode` returns these values and throws nothing. -/
theorem decode_value_missing_value_succeeds :
    List.lookup VALUE_KEY [(TYPE_KEY, JSValue.string TAG_NUMBER)] = none
      ∧ decode_value 1 (.object [(TYPE_KEY, .string TAG_NUMBER)]) = some .undefined
      ∧ rpc_decode 1 (.object [(TYPE_KEY, .string TAG_NUMBER)]) = .ok .undefined
      ∧ decode_value 1 (.object [(TYPE_KEY, .string TAG_STRING)]) = some .undefined
      ∧ decode_value 1 (.object [(TYPE_KEY, .string TAG_BOOLEAN)]) = some .undefined
      ∧ decode_value 1 (.object [(TYPE_KEY, .string TAG_BUFFER)]) = some (.buffer [])
      ∧ decode_value 1 (.object [(TYPE_KEY, .string TAG_MAP)]) = some (.map []) := by
  refine ⟨rfl, rfl, rfl, rfl, rfl, rfl, rfl⟩

/-- C13: for every Record whose type tag is `number`, `string` or `boolean` and
every payload `x` in its `$value` field, `decode_value` returns `x` itself,
unchanged (whatever kind of value `x` is), and so does `rpc_decode`. -/
theorem decode_value_verbatim (fuel : Nat) (props : List (List Char × JSValue))
    (tag : List Char) (x : JSValue)
    (htag : tag = TAG_NUMBER ∨ tag = TAG_STRING ∨ tag = TAG_BOOLEAN)
    (h : props.lookup TYPE_KEY = some (.string tag))
    (hx : props.lookup VALUE_KEY = some x) :
    decode_value (fuel + 1) (.object props) = some x
      ∧ rpc_decode (fuel + 1) (.object props) = .ok x := by
  have hsome : decode_value (fuel + 1) (.object props) = some x := by
    rw [decode_value_record fuel props tag h, hx]
    exact decode_value_primitive fuel tag x htag
  exact ⟨hsome, by simp only [rpc_decode, hsome]⟩

theorem decode_value_verbatim_witness :
    (TAG_STRING = TAG_NUMBER ∨ TAG_STRING = TAG_STRING ∨ TAG_STRING = TAG_BOOLEAN)
      ∧ List.lookup TYPE_KEY
          [(TYPE_KEY, JSValue.string TAG_STRING), (VALUE_KEY, .array [some (.number 5), none])]
          = some (.string TAG_STRING)
      ∧ List.lookup VALUE_KEY
          [(TYPE_KEY, JSValue.string TAG_STRING), (VALUE_KEY, .array [some (.number 5), none])]
          = some (.array [some (.number 5), none])
      ∧ decode_value 1
          (.object [(TYPE_KEY, .string TAG_STRING), (VALUE_KEY, .array [some (.number 5), none])])
          = some (.array [some (.number 5), none])
      ∧ rpc_decode 1
          (.object [(TYPE_KEY, .string TAG_STRING), (VALUE_KEY, .array [some (.number 5), none])])
          = .ok (.array [some (.number 5), none]) :=
  ⟨Or.inr (Or.inl rfl), rfl, rfl,
    decode_value_verbatim 0 _ TAG_STRING (.array [some (.number 5), none])
      (Or.inr (Or.inl rfl)) rfl rfl⟩

theorem decode_value_slot (fuel : Nat) (slot : Option JSValue) :
    decode_value fuel (slot.getD .undefined) = slot.bind (decode_value fuel) := by
  cases slot with
  | none => exact decode_value_not_object fuel .undefined (by simp)
  | some x => rfl

theorem double_to_uint32_natCast (n : Nat) (hn : n < 2 ^ 32) :
    double_to_uint32 (n : ℚ) = n := by
  have h : Rat.floor (n : ℚ) = (n : Int) := by
    rw [Rat.floor_def']
    simp
  simp only [double_to_uint32, h, Int.toNat_ofNat]
  exact Nat.mod_eq_of_lt hn

theorem napi_get_element_object (props : List (List Char × JSValue)) (i : Nat) :
    napi_get_element (.object props) i
      = some ((props.lookup (to_string_nat i)).getD .undefined) := by
  simp only [napi_get_element, napi_get_named_property, find_property, own_props, length_prop]
  cases props.lookup (to_string_nat i) <;> simp

/-- The encoding of a Record with a number-valued property `length`: `is_array_like`
sends it to `encode_array`. -/
theorem encode_value_array_like (fuel : Nat) (props : List (List Char × JSValue)) (x : ℚ)
    (h : props.lookup LENGTH = some (.number x)) :
    encode_value (fuel + 1) (.object props) =
      some (.object [(TYPE_KEY, .string TAG_ARRAY),
        (VALUE_KEY, .array ((List.range (double_to_uint32 x)).map (fun i =>
          encode_value fuel ((props.lookup (to_string_nat i)).getD .undefined))))]) := by
  have hf := find_property_object props LENGTH _ h
  simp only [encode_value, napi_typeof, is_buffer, is_uint8_array, is_map, is_array_like,
    is_array, napi_has_named_property, napi_get_named_property, hf, encode_array,
    napi_get_value_double, encode_array_loop_eq, typed_object_eq, napi_get_element_object,
    Option.bind]
  simp

/-- C15: for every List `l` of length `n`, `encode_value` returns an `Array`-tagged
envelope whose payload is a List of length `n` in which slot `i` holds
`encode_value (l[i])` when that encode succeeds and is left unset otherwise (an unset
slot of `l` reads as `undefined`); no element makes the encoding of the List fail;
the empty List encodes to the envelope with the empty payload. A sequence-like
Record, with a number-valued `length` `n`, is encoded the same way from its
properties `0`, ..., `n - 1`. -/
theorem encode_value_array (fuel : Nat) (elems : List (Option JSValue)) :
    encode_value (fuel + 1) (.array elems) =
        some (.object [(TYPE_KEY, .string TAG_ARRAY),
          (VALUE_KEY, .array (elems.map (fun slot => encode_value fuel (slot.getD .undefined))))])
      ∧ (elems.map (fun slot => encode_value fuel (slot.getD .undefined))).length = elems.length
      ∧ (∀ (i : Nat) (x : JSValue), elems[i]? = some (some x) →
          (elems.map (fun slot => encode_value fuel (slot.getD .undefined)))[i]?
            = some (encode_value fuel x))
      ∧ encode_value (fuel + 1) (.array []) =
          some (.object [(TYPE_KEY, .string TAG_ARRAY), (VALUE_KEY, .array [])])
      ∧ (∀ (props : List (List Char × JSValue)) (n : Nat), n < 2 ^ 32 →
          props.lookup LENGTH = some (.number (n : ℚ)) →
          encode_value (fuel + 1) (.object props) =
            some (.object [(TYPE_KEY, .string TAG_ARRAY),
              (VALUE_KEY, .array ((List.range n).map (fun i =>
                encode_value fuel ((props.lookup (to_string_nat i)).getD .undefined))))])) := by
  have harr : ∀ l : List (Option JSValue), encode_value (fuel + 1) (.array l) =
      some (.object [(TYPE_KEY, .string TAG_ARRAY),
        (VALUE_KEY, .array (l.map (fun slot => encode_value fuel (slot.getD .undefined))))]) := by
    intro l
    simp only [encode_value, napi_typeof, is_buffer, is_uint8_array, is_map, is_array_like,
      is_array, Bool.or_self, Bool.false_eq_true, if_false, if_true, encode_array_of_array]
  refine ⟨harr elems, by simp, ?_, harr [], ?_⟩
  · intro i x hi
    simp [List.getElem?_map, hi]
  · intro props n hn hl
    rw [encode_value_array_like fuel props _ hl, double_to_uint32_natCast n hn]

theorem encode_value_array_witness :
    encode_value 2 (.array [some (.number 1), some .func, some (.string ['a'])]) =
        some (.object [(TYPE_KEY, .string TAG_ARRAY),
          (VALUE_KEY, .array [
            some (.object [(TYPE_KEY, .string TAG_NUMBER), (VALUE_KEY, .number 1)]),
            none,
            some (.object [(TYPE_KEY, .string TAG_STRING), (VALUE_KEY, .string ['a'])])])])
      ∧ encode_value 2 (.object [(LENGTH, .number ((2 : Nat) : ℚ)), (['1'], .null)]) =
        some (.object [(TYPE_KEY, .string TAG_ARRAY),
          (VALUE_KEY, .array [some (.object [(TYPE_KEY, .string TAG_UNDEFINED)]),
            some (.object [(TYPE_KEY, .string TAG_NULL)])])]) :=
  ⟨(encode_value_array 1 [some (.number 1), some .func, some (.string ['a'])]).1,
    (encode_value_array 1 []).2.2.2.2 [(LENGTH, .number ((2 : Nat) : ℚ)), (['1'], .null)] 2
      (by decide) rfl⟩

theorem is_array_like_object (props : List (List Char × JSValue))
    (h : ∀ x, props.lookup LENGTH ≠ some (.number x)) :
    is_array_like (.object props) = false := by
  simp only [is_array_like, is_array, napi_typeof, napi_has_named_property,
    napi_get_named_property, find_property, own_props, length_prop]
  cases hl : props.lookup LENGTH with
  | none => simp
  | some y =>
    cases y with
    | number x => exact absurd hl (h x)
    | _ => simp [napi_typeof]

/-- The encoding of a Record that is not sequence-like is the result of
`encode_object`. -/
theorem encode_value_object_eq (fuel : Nat) (props : List (List Char × JSValue))
    (h : ∀ x, props.lookup LENGTH ≠ some (.number x)) :
    encode_value (fuel + 1) (.object props)
      = encode_object (encode_value fuel) (.object props) := by
  simp only [encode_value, napi_typeof, is_buffer, is_uint8_array, is_map,
    is_array_like_object props h, Bool.or_self, Bool.false_eq_true, if_false]

/-- C16, as the specification states it, fails: the Record with the single property
`"" : null` is encoded with an empty payload although `encode_value null` succeeds;
the Record with the single property `length : 2` is encoded with the tag `Array`;
the Record whose only key is `a`, NUL, `b` gets the payload field `a`. -/
theorem encode_object_drops_empty_key :
    encode_value 1 .null = some (.object [(TYPE_KEY, .string TAG_NULL)])
      ∧ encode_value 2 (.object [([], .null)])
          = some (.object [(TYPE_KEY, .string TAG_OBJECT), (VALUE_KEY, .object [])])
      ∧ encode_value 2 (.object [(LENGTH, .number 2)])
          = some (.object [(TYPE_KEY, .string TAG_ARRAY),
              (VALUE_KEY, .array [some (.object [(TYPE_KEY, .string TAG_UNDEFINED)]),
                some (.object [(TYPE_KEY, .string TAG_UNDEFINED)])])])
      ∧ encode_value 2 (.object [(['a', Char.ofNat 0, 'b'], .null)])
          = some (.object [(TYPE_KEY, .string TAG_OBJECT),
              (VALUE_KEY, .object [(['a'], .object [(TYPE_KEY, .string TAG_UNDEFINED)])])]) := by
  refine ⟨rfl, rfl, rfl, rfl⟩

/-- C16, amended: for every Record `r` whose keys are pairwise different, non-empty
and without a NUL character, which has no number-valued property `length`, and in
which every property name, of `r` and of the Records inside it, is ordinary
(`ordinary_keys`: not `__proto__`, not a run of digits), `encode_value` returns an
`Object`-tagged envelope whose payload is the Record that maps, in the order of `r`,
each own key `k` of `r` whose value is encoded successfully to
`encode_value (r[k])`; the payload has a field `k` exactly when that encode
succeeds, and no other field. The hypothesis on the property names is not used by
the proof: it keeps the statement to the names for which the assignment of the host
is described exactly. -/
theorem encode_value_object (fuel : Nat) (props : List (List Char × JSValue))
    (hnd : (props.map Prod.fst).Nodup)
    (hgood : ∀ p ∈ props, p.1 ≠ [] ∧ c_str p.1 = p.1)
    (hlen : ∀ x, props.lookup LENGTH ≠ some (.number x))
    (_hkeys : (JSValue.object props).ordinary_keys = true) :
    encode_value (fuel + 1) (.object props) =
        some (.object [(TYPE_KEY, .string TAG_OBJECT),
          (VALUE_KEY, .object (props.filterMap (fun p =>
            (encode_value fuel p.2).map (fun y => (p.1, y)))))])
      ∧ ∀ (k : List Char) (y : JSValue),
          (k, y) ∈ props.filterMap (fun p => (encode_value fuel p.2).map (fun y => (p.1, y)))
            ↔ ∃ x, (k, x) ∈ props ∧ encode_value fuel x = some y := by
  refine ⟨?_, ?_⟩
  · rw [encode_value_object_eq fuel props hlen]
    exact encode_object_exact (encode_value fuel) props hnd hgood
  · intro k y
    simp only [List.mem_filterMap, Option.map_eq_some', Prod.mk.injEq, Prod.exists]
    constructor
    · rintro ⟨k', x, hmem, y', hy, rfl, rfl⟩
      exact ⟨x, hmem, hy⟩
    · rintro ⟨x, hmem, hy⟩
      exact ⟨k, x, hmem, y, hy, rfl, rfl⟩

theorem encode_value_object_witness :
    encode_value 2 (.object [(['a'], .number 1), (['f'], .func), (['b'], .undefined)]) =
      some (.object [(TYPE_KEY, .string TAG_OBJECT),
        (VALUE_KEY, .object [
          (['a'], .object [(TYPE_KEY, .string TAG_NUMBER), (VALUE_KEY, .number 1)]),
          (['b'], .object [(TYPE_KEY, .string TAG_UNDEFINED)])])]) :=
  (encode_value_object 1 [(['a'], .number 1), (['f'], .func), (['b'], .undefined)]
    (by decide) (by decide) (by simp [List.lookup, LENGTH]) rfl).1

theorem encode_value_eq_none_iff (fuel : Nat) (v : JSValue) :
    encode_value (fuel + 1) v = none ↔ v = .func := by
  cases v with
  | undefined => simp [encode_value]
  | null => simp [encode_value]
  | boolean b => simp [encode_value, napi_typeof]
  | number x => simp [encode_value, napi_typeof]
  | string s => simp [encode_value, napi_typeof]
  | func => simp [encode_value, napi_typeof]
  | buffer bytes => simp [encode_value, napi_typeof, is_buffer, buffer_data]
  | array elems =>
    simp [encode_value, napi_typeof, is_buffer, is_uint8_array, is_map, is_array_like,
      is_array, encode_array_of_array]
  | map entries =>
    simp [encode_value, napi_typeof, is_buffer, is_uint8_array, is_map, encode_map_eq]
  | object props =>
    by_cases h : ∃ x, props.lookup LENGTH = some (.number x)
    · obtain ⟨x, hx⟩ := h
      simp [encode_value_array_like fuel props x hx]
    · have h' : ∀ x, props.lookup LENGTH ≠ some (.number x) := fun x hx => h ⟨x, hx⟩
      rw [encode_value_object_eq fuel props h']
      simp [encode_object, napi_get_property_names]

/-- C17: `encode_value` returns the unsupported indicator (and `rpc_encode` throws
`Unsupported type`) exactly when the root value cannot be classified as Null,
Undefined, Bool, Number, Text, Blob, OrderedMap, List or Record, that is, when it is
a function; an unsupported value nested inside a List or a Record never makes the
encoding of the root fail: its slot is left unset, its field is left out. -/
theorem encode_value_unsupported (fuel : Nat) (v : JSValue) :
    (encode_value (fuel + 1) v = none ↔ v = .func)
      ∧ (rpc_encode (fuel + 1) v = .error "Unsupported type" ↔ v = .func)
      ∧ (napi_typeof v = .napi_function ↔ v = .func)
      ∧ (∀ elems, encode_value (fuel + 1) (.array elems) ≠ none)
      ∧ (∀ props, encode_value (fuel + 1) (.object props) ≠ none)
      ∧ encode_value (fuel + 2) (.array [some .func, some .null])
          = some (.object [(TYPE_KEY, .string TAG_ARRAY),
              (VALUE_KEY, .array [none, some (.object [(TYPE_KEY, .string TAG_NULL)])])])
      ∧ encode_value (fuel + 2) (.object [(['f'], .func), (['n'], .null)])
          = some (.object [(TYPE_KEY, .string TAG_OBJECT),
              (VALUE_KEY, .object [(['n'], .object [(TYPE_KEY, .string TAG_NULL)])])]) := by
  have hiff := encode_value_eq_none_iff fuel v
  refine ⟨hiff, ?_, ?_, ?_, ?_, ?_, ?_⟩
  · rw [← hiff]
    unfold rpc_encode
    cases encode_value (fuel + 1) v <;> simp
  · cases v <;> simp [napi_typeof]
  · intro elems h
    exact absurd ((encode_value_eq_none_iff fuel _).mp h) (by simp)
  · intro props h
    exact absurd ((encode_value_eq_none_iff fuel _).mp h) (by simp)
  · rfl
  · rfl

theorem decode_entries_mem (dec : JSValue → Option JSValue) :
    ∀ (pairs : List (JSValue × JSValue)) (k v : JSValue),
      (k, v) ∈ decode_entries dec pairs ↔ ∃ p ∈ pairs, dec p.1 = some k ∧ dec p.2 = some v := by
  intro pairs
  induction pairs with
  | nil => intro k v; simp [decode_entries]
  | cons q rest ih =>
    intro k v
    obtain ⟨key, value⟩ := q
    simp only [decode_entries, List.mem_cons, exists_eq_or_imp]
    cases hk : dec key with
    | none => simp [ih]
    | some dk =>
      cases hv : dec value with
      | none => simp [ih]
      | some dv =>
        simp only [List.mem_cons, ih, Prod.mk.injEq, Option.some.injEq]
        constructor
        · rintro (⟨rfl, rfl⟩ | h)
          · exact Or.inl ⟨rfl, rfl⟩
          · exact Or.inr h
        · rintro (⟨rfl, rfl⟩ | h)
          · exact Or.inl ⟨rfl, rfl⟩
          · exact Or.inr h

theorem foldl_decode_entries (dec : JSValue → Option JSValue) :
    ∀ (pairs acc : List (JSValue × JSValue)),
      pairs.foldl (fun m p =>
          match dec p.1, dec p.2 with
          | some k, some v => map_set m k v
          | _, _ => m) acc
        = (decode_entries dec pairs).foldl (fun m q => map_set m q.1 q.2) acc := by
  intro pairs
  induction pairs with
  | nil => intro acc; rfl
  | cons q rest ih =>
    intro acc
    obtain ⟨key, value⟩ := q
    simp only [List.foldl_cons, decode_entries]
    cases hk : dec key with
    | none => simp only [ih]
    | some dk =>
      cases hv : dec value with
      | none => simp only [ih]
      | some dv => simp only [ih, List.foldl_cons]

/-- The `Map` branch of `decode_value` on a Record whose payload is a List of
pairs. -/
theorem decode_value_map_record (fuel : Nat) (props : List (List Char × JSValue))
    (pairs : List (JSValue × JSValue))
    (h : props.lookup TYPE_KEY = some (.string TAG_MAP))
    (hv : props.lookup VALUE_KEY = some (.array (pairs.map pair_slot))) :
    decode_value (fuel + 1) (.object props)
      = some (.map ((decode_entries (decode_value fuel) pairs).foldl
          (fun m q => map_set m q.1 q.2) [])) := by
  rw [decode_value_record fuel props TAG_MAP h, hv, Option.getD_some, decode_value_map]
  exact congrArg (fun l => some (JSValue.map l))
    (foldl_decode_entries (decode_value fuel) pairs [])

/-- C20, as the specification states it, fails in two ways. Both pairs of the payload
`[[k, a], [k, b]]` (all four encoded Texts) decode, yet the result has the single
entry `(k, b)`: `map.set` replaces the value of the entry the first pair made. And
in the payload whose first pair has the `Object`-tagged Record without `$value` as
its key, the decode of that key raises a `TypeError` that stays pending, so the
second pair, whose key and value both decode on their own, is left out: the failing
pair does affect the pair after it. -/
theorem decode_value_map_duplicate_key :
    decode_value 1 (.object [(TYPE_KEY, .string TAG_STRING), (VALUE_KEY, .string ['k'])])
        = some (.string ['k'])
      ∧ decode_value 1 (.object [(TYPE_KEY, .string TAG_STRING), (VALUE_KEY, .string ['a'])])
          = some (.string ['a'])
      ∧ decode_value 1 (.object [(TYPE_KEY, .string TAG_STRING), (VALUE_KEY, .string ['b'])])
          = some (.string ['b'])
      ∧ decode_value 2 (.object [(TYPE_KEY, .string TAG_MAP),
          (VALUE_KEY, .array [
            some (.array [
              some (.object [(TYPE_KEY, .string TAG_STRING), (VALUE_KEY, .string ['k'])]),
              some (.object [(TYPE_KEY, .string TAG_STRING), (VALUE_KEY, .string ['a'])])]),
            some (.array [
              some (.object [(TYPE_KEY, .string TAG_STRING), (VALUE_KEY, .string ['k'])]),
              some (.object [(TYPE_KEY, .string TAG_STRING), (VALUE_KEY, .string ['b'])])])])])
          = some (.map [(.string ['k'], .string ['b'])])
      ∧ (JSValue.string ['k'], JSValue.string ['a']) ∉ [(JSValue.string ['k'], JSValue.string ['b'])]
      ∧ [(JSValue.string ['k'], JSValue.string ['b'])].length ≠ 2
      ∧ decode_value_pending 2
          (.object [(TYPE_KEY, .string TAG_STRING), (VALUE_KEY, .string ['a'])])
          = (some (.string ['a']), false)
      ∧ decode_value_pending 2 (.object [(TYPE_KEY, .string TAG_NULL)]) = (some .null, false)
      ∧ decode_value_pending 2 (.object [(TYPE_KEY, .string TAG_OBJECT)]) = (none, true)
      ∧ decode_value_pending 3 (.object [(TYPE_KEY, .string TAG_MAP),
          (VALUE_KEY, .array [
            some (.array [
              some (.object [(TYPE_KEY, .string TAG_OBJECT)]),
              some (.object [(TYPE_KEY, .string TAG_NULL)])]),
            some (.array [
              some (.object [(TYPE_KEY, .string TAG_STRING), (VALUE_KEY, .string ['a'])]),
              some (.object [(TYPE_KEY, .string TAG_NULL)])])])])
          = (some (.map []), true) := by
  refine ⟨rfl, rfl, rfl, rfl, by simp, by simp, rfl, rfl, rfl, rfl⟩

theorem encode_value_map_eq (fuel : Nat) (entries : List (JSValue × JSValue)) :
    encode_value (fuel + 1) (.map entries) =
      some (.object [(TYPE_KEY, .string TAG_MAP),
        (VALUE_KEY, .array ((encode_entries (encode_value fuel) entries).map pair_slot))]) := by
  simp only [encode_value, napi_typeof, is_buffer, is_uint8_array, is_map, Bool.or_self,
    Bool.false_eq_true, if_false, if_true, encode_map_eq]

theorem decode_entries_encode_entries (enc dec : JSValue → Option JSValue) :
    ∀ (entries : List (JSValue × JSValue)),
      (∀ p ∈ entries, (enc p.1).bind dec = some p.1 ∧ (enc p.2).bind dec = some p.2) →
      decode_entries dec (encode_entries enc entries) = entries := by
  intro entries
  induction entries with
  | nil => intro _; rfl
  | cons q rest ih =>
    intro h
    obtain ⟨key, value⟩ := q
    have hq := h (key, value) (List.mem_cons_self _ _)
    simp only at hq
    cases hk : enc key with
    | none => rw [hk] at hq; simp at hq
    | some ek =>
      cases hv : enc value with
      | none => rw [hv] at hq; simp at hq
      | some ev =>
        rw [hk, hv] at hq
        simp only [Option.some_bind] at hq
        simp only [encode_entries, hk, hv, decode_entries, hq.1, hq.2]
        rw [ih (fun p hp => h p (List.mem_cons_of_mem _ hp))]

/-- C14, as the specification states it, fails: the key `k` and the value, the
Record with the single property `"" : null`, both encode successfully, yet the
encoded OrderedMap decodes to the entry `(k, {})`, not to the same entry. -/
theorem encode_decode_map_not_identity :
    encode_value 1 (.string ['k'])
        = some (.object [(TYPE_KEY, .string TAG_STRING), (VALUE_KEY, .string ['k'])])
      ∧ encode_value 2 (.object [([], .null)])
          = some (.object [(TYPE_KEY, .string TAG_OBJECT), (VALUE_KEY, .object [])])
      ∧ encode_value 3 (.map [(.string ['k'], .object [([], .null)])])
          = some (.object [(TYPE_KEY, .string TAG_MAP),
              (VALUE_KEY, .array [some (.array [
                some (.object [(TYPE_KEY, .string TAG_STRING), (VALUE_KEY, .string ['k'])]),
                some (.object [(TYPE_KEY, .string TAG_OBJECT), (VALUE_KEY, .object [])])])])])
      ∧ (encode_value 3 (.map [(.string ['k'], .object [([], .null)])])).bind (decode_value 3)
          = some (.map [(.string ['k'], .object [])])
      ∧ JSValue.map [(.string ['k'], .object [])]
          ≠ .map [(.string ['k'], .object [([], .null)])] := by
  refine ⟨rfl, rfl, rfl, rfl, by simp⟩

/-- C14, amended: for every OrderedMap with entries `(k1, v1), ..., (kn, vn)` whose
keys and values all encode successfully, `encode_value` returns a `Map`-tagged
envelope whose payload is the List of exactly `n` two-element Lists
`[encode ki, encode vi]`, in the order of the entries; when in addition every key
and every value is restored by `decode_value` from its encoding (as the values of
the round-trip domain of C2 are) and the keys are pairwise different, `decode_value`
of that envelope reconstructs the same entries in the same order. -/
theorem encode_value_map (fuel : Nat) (entries : List (JSValue × JSValue))
    (henc : ∀ p ∈ entries,
      (encode_value fuel p.1).isSome = true ∧ (encode_value fuel p.2).isSome = true) :
    encode_value (fuel + 1) (.map entries) =
        some (.object [(TYPE_KEY, .string TAG_MAP),
          (VALUE_KEY, .array (entries.map (fun p =>
            some (.array [encode_value fuel p.1, encode_value fuel p.2]))))])
      ∧ (entries.map (fun p =>
            some (JSValue.array [encode_value fuel p.1, encode_value fuel p.2]))).length
          = entries.length
      ∧ (distinct_map_keys entries = true →
          (∀ p ∈ entries,
            (encode_value fuel p.1).bind (decode_value fuel) = some p.1
              ∧ (encode_value fuel p.2).bind (decode_value fuel) = some p.2) →
          (encode_value (fuel + 1) (.map entries)).bind (decode_value (fuel + 1))
            = some (.map entries)) := by
  refine ⟨?_, by simp, ?_⟩
  · rw [encode_value_map_eq, encode_entries_all _ entries henc, List.map_map]
    congr 6
    apply List.map_congr_left
    intro p hp
    obtain ⟨h1, h2⟩ := henc p hp
    obtain ⟨ek, hk⟩ := Option.isSome_iff_exists.mp h1
    obtain ⟨ev, hv⟩ := Option.isSome_iff_exists.mp h2
    simp [pair_slot, hk, hv]
  · intro hd hrt
    rw [encode_value_map_eq, Option.some_bind,
      decode_value_map_record fuel
        [(TYPE_KEY, .string TAG_MAP),
          (VALUE_KEY, .array ((encode_entries (encode_value fuel) entries).map pair_slot))]
        (encode_entries (encode_value fuel) entries) rfl rfl,
      decode_entries_encode_entries _ _ entries hrt,
      foldl_map_set_distinct entries [] (by simpa using hd)]
    simp

theorem encode_value_map_witness :
    encode_value 2 (.map [(.string ['b'], .number 1), (.string ['a'], .number 2)]) =
        some (.object [(TYPE_KEY, .string TAG_MAP),
          (VALUE_KEY, .array [
            some (.array [
              some (.object [(TYPE_KEY, .string TAG_STRING), (VALUE_KEY, .string ['b'])]),
              some (.object [(TYPE_KEY, .string TAG_NUMBER), (VALUE_KEY, .number 1)])]),
            some (.array [
              some (.object [(TYPE_KEY, .string TAG_STRING), (VALUE_KEY, .string ['a'])]),
              some (.object [(TYPE_KEY, .string TAG_NUMBER), (VALUE_KEY, .number 2)])])])])
      ∧ (encode_value 2 (.map [(.string ['b'], .number 1), (.string ['a'], .number 2)])).bind
            (decode_value 2)
          = some (.map [(.string ['b'], .number 1), (.string ['a'], .number 2)])
      ∧ (encode_value 2
            (.map [(.string ['k', '1'], .string ['v', '1']),
              (.string ['k', '2'], .string ['v', '2'])])).bind (decode_value 2)
          = some (.map [(.string ['k', '1'], .string ['v', '1']),
              (.string ['k', '2'], .string ['v', '2'])]) :=
  ⟨(encode_value_map 1 [(.string ['b'], .number 1), (.string ['a'], .number 2)]
      (by simp [encode_value, napi_typeof])).1,
    (encode_value_map 1 [(.string ['b'], .number 1), (.string ['a'], .number 2)]
      (by simp [encode_value, napi_typeof])).2.2 rfl
      (by simp [encode_value, napi_typeof, typed_object_eq, decode_value_primitive]),
    (encode_value_map 1
      [(.string ['k', '1'], .string ['v', '1']), (.string ['k', '2'], .string ['v', '2'])]
      (by simp [encode_value, napi_typeof])).2.2 rfl
      (by simp [encode_value, napi_typeof, typed_object_eq, decode_value_primitive])⟩

/-- C19: the claim does not hold of the code. The Object branch of `decode_value` in
`src/remote/serialize.cpp` tests the undecoded field for `undefined`, not the decoded
value: the field `a` holding an `undefined`-tagged envelope is decoded to `undefined`
and kept in the output Record as the property `a` with the value `undefined`. -/
theorem decode_value_undefined_field_kept :
    decode_value 1 (.object [(TYPE_KEY, .string TAG_UNDEFINED)]) = some .undefined
      ∧ decode_value 2 (.object [(TYPE_KEY, .string TAG_OBJECT),
          (VALUE_KEY, .object [(['a'], .object [(TYPE_KEY, .string TAG_UNDEFINED)])])])
          = some (.object [(['a'], .undefined)])
      ∧ napi_has_own_property (.object [(['a'], .undefined)]) ['a'] = some true
      ∧ napi_get_property_names (.object [(['a'], .undefined)]) = some [['a']]
      ∧ JSValue.object [(['a'], .undefined)] ≠ .object [] := by
  refine ⟨rfl, rfl, rfl, rfl, by simp⟩


theorem encode_entries_truncates (enc : JSValue → Option JSValue) :
    ∀ (pre : List (JSValue × JSValue)) (k v : JSValue) (post : List (JSValue × JSValue)),
      (∀ p ∈ pre, (enc p.1).isSome = true ∧ (enc p.2).isSome = true) →
      (enc k = none ∨ enc v = none) →
      encode_entries enc (pre ++ (k, v) :: post) = encode_entries enc pre := by
  intro pre
  induction pre with
  | nil =>
    intro k v post _ hfail
    rcases hfail with h | h
    · simp [encode_entries, h]
    · cases hk : enc k <;> simp [encode_entries, h, hk]
  | cons q t ih =>
    intro k v post hpre hfail
    obtain ⟨qk, qv⟩ := q
    obtain ⟨h1, h2⟩ := hpre (qk, qv) (List.mem_cons_self _ _)
    obtain ⟨ek, hk⟩ := Option.isSome_iff_exists.mp h1
    obtain ⟨ev, hv⟩ := Option.isSome_iff_exists.mp h2
    simp only at hk hv
    have := ih k v post (fun p hp => hpre p (List.mem_cons_of_mem _ hp)) hfail
    rw [List.cons_append]
    simp only [encode_entries, hk, hv, this]

theorem pair_slot_encoded (enc : JSValue → Option JSValue) (pre : List (JSValue × JSValue))
    (hpre : ∀ p ∈ pre, (enc p.1).isSome = true ∧ (enc p.2).isSome = true) :
    (encode_entries enc pre).map pair_slot
      = pre.map (fun p => some (JSValue.array [enc p.1, enc p.2])) := by
  rw [encode_entries_all enc pre hpre, List.map_map]
  apply List.map_congr_left
  intro p hp
  obtain ⟨h1, h2⟩ := hpre p hp
  obtain ⟨ek, hk⟩ := Option.isSome_iff_exists.mp h1
  obtain ⟨ev, hv⟩ := Option.isSome_iff_exists.mp h2
  simp [pair_slot, hk, hv]

/-- C30: `encode_map` (the same text in both variants) truncates instead of
skipping: for every OrderedMap whose entries are `pre`, then an entry `(k, v)` whose
key or value fails to encode, then `post`, where every key and value of `pre`
encodes, the encoding of the map succeeds and the payload of the `Map` envelope
holds exactly the encoded entries of `pre`, in order; the entries of `post`, even
encodable ones, are absent. -/
theorem encode_map_truncates (fuel : Nat) (pre post : List (JSValue × JSValue))
    (k v : JSValue)
    (hpre : ∀ p ∈ pre,
      (encode_value fuel p.1).isSome = true ∧ (encode_value fuel p.2).isSome = true)
    (hfail : encode_value fuel k = none ∨ encode_value fuel v = none) :
    encode_value (fuel + 1) (.map (pre ++ (k, v) :: post)) =
        some (.object [(TYPE_KEY, .string TAG_MAP),
          (VALUE_KEY, .array (pre.map (fun p =>
            some (.array [encode_value fuel p.1, encode_value fuel p.2]))))])
      ∧ encode_map (encode_value fuel) (.map (pre ++ (k, v) :: post)) =
        some (.object [(TYPE_KEY, .string TAG_MAP),
          (VALUE_KEY, .array (pre.map (fun p =>
            some (.array [encode_value fuel p.1, encode_value fuel p.2]))))])
      ∧ (pre.map (fun p =>
            some (JSValue.array [encode_value fuel p.1, encode_value fuel p.2]))).length
          = pre.length
      ∧ rpc_encode (fuel + 1) (.map (pre ++ (k, v) :: post)) =
        .ok (.object [(TYPE_KEY, .string TAG_MAP),
          (VALUE_KEY, .array (pre.map (fun p =>
            some (.array [encode_value fuel p.1, encode_value fuel p.2]))))]) := by
  have h1 : encode_value (fuel + 1) (.map (pre ++ (k, v) :: post)) =
      some (.object [(TYPE_KEY, .string TAG_MAP),
        (VALUE_KEY, .array (pre.map (fun p =>
          some (.array [encode_value fuel p.1, encode_value fuel p.2]))))]) := by
    rw [encode_value_map_eq, encode_entries_truncates _ pre k v post hpre hfail,
      pair_slot_encoded _ pre hpre]
  have h2 : encode_map (encode_value fuel) (.map (pre ++ (k, v) :: post)) =
      some (.object [(TYPE_KEY, .string TAG_MAP),
        (VALUE_KEY, .array (pre.map (fun p =>
          some (.array [encode_value fuel p.1, encode_value fuel p.2]))))]) := by
    rw [encode_map_eq, encode_entries_truncates _ pre k v post hpre hfail,
      pair_slot_encoded _ pre hpre]
  exact ⟨h1, h2, by simp, by simp only [rpc_encode, h1]⟩

theorem encode_map_truncates_witness :
    encode_value 2 (.map [(.string ['a'], .null), (.string ['f'], .func),
        (.string ['b'], .boolean true)]) =
      some (.object [(TYPE_KEY, .string TAG_MAP),
        (VALUE_KEY, .array [some (.array [
          some (.object [(TYPE_KEY, .string TAG_STRING), (VALUE_KEY, .string ['a'])]),
          some (.object [(TYPE_KEY, .string TAG_NULL)])])])]) :=
  (encode_map_truncates 1 [(.string ['a'], .null)] [(.string ['b'], .boolean true)]
    (.string ['f']) .func (by simp [encode_value, napi_typeof]) (Or.inr rfl)).1

theorem hex_value_lt (c : Char) (d : Nat) (h : hex_value c = some d) : d < 16 := by
  unfold hex_value at h
  simp only [char_le_iff] at h
  have h0 : '0'.toNat = 48 := rfl
  have h9 : '9'.toNat = 57 := rfl
  have ha : 'a'.toNat = 97 := rfl
  have hf : 'f'.toNat = 102 := rfl
  have hA : 'A'.toNat = 65 := rfl
  have hF : 'F'.toNat = 70 := rfl
  rw [h0, h9, ha, hf, hA, hF] at h
  split_ifs at h with h1 h2 h3 <;> simp only [Option.some.injEq, reduceCtorEq] at h <;> omega

theorem hex_value_not_space (c : Char) (d : Nat) (h : hex_value c = some d) :
    is_c_space c = false ∧ c ≠ '-' ∧ c ≠ '+' ∧ c ≠ 'x' ∧ c ≠ 'X' := by
  have hsome : (hex_value c).isSome = true := by rw [h]; rfl
  refine ⟨?_, ?_, ?_, ?_, ?_⟩
  · by_contra hs
    simp only [Bool.not_eq_false, is_c_space, Bool.or_eq_true, decide_eq_true_eq] at hs
    rcases hs with ((((rfl | rfl) | rfl) | rfl) | rfl) | rfl <;>
      exact absurd hsome (by decide)
  all_goals
    intro e
    subst e
    exact absurd hsome (by decide)

theorem strtoul16_four_hex (h1 h2 h3 h4 : Char) (d1 d2 d3 d4 : Nat)
    (e1 : hex_value h1 = some d1) (e2 : hex_value h2 = some d2)
    (e3 : hex_value h3 = some d3) (e4 : hex_value h4 = some d4) :
    strtoul16 [h1, h2, h3, h4] = d1 * 4096 + d2 * 256 + d3 * 16 + d4 := by
  obtain ⟨s1, m1, p1, _, _⟩ := hex_value_not_space h1 d1 e1
  obtain ⟨_, _, _, x2, X2⟩ := hex_value_not_space h2 d2 e2
  simp only [strtoul16, List.dropWhile_cons, s1, Bool.false_eq_true, if_false, List.head?_cons,
    Option.some.injEq, m1, p1, or_self, x2, X2, false_and, and_false, hex_prefix_value, e1, e2,
    e3, e4, decide_False]
  omega

/-- C28: inside a quoted string, an escape `\uXXXX` made of four hexadecimal digits
is consumed as its six characters; the loop appends the single character with that
code when the code point is at most `0x7F` and appends nothing when it is higher,
and in both cases goes on with the characters after the escape. The four digits
need not be followed by another character. -/
theorem parse_string_loop_unicode (fuel : Nat) (h1 h2 h3 h4 : Char) (d1 d2 d3 d4 : Nat)
    (rest result : List Char)
    (e1 : hex_value h1 = some d1) (e2 : hex_value h2 = some d2)
    (e3 : hex_value h3 = some d3) (e4 : hex_value h4 = some d4) :
    parse_string_loop (fuel + 1) ('\\' :: 'u' :: h1 :: h2 :: h3 :: h4 :: rest) result
        = parse_string_loop fuel rest
            (if d1 * 4096 + d2 * 256 + d3 * 16 + d4 ≤ 0x7F then
              result ++ [Char.ofNat (d1 * 4096 + d2 * 256 + d3 * 16 + d4)]
            else result)
      ∧ d1 * 4096 + d2 * 256 + d3 * 16 + d4 < 65536 := by
  have b1 := hex_value_lt h1 d1 e1
  have b2 := hex_value_lt h2 d2 e2
  have b3 := hex_value_lt h3 d3 e3
  have b4 := hex_value_lt h4 d4 e4
  have hs := strtoul16_four_hex h1 h2 h3 h4 d1 d2 d3 d4 e1 e2 e3 e4
  have hmod : (d1 * 4096 + d2 * 256 + d3 * 16 + d4) % 2 ^ 32
      = d1 * 4096 + d2 * 256 + d3 * 16 + d4 := Nat.mod_eq_of_lt (by omega)
  refine ⟨?_, by omega⟩
  have hq : ('\\' : Char) ≠ '"' := by decide
  have u1 : ('u' : Char) ≠ '"' := by decide
  have u2 : ('u' : Char) ≠ '\\' := by decide
  have u3 : ('u' : Char) ≠ '/' := by decide
  have u4 : ('u' : Char) ≠ 'b' := by decide
  have u5 : ('u' : Char) ≠ 'f' := by decide
  have u6 : ('u' : Char) ≠ 'n' := by decide
  have u7 : ('u' : Char) ≠ 'r' := by decide
  have u8 : ('u' : Char) ≠ 't' := by decide
  simp only [parse_string_loop, hq, if_false, true_and, ne_eq, reduceCtorEq, not_false_eq_true,
    if_true, u1, u2, u3, u4, u5, u6, u7, u8, List.length_cons, List.take_succ_cons,
    List.take_zero, List.drop_succ_cons, List.drop_zero, hs, hmod,
    show 4 ≤ rest.length + 1 + 1 + 1 + 1 by omega]

theorem parse_string_loop_unicode_witness :
    parse_string_loop 3 ['\\', 'u', '0', '0', '4', '1', '\\', 'u', '0', '0', 'e', '9', '"'] []
        = parse_string_loop 2 ['\\', 'u', '0', '0', 'e', '9', '"'] ['A']
      ∧ parse_string_loop 2 ['\\', 'u', '0', '0', 'e', '9', '"'] ['A']
          = parse_string_loop 1 ['"'] ['A']
      ∧ parse_string ['"', '\\', 'u', '0', '0', '4', '1', '\\', 'u', '0', '0', 'e', '9', '"']
          = (['A'], []) :=
  ⟨(parse_string_loop_unicode 2 '0' '0' '4' '1' 0 0 4 1
      ['\\', 'u', '0', '0', 'e', '9', '"'] [] rfl rfl rfl rfl).1,
    (parse_string_loop_unicode 1 '0' '0' 'e' '9' 0 0 14 9 ['"'] ['A'] rfl rfl rfl rfl).1,
    by decide⟩

theorem to_string_int_eq (n : Int) :
    to_string_int n = (if n < 0 then ['-'] else []) ++ to_string_nat n.natAbs := by
  unfold to_string_int
  split
  · rfl
  · rename_i h
    have : n.toNat = n.natAbs := by omega
    rw [this]; rfl

/-- C24: for every integral Number `n` with `|n| < 2 ^ 53`, `value_to_json` renders
`n` as its plain decimal integer literal: a leading `-` exactly for the negatives,
then the decimal digits of `|n|`, without a leading zero (the literal of 0 is `0`),
with no fractional part and no exponent; `parse_number` applied to that literal
consumes all of it and returns `n`. -/
theorem value_to_json_integral (fuel : Nat) (n : Int) (hn : n.natAbs < 2 ^ 53) :
    value_to_json (fuel + 1) (.number (n : ℚ))
        = (if n < 0 then ['-'] else []) ++ to_string_nat n.natAbs
      ∧ (∀ c ∈ to_string_nat n.natAbs, is_digit c = true)
      ∧ to_string_nat n.natAbs ≠ []
      ∧ ((to_string_nat n.natAbs).head? = some '0' → to_string_nat n.natAbs = ['0'])
      ∧ digits_value (to_string_nat n.natAbs) = n.natAbs
      ∧ parse_number (value_to_json (fuel + 1) (.number (n : ℚ))) = ((n : ℚ), [])
      ∧ n.natAbs < 2 ^ 53 := by
  obtain ⟨h1, h2, h3, h4⟩ := to_string_nat_spec n.natAbs
  refine ⟨?_, h2, h3, h4, h1, ?_, hn⟩
  · rw [value_to_json_int, to_string_int_eq]
  · rw [value_to_json_int]
    have := parse_number_to_string_int n [] (by intro c hc; simp at hc)
    rw [List.append_nil] at this
    exact this

theorem value_to_json_integral_witness :
    (-1205 : Int).natAbs < 2 ^ 53
      ∧ value_to_json 1 (.number ((-1205 : Int) : ℚ)) = ['-', '1', '2', '0', '5']
      ∧ parse_number (value_to_json 1 (.number ((-1205 : Int) : ℚ)))
          = (((-1205 : Int) : ℚ), []) :=
  ⟨by decide, (value_to_json_integral 0 (-1205) (by decide)).1,
    (value_to_json_integral 0 (-1205) (by decide)).2.2.2.2.2.1⟩

theorem unescaped_quote_scan_escape_char (c : Char) (tail : List Char) :
    unescaped_quote_scan false (escape_char c ++ tail) = unescaped_quote_scan false tail := by
  have hexq : ∀ d : Nat, hex_char d ≠ '"' ∧ hex_char d ≠ '\\' := by
    intro d
    have h : d % 16 < 16 := Nat.mod_lt _ (by omega)
    unfold hex_char
    generalize d % 16 = r at h
    interval_cases r <;> decide
  unfold escape_char
  split_ifs with h1 h2 h3 h4 h5 h6 h7 h8
  · simp [unescaped_quote_scan]
  · simp [unescaped_quote_scan]
  · simp [unescaped_quote_scan]
  · simp [unescaped_quote_scan]
  · simp [unescaped_quote_scan]
  · simp [unescaped_quote_scan]
  · simp [unescaped_quote_scan]
  · simp [unescaped_quote_scan, (hexq (c.toNat / 4096)).1, (hexq (c.toNat / 4096)).2,
      (hexq (c.toNat / 256)).1, (hexq (c.toNat / 256)).2,
      (hexq (c.toNat / 16)).1, (hexq (c.toNat / 16)).2, (hexq c.toNat).1, (hexq c.toNat).2]
  · simp [unescaped_quote_scan, h1, h2]

theorem escape_char_ge_32 (x : Char) : ∀ c ∈ escape_char x, 32 ≤ c.toNat := by
  have hexge : ∀ d : Nat, 32 ≤ (hex_char d).toNat := by
    intro d
    have h : d % 16 < 16 := Nat.mod_lt _ (by omega)
    unfold hex_char
    generalize d % 16 = r at h
    interval_cases r <;> decide
  intro c hc
  unfold escape_char at hc
  split_ifs at hc with h1 h2 h3 h4 h5 h6 h7 h8
  all_goals simp only [List.mem_cons, List.mem_singleton, List.mem_nil_iff, or_false] at hc
  · rcases hc with rfl | rfl <;> decide
  · rcases hc with rfl | rfl <;> decide
  · rcases hc with rfl | rfl <;> decide
  · rcases hc with rfl | rfl <;> decide
  · rcases hc with rfl | rfl <;> decide
  · rcases hc with rfl | rfl <;> decide
  · rcases hc with rfl | rfl <;> decide
  · rcases hc with rfl | rfl | rfl | rfl | rfl | rfl
    · decide
    · decide
    · exact hexge _
    · exact hexge _
    · exact hexge _
    · exact hexge _
  · subst hc; omega

/-- C23: for every text `s` (any characters: quotes, backslashes, control
characters, NUL, bytes from `0x80` on), `parse_string` applied to the quoted text
`"` ++ `escape_json_string s` ++ `"` consumes all of it and returns `s`; the text
`escape_json_string s` contains no character with a code below `0x20`, and no `"`
that is not escaped by a backslash. -/
theorem parse_string_escape_json_string (s : List Char) :
    parse_string (['"'] ++ escape_json_string s ++ ['"']) = (s, [])
      ∧ (∀ rest, parse_string (['"'] ++ escape_json_string s ++ ['"'] ++ rest) = (s, rest))
      ∧ (∀ c ∈ escape_json_string s, 0x20 ≤ c.toNat)
      ∧ has_unescaped_quote (escape_json_string s) = false := by
  refine ⟨?_, ?_, ?_, ?_⟩
  · have := parse_string_escaped s []
    simpa using this
  · intro rest
    have := parse_string_escaped s rest
    simpa using this
  · intro c hc
    simp only [escape_json_string, List.mem_flatMap] at hc
    obtain ⟨x, _, hx⟩ := hc
    exact escape_char_ge_32 x c hx
  · induction s with
    | nil => rfl
    | cons c s ih =>
      unfold has_unescaped_quote at ih ⊢
      rw [escape_json_string_cons, unescaped_quote_scan_escape_char, ih]

theorem parse_object_loop_nil (fuel : Nat) (obj : JSValue) :
    parse_object_loop fuel [] obj = (some obj, []) := by
  cases fuel <;> rfl

/-- The object loop on the members `ps`, each followed by a comma, the last comma
being the end of the input. -/
theorem parse_object_loop_truncated (j : JSValue → List Char) :
    ∀ (ps : List (List Char × JSValue)), ps ≠ [] →
      (∀ p ∈ ps, (p.1 ≠ [] ∧ c_str p.1 = p.1) ∧ parses_back (j p.2) p.2) →
      ∀ (done : List (List Char × JSValue)) (fuel : Nat),
        ((done ++ ps).map Prod.fst).Nodup →
        2 * (comma_join (ps.map (json_member j))).length + 2 ≤ fuel →
        parse_object_loop fuel (comma_join (ps.map (json_member j)) ++ [',']) (.object done)
          = (some (.object (done ++ ps)), []) := by
  intro ps
  induction ps with
  | nil => intro h; exact absurd rfl h
  | cons p t ih =>
    intro _ hall done fuel hnd hfuel
    obtain ⟨f, rfl⟩ : ∃ f, fuel = f + 1 := ⟨fuel - 1, by omega⟩
    obtain ⟨⟨hk1, hk2⟩, _, _, hparse⟩ := hall p (List.mem_cons_self _ _)
    have hset : napi_set_named_property (.object done) (c_str p.1) p.2
        = .object (done ++ [p]) := by
      rw [hk2]
      have hnot : ∀ q ∈ done, q.1 ≠ p.1 := by
        intro q hq e
        rw [List.map_append, List.nodup_append] at hnd
        exact hnd.2.2 (List.mem_map_of_mem _ hq) (by rw [e]; simp)
      simp [napi_set_named_property, set_prop_append done p.1 p.2 hnot]
    cases t with
    | nil =>
      simp only [List.map_cons, List.map_nil, comma_join] at hfuel ⊢
      rw [json_member_length] at hfuel
      rw [json_member_eq,
        parse_object_loop_next f p.1 (j p.2) [] p.2 _ hk1
          (hparse f _ (by omega) (follows_ok_cons _ _ (Or.inl rfl))), hset]
      simp [skip_whitespace, parse_object_loop_nil]
    | cons p2 t' =>
      have hcj : comma_join ((p :: p2 :: t').map (json_member j))
          = json_member j p ++ ',' :: comma_join ((p2 :: t').map (json_member j)) := by
        simp [comma_join]
      rw [hcj] at hfuel ⊢
      simp only [List.length_append, List.length_cons, json_member_length] at hfuel
      rw [List.append_assoc, List.cons_append, json_member_eq,
        parse_object_loop_next f p.1 (j p.2) _ p.2 _ hk1
          (hparse f _ (by omega) (follows_ok_cons _ _ (Or.inl rfl))), hset]
      have hsk : skip_whitespace (comma_join ((p2 :: t').map (json_member j)) ++ [','])
          = comma_join ((p2 :: t').map (json_member j)) ++ [','] := by
        rw [List.map_cons, comma_join_cons, json_member]
        exact skip_whitespace_cons _ _ (by decide)
      rw [hsk]
      have := ih (by simp) (fun x hx => hall x (List.mem_cons_of_mem _ hx)) (done ++ [p]) f
        (by simpa using hnd) (by omega)
      rw [this]
      simp

theorem parse_value_object_truncated (fuel : Nat) (j : JSValue → List Char)
    (p : List Char × JSValue) (t : List (List Char × JSValue))
    (hall : ∀ q ∈ p :: t, (q.1 ≠ [] ∧ c_str q.1 = q.1) ∧ parses_back (j q.2) q.2)
    (hnd : ((p :: t).map Prod.fst).Nodup)
    (hfuel : 2 * (comma_join ((p :: t).map (json_member j))).length + 3 ≤ fuel) :
    parse_value fuel ('{' :: (comma_join ((p :: t).map (json_member j)) ++ [',']))
      = (some (.object (p :: t)), []) := by
  obtain ⟨f, rfl⟩ : ∃ f, fuel = f + 1 := ⟨fuel - 1, by omega⟩
  have hloop := parse_object_loop_truncated j (p :: t) (by simp) hall [] f
    (by simpa using hnd) (by omega)
  simp only [List.nil_append] at hloop
  have hstart : ∃ tl, comma_join ((p :: t).map (json_member j)) = '"' :: tl := by
    rw [List.map_cons, comma_join_cons, json_member]
    exact ⟨_, rfl⟩
  obtain ⟨tl, htl⟩ := hstart
  rw [htl] at hloop ⊢
  simp only [List.cons_append] at hloop ⊢
  have hsk := skip_whitespace_cons '"' (tl ++ [',']) (by decide)
  have hsk0 := skip_whitespace_cons '{' ('"' :: (tl ++ [','])) (by decide)
  simp only [parse_value, hsk0, hsk]
  simp [match_string, hloop]

theorem json_member_no_nul (j : JSValue → List Char) (p : List Char × JSValue)
    (hv : parses_back (j p.2) p.2) :
    ∀ c ∈ json_member j p, c ≠ Char.ofNat 0 := by
  intro c hc
  simp only [json_member, List.mem_cons, List.mem_append] at hc
  rcases hc with rfl | hc | rfl | rfl | hc
  · decide
  · exact escape_json_string_no_nul _ c hc
  · decide
  · decide
  · exact hv.2.1 c hc

/-- An object text cut off right after the comma that follows a complete member: the
text is `{`, then one or more members `"key":value` separated by commas, then a
comma and the end of the input; the keys are escaped Texts, pairwise different,
non-empty and without a NUL character, and each value is written as a text `j v`
that parses back to it. -/
theorem json_to_value_truncated_members (j : JSValue → List Char) (p : List Char × JSValue)
    (t : List (List Char × JSValue))
    (hall : ∀ q ∈ p :: t, (q.1 ≠ [] ∧ c_str q.1 = q.1) ∧ parses_back (j q.2) q.2)
    (hnd : ((p :: t).map Prod.fst).Nodup) :
    json_to_value (['{'] ++ comma_join ((p :: t).map (json_member j)) ++ [','])
      = some (.object (p :: t)) := by
  have hnonul : ∀ c ∈ ['{'] ++ comma_join ((p :: t).map (json_member j)) ++ [','],
      c ≠ Char.ofNat 0 := by
    intro c hc
    simp only [List.mem_append, List.mem_singleton] at hc
    rcases hc with (rfl | hc) | rfl
    · decide
    · rcases comma_join_mem _ c hc with rfl | ⟨x, hx, hcx⟩
      · decide
      · obtain ⟨q, hq, rfl⟩ := List.mem_map.mp hx
        exact json_member_no_nul j q (hall q hq).2 c hcx
    · decide
  have hparse := parse_value_object_truncated
    (2 * (c_str (['{'] ++ comma_join ((p :: t).map (json_member j)) ++ [','])).length + 2)
    j p t hall hnd
    (by rw [c_str_of_no_nul _ hnonul]
        simp only [List.length_append, List.length_singleton, List.length_cons,
          List.length_nil]
        omega)
  unfold json_to_value
  rw [if_neg (by simp), c_str_of_no_nul _ hnonul] at *
  simp only [List.singleton_append, List.cons_append, List.nil_append] at hparse ⊢
  rw [hparse]

theorem framework_decode_object_step_eq (dec : JSValue → Option JSValue)
    (hdec : dec .undefined = none) :
    Framework.decode_object_step dec = decode_object_step dec := by
  funext value_obj result prop_name
  unfold Framework.decode_object_step decode_object_step
  simp only [get_string_value]
  split
  · rfl
  · cases napi_get_named_property value_obj (c_str prop_name) with
    | none => rfl
    | some prop_value =>
      cases prop_value with
      | undefined => simp only [hdec]
      | null => show _ = _; cases dec .null <;> rfl
      | boolean b => show _ = _; cases dec (.boolean b) <;> rfl
      | number x => show _ = _; cases dec (.number x) <;> rfl
      | string s => show _ = _; cases dec (.string s) <;> rfl
      | func => show _ = _; cases dec .func <;> rfl
      | buffer bytes => show _ = _; cases dec (.buffer bytes) <;> rfl
      | array elems => show _ = _; cases dec (.array elems) <;> rfl
      | map entries => show _ = _; cases dec (.map entries) <;> rfl
      | object props => show _ = _; cases dec (.object props) <;> rfl

theorem framework_decode_value_eq (fuel : Nat) :
    ∀ x : JSValue, Framework.decode_value fuel x = decode_value fuel x := by
  induction fuel with
  | zero => intro x; rfl
  | succ fuel ih =>
    intro x
    have hfun : Framework.decode_value fuel = decode_value fuel := funext ih
    have hstep : Framework.decode_object_step (decode_value fuel)
        = decode_object_step (decode_value fuel) :=
      framework_decode_object_step_eq _ (decode_value_not_object fuel .undefined (by simp))
    simp only [Framework.decode_value, decode_value, hfun, hstep]

/-- C29: the decoders of the two variants are extensionally equal: for every input
`x` and every depth budget, `decode_value` of `src/framework/proxy/serialize.cpp`
and `decode_value` of `src/remote/serialize.cpp` both fail or both return the same
value. The only difference of the two texts, the test of an `Object` payload field
for `undefined`, changes nothing: a raw `undefined` field is left out by both
(it is not decoded), and a field holding an `undefined`-tagged envelope is kept by
both, with the value `undefined`. -/
theorem framework_decode_value_eq_remote (fuel : Nat) (x : JSValue) :
    Framework.decode_value fuel x = decode_value fuel x
      ∧ Framework.decode_value 2 (.object [(TYPE_KEY, .string TAG_OBJECT),
          (VALUE_KEY, .object [(['a'], .undefined),
            (['b'], .object [(TYPE_KEY, .string TAG_UNDEFINED)])])])
          = some (.object [(['b'], .undefined)])
      ∧ decode_value 2 (.object [(TYPE_KEY, .string TAG_OBJECT),
          (VALUE_KEY, .object [(['a'], .undefined),
            (['b'], .object [(TYPE_KEY, .string TAG_UNDEFINED)])])])
          = some (.object [(['b'], .undefined)]) := by
  exact ⟨framework_decode_value_eq fuel x, rfl, rfl⟩

theorem group_sextets_strip (g : List Char) :
    group_sextets (strip_unrecognized g) = group_sextets g := by
  induction g with
  | nil => rfl
  | cons c g ih =>
    by_cases h1 : c = '='
    · subst h1
      have : strip_unrecognized ('=' :: g) = '=' :: strip_unrecognized g := by
        simp [strip_unrecognized, is_base64_char]
      rw [this, group_sextets_cons_eq, group_sextets_cons_eq]
    · by_cases h2 : get_base64_index c = -1
      · have : strip_unrecognized (c :: g) = strip_unrecognized g := by
          simp [strip_unrecognized, is_base64_char, h1, h2]
        rw [this, group_sextets_cons_skip c g h1 h2, ih]
      · have : strip_unrecognized (c :: g) = c :: strip_unrecognized g := by
          simp [strip_unrecognized, is_base64_char, h2]
        rw [this, group_sextets_cons_valid c g h1 h2, group_sextets_cons_valid c _ h1 h2, ih]

theorem base64_decode_short (g : List Char) (hg : g.length ≤ 4) :
    base64_decode g = group_contribution g := by
  rw [base64_decode_eq_groups]
  match g, hg with
  | [], _ => rfl
  | [c0], _ => simp [groups4, decode_group_bytes_eq]
  | [c0, c1], _ => simp [groups4, decode_group_bytes_eq]
  | [c0, c1, c2], _ => simp [groups4, decode_group_bytes_eq]
  | [c0, c1, c2, c3], _ => simp [groups4, decode_group_bytes_eq]

theorem group_contribution_strip (g : List Char) :
    group_contribution (strip_unrecognized g) = group_contribution g := by
  unfold group_contribution
  rw [group_sextets_strip]

/-- C25, as the specification states it, fails: the text `Q.UJD` decodes to the two
bytes 65, 66, while `QUJD`, the same text without the unrecognized `.`, decodes to
the three bytes 65, 66, 67. -/
theorem base64_decode_skip_changes_groups :
    strip_unrecognized ['Q', '.', 'U', 'J', 'D'] = ['Q', 'U', 'J', 'D']
      ∧ base64_decode ['Q', '.', 'U', 'J', 'D'] = [65, 66]
      ∧ base64_decode ['Q', 'U', 'J', 'D'] = [65, 66, 67]
      ∧ base64_decode ['Q', '.', 'U', 'J', 'D']
          ≠ base64_decode (strip_unrecognized ['Q', '.', 'U', 'J', 'D']) := by
  decide

/-- C25, amended: unrecognized characters are skipped inside their group of four
characters, in which they still take a place: for every text `t`, `base64_decode t`
is the concatenation, over the consecutive 4-character groups `g` of `t`, of
`base64_decode` of `g` without its characters that are neither alphabet characters
nor `=`; a text in which every character is recognized is left unchanged by the
removal. -/
theorem base64_decode_skips_in_groups (t : List Char) :
    base64_decode t
        = ((groups4 t).map (fun g => base64_decode (strip_unrecognized g))).flatten
      ∧ ((∀ c ∈ t, is_base64_char c = true) → strip_unrecognized t = t) := by
  refine ⟨?_, ?_⟩
  · rw [base64_decode_eq_groups]
    congr 1
    apply List.map_congr_left
    intro g hg
    have hlen := groups4_length_le t g hg
    have hlen' : (strip_unrecognized g).length ≤ 4 :=
      le_trans (List.length_filter_le _ _) hlen
    rw [decode_group_bytes_eq g hlen, base64_decode_short _ hlen', group_contribution_strip]
  · intro h
    exact List.filter_eq_self.mpr h

theorem base64_decode_skips_in_groups_witness :
    (∀ c ∈ ['Q', 'U', 'J', 'D'], is_base64_char c = true)
      ∧ strip_unrecognized ['Q', 'U', 'J', 'D'] = ['Q', 'U', 'J', 'D']
      ∧ base64_decode ['Q', '.', 'U', 'J', 'D']
          = ((groups4 ['Q', '.', 'U', 'J', 'D']).map
              (fun g => base64_decode (strip_unrecognized g))).flatten :=
  ⟨by decide, (base64_decode_skips_in_groups ['Q', 'U', 'J', 'D']).2 (by decide),
    (base64_decode_skips_in_groups ['Q', '.', 'U', 'J', 'D']).1⟩

theorem base64_encode_loop_fuel (f1 : Nat) :
    ∀ (data : List Nat) (f2 : Nat), data.length ≤ 3 * f1 → data.length ≤ 3 * f2 →
      base64_encode_loop data f1 0 = base64_encode_loop data f2 0 := by
  induction f1 with
  | zero =>
    intro data f2 h1 _
    have : data = [] := List.eq_nil_of_length_eq_zero (by omega)
    subst this
    cases f2 <;> rfl
  | succ f1 ih =>
    intro data f2 h1 h2
    by_cases h0 : 0 < data.length
    · obtain ⟨g, rfl⟩ : ∃ g, f2 = g + 1 := ⟨f2 - 1, by omega⟩
      rw [base64_encode_loop_step, base64_encode_loop_step, if_pos h0, if_pos h0,
        ih (data.drop 3) g (by simp only [List.length_drop]; omega)
          (by simp only [List.length_drop]; omega)]
    · have : data = [] := List.eq_nil_of_length_eq_zero (by omega)
      subst this
      cases f2 <;> rfl

theorem base64_encode_cons3 (b0 b1 b2 : Nat) (rest : List Nat) :
    base64_encode (b0 :: b1 :: b2 :: rest)
      = encode_quad (b0 :: b1 :: b2 :: rest) ++ base64_encode rest := by
  rw [base64_encode_eq_loop, base64_encode_eq_loop]
  simp only [List.length_cons]
  rw [base64_encode_loop_step, if_pos (by simp)]
  simp only [List.drop_succ_cons, List.drop_zero]
  rw [base64_encode_loop_fuel _ rest rest.length (by omega) (by omega)]

theorem alphabet_char (c : Char) (h : c ∈ BASE64_CHARS) :
    ∃ s, s < 64 ∧ c = BASE64_CHARS.getD s 'A' ∧ get_base64_index c = (s : Int) := by
  obtain ⟨i, hi, rfl⟩ := List.mem_iff_getElem.mp h
  have hi' : i < 64 := hi
  refine ⟨i, hi', ?_, ?_⟩
  · simp [List.getD_eq_getElem?_getD, List.getElem?_eq_getElem hi]
  · have := (alphabet_index i hi').1
    simpa [List.getD_eq_getElem?_getD, List.getElem?_eq_getElem hi] using this

theorem encode_decode_quad4 (s0 s1 s2 s3 : Nat) (h0 : s0 < 64) (h1 : s1 < 64) (h2 : s2 < 64)
    (h3 : s3 < 64) (r : List Char) :
    base64_encode (base64_decode
        ([BASE64_CHARS.getD s0 'A', BASE64_CHARS.getD s1 'A', BASE64_CHARS.getD s2 'A',
          BASE64_CHARS.getD s3 'A'] ++ r))
      = [BASE64_CHARS.getD s0 'A', BASE64_CHARS.getD s1 'A', BASE64_CHARS.getD s2 'A',
          BASE64_CHARS.getD s3 'A'] ++ base64_encode (base64_decode r) := by
  have hg : decode_group_bytes [BASE64_CHARS.getD s0 'A', BASE64_CHARS.getD s1 'A',
      BASE64_CHARS.getD s2 'A', BASE64_CHARS.getD s3 'A']
      = [s0 * 4 + s1 / 16, s1 % 16 * 16 + s2 / 4, s2 % 4 * 64 + s3] := by
    rw [decode_group_bytes_eq _ (by simp), group_contribution,
      group_sextets_alphabet _ h0, group_sextets_alphabet _ h1, group_sextets_alphabet _ h2,
      group_sextets_alphabet _ h3, group_sextets_nil]
    simp [pack24]
    omega
  rw [base64_decode_append_quad _ _ (by simp), hg]
  simp only [List.cons_append, List.nil_append]
  rw [base64_encode_cons3, encode_quad_three _ _ _ _ (by omega) (by omega) (by omega)]
  have e0 : (s0 * 4 + s1 / 16) / 4 = s0 := by omega
  have e1 : (s0 * 4 + s1 / 16) % 4 * 16 + (s1 % 16 * 16 + s2 / 4) / 16 = s1 := by omega
  have e2 : (s1 % 16 * 16 + s2 / 4) % 16 * 4 + (s2 % 4 * 64 + s3) / 64 = s2 := by omega
  have e3 : (s2 % 4 * 64 + s3) % 64 = s3 := by omega
  rw [e0, e1, e2, e3]
  rfl

theorem encode_decode_quad3 (s0 s1 s2 : Nat) (h0 : s0 < 64) (h1 : s1 < 64) (h2 : s2 < 64)
    (hz : s2 % 4 = 0) :
    base64_encode (base64_decode
        [BASE64_CHARS.getD s0 'A', BASE64_CHARS.getD s1 'A', BASE64_CHARS.getD s2 'A', '='])
      = [BASE64_CHARS.getD s0 'A', BASE64_CHARS.getD s1 'A', BASE64_CHARS.getD s2 'A', '='] := by
  have hg : base64_decode [BASE64_CHARS.getD s0 'A', BASE64_CHARS.getD s1 'A',
      BASE64_CHARS.getD s2 'A', '=']
      = [s0 * 4 + s1 / 16, s1 % 16 * 16 + s2 / 4] := by
    rw [base64_decode_short _ (by simp), group_contribution,
      group_sextets_alphabet _ h0, group_sextets_alphabet _ h1, group_sextets_alphabet _ h2,
      group_sextets_cons_eq]
    simp [pack24]
    omega
  rw [hg]
  have hq : base64_encode [s0 * 4 + s1 / 16, s1 % 16 * 16 + s2 / 4]
      = encode_quad [s0 * 4 + s1 / 16, s1 % 16 * 16 + s2 / 4] := by
    rw [base64_encode_eq_loop]
    simp only [List.length_cons, List.length_nil]
    rw [base64_encode_loop_step, if_pos (by simp)]
    simp [base64_encode_loop]
  rw [hq, encode_quad_two _ _ (by omega) (by omega)]
  have e0 : (s0 * 4 + s1 / 16) / 4 = s0 := by omega
  have e1 : (s0 * 4 + s1 / 16) % 4 * 16 + (s1 % 16 * 16 + s2 / 4) / 16 = s1 := by omega
  have e2 : (s1 % 16 * 16 + s2 / 4) % 16 * 4 = s2 := by omega
  rw [e0, e1, e2]

theorem encode_decode_quad2 (s0 s1 : Nat) (h0 : s0 < 64) (h1 : s1 < 64) (hz : s1 % 16 = 0) :
    base64_encode (base64_decode
        [BASE64_CHARS.getD s0 'A', BASE64_CHARS.getD s1 'A', '=', '='])
      = [BASE64_CHARS.getD s0 'A', BASE64_CHARS.getD s1 'A', '=', '='] := by
  have hg : base64_decode [BASE64_CHARS.getD s0 'A', BASE64_CHARS.getD s1 'A', '=', '=']
      = [s0 * 4 + s1 / 16] := by
    rw [base64_decode_short _ (by simp), group_contribution,
      group_sextets_alphabet _ h0, group_sextets_alphabet _ h1, group_sextets_cons_eq]
    simp [pack24]
    omega
  rw [hg]
  have hq : base64_encode [s0 * 4 + s1 / 16] = encode_quad [s0 * 4 + s1 / 16] := by
    rw [base64_encode_eq_loop]
    simp only [List.length_cons, List.length_nil]
    rw [base64_encode_loop_step, if_pos (by simp)]
    simp [base64_encode_loop]
  rw [hq, encode_quad_one _ (by omega)]
  have e0 : (s0 * 4 + s1 / 16) / 4 = s0 := by omega
  have e1 : (s0 * 4 + s1 / 16) % 4 * 16 = s1 := by omega
  rw [e0, e1]

theorem base64_encode_decode_aux (n : Nat) :
    ∀ (body pad : List Char), body.length ≤ n →
      (∀ c ∈ body, c ∈ BASE64_CHARS) →
      (body ++ pad).length % 4 = 0 →
      (pad = []
        ∨ (pad = ['='] ∧ ∃ c, body.getLast? = some c ∧ get_base64_index c % 4 = 0)
        ∨ (pad = ['=', '='] ∧ ∃ c, body.getLast? = some c ∧ get_base64_index c % 16 = 0)) →
      base64_encode (base64_decode (body ++ pad)) = body ++ pad := by
  induction n with
  | zero =>
    intro body pad hn _ hlen hpad
    have hb : body = [] := List.eq_nil_of_length_eq_zero (by omega)
    subst hb
    rcases hpad with rfl | ⟨rfl, _⟩ | ⟨rfl, _⟩
    · rfl
    · simp only [List.length_append, List.length_cons, List.length_nil, List.nil_append,
          List.append_nil] at hlen; omega
    · simp only [List.length_append, List.length_cons, List.length_nil, List.nil_append,
          List.append_nil] at hlen; omega
  | succ n ih =>
    intro body pad hn hbody hlen hpad
    match body, hn, hbody, hlen, hpad with
    | [], _, _, hlen, hpad =>
      rcases hpad with rfl | ⟨rfl, _⟩ | ⟨rfl, _⟩
      · rfl
      · simp only [List.length_append, List.length_cons, List.length_nil, List.nil_append,
          List.append_nil] at hlen; omega
      · simp only [List.length_append, List.length_cons, List.length_nil, List.nil_append,
          List.append_nil] at hlen; omega
    | [c0], _, _, hlen, hpad =>
      rcases hpad with rfl | ⟨rfl, _⟩ | ⟨rfl, _⟩ <;>
        (simp only [List.length_append, List.length_cons, List.length_nil, List.nil_append,
        List.append_nil] at hlen; omega)
    | [c0, c1], _, hbody, hlen, hpad =>
      rcases hpad with rfl | ⟨rfl, _⟩ | ⟨rfl, c, hc, hz⟩
      · simp only [List.length_append, List.length_cons, List.length_nil, List.nil_append,
          List.append_nil] at hlen; omega
      · simp only [List.length_append, List.length_cons, List.length_nil, List.nil_append,
          List.append_nil] at hlen; omega
      · simp only [List.getLast?_cons_cons, List.getLast?_singleton, Option.some.injEq] at hc
        subst hc
        obtain ⟨s0, h0, rfl, _⟩ := alphabet_char c0 (hbody c0 (by simp))
        obtain ⟨s1, h1, e1, i1⟩ := alphabet_char c1 (hbody c1 (by simp))
        rw [i1] at hz
        subst e1
        exact encode_decode_quad2 s0 s1 h0 h1 (by omega)
    | [c0, c1, c2], _, hbody, hlen, hpad =>
      rcases hpad with rfl | ⟨rfl, c, hc, hz⟩ | ⟨rfl, _⟩
      · simp only [List.length_append, List.length_cons, List.length_nil, List.nil_append,
          List.append_nil] at hlen; omega
      · simp only [List.getLast?_cons_cons, List.getLast?_singleton, Option.some.injEq] at hc
        subst hc
        obtain ⟨s0, h0, rfl, _⟩ := alphabet_char c0 (hbody c0 (by simp))
        obtain ⟨s1, h1, rfl, _⟩ := alphabet_char c1 (hbody c1 (by simp))
        obtain ⟨s2, h2, e2, i2⟩ := alphabet_char c2 (hbody c2 (by simp))
        rw [i2] at hz
        subst e2
        exact encode_decode_quad3 s0 s1 s2 h0 h1 h2 (by omega)
      · simp only [List.length_append, List.length_cons, List.length_nil, List.nil_append,
          List.append_nil] at hlen; omega
    | c0 :: c1 :: c2 :: c3 :: body', hn, hbody, hlen, hpad =>
      obtain ⟨s0, h0, rfl, _⟩ := alphabet_char c0 (hbody c0 (by simp))
      obtain ⟨s1, h1, rfl, _⟩ := alphabet_char c1 (hbody c1 (by simp))
      obtain ⟨s2, h2, rfl, _⟩ := alphabet_char c2 (hbody c2 (by simp))
      obtain ⟨s3, h3, rfl, _⟩ := alphabet_char c3 (hbody c3 (by simp))
      have hrec : base64_encode (base64_decode (body' ++ pad)) = body' ++ pad := by
        apply ih body' pad (by simp only [List.length_cons] at hn; omega)
          (fun c hc => hbody c (by simp [hc]))
          (by simp only [List.length_append, List.length_cons] at hlen ⊢; omega)
        have hlast : body' ≠ [] → (BASE64_CHARS.getD s0 'A' :: BASE64_CHARS.getD s1 'A'
            :: BASE64_CHARS.getD s2 'A' :: BASE64_CHARS.getD s3 'A' :: body').getLast?
            = body'.getLast? := by
          intro hne
          obtain ⟨x, t, rfl⟩ : ∃ x t, body' = x :: t := by
            cases body' with
            | nil => exact absurd rfl hne
            | cons x t => exact ⟨x, t, rfl⟩
          simp [List.getLast?_cons_cons]
        rcases hpad with rfl | ⟨rfl, c, hc, hz⟩ | ⟨rfl, c, hc, hz⟩
        · exact Or.inl rfl
        · have hne : body' ≠ [] := by
            intro e; subst e
            simp only [List.length_append, List.length_cons, List.length_nil, List.nil_append,
              List.append_nil] at hlen; omega
          rw [hlast hne] at hc
          exact Or.inr (Or.inl ⟨rfl, c, hc, hz⟩)
        · have hne : body' ≠ [] := by
            intro e; subst e
            simp only [List.length_append, List.length_cons, List.length_nil, List.nil_append,
              List.append_nil] at hlen; omega
          rw [hlast hne] at hc
          exact Or.inr (Or.inr ⟨rfl, c, hc, hz⟩)
      have := encode_decode_quad4 s0 s1 s2 s3 h0 h1 h2 h3 (body' ++ pad)
      simp only [List.cons_append, List.nil_append] at this ⊢
      rw [this, hrec]

/-- C26, as the specification states it, fails: the text `AB==` has length 4 and is
made of two alphabet characters and two final `=`, yet it decodes to the single byte
0, whose encoding is `AA==`. -/
theorem base64_encode_decode_not_identity :
    ['A', 'B', '=', '='].length % 4 = 0
      ∧ 'A' ∈ BASE64_CHARS ∧ 'B' ∈ BASE64_CHARS
      ∧ base64_decode ['A', 'B', '=', '='] = [0]
      ∧ base64_encode (base64_decode ['A', 'B', '=', '=']) = ['A', 'A', '=', '=']
      ∧ base64_encode (base64_decode ['A', 'B', '=', '=']) ≠ ['A', 'B', '=', '='] := by
  decide

/-- C26, amended: for every text `t` whose length is a multiple of 4, made of
alphabet characters `body` followed by no `=`, one `=` or two `=`, in which the
last alphabet character carries no bits that the decoder drops (its index is a
multiple of 4 before one `=`, a multiple of 16 before two `=`),
`base64_encode (base64_decode t) = t`. -/
theorem base64_encode_decode (body pad : List Char)
    (hbody : ∀ c ∈ body, c ∈ BASE64_CHARS)
    (hlen : (body ++ pad).length % 4 = 0)
    (hpad : pad = []
      ∨ (pad = ['='] ∧ ∃ c, body.getLast? = some c ∧ get_base64_index c % 4 = 0)
      ∨ (pad = ['=', '='] ∧ ∃ c, body.getLast? = some c ∧ get_base64_index c % 16 = 0)) :
    base64_encode (base64_decode (body ++ pad)) = body ++ pad :=
  base64_encode_decode_aux body.length body pad (le_refl _) hbody hlen hpad

theorem base64_encode_decode_witness :
    base64_encode (base64_decode ['Q', 'U', 'J', 'D', 'R', 'E', 'U', '=']) =
      ['Q', 'U', 'J', 'D', 'R', 'E', 'U', '='] :=
  base64_encode_decode ['Q', 'U', 'J', 'D', 'R', 'E', 'U'] ['='] (by decide) (by decide)
    (Or.inr (Or.inl ⟨rfl, 'U', rfl, by decide⟩))

theorem is_digit_cases (c : Char) :
    is_digit c = true ↔ (c = '0' ∨ ('1' ≤ c ∧ c ≤ '9')) := by
  rw [is_digit_iff, char_le_iff, char_le_iff]
  have h1 : '1'.toNat = 49 := rfl
  have h9 : '9'.toNat = 57 := rfl
  rw [h1, h9]
  constructor
  · intro h
    by_cases h0 : c.toNat = 48
    · exact Or.inl (char_eq_of_toNat c '0' h0)
    · exact Or.inr (by omega)
  · rintro (rfl | h)
    · decide
    · omega

/-- The integer part `parse_number` reads equals the run of digits, unless the
input has a `0` followed by another digit. -/
theorem integer_part_greedy (p1 : List Char) :
    (∀ d rest, p1 = '0' :: d :: rest → is_digit d = false) →
    (match p1 with
      | [] => p1
      | c :: rest =>
        if c = '0' then rest
        else if '1' ≤ c ∧ c ≤ '9' then p1.dropWhile is_digit
        else p1) = p1.dropWhile is_digit := by
  intro h
  cases p1 with
  | nil => rfl
  | cons c rest =>
    simp only
    by_cases h0 : c = '0'
    · subst h0
      rw [if_pos rfl]
      have hd : is_digit '0' = true := by decide
      rw [List.dropWhile_cons, hd, if_pos rfl]
      cases rest with
      | nil => rfl
      | cons d r =>
        have := h d r rfl
        rw [List.dropWhile_cons, this]
        simp
    · rw [if_neg h0]
      by_cases h1 : '1' ≤ c ∧ c ≤ '9'
      · rw [if_pos h1]
      · rw [if_neg h1]
        have : is_digit c = false := by
          cases hc : is_digit c with
          | false => rfl
          | true =>
            rcases (is_digit_cases c).mp hc with e | e
            · exact absurd e h0
            · exact absurd e h1
        rw [List.dropWhile_cons, this]
        simp

theorem parse_number_scan_eq_greedy (input : List Char)
    (h : ∀ d rest,
      (if input.head? = some '-' then input.drop 1 else input) = '0' :: d :: rest →
      is_digit d = false) :
    parse_number_scan input = greedy_number_scan input := by
  exact congrArg
    (fun p2 : List Char =>
      let p3 := if p2.head? = some '.' then (p2.drop 1).dropWhile is_digit else p2
      if p3.head? = some 'e' ∨ p3.head? = some 'E' then
        let q := p3.drop 1
        let q' := if q.head? = some '+' ∨ q.head? = some '-' then q.drop 1 else q
        q'.dropWhile is_digit
      else p3)
    (integer_part_greedy _ h)

theorem parse_number_scan_leading_zero (d : Char) (rest : List Char) (hd : is_digit d = true) :
    parse_number_scan ('0' :: d :: rest) = d :: rest
      ∧ parse_number_scan ('-' :: '0' :: d :: rest) = d :: rest := by
  have hdot : d ≠ '.' := by intro e; subst e; exact absurd hd (by decide)
  have he : d ≠ 'e' := by intro e; subst e; exact absurd hd (by decide)
  have hE : d ≠ 'E' := by intro e; subst e; exact absurd hd (by decide)
  constructor
  · simp [parse_number_scan, hdot, he, hE]
  · simp [parse_number_scan, hdot, he, hE]

theorem head_drop_one (l : List Char) (c : Char) (h : l.head? = some c) :
    l = c :: l.drop 1 := by
  cases l with
  | nil => simp at h
  | cons x t =>
    simp only [List.head?_cons, Option.some.injEq] at h
    subst h; rfl

theorem takeWhile_is_digit_all (l : List Char) : ∀ c ∈ l.takeWhile is_digit, is_digit c = true :=
  fun _ hc => List.mem_takeWhile_imp hc

/-- The text `greedy_number_scan` consumes has the form
`-? digits (. digits*)? ([eE] [+-]? digits*)?`. -/
theorem greedy_number_scan_form (input : List Char) :
    ∃ sign ds frac exp : List Char,
      input = sign ++ ds ++ frac ++ exp ++ greedy_number_scan input
        ∧ (sign = [] ∨ sign = ['-'])
        ∧ (∀ c ∈ ds, is_digit c = true)
        ∧ (frac = [] ∨ ∃ fs, frac = '.' :: fs ∧ ∀ c ∈ fs, is_digit c = true)
        ∧ (exp = [] ∨ ∃ e sg es, exp = e :: (sg ++ es) ∧ (e = 'e' ∨ e = 'E')
            ∧ (sg = [] ∨ sg = ['+'] ∨ sg = ['-']) ∧ ∀ c ∈ es, is_digit c = true) := by
  -- the sign
  obtain ⟨sign, p1, hin, hsign, hp1⟩ : ∃ sign p1 : List Char, input = sign ++ p1
      ∧ (sign = [] ∨ sign = ['-'])
      ∧ p1 = (if input.head? = some '-' then input.drop 1 else input) := by
    by_cases h : input.head? = some '-'
    · exact ⟨['-'], input.drop 1, head_drop_one input '-' h, Or.inr rfl, by rw [if_pos h]⟩
    · exact ⟨[], input, rfl, Or.inl rfl, by rw [if_neg h]⟩
  -- the fraction
  obtain ⟨frac, p3, hp2, hfrac, hp3⟩ : ∃ frac p3 : List Char,
      p1.dropWhile is_digit = frac ++ p3
      ∧ (frac = [] ∨ ∃ fs, frac = '.' :: fs ∧ ∀ c ∈ fs, is_digit c = true)
      ∧ p3 = (if (p1.dropWhile is_digit).head? = some '.'
          then ((p1.dropWhile is_digit).drop 1).dropWhile is_digit
          else p1.dropWhile is_digit) := by
    by_cases h : (p1.dropWhile is_digit).head? = some '.'
    · refine ⟨'.' :: ((p1.dropWhile is_digit).drop 1).takeWhile is_digit,
        ((p1.dropWhile is_digit).drop 1).dropWhile is_digit, ?_,
        Or.inr ⟨_, rfl, takeWhile_is_digit_all _⟩, by rw [if_pos h]⟩
      rw [List.cons_append, List.takeWhile_append_dropWhile]
      exact head_drop_one _ '.' h
    · exact ⟨[], p1.dropWhile is_digit, rfl, Or.inl rfl, by rw [if_neg h]⟩
  -- the exponent
  obtain ⟨exp, p4, hp3', hexp, hp4⟩ : ∃ exp p4 : List Char, p3 = exp ++ p4
      ∧ (exp = [] ∨ ∃ e sg es, exp = e :: (sg ++ es) ∧ (e = 'e' ∨ e = 'E')
          ∧ (sg = [] ∨ sg = ['+'] ∨ sg = ['-']) ∧ ∀ c ∈ es, is_digit c = true)
      ∧ p4 = (if p3.head? = some 'e' ∨ p3.head? = some 'E' then
          (if (p3.drop 1).head? = some '+' ∨ (p3.drop 1).head? = some '-'
            then (p3.drop 1).drop 1 else p3.drop 1).dropWhile is_digit
          else p3) := by
    by_cases h : p3.head? = some 'e' ∨ p3.head? = some 'E'
    · obtain ⟨e, he, hpe⟩ : ∃ e, (e = 'e' ∨ e = 'E') ∧ p3 = e :: p3.drop 1 := by
        rcases h with h | h
        · exact ⟨'e', Or.inl rfl, head_drop_one _ _ h⟩
        · exact ⟨'E', Or.inr rfl, head_drop_one _ _ h⟩
      obtain ⟨sg, q', hq, hsg, hq'⟩ : ∃ sg q' : List Char, p3.drop 1 = sg ++ q'
          ∧ (sg = [] ∨ sg = ['+'] ∨ sg = ['-'])
          ∧ q' = (if (p3.drop 1).head? = some '+' ∨ (p3.drop 1).head? = some '-'
            then (p3.drop 1).drop 1 else p3.drop 1) := by
        by_cases hs : (p3.drop 1).head? = some '+' ∨ (p3.drop 1).head? = some '-'
        · rcases hs with hs' | hs'
          · exact ⟨['+'], (p3.drop 1).drop 1, head_drop_one _ _ hs', Or.inr (Or.inl rfl),
              by rw [if_pos (Or.inl hs')]⟩
          · exact ⟨['-'], (p3.drop 1).drop 1, head_drop_one _ _ hs', Or.inr (Or.inr rfl),
              by rw [if_pos (Or.inr hs')]⟩
        · exact ⟨[], p3.drop 1, rfl, Or.inl rfl, by rw [if_neg hs]⟩
      refine ⟨e :: (sg ++ q'.takeWhile is_digit), q'.dropWhile is_digit, ?_,
        Or.inr ⟨e, sg, _, rfl, he, hsg, takeWhile_is_digit_all _⟩, ?_⟩
      · rw [List.cons_append, List.append_assoc, List.takeWhile_append_dropWhile, ← hq]
        exact hpe
      · rw [if_pos h, ← hq']
    · exact ⟨[], p3, rfl, Or.inl rfl, by rw [if_neg h]⟩
  refine ⟨sign, p1.takeWhile is_digit, frac, exp, ?_, hsign,
    takeWhile_is_digit_all _, hfrac, hexp⟩
  have hg : greedy_number_scan input = p4 := by
    rw [hp4, hp3, hp1]
    rfl
  rw [hg, List.append_assoc, List.append_assoc, List.append_assoc, ← hp3', ← hp2,
    List.takeWhile_append_dropWhile, ← hin]

/-- C27: the number parser accepts no leading zero: on an input that starts, after
an optional `-`, with `0` followed by another digit, `parse_number` consumes only
the sign and that single `0`, returns 0 and leaves the following digits unconsumed;
on every other input it consumes what the greedy scan of the form
`-? digits (. digits*)? ([eE] [+-]? digits*)?` consumes (each run of digits taken
as long as it goes; the run after the sign is empty when no digit follows it) and
returns `strtod` of the text consumed. -/
theorem parse_number_no_leading_zero (input : List Char) :
    (∀ d rest, is_digit d = true →
        (input = '0' :: d :: rest ∨ input = '-' :: '0' :: d :: rest) →
        parse_number_scan input = d :: rest ∧ parse_number input = (0, d :: rest))
      ∧ ((∀ d rest,
            (if input.head? = some '-' then input.drop 1 else input) = '0' :: d :: rest →
            is_digit d = false) →
          parse_number_scan input = greedy_number_scan input
            ∧ parse_number input
                = (strtod (input.take (input.length - (greedy_number_scan input).length)),
                    greedy_number_scan input))
      ∧ ∃ sign ds frac exp : List Char,
          input = sign ++ ds ++ frac ++ exp ++ greedy_number_scan input
            ∧ (sign = [] ∨ sign = ['-'])
            ∧ (∀ c ∈ ds, is_digit c = true)
            ∧ (frac = [] ∨ ∃ fs, frac = '.' :: fs ∧ ∀ c ∈ fs, is_digit c = true)
            ∧ (exp = [] ∨ ∃ e sg es, exp = e :: (sg ++ es) ∧ (e = 'e' ∨ e = 'E')
                ∧ (sg = [] ∨ sg = ['+'] ∨ sg = ['-']) ∧ ∀ c ∈ es, is_digit c = true) := by
  refine ⟨?_, ?_, greedy_number_scan_form input⟩
  · intro d rest hd hin
    obtain ⟨h1, h2⟩ := parse_number_scan_leading_zero d rest hd
    have hz : strtod ['0'] = 0 := by
      rw [(strtod_digits ['0'] (by decide) (by simp)).1]
      simp [digits_value]
    have hmz : strtod ['-', '0'] = 0 := by
      rw [(strtod_digits ['0'] (by decide) (by simp)).2]
      simp [digits_value]
    rcases hin with rfl | rfl
    · refine ⟨h1, ?_⟩
      simp only [parse_number, h1, List.length_cons]
      rw [show rest.length + 1 + 1 - (rest.length + 1) = 1 by omega]
      simp [hz]
    · refine ⟨h2, ?_⟩
      simp only [parse_number, h2, List.length_cons]
      rw [show rest.length + 1 + 1 + 1 - (rest.length + 1) = 2 by omega]
      simp [hmz]
  · intro h
    have hs := parse_number_scan_eq_greedy input h
    exact ⟨hs, by simp only [parse_number, hs]⟩

theorem parse_number_no_leading_zero_witness :
    is_digit '7' = true
      ∧ parse_number_scan ['-', '0', '7', '5'] = ['7', '5']
      ∧ parse_number ['-', '0', '7', '5'] = (0, ['7', '5'])
      ∧ parse_number_scan ['1', '2', '.', '5', 'e', '+', '3', 'x']
          = greedy_number_scan ['1', '2', '.', '5', 'e', '+', '3', 'x']
      ∧ greedy_number_scan ['1', '2', '.', '5', 'e', '+', '3', 'x'] = ['x'] :=
  ⟨by decide,
    ((parse_number_no_leading_zero ['-', '0', '7', '5']).1 '7' ['5'] (by decide)
      (Or.inr rfl)).1,
    ((parse_number_no_leading_zero ['-', '0', '7', '5']).1 '7' ['5'] (by decide)
      (Or.inr rfl)).2,
    ((parse_number_no_leading_zero ['1', '2', '.', '5', 'e', '+', '3', 'x']).2.1
      (by intro d rest h; simp at h)).1,
    by decide⟩

theorem skip_whitespace_length (input : List Char) :
    (skip_whitespace input).length ≤ input.length := by
  induction input with
  | nil => simp [skip_whitespace]
  | cons c rest ih =>
    unfold skip_whitespace
    split
    · simp only [List.length_cons]; omega
    · exact le_refl _

theorem match_string_length (str input : List Char) :
    ((match_string str input).getD []).length ≤ input.length := by
  unfold match_string
  split
  · simp
  · simp

theorem ite_snd_length_le {α : Type} (p : Prop) [Decidable p] (a b : α × List Char) (n : Nat)
    (ha : a.2.length ≤ n) (hb : b.2.length ≤ n) : (if p then a else b).2.length ≤ n := by
  split <;> assumption

theorem parse_string_loop_length (fuel : Nat) :
    ∀ input result : List Char,
      (parse_string_loop fuel input result).2.length ≤ input.length := by
  induction fuel with
  | zero => intro input result; simp [parse_string_loop]
  | succ fuel ih =>
    intro input result
    cases input with
    | nil => simp [parse_string_loop]
    | cons c rest =>
      cases rest with
      | nil =>
        rw [parse_string_loop]
        apply ite_snd_length_le
        · exact le_refl _
        · apply ite_snd_length_le
          · exact le_refl _
          · exact le_trans (ih _ _) (by simp)
      | cons e rest' =>
        rw [parse_string_loop]
        repeat' apply ite_snd_length_le
        all_goals first
          | exact le_refl _
          | (exact le_trans (ih _ _) (by simp only [List.length_cons, List.length_drop]; omega))

theorem parse_string_length (input : List Char) :
    (parse_string input).2.length ≤ input.length := by
  unfold parse_string
  cases input with
  | nil => simp
  | cons c rest =>
    simp only
    split_ifs with h
    · have hl := parse_string_loop_length rest.length rest []
      split
      · rename_i heq; rw [heq]; simp
      · rename_i q rest' heq
        rw [heq] at hl
        split_ifs
        · simp only [List.length_cons] at hl ⊢; omega
        · rw [heq]; simp only [List.length_cons] at hl ⊢; omega
    · exact le_refl _

theorem greedy_number_scan_length (input : List Char) :
    (greedy_number_scan input).length ≤ input.length := by
  obtain ⟨sign, ds, frac, exp, h, _⟩ := greedy_number_scan_form input
  have := congrArg List.length h
  simp only [List.length_append] at this
  omega

theorem parse_number_scan_length (input : List Char) :
    (parse_number_scan input).length ≤ input.length := by
  by_cases h : ∀ d rest,
      (if input.head? = some '-' then input.drop 1 else input) = '0' :: d :: rest →
      is_digit d = false
  · rw [parse_number_scan_eq_greedy input h]
    exact greedy_number_scan_length input
  · push_neg at h
    obtain ⟨d, rest, hp, hd⟩ := h
    have hd' : is_digit d = true := by
      cases hh : is_digit d with
      | true => rfl
      | false => exact absurd hh hd
    by_cases hm : input.head? = some '-'
    · rw [if_pos hm] at hp
      have hin := head_drop_one input '-' hm
      rw [hp] at hin
      rw [hin, (parse_number_scan_leading_zero d rest hd').2]
      simp only [List.length_cons]
      omega
    · rw [if_neg hm] at hp
      rw [hp, (parse_number_scan_leading_zero d rest hd').1]
      simp only [List.length_cons]
      omega

theorem parse_number_length (input : List Char) :
    (parse_number input).2.length ≤ input.length :=
  parse_number_scan_length input

/-- The counted parser never moves the read position backwards. -/
theorem parse_counted_length (budget : Nat) :
    (∀ input r, parse_value_counted budget input = some r → r.2.length ≤ input.length)
      ∧ (∀ input array index r, parse_array_loop_counted budget input array index = some r →
          r.2.length ≤ input.length)
      ∧ (∀ input obj r, parse_object_loop_counted budget input obj = some r →
          r.2.length ≤ input.length) := by
  induction budget with
  | zero =>
    refine ⟨?_, ?_, ?_⟩
    · intro input r h; simp [parse_value_counted] at h
    · intro input array index r h; simp [parse_array_loop_counted] at h
    · intro input obj r h; simp [parse_object_loop_counted] at h
  | succ budget ih =>
    obtain ⟨ihv, iha, iho⟩ := ih
    refine ⟨?_, ?_, ?_⟩
    · intro input r h
      have hsk := skip_whitespace_length input
      rw [parse_value_counted] at h
      split at h
      · simp only [Option.some.injEq] at h
        subst h; simp
      · rename_i c rest heq
        rw [heq] at hsk
        simp only [List.length_cons] at hsk
        split_ifs at h with h1 h2 h3 h4 h5 h6 h7
        · simp only [Option.some.injEq] at h
          subst h
          have := match_string_length NULL_TEXT (c :: rest)
          simp only [List.length_cons] at this ⊢
          omega
        · simp only [Option.some.injEq] at h
          subst h
          have := match_string_length TRUE_TEXT (c :: rest)
          simp only [List.length_cons] at this ⊢
          omega
        · simp only [Option.some.injEq] at h
          subst h
          have := match_string_length FALSE_TEXT (c :: rest)
          simp only [List.length_cons] at this ⊢
          omega
        · simp only [Option.some.injEq] at h
          subst h
          have := parse_string_length (c :: rest)
          simp only [List.length_cons] at this ⊢
          omega
        · simp only [Option.some.injEq] at h
          subst h
          have := parse_number_length (c :: rest)
          simp only [List.length_cons] at this ⊢
          omega
        · have hsk2 := skip_whitespace_length rest
          split at h
          · have := iha _ _ _ _ h
            simp only [List.length_nil] at this
            omega
          · rename_i d rest' heq2
            rw [heq2] at hsk2
            simp only [List.length_cons] at hsk2
            split_ifs at h
            · simp only [Option.some.injEq] at h
              subst h
              simp only
              omega
            · have := iha _ _ _ _ h
              simp only [List.length_cons] at this
              omega
        · have hsk2 := skip_whitespace_length rest
          split at h
          · have := iho _ _ _ h
            simp only [List.length_nil] at this
            omega
          · rename_i d rest' heq2
            rw [heq2] at hsk2
            simp only [List.length_cons] at hsk2
            split_ifs at h
            · simp only [Option.some.injEq] at h
              subst h
              simp only
              omega
            · have := iho _ _ _ h
              simp only [List.length_cons] at this
              omega
        · simp only [Option.some.injEq] at h
          subst h
          simp only [List.length_cons]
          omega
    · intro input array index r h
      cases input with
      | nil =>
        simp only [parse_array_loop_counted, Option.some.injEq] at h
        subst h; simp
      | cons x xs =>
        rw [parse_array_loop_counted] at h
        split at h
        · exact absurd h (by simp)
        · rename_i r0 hr0
          have hv := ihv _ _ hr0
          have hsk := skip_whitespace_length r0.2
          try simp only at h
          split at h
          · simp only [Option.some.injEq] at h
            subst h; simp
          · rename_i d rest' heq
            rw [heq] at hsk
            simp only [List.length_cons] at hsk hv
            split at h
            · have h1 := iha _ _ _ _ h
              have h2 := skip_whitespace_length rest'
              simp only [List.length_cons]
              omega
            · split at h
              · simp only [Option.some.injEq] at h
                subst h
                simp only [List.length_cons]
                omega
              · simp only [Option.some.injEq] at h
                subst h
                simp only [List.length_cons]
                omega
    · intro input obj r h
      cases input with
      | nil =>
        simp only [parse_object_loop_counted, Option.some.injEq] at h
        subst h; simp
      | cons x xs =>
        rw [parse_object_loop_counted] at h
        have hsk0 := skip_whitespace_length (x :: xs)
        split at h
        · simp only [Option.some.injEq] at h
          subst h; simp
        · rename_i q after_quote heq0
          rw [heq0] at hsk0
          have hps := parse_string_length (q :: after_quote)
          have hsk1 := skip_whitespace_length (parse_string (q :: after_quote)).2
          split at h
          · simp only [Option.some.injEq] at h
            subst h
            exact hsk0
          · try simp only at h
            split at h
            · simp only [Option.some.injEq] at h
              subst h
              simp only
              omega
            · split at h
              · simp only [Option.some.injEq] at h
                subst h; simp
              · rename_i colon after_colon heq1
                rw [heq1] at hsk1
                simp only [List.length_cons] at hsk1 hsk0 hps
                split at h
                · simp only [Option.some.injEq] at h
                  subst h
                  simp only [List.length_cons]
                  omega
                · split at h
                  · exact absurd h (by simp)
                  · rename_i r0 hr0
                    have hv := ihv _ _ hr0
                    have hsk := skip_whitespace_length r0.2
                    split at h
                    · simp only [Option.some.injEq] at h
                      subst h; simp
                    · rename_i d rest' heq
                      rw [heq] at hsk
                      simp only [List.length_cons] at hsk
                      split at h
                      · have h1 := iho _ _ _ h
                        have h2 := skip_whitespace_length rest'
                        simp only [List.length_cons]
                        omega
                      · split at h
                        · simp only [Option.some.injEq] at h
                          subst h
                          simp only [List.length_cons]
                          omega
                        · simp only [Option.some.injEq] at h
                          subst h
                          simp only [List.length_cons]
                          omega

/-- Whenever the counted parser returns, `parse_value` with the same fuel returns
the same result. -/
theorem parse_counted_agrees (budget : Nat) :
    (∀ input r, parse_value_counted budget input = some r → parse_value budget input = r)
      ∧ (∀ input array index r, parse_array_loop_counted budget input array index = some r →
          parse_array_loop budget input array index = r)
      ∧ (∀ input obj r, parse_object_loop_counted budget input obj = some r →
          parse_object_loop budget input obj = r) := by
  induction budget with
  | zero =>
    refine ⟨?_, ?_, ?_⟩
    · intro input r h; simp [parse_value_counted] at h
    · intro input array index r h; simp [parse_array_loop_counted] at h
    · intro input obj r h; simp [parse_object_loop_counted] at h
  | succ budget ih =>
    obtain ⟨ihv, iha, iho⟩ := ih
    refine ⟨?_, ?_, ?_⟩
    · intro input r h
      rw [parse_value_counted] at h
      rw [parse_value]
      generalize skip_whitespace input = sw at h ⊢
      cases sw with
      | nil => exact Option.some.inj h
      | cons c rest =>
        try simp only at h ⊢
        split_ifs at h ⊢ with h1 h2 h3 h4 h5 h6 h7
        · exact Option.some.inj h
        · exact Option.some.inj h
        · exact Option.some.inj h
        · exact Option.some.inj h
        · exact Option.some.inj h
        · generalize skip_whitespace rest = sw2 at h ⊢
          cases sw2 with
          | nil => exact iha _ _ _ _ h
          | cons d rest' =>
            try simp only at h ⊢
            split_ifs at h ⊢
            · exact Option.some.inj h
            · exact iha _ _ _ _ h
        · generalize skip_whitespace rest = sw2 at h ⊢
          cases sw2 with
          | nil => exact iho _ _ _ h
          | cons d rest' =>
            try simp only at h ⊢
            split_ifs at h ⊢
            · exact Option.some.inj h
            · exact iho _ _ _ h
        · exact Option.some.inj h
    · intro input array index r h
      cases input with
      | nil =>
        simp only [parse_array_loop_counted, Option.some.injEq] at h
        subst h; rfl
      | cons x xs =>
        rw [parse_array_loop_counted] at h
        rw [parse_array_loop]
        cases hr0 : parse_value_counted budget (x :: xs) with
        | none => rw [hr0] at h; exact absurd h (by simp)
        | some r0 =>
          rw [hr0] at h
          rw [ihv _ _ hr0]
          try simp only at h ⊢
          generalize skip_whitespace r0.2 = sw at h ⊢
          cases sw with
          | nil => exact Option.some.inj h
          | cons d rest' =>
            try simp only at h ⊢
            split_ifs at h ⊢
            · exact iha _ _ _ _ h
            · exact Option.some.inj h
            · exact Option.some.inj h
    · intro input obj r h
      cases input with
      | nil =>
        simp only [parse_object_loop_counted, Option.some.injEq] at h
        subst h; rfl
      | cons x xs =>
        rw [parse_object_loop_counted] at h
        rw [parse_object_loop]
        generalize skip_whitespace (x :: xs) = sw0 at h ⊢
        cases sw0 with
        | nil => exact Option.some.inj h
        | cons q after_quote =>
          try simp only at h ⊢
          split_ifs at h ⊢ with hq hk
          · exact Option.some.inj h
          · exact Option.some.inj h
          · generalize skip_whitespace (parse_string (q :: after_quote)).2 = sw1 at h ⊢
            cases sw1 with
            | nil => exact Option.some.inj h
            | cons colon after_colon =>
              try simp only at h ⊢
              split_ifs at h ⊢ with hc
              · exact Option.some.inj h
              · cases hr0 : parse_value_counted budget after_colon with
                | none => rw [hr0] at h; exact absurd h (by simp)
                | some r0 =>
                  rw [hr0] at h
                  rw [ihv _ _ hr0]
                  try simp only at h ⊢
                  generalize skip_whitespace r0.2 = sw at h ⊢
                  cases sw with
                  | nil => exact Option.some.inj h
                  | cons d rest' =>
                    try simp only at h ⊢
                    split_ifs at h ⊢
                    · exact iho _ _ _ h
                    · exact Option.some.inj h
                    · exact Option.some.inj h

/-- A budget of twice the length of the input (plus one for `parse_value`, plus two
for the loops) is enough for the counted parser to return. -/
theorem parse_counted_returns (budget : Nat) :
    (∀ input, 2 * input.length + 1 ≤ budget →
        ∃ r, parse_value_counted budget input = some r)
      ∧ (∀ input array index, 2 * input.length + 2 ≤ budget →
          ∃ r, parse_array_loop_counted budget input array index = some r)
      ∧ (∀ input obj, 2 * input.length + 2 ≤ budget →
          ∃ r, parse_object_loop_counted budget input obj = some r) := by
  induction budget with
  | zero =>
    refine ⟨?_, ?_, ?_⟩
    · intro input h; omega
    · intro input array index h; omega
    · intro input obj h; omega
  | succ budget ih =>
    obtain ⟨ihv, iha, iho⟩ := ih
    refine ⟨?_, ?_, ?_⟩
    · intro input hb
      have hsk := skip_whitespace_length input
      rw [parse_value_counted]
      generalize skip_whitespace input = sw at hsk ⊢
      cases sw with
      | nil => exact ⟨_, rfl⟩
      | cons c rest =>
        simp only [List.length_cons] at hsk
        try simp only
        split_ifs with h1 h2 h3 h4 h5 h6 h7
        · exact ⟨_, rfl⟩
        · exact ⟨_, rfl⟩
        · exact ⟨_, rfl⟩
        · exact ⟨_, rfl⟩
        · exact ⟨_, rfl⟩
        · have hsk2 := skip_whitespace_length rest
          generalize skip_whitespace rest = sw2 at hsk2 ⊢
          cases sw2 with
          | nil => exact iha _ _ _ (by simp only [List.length_nil]; omega)
          | cons d rest' =>
            simp only [List.length_cons] at hsk2
            try simp only
            split_ifs
            · exact ⟨_, rfl⟩
            · exact iha _ _ _ (by simp only [List.length_cons]; omega)
        · have hsk2 := skip_whitespace_length rest
          generalize skip_whitespace rest = sw2 at hsk2 ⊢
          cases sw2 with
          | nil => exact iho _ _ (by simp only [List.length_nil]; omega)
          | cons d rest' =>
            simp only [List.length_cons] at hsk2
            try simp only
            split_ifs
            · exact ⟨_, rfl⟩
            · exact iho _ _ (by simp only [List.length_cons]; omega)
        · exact ⟨_, rfl⟩
    · intro input array index hb
      cases input with
      | nil => exact ⟨(some array, []), by simp only [parse_array_loop_counted]⟩
      | cons x xs =>
        rw [parse_array_loop_counted]
        obtain ⟨r0, hr0⟩ := ihv (x :: xs) (by omega)
        have hlen := (parse_counted_length budget).1 _ _ hr0
        rw [hr0]
        try simp only
        have hsk := skip_whitespace_length r0.2
        generalize skip_whitespace r0.2 = sw at hsk ⊢
        cases sw with
        | nil => exact ⟨_, rfl⟩
        | cons d rest' =>
          simp only [List.length_cons] at hsk hlen hb
          try simp only
          split_ifs
          · have := skip_whitespace_length rest'
            exact iha _ _ _ (by omega)
          · exact ⟨_, rfl⟩
          · exact ⟨_, rfl⟩
    · intro input obj hb
      cases input with
      | nil => exact ⟨(some obj, []), by simp only [parse_object_loop_counted]⟩
      | cons x xs =>
        rw [parse_object_loop_counted]
        have hsk0 := skip_whitespace_length (x :: xs)
        generalize skip_whitespace (x :: xs) = sw0 at hsk0 ⊢
        cases sw0 with
        | nil => exact ⟨_, rfl⟩
        | cons q after_quote =>
          try simp only
          have hps := parse_string_length (q :: after_quote)
          have hsk1 := skip_whitespace_length (parse_string (q :: after_quote)).2
          split_ifs with hq hk
          · exact ⟨_, rfl⟩
          · exact ⟨_, rfl⟩
          · generalize skip_whitespace (parse_string (q :: after_quote)).2 = sw1 at hsk1 ⊢
            cases sw1 with
            | nil => exact ⟨_, rfl⟩
            | cons colon after_colon =>
              simp only [List.length_cons] at hsk1 hsk0 hps hb
              try simp only
              split_ifs with hc
              · exact ⟨_, rfl⟩
              · obtain ⟨r0, hr0⟩ := ihv after_colon (by omega)
                have hlen := (parse_counted_length budget).1 _ _ hr0
                rw [hr0]
                try simp only
                have hsk := skip_whitespace_length r0.2
                generalize skip_whitespace r0.2 = sw at hsk ⊢
                cases sw with
                | nil => exact ⟨_, rfl⟩
                | cons d rest' =>
                  simp only [List.length_cons] at hsk
                  try simp only
                  split_ifs
                  · have := skip_whitespace_length rest'
                    exact iho _ _ (by omega)
                  · exact ⟨_, rfl⟩
                  · exact ⟨_, rfl⟩

/-- The string loop, run for as many iterations as the input has characters, stops
because its condition fails: at the end of the input or at a `"`. -/
theorem parse_string_loop_exits (fuel : Nat) :
    ∀ input result : List Char, input.length ≤ fuel →
      (parse_string_loop fuel input result).2 = []
        ∨ (parse_string_loop fuel input result).2.head? = some '"' := by
  induction fuel with
  | zero =>
    intro input result h
    have : input = [] := List.eq_nil_of_length_eq_zero (by omega)
    subst this
    exact Or.inl rfl
  | succ fuel ih =>
    intro input result h
    cases input with
    | nil => exact Or.inl rfl
    | cons c rest =>
      simp only [List.length_cons] at h
      cases rest with
      | nil =>
        rw [parse_string_loop]
        split_ifs with h1 h2
        · exact Or.inr (by simp [h1])
        · exact absurd rfl h2.2
        · exact ih _ _ (by simp)
      | cons e rest' =>
        simp only [List.length_cons] at h
        rw [parse_string_loop]
        by_cases h1 : c = '"'
        · rw [if_pos h1]
          exact Or.inr (by simp [h1])
        · rw [if_neg h1]
          by_cases h2 : c = '\\' ∧ e :: rest' ≠ []
          · rw [if_pos h2]
            have hrest : rest'.length ≤ fuel := by omega
            have hdrop : (rest'.drop 4).length ≤ fuel := by
              simp only [List.length_drop]; omega
            by_cases g1 : e = '"'
            · rw [if_pos g1]; exact ih _ _ hrest
            rw [if_neg g1]
            by_cases g2 : e = '\\'
            · rw [if_pos g2]; exact ih _ _ hrest
            rw [if_neg g2]
            by_cases g3 : e = '/'
            · rw [if_pos g3]; exact ih _ _ hrest
            rw [if_neg g3]
            by_cases g4 : e = 'b'
            · rw [if_pos g4]; exact ih _ _ hrest
            rw [if_neg g4]
            by_cases g5 : e = 'f'
            · rw [if_pos g5]; exact ih _ _ hrest
            rw [if_neg g5]
            by_cases g6 : e = 'n'
            · rw [if_pos g6]; exact ih _ _ hrest
            rw [if_neg g6]
            by_cases g7 : e = 'r'
            · rw [if_pos g7]; exact ih _ _ hrest
            rw [if_neg g7]
            by_cases g8 : e = 't'
            · rw [if_pos g8]; exact ih _ _ hrest
            rw [if_neg g8]
            by_cases g9 : e = 'u'
            · rw [if_pos g9]
              by_cases g10 : 4 ≤ rest'.length
              · rw [if_pos g10]; exact ih _ _ hdrop
              · rw [if_neg g10]; exact ih _ _ hrest
            · rw [if_neg g9]; exact ih _ _ hrest
          · rw [if_neg h2]
            exact ih _ _ (by simp only [List.length_cons]; omega)

/-- One iteration of the string loop at a character that is not `"` consumes at
least one character: the loop goes on with a strictly shorter input. -/
theorem parse_string_loop_advances (c : Char) (rest result : List Char) (hc : c ≠ '"') :
    ∃ input' result' : List Char, input'.length < (c :: rest).length
      ∧ ∀ fuel, parse_string_loop (fuel + 1) (c :: rest) result
          = parse_string_loop fuel input' result' := by
  cases rest with
  | nil =>
    refine ⟨[], result ++ [c], by simp, ?_⟩
    intro fuel
    rw [parse_string_loop, if_neg hc, if_neg (by simp)]
  | cons e rest' =>
    by_cases h2 : c = '\\' ∧ e :: rest' ≠ []
    · have hlt : rest'.length < (c :: e :: rest').length := by
        simp only [List.length_cons]; omega
      have hdrop : (rest'.drop 4).length < (c :: e :: rest').length := by
        simp only [List.length_cons, List.length_drop]; omega
      by_cases g1 : e = '"'
      · exact ⟨rest', _, hlt, fun fuel => by
          rw [parse_string_loop, if_neg hc, if_pos h2, if_pos g1]⟩
      by_cases g2 : e = '\\'
      · exact ⟨rest', _, hlt, fun fuel => by
          rw [parse_string_loop, if_neg hc, if_pos h2, if_neg g1, if_pos g2]⟩
      by_cases g3 : e = '/'
      · exact ⟨rest', _, hlt, fun fuel => by
          rw [parse_string_loop, if_neg hc, if_pos h2, if_neg g1, if_neg g2, if_pos g3]⟩
      by_cases g4 : e = 'b'
      · exact ⟨rest', _, hlt, fun fuel => by
          rw [parse_string_loop, if_neg hc, if_pos h2, if_neg g1, if_neg g2, if_neg g3,
            if_pos g4]⟩
      by_cases g5 : e = 'f'
      · exact ⟨rest', _, hlt, fun fuel => by
          rw [parse_string_loop, if_neg hc, if_pos h2, if_neg g1, if_neg g2, if_neg g3,
            if_neg g4, if_pos g5]⟩
      by_cases g6 : e = 'n'
      · exact ⟨rest', _, hlt, fun fuel => by
          rw [parse_string_loop, if_neg hc, if_pos h2, if_neg g1, if_neg g2, if_neg g3,
            if_neg g4, if_neg g5, if_pos g6]⟩
      by_cases g7 : e = 'r'
      · exact ⟨rest', _, hlt, fun fuel => by
          rw [parse_string_loop, if_neg hc, if_pos h2, if_neg g1, if_neg g2, if_neg g3,
            if_neg g4, if_neg g5, if_neg g6, if_pos g7]⟩
      by_cases g8 : e = 't'
      · exact ⟨rest', _, hlt, fun fuel => by
          rw [parse_string_loop, if_neg hc, if_pos h2, if_neg g1, if_neg g2, if_neg g3,
            if_neg g4, if_neg g5, if_neg g6, if_neg g7, if_pos g8]⟩
      by_cases g9 : e = 'u'
      · by_cases g10 : 4 ≤ rest'.length
        · exact ⟨rest'.drop 4, _, hdrop, fun fuel => by
            rw [parse_string_loop, if_neg hc, if_pos h2, if_neg g1, if_neg g2, if_neg g3,
              if_neg g4, if_neg g5, if_neg g6, if_neg g7, if_neg g8, if_pos g9, if_pos g10]⟩
        · exact ⟨rest', _, hlt, fun fuel => by
            rw [parse_string_loop, if_neg hc, if_pos h2, if_neg g1, if_neg g2, if_neg g3,
              if_neg g4, if_neg g5, if_neg g6, if_neg g7, if_neg g8, if_pos g9, if_neg g10]⟩
      · exact ⟨rest', _, hlt, fun fuel => by
          rw [parse_string_loop, if_neg hc, if_pos h2, if_neg g1, if_neg g2, if_neg g3,
            if_neg g4, if_neg g5, if_neg g6, if_neg g7, if_neg g8, if_neg g9]⟩
    · exact ⟨e :: rest', _, by simp, fun fuel => by
        rw [parse_string_loop, if_neg hc, if_neg h2]⟩

/-- One iteration of the array loop: when a comma follows the element the loop goes
on with a strictly shorter input, otherwise it is left. -/
theorem parse_array_loop_counted_step (budget : Nat) (x : Char) (xs : List Char)
    (array : JSValue) (index : Nat) (r0 : Option JSValue × List Char)
    (hr0 : parse_value_counted budget (x :: xs) = some r0) :
    (∀ rest', skip_whitespace r0.2 = ',' :: rest' →
        (skip_whitespace rest').length < (x :: xs).length
          ∧ ∃ array' index',
              parse_array_loop_counted (budget + 1) (x :: xs) array index
                = parse_array_loop_counted budget (skip_whitespace rest') array' index')
      ∧ ((∀ rest', skip_whitespace r0.2 ≠ ',' :: rest') →
          ∃ array' rest,
            parse_array_loop_counted (budget + 1) (x :: xs) array index
              = some (some array', rest)) := by
  have hlen := (parse_counted_length budget).1 _ _ hr0
  have hsk := skip_whitespace_length r0.2
  refine ⟨?_, ?_⟩
  · intro rest' hs
    rw [hs] at hsk
    have := skip_whitespace_length rest'
    simp only [List.length_cons] at hsk hlen ⊢
    refine ⟨by omega,
      (match r0.1 with
        | some element => napi_set_element array index element
        | none => array),
      (match r0.1 with
        | some _ => index + 1
        | none => index), ?_⟩
    rw [parse_array_loop_counted, hr0]
    simp only [hs, if_true]
  · intro hs
    rw [parse_array_loop_counted, hr0]
    simp only
    cases hsw : skip_whitespace r0.2 with
    | nil => exact ⟨_, _, rfl⟩
    | cons d rest' =>
      have hd : d ≠ ',' := by
        intro e; subst e; exact hs rest' hsw
      simp only [hd, if_false]
      split_ifs
      · exact ⟨_, _, rfl⟩
      · exact ⟨_, _, rfl⟩

/-- One iteration of the object loop: when the key, the colon, the value and a comma
are read the loop goes on with a strictly shorter input. -/
theorem parse_object_loop_counted_step (budget : Nat) (x : Char) (xs : List Char)
    (obj : JSValue) (after_quote after_colon rest' : List Char)
    (r0 : Option JSValue × List Char)
    (h1 : skip_whitespace (x :: xs) = '"' :: after_quote)
    (h2 : (parse_string ('"' :: after_quote)).1 ≠ [])
    (h3 : skip_whitespace (parse_string ('"' :: after_quote)).2 = ':' :: after_colon)
    (hr0 : parse_value_counted budget after_colon = some r0)
    (h4 : skip_whitespace r0.2 = ',' :: rest') :
    after_colon.length < (x :: xs).length
      ∧ (skip_whitespace rest').length < (x :: xs).length
      ∧ ∃ obj',
          parse_object_loop_counted (budget + 1) (x :: xs) obj
            = parse_object_loop_counted budget (skip_whitespace rest') obj' := by
  have hlen := (parse_counted_length budget).1 _ _ hr0
  have hsk0 := skip_whitespace_length (x :: xs)
  have hps := parse_string_length ('"' :: after_quote)
  have hsk1 := skip_whitespace_length (parse_string ('"' :: after_quote)).2
  have hsk := skip_whitespace_length r0.2
  have hsk2 := skip_whitespace_length rest'
  rw [h1] at hsk0
  rw [h3] at hsk1
  rw [h4] at hsk
  simp only [List.length_cons] at hsk0 hps hsk1 hsk hlen ⊢
  refine ⟨by omega, by omega,
    (match r0.1 with
      | some value =>
        napi_set_named_property obj (c_str (parse_string ('"' :: after_quote)).1) value
      | none => obj), ?_⟩
  rw [parse_object_loop_counted]
  simp only [h1, ne_eq, not_true_eq_false, if_false, h2, h3, hr0, h4, if_true]

/-- The loops of `parse_value` are entered after the opening bracket or brace: on an
input strictly shorter than the one `parse_value` was called on. -/
theorem parse_value_counted_enters (budget : Nat) (input rest rest' : List Char) (d : Char)
    (h2 : skip_whitespace rest = d :: rest') :
    (skip_whitespace input = '[' :: rest → d ≠ ']' →
        (d :: rest').length < input.length
          ∧ parse_value_counted (budget + 1) input
              = parse_array_loop_counted budget (d :: rest') (.array []) 0)
      ∧ (skip_whitespace input = '{' :: rest → d ≠ '}' →
        (d :: rest').length < input.length
          ∧ parse_value_counted (budget + 1) input
              = parse_object_loop_counted budget (d :: rest') (.object [])) := by
  have hsk := skip_whitespace_length input
  have hsk2 := skip_whitespace_length rest
  rw [h2] at hsk2
  refine ⟨?_, ?_⟩
  · intro h1 hd
    rw [h1] at hsk
    simp only [List.length_cons] at hsk hsk2 ⊢
    refine ⟨by omega, ?_⟩
    rw [parse_value_counted]
    simp [h1, h2, hd, match_string, NULL_TEXT, TRUE_TEXT, FALSE_TEXT]
  · intro h1 hd
    rw [h1] at hsk
    simp only [List.length_cons] at hsk hsk2 ⊢
    refine ⟨by omega, ?_⟩
    rw [parse_value_counted]
    simp [h1, h2, hd, match_string, NULL_TEXT, TRUE_TEXT, FALSE_TEXT]

/-- C21: for every input text `json_to_value` terminates and returns a value or the
`nullptr` indication. The parser with its work counted (one unit for every call of
`parse_value` and for every iteration of the array and object loops) returns within
the budget `2 * len + 2`, with the result of `json_to_value`, at a read position
that is not beyond the end of the text. The string loop stops, after at most as
many iterations as characters are left, at the end of the text or at a `"`, and
every iteration consumes at least one character; an iteration of the array loop or
of the object loop that does not leave the loop goes on with a strictly shorter
input; the loops, and so the recursive calls of `parse_value` in them, start
strictly after the position `parse_value` was called at. -/
theorem json_to_value_terminates (t : List Char) :
    (∃ r, parse_value_counted (2 * (c_str t).length + 2) (c_str t) = some r
        ∧ parse_value (2 * (c_str t).length + 2) (c_str t) = r
        ∧ r.2.length ≤ (c_str t).length
        ∧ json_to_value t = if t = [] then none else r.1)
      ∧ (∀ input result : List Char,
          (parse_string_loop input.length input result).2 = []
            ∨ (parse_string_loop input.length input result).2.head? = some '"')
      ∧ (∀ (c : Char) (rest result : List Char), c ≠ '"' →
          ∃ input' result' : List Char, input'.length < (c :: rest).length
            ∧ ∀ fuel, parse_string_loop (fuel + 1) (c :: rest) result
                = parse_string_loop fuel input' result')
      ∧ (∀ (budget : Nat) (x : Char) (xs : List Char) (array : JSValue) (index : Nat)
          (r0 : Option JSValue × List Char),
          parse_value_counted budget (x :: xs) = some r0 →
          (∀ rest', skip_whitespace r0.2 = ',' :: rest' →
              (skip_whitespace rest').length < (x :: xs).length
                ∧ ∃ array' index',
                    parse_array_loop_counted (budget + 1) (x :: xs) array index
                      = parse_array_loop_counted budget (skip_whitespace rest') array' index')
            ∧ ((∀ rest', skip_whitespace r0.2 ≠ ',' :: rest') →
                ∃ array' rest,
                  parse_array_loop_counted (budget + 1) (x :: xs) array index
                    = some (some array', rest)))
      ∧ (∀ (budget : Nat) (x : Char) (xs : List Char) (obj : JSValue)
          (after_quote after_colon rest' : List Char) (r0 : Option JSValue × List Char),
          skip_whitespace (x :: xs) = '"' :: after_quote →
          (parse_string ('"' :: after_quote)).1 ≠ [] →
          skip_whitespace (parse_string ('"' :: after_quote)).2 = ':' :: after_colon →
          parse_value_counted budget after_colon = some r0 →
          skip_whitespace r0.2 = ',' :: rest' →
          after_colon.length < (x :: xs).length
            ∧ (skip_whitespace rest').length < (x :: xs).length
            ∧ ∃ obj',
                parse_object_loop_counted (budget + 1) (x :: xs) obj
                  = parse_object_loop_counted budget (skip_whitespace rest') obj')
      ∧ (∀ (budget : Nat) (input rest rest' : List Char) (d : Char),
          skip_whitespace rest = d :: rest' →
          (skip_whitespace input = '[' :: rest → d ≠ ']' →
              (d :: rest').length < input.length
                ∧ parse_value_counted (budget + 1) input
                    = parse_array_loop_counted budget (d :: rest') (.array []) 0)
            ∧ (skip_whitespace input = '{' :: rest → d ≠ '}' →
              (d :: rest').length < input.length
                ∧ parse_value_counted (budget + 1) input
                    = parse_object_loop_counted budget (d :: rest') (.object []))) := by
  refine ⟨?_, ?_, ?_, ?_, ?_, ?_⟩
  · obtain ⟨r, hr⟩ := (parse_counted_returns (2 * (c_str t).length + 2)).1 (c_str t) (by omega)
    have hagree := (parse_counted_agrees _).1 _ _ hr
    refine ⟨r, hr, hagree, (parse_counted_length _).1 _ _ hr, ?_⟩
    unfold json_to_value
    rw [hagree]
  · intro input result
    exact parse_string_loop_exits input.length input result (le_refl _)
  · intro c rest result hc
    exact parse_string_loop_advances c rest result hc
  · intro budget x xs array index r0 hr0
    exact parse_array_loop_counted_step budget x xs array index r0 hr0
  · intro budget x xs obj after_quote after_colon rest' r0 h1 h2 h3 hr0 h4
    exact parse_object_loop_counted_step budget x xs obj after_quote after_colon rest' r0
      h1 h2 h3 hr0 h4
  · intro budget input rest rest' d h2
    exact parse_value_counted_enters budget input rest rest' d h2

theorem json_to_value_terminates_witness :
    ∃ r, parse_value_counted 18 ['[', '[', 't', 'r', ',', ' ', '"', 'a'] = some r
      ∧ parse_value 18 ['[', '[', 't', 'r', ',', ' ', '"', 'a'] = r
      ∧ r.2.length ≤ 8
      ∧ json_to_value ['[', '[', 't', 'r', ',', ' ', '"', 'a'] = r.1 :=
  (json_to_value_terminates ['[', '[', 't', 'r', ',', ' ', '"', 'a']).1


/-! ## Texts the parser reads whole, members with the empty key, trailing input -/


theorem drop_all_digits (L : List Char) (n : Nat) (h : ∀ c ∈ L, is_digit c = true) :
    ∀ c ∈ L.drop n, is_digit c = true :=
  fun c hc => h c (List.mem_of_mem_drop hc)

/-- The shape of the text `std::to_string` gives a double: an optional `-`, a run
of digits without a leading zero, a `.` and a run of digits. -/
theorem to_string_double_form (x : ℚ) :
    ∃ sign L F : List Char, to_string_double x = sign ++ L ++ '.' :: F
      ∧ (sign = [] ∨ sign = ['-'])
      ∧ (∀ c ∈ L, is_digit c = true) ∧ L ≠ [] ∧ (L.head? = some '0' → L = ['0'])
      ∧ (∀ c ∈ F, is_digit c = true) := by
  unfold to_string_double
  simp only
  generalize (if x.den < 2 * (x.num.natAbs * 10 ^ 6 % x.den)
      ∨ 2 * (x.num.natAbs * 10 ^ 6 % x.den) = x.den
        ∧ x.num.natAbs * 10 ^ 6 / x.den % 2 = 1
    then x.num.natAbs * 10 ^ 6 / x.den + 1 else x.num.natAbs * 10 ^ 6 / x.den) = n
  obtain ⟨_, h2, h3, h4⟩ := to_string_nat_spec (n / 10 ^ 6)
  obtain ⟨_, g2, _, _⟩ := to_string_nat_spec (10 ^ 6 + n % 10 ^ 6)
  refine ⟨if x.num < 0 then ['-'] else [], to_string_nat (n / 10 ^ 6),
    (to_string_nat (10 ^ 6 + n % 10 ^ 6)).drop 1, by simp, ?_, h2, h3, h4,
    drop_all_digits _ 1 g2⟩
  split
  · exact Or.inr rfl
  · exact Or.inl rfl

theorem greedy_number_scan_decimal (L F rest : List Char)
    (hL : ∀ c ∈ L, is_digit c = true) (hF : ∀ c ∈ F, is_digit c = true)
    (hne : L ≠ [])
    (hrest : ∀ c, rest.head? = some c → is_digit c = false ∧ c ≠ '.' ∧ c ≠ 'e' ∧ c ≠ 'E') :
    greedy_number_scan (L ++ '.' :: (F ++ rest)) = rest
      ∧ greedy_number_scan ('-' :: (L ++ '.' :: (F ++ rest))) = rest := by
  have hdot : is_digit '.' = false := by decide
  have h1 := takeWhile_digits_append L ('.' :: (F ++ rest))
    (hL) (by intro c hc; simp only [List.head?_cons, Option.some.injEq] at hc; subst hc; exact hdot)
  have h2 := takeWhile_digits_append F rest hF (fun c hc => (hrest c hc).1)
  obtain ⟨d, t, rfl⟩ : ∃ d t, L = d :: t := by
    cases L with
    | nil => exact absurd rfl hne
    | cons d t => exact ⟨d, t, rfl⟩
  have hd : is_digit d = true := hL d (List.mem_cons_self _ _)
  have hdm : d ≠ '-' := by intro e; rw [e] at hd; exact absurd hd (by decide)
  have he : rest.head? ≠ some 'e' := fun e => (hrest _ e).2.2.1 rfl
  have hE : rest.head? ≠ some 'E' := fun e => (hrest _ e).2.2.2 rfl
  constructor
  · simp only [greedy_number_scan, List.cons_append, List.head?_cons, Option.some.injEq, hdm,
      if_false]
    simp only [List.cons_append] at h1
    simp only [h1.2, List.head?_cons, if_true, List.drop_succ_cons, List.drop_zero, h2.2, he, hE,
      or_self, if_false]
  · simp only [greedy_number_scan, List.head?_cons, if_true, List.drop_succ_cons, List.drop_zero]
    simp only [List.cons_append] at h1
    simp only [List.cons_append, h1.2, List.head?_cons, if_true, List.drop_succ_cons,
      List.drop_zero, h2.2, he, hE, or_self, if_false]

theorem parse_number_scan_decimal (L F rest : List Char)
    (hL : ∀ c ∈ L, is_digit c = true) (hF : ∀ c ∈ F, is_digit c = true)
    (hne : L ≠ []) (hz : L.head? = some '0' → L = ['0'])
    (hrest : ∀ c, rest.head? = some c → is_digit c = false ∧ c ≠ '.' ∧ c ≠ 'e' ∧ c ≠ 'E') :
    parse_number_scan (L ++ '.' :: (F ++ rest)) = rest
      ∧ parse_number_scan ('-' :: (L ++ '.' :: (F ++ rest))) = rest := by
  obtain ⟨g1, g2⟩ := greedy_number_scan_decimal L F rest hL hF hne hrest
  obtain ⟨d, t, rfl⟩ : ∃ d t, L = d :: t := by
    cases L with
    | nil => exact absurd rfl hne
    | cons d t => exact ⟨d, t, rfl⟩
  have hd : is_digit d = true := hL d (List.mem_cons_self _ _)
  have hdm : d ≠ '-' := by intro e; rw [e] at hd; exact absurd hd (by decide)
  have key : ∀ d' r, d :: t ++ '.' :: (F ++ rest) = '0' :: d' :: r → is_digit d' = false := by
    intro d' r h
    simp only [List.cons_append, List.cons.injEq] at h
    obtain ⟨hd0, ht⟩ := h
    have := hz (by rw [hd0]; rfl)
    simp only [List.cons.injEq] at this
    rw [this.2] at ht
    simp only [List.nil_append, List.cons.injEq] at ht
    rw [← ht.1]; decide
  constructor
  · rw [parse_number_scan_eq_greedy _ (by
      intro d' r h
      simp only [List.cons_append, List.head?_cons, Option.some.injEq, hdm, if_false] at h
      exact key d' r (by simpa using h))]
    exact g1
  · rw [parse_number_scan_eq_greedy _ (by
      intro d' r h
      simp only [List.head?_cons, if_true, List.drop_succ_cons, List.drop_zero] at h
      exact key d' r h)]
    exact g2

theorem parsed_value_eq (t : List Char) (v : JSValue)
    (h : ∀ (fuel : Nat) (rest : List Char), 2 * t.length + 1 ≤ fuel → follows_ok rest →
      parse_value fuel (t ++ rest) = (some v, rest)) : parsed_value t = v := by
  have := h (2 * t.length + 1) [] (le_refl _) follows_ok_nil
  rw [List.append_nil] at this
  simp [parsed_value, this]

theorem parsed_value_of_parses_back (t : List Char) (v : JSValue) (h : parses_back t v) :
    parsed_value t = v := parsed_value_eq t v h.2.2

theorem reads_whole_of_parse (t : List Char) (v : JSValue)
    (h : ∀ (fuel : Nat) (rest : List Char), 2 * t.length + 1 ≤ fuel →
      parse_value fuel (t ++ rest) = (some v, rest)) : reads_whole t ∧ parsed_value t = v := by
  have hv := parsed_value_eq t v (fun fuel rest hf _ => h fuel rest hf)
  refine ⟨?_, hv⟩
  intro fuel rest hf
  rw [hv]
  exact h fuel rest hf

theorem parses_back_of_reads_whole (t : List Char)
    (hs : ∃ c tl, t = c :: tl ∧ json_start c = true) (hn : ∀ c ∈ t, c ≠ Char.ofNat 0)
    (h : reads_whole t) : parses_back t (parsed_value t) :=
  ⟨hs, hn, fun fuel rest hf _ => h fuel rest hf⟩

theorem parse_array_loop_texts (rest : List Char) :
    ∀ (ts : List (List Char)), ts ≠ [] → (∀ t ∈ ts, parses_back t (parsed_value t)) →
      ∀ (done : List JSValue) (fuel : Nat), 2 * (comma_join ts).length + 2 ≤ fuel →
        parse_array_loop fuel (comma_join ts ++ ']' :: rest)
            (.array (done.map some)) done.length
          = (some (.array ((done ++ ts.map parsed_value).map some)), rest) := by
  intro ts
  induction ts with
  | nil => intro h; exact absurd rfl h
  | cons e t ih =>
    intro _ hall done fuel hfuel
    obtain ⟨f, rfl⟩ : ∃ f, fuel = f + 1 := ⟨fuel - 1, by omega⟩
    have he := hall e (List.mem_cons_self _ _)
    obtain ⟨⟨c, tl, hc1, hc2⟩, _, hparse⟩ := he
    have hjne : e ≠ [] := by rw [hc1]; simp
    have hset : napi_set_element (.array (done.map some)) done.length (parsed_value e)
        = .array ((done ++ [parsed_value e]).map some) := by
      have := set_slot_length_self (done.map some) (parsed_value e)
      rw [List.length_map] at this
      simp [napi_set_element, this]
    cases t with
    | nil =>
      simp only [List.map_cons, List.map_nil, comma_join] at hfuel ⊢
      rw [parse_array_loop_last f e rest (parsed_value e) _ _ hjne
        (hparse f _ (by omega) (follows_ok_cons _ _ (Or.inr (Or.inl rfl)))), hset]
    | cons e2 t' =>
      have hcj : comma_join (e :: e2 :: t') = e ++ ',' :: comma_join (e2 :: t') := by
        simp [comma_join]
      rw [hcj] at hfuel ⊢
      simp only [List.length_append, List.length_cons] at hfuel
      rw [List.append_assoc, List.cons_append,
        parse_array_loop_next f e _ (parsed_value e) _ _ hjne
          (hparse f _ (by omega) (follows_ok_cons _ _ (Or.inl rfl))), hset]
      obtain ⟨⟨c2, tl2, hs1, hs2⟩, _, _⟩ := hall e2 (by simp)
      have hsk : skip_whitespace (comma_join (e2 :: t') ++ ']' :: rest)
          = comma_join (e2 :: t') ++ ']' :: rest := by
        rw [comma_join_cons, hs1, List.cons_append, List.cons_append]
        exact skip_whitespace_cons _ _ (json_start_spec c2 hs2).1
      rw [hsk]
      have := ih (by simp) (fun x hx => hall x (List.mem_cons_of_mem _ hx))
        (done ++ [parsed_value e]) f (by omega)
      rw [List.length_append, List.length_singleton] at this
      rw [this]
      simp

theorem parse_value_array_texts (fuel : Nat) (ts : List (List Char)) (rest : List Char)
    (hall : ∀ t ∈ ts, parses_back t (parsed_value t))
    (hfuel : 2 * (comma_join ts).length + 3 ≤ fuel) :
    parse_value fuel ('[' :: (comma_join ts ++ ']' :: rest))
      = (some (.array ((ts.map parsed_value).map some)), rest) := by
  obtain ⟨f, rfl⟩ : ∃ f, fuel = f + 1 := ⟨fuel - 1, by omega⟩
  cases ts with
  | nil => simp [parse_value, skip_whitespace, is_json_space, comma_join, match_string]
  | cons e t =>
    obtain ⟨⟨c, tl, hc1, hs2⟩, _, _⟩ := hall e (List.mem_cons_self _ _)
    obtain ⟨tl2, hs1⟩ : ∃ tl2, comma_join (e :: t) = c :: tl2 := by
      rw [comma_join_cons, hc1, List.cons_append]
      exact ⟨_, rfl⟩
    obtain ⟨h1, h2, _, _⟩ := json_start_spec c hs2
    have hloop := parse_array_loop_texts rest (e :: t) (by simp) hall [] f (by omega)
    simp only [List.map_nil, List.length_nil, List.nil_append] at hloop
    rw [hs1] at hloop ⊢
    simp only [List.cons_append] at hloop ⊢
    have hsk := skip_whitespace_cons c (tl2 ++ ']' :: rest) h1
    have hsk0 := skip_whitespace_cons '[' (c :: (tl2 ++ ']' :: rest)) (by decide)
    simp only [parse_value, hsk0, hsk]
    simp [match_string, h2, hloop]

theorem member_text_length (m : List Char × List Char) :
    (member_text m).length = (escape_json_string m.1).length + m.2.length + 3 := by
  simp [member_text]
  omega

theorem member_text_eq (m : List Char × List Char) (tail : List Char) :
    member_text m ++ tail
      = '"' :: (escape_json_string m.1 ++ '"' :: ':' :: (m.2 ++ tail)) := by
  simp [member_text]

theorem read_members_cons (m : List Char × List Char) (ms : List (List Char × List Char))
    (done : List (List Char × JSValue)) :
    read_members (m :: ms) done
      = read_members ms (set_prop done (c_str m.1) (parsed_value m.2)) := rfl

/-- The object loop on the members `ms`, followed by the text `E`, after which the
loop ends with the input `R` left. -/
theorem parse_object_loop_texts (E R : List Char) (hE : follows_ok E)
    (hlast : ∀ (f : Nat) (k jv : List Char) (v obj : JSValue), k ≠ [] →
      parse_value f (jv ++ E) = (some v, E) →
      parse_object_loop (f + 1) ('"' :: (escape_json_string k ++ '"' :: ':' :: (jv ++ E))) obj
        = (some (napi_set_named_property obj (c_str k) v), R)) :
    ∀ (ms : List (List Char × List Char)), ms ≠ [] →
      (∀ m ∈ ms, m.1 ≠ [] ∧ parses_back m.2 (parsed_value m.2)) →
      ∀ (done : List (List Char × JSValue)) (fuel : Nat),
        2 * (comma_join (ms.map member_text)).length + 2 ≤ fuel →
        parse_object_loop fuel (comma_join (ms.map member_text) ++ E) (.object done)
          = (some (.object (read_members ms done)), R) := by
  intro ms
  induction ms with
  | nil => intro h; exact absurd rfl h
  | cons p t ih =>
    intro _ hall done fuel hfuel
    obtain ⟨f, rfl⟩ : ∃ f, fuel = f + 1 := ⟨fuel - 1, by omega⟩
    obtain ⟨hk1, _, _, hparse⟩ := hall p (List.mem_cons_self _ _)
    have hset : napi_set_named_property (.object done) (c_str p.1) (parsed_value p.2)
        = .object (set_prop done (c_str p.1) (parsed_value p.2)) := rfl
    cases t with
    | nil =>
      simp only [List.map_cons, List.map_nil, comma_join] at hfuel ⊢
      rw [member_text_length] at hfuel
      rw [member_text_eq,
        hlast f p.1 p.2 (parsed_value p.2) _ hk1 (hparse f _ (by omega) hE), hset]
      rfl
    | cons p2 t' =>
      have hcj : comma_join ((p :: p2 :: t').map member_text)
          = member_text p ++ ',' :: comma_join ((p2 :: t').map member_text) := by
        simp [comma_join]
      rw [hcj] at hfuel ⊢
      simp only [List.length_append, List.length_cons, member_text_length] at hfuel
      rw [List.append_assoc, List.cons_append, member_text_eq,
        parse_object_loop_next f p.1 p.2 _ (parsed_value p.2) _ hk1
          (hparse f _ (by omega) (follows_ok_cons _ _ (Or.inl rfl))), hset]
      have hsk : skip_whitespace (comma_join ((p2 :: t').map member_text) ++ E)
          = comma_join ((p2 :: t').map member_text) ++ E := by
        rw [List.map_cons, comma_join_cons, member_text]
        exact skip_whitespace_cons _ _ (by decide)
      rw [hsk, read_members_cons]
      exact ih (by simp) (fun x hx => hall x (List.mem_cons_of_mem _ hx)) _ f (by omega)

theorem parse_string_empty (tail : List Char) :
    parse_string ('"' :: '"' :: tail) = ([], tail) := by
  simp [parse_string, parse_string_loop]

/-- The object loop stops at a member with the empty key. -/
theorem parse_object_loop_empty_key (fuel : Nat) (tail : List Char) (obj : JSValue) :
    parse_object_loop (fuel + 1) ('"' :: '"' :: tail) obj = (some obj, tail) := by
  have hsk := skip_whitespace_cons '"' ('"' :: tail) (by decide)
  simp only [parse_object_loop, hsk, parse_string_empty]
  simp

theorem parse_value_pos (f : Nat) (input : List Char) (v : JSValue) (rest : List Char)
    (h : parse_value f input = (some v, rest)) : ∃ g, f = g + 1 := by
  cases f with
  | zero => simp [parse_value] at h
  | succ g => exact ⟨g, rfl⟩

theorem parse_object_loop_texts_close (rest : List Char)
    (ms : List (List Char × List Char)) (hne : ms ≠ [])
    (hall : ∀ m ∈ ms, m.1 ≠ [] ∧ parses_back m.2 (parsed_value m.2))
    (done : List (List Char × JSValue)) (fuel : Nat)
    (hfuel : 2 * (comma_join (ms.map member_text)).length + 2 ≤ fuel) :
    parse_object_loop fuel (comma_join (ms.map member_text) ++ '}' :: rest) (.object done)
      = (some (.object (read_members ms done)), rest) :=
  parse_object_loop_texts ('}' :: rest) rest (follows_ok_cons _ _ (Or.inr (Or.inr rfl)))
    (fun f k jv v obj hk hp => parse_object_loop_last f k jv rest v obj hk hp)
    ms hne hall done fuel hfuel

theorem parse_object_loop_texts_empty_key (tail : List Char)
    (ms : List (List Char × List Char)) (hne : ms ≠ [])
    (hall : ∀ m ∈ ms, m.1 ≠ [] ∧ parses_back m.2 (parsed_value m.2))
    (done : List (List Char × JSValue)) (fuel : Nat)
    (hfuel : 2 * (comma_join (ms.map member_text)).length + 2 ≤ fuel) :
    parse_object_loop fuel (comma_join (ms.map member_text) ++ ',' :: '"' :: '"' :: tail)
        (.object done)
      = (some (.object (read_members ms done)), tail) :=
  parse_object_loop_texts (',' :: '"' :: '"' :: tail) tail (follows_ok_cons _ _ (Or.inl rfl))
    (fun f k jv v obj hk hp => by
      obtain ⟨g, rfl⟩ := parse_value_pos f _ v _ hp
      rw [parse_object_loop_next (g + 1) k jv _ v obj hk hp,
        skip_whitespace_cons '"' ('"' :: tail) (by decide), parse_object_loop_empty_key])
    ms hne hall done fuel hfuel

theorem parse_value_object_texts (fuel : Nat) (ms : List (List Char × List Char))
    (rest : List Char)
    (hall : ∀ m ∈ ms, m.1 ≠ [] ∧ parses_back m.2 (parsed_value m.2))
    (hfuel : 2 * (comma_join (ms.map member_text)).length + 3 ≤ fuel) :
    parse_value fuel ('{' :: (comma_join (ms.map member_text) ++ '}' :: rest))
      = (some (.object (read_members ms [])), rest) := by
  obtain ⟨f, rfl⟩ : ∃ f, fuel = f + 1 := ⟨fuel - 1, by omega⟩
  cases ms with
  | nil =>
    simp [parse_value, skip_whitespace, is_json_space, comma_join, match_string, read_members]
  | cons p t =>
    have hloop := parse_object_loop_texts_close rest (p :: t) (by simp) hall [] f (by omega)
    obtain ⟨tl, htl⟩ : ∃ tl, comma_join ((p :: t).map member_text) = '"' :: tl := by
      rw [List.map_cons, comma_join_cons, member_text]
      exact ⟨_, rfl⟩
    rw [htl] at hloop ⊢
    simp only [List.cons_append] at hloop ⊢
    have hsk := skip_whitespace_cons '"' (tl ++ '}' :: rest) (by decide)
    have hsk0 := skip_whitespace_cons '{' ('"' :: (tl ++ '}' :: rest)) (by decide)
    simp only [parse_value, hsk0, hsk]
    simp [match_string, hloop]

/-- An object text whose member after the members `ms` has the empty key: the parser
stops there. -/
theorem parse_value_object_texts_empty_key (fuel : Nat) (ms : List (List Char × List Char))
    (tail : List Char)
    (hall : ∀ m ∈ ms, m.1 ≠ [] ∧ parses_back m.2 (parsed_value m.2))
    (hfuel : 2 * (comma_join (ms.map member_text)).length + 3 ≤ fuel) :
    parse_value fuel ('{' :: ((if ms = [] then [] else comma_join (ms.map member_text) ++ [','])
        ++ '"' :: '"' :: tail))
      = (some (.object (read_members ms [])), tail) := by
  obtain ⟨f, rfl⟩ : ∃ f, fuel = f + 1 := ⟨fuel - 1, by omega⟩
  cases ms with
  | nil =>
    obtain ⟨g, rfl⟩ : ∃ g, f = g + 1 := ⟨f - 1, by omega⟩
    have hsk := skip_whitespace_cons '"' ('"' :: tail) (by decide)
    have hsk0 := skip_whitespace_cons '{' ('"' :: '"' :: tail) (by decide)
    have hl := parse_object_loop_empty_key g tail (.object [])
    simp only [if_true, List.nil_append, parse_value, hsk0, hsk]
    simp [match_string, hl, read_members]
  | cons p t =>
    have hloop := parse_object_loop_texts_empty_key tail (p :: t) (by simp) hall [] f (by omega)
    obtain ⟨tl, htl⟩ : ∃ tl, comma_join ((p :: t).map member_text) = '"' :: tl := by
      rw [List.map_cons, comma_join_cons, member_text]
      exact ⟨_, rfl⟩
    rw [if_neg (by simp)]
    rw [htl] at hloop ⊢
    simp only [List.cons_append, List.append_assoc, List.nil_append] at hloop ⊢
    have hsk := skip_whitespace_cons '"' (tl ++ ',' :: '"' :: '"' :: tail) (by decide)
    have hsk0 := skip_whitespace_cons '{' ('"' :: (tl ++ ',' :: '"' :: '"' :: tail)) (by decide)
    simp only [parse_value, hsk0, hsk]
    simp [match_string, hloop]

theorem parse_number_decimal (L F rest : List Char)
    (hL : ∀ c ∈ L, is_digit c = true) (hF : ∀ c ∈ F, is_digit c = true)
    (hne : L ≠ []) (hz : L.head? = some '0' → L = ['0']) (hrest : follows_ok rest) :
    parse_number ((L ++ '.' :: F) ++ rest) = (strtod (L ++ '.' :: F), rest)
      ∧ parse_number (('-' :: (L ++ '.' :: F)) ++ rest)
          = (strtod ('-' :: (L ++ '.' :: F)), rest) := by
  obtain ⟨h1, h2⟩ := parse_number_scan_decimal L F rest hL hF hne hz hrest
  have e1 : (L ++ '.' :: F) ++ rest = L ++ '.' :: (F ++ rest) := by simp
  have e2 : ('-' :: (L ++ '.' :: F)) ++ rest = '-' :: (L ++ '.' :: (F ++ rest)) := by simp
  constructor
  · have := take_length_sub (L ++ '.' :: F) rest
    rw [← e1] at h1
    simp only [parse_number, h1, this]
  · have := take_length_sub ('-' :: (L ++ '.' :: F)) rest
    rw [← e2] at h2
    simp only [parse_number, h2, this]

theorem parse_value_decimal (fuel : Nat) (sign L F rest : List Char)
    (hs : sign = [] ∨ sign = ['-'])
    (hL : ∀ c ∈ L, is_digit c = true) (hF : ∀ c ∈ F, is_digit c = true)
    (hne : L ≠ []) (hz : L.head? = some '0' → L = ['0']) (hrest : follows_ok rest) :
    parse_value (fuel + 1) ((sign ++ L ++ '.' :: F) ++ rest)
      = (some (.number (strtod (sign ++ L ++ '.' :: F))), rest) := by
  obtain ⟨hp1, hp2⟩ := parse_number_decimal L F rest hL hF hne hz hrest
  rcases hs with rfl | rfl
  · obtain ⟨c, t, rfl⟩ : ∃ c t, L = c :: t := by
      cases L with
      | nil => exact absurd rfl hne
      | cons c t => exact ⟨c, t, rfl⟩
    have hc : is_digit c = true := hL c (List.mem_cons_self _ _)
    obtain ⟨h0, h1, h2, h3, h4, h5, h6, h7, _⟩ := digit_not_special c hc
    have hd := (is_digit_iff c).mp hc
    have hle : '0' ≤ c ∧ c ≤ '9' := by
      rw [char_le_iff, char_le_iff]; exact hd
    simp only [List.nil_append, List.cons_append, List.append_assoc] at hp1 ⊢
    simp [parse_value, skip_whitespace, h0, h1, h2, h3, h4, hle, hp1]
  · simp only [List.cons_append, List.nil_append, List.append_assoc] at hp2 ⊢
    simp [parse_value, skip_whitespace, is_json_space, hp2]

theorem is_digit_ne_nul (c : Char) (h : is_digit c = true) : c ≠ Char.ofNat 0 := by
  intro e
  rw [e] at h
  exact absurd h (by decide)

/-- The text of a number is read whole by the parser when no numeral character
follows. -/
theorem number_text_parses_back (d : Nat) (x : ℚ) :
    ∃ y, parses_back (value_to_json (d + 1) (.number x)) (.number y) := by
  by_cases hx : x = ((double_to_int64 x : Int) : ℚ)
  · have ht : value_to_json (d + 1) (.number x) = to_string_int (double_to_int64 x) := by
      simp only [value_to_json, napi_typeof, napi_get_value_double]
      rw [if_pos hx]
    rw [ht]
    refine ⟨((double_to_int64 x : Int) : ℚ), ?_, to_string_int_no_nul _, ?_⟩
    · obtain ⟨c, t, h1, h2⟩ := to_string_int_start (double_to_int64 x)
      refine ⟨c, t, h1, ?_⟩
      rcases h2 with rfl | h2
      · rfl
      · simp [json_start, h2]
    · intro fuel rest hf hrest
      obtain ⟨f, rfl⟩ : ∃ f, fuel = f + 1 := ⟨fuel - 1, by omega⟩
      exact parse_value_number f _ rest hrest
  · have ht : value_to_json (d + 1) (.number x) = to_string_double x := by
      simp only [value_to_json, napi_typeof, napi_get_value_double]
      rw [if_neg hx]
    rw [ht]
    obtain ⟨sign, L, F, hform, hs, hL, hne, hz, hF⟩ := to_string_double_form x
    rw [hform]
    refine ⟨strtod (sign ++ L ++ '.' :: F), ?_, ?_, ?_⟩
    · obtain ⟨c, t, rfl⟩ : ∃ c t, L = c :: t := by
        cases L with
        | nil => exact absurd rfl hne
        | cons c t => exact ⟨c, t, rfl⟩
      have hc : is_digit c = true := hL c (List.mem_cons_self _ _)
      rcases hs with rfl | rfl
      · exact ⟨c, _, rfl, by simp [json_start, hc]⟩
      · exact ⟨'-', _, rfl, rfl⟩
    · intro c hc
      simp only [List.mem_append, List.mem_cons] at hc
      rcases hc with (hc | hc) | rfl | hc
      · rcases hs with rfl | rfl
        · simp at hc
        · simp only [List.mem_singleton] at hc
          subst hc; decide
      · exact is_digit_ne_nul c (hL c hc)
      · decide
      · exact is_digit_ne_nul c (hF c hc)
    · intro fuel rest hf hrest
      obtain ⟨f, rfl⟩ : ∃ f, fuel = f + 1 := ⟨fuel - 1, by omega⟩
      exact parse_value_decimal f sign L F rest hs hL hF hne hz hrest

theorem find_property_object_getD (props : List (List Char × JSValue)) (name : List Char) :
    (find_property (.object props) name).getD .undefined
      = (props.lookup name).getD .undefined := by
  simp only [find_property, own_props, length_prop]
  cases props.lookup name with
  | none => simp
  | some x => rfl

theorem json_object_step_eq (f : JSValue → List Char) (props : List (List Char × JSValue))
    (st : List Char × Bool) (k : List Char) :
    json_object_step f (.object props) st k =
      if k = [] then st
      else ((if st.2 then st.1 else st.1 ++ [','])
        ++ member_text (k, f ((props.lookup (c_str k)).getD .undefined)), false) := by
  by_cases hk : k = []
  · simp [json_object_step, get_string_value, hk]
  · simp only [json_object_step, get_string_value, ne_eq, hk, not_false_eq_true, if_true,
      napi_get_named_property, find_property_object_getD, if_false, member_text]
    cases st.2 <;> simp

theorem object_members_cons (f : JSValue → List Char) (props : List (List Char × JSValue))
    (p : List Char × JSValue) (rest : List (List Char × JSValue)) :
    object_members f props (p :: rest) =
      if p.1 = [] then object_members f props rest
      else (p.1, f ((props.lookup (c_str p.1)).getD .undefined))
        :: object_members f props rest := by
  obtain ⟨k, v⟩ := p
  rfl

/-- The text the object loop of `value_to_json` builds, for any property names. -/
theorem json_object_loop_members (f : JSValue → List Char)
    (props : List (List Char × JSValue)) :
    ∀ (suf : List (List Char × JSValue)) (st : List Char × Bool),
      ((suf.map Prod.fst).foldl (json_object_step f (.object props)) st).1
        = st.1 ++ (if object_members f props suf = [] then []
            else (if st.2 then [] else [','])
              ++ comma_join ((object_members f props suf).map member_text)) := by
  intro suf
  induction suf with
  | nil => intro st; simp [object_members]
  | cons p t ih =>
    intro st
    rw [List.map_cons, List.foldl_cons, json_object_step_eq, object_members_cons]
    by_cases hk : p.1 = []
    · rw [if_pos hk, if_pos hk]
      exact ih st
    · rw [if_neg hk, if_neg hk, ih]
      rw [if_neg (List.cons_ne_nil _ _), List.map_cons, comma_join_cons]
      by_cases hm : object_members f props t = []
      · rw [hm]
        cases st.2 <;> simp
      · have hm2 : (object_members f props t).map member_text ≠ [] := by
          simpa using hm
        rw [if_neg hm, if_neg hm2]
        cases st.2 <;> simp

theorem json_object_members_eq (fuel : Nat) (props : List (List Char × JSValue)) :
    value_to_json (fuel + 1) (.object props)
      = '{' :: (comma_join ((object_members (value_to_json fuel) props props).map member_text)
          ++ ['}']) := by
  have h := json_object_loop_members (value_to_json fuel) props props (['{'], true)
  simp only [value_to_json, napi_typeof, is_array, Bool.false_eq_true, if_false,
    napi_get_property_names, own_props, h]
  by_cases hm : object_members (value_to_json fuel) props props = []
  · simp [hm, comma_join]
  · simp [hm]

theorem lookup_mem (props : List (List Char × JSValue)) (k : List Char) (v : JSValue)
    (h : props.lookup k = some v) : ∃ p ∈ props, p.2 = v := by
  induction props with
  | nil => simp at h
  | cons q t ih =>
    obtain ⟨k2, v2⟩ := q
    rw [List.lookup_cons] at h
    cases hk : (k == k2) with
    | true =>
      rw [hk] at h
      exact ⟨(k2, v2), List.mem_cons_self _ _, Option.some.inj h⟩
    | false =>
      rw [hk] at h
      obtain ⟨p, hp, hv⟩ := ih h
      exact ⟨p, List.mem_cons_of_mem _ hp, hv⟩

theorem object_members_mem (f : JSValue → List Char) (props : List (List Char × JSValue)) :
    ∀ (suf : List (List Char × JSValue)) (m : List Char × List Char),
      m ∈ object_members f props suf →
        m.1 ≠ [] ∧ m.1 ∈ suf.map Prod.fst
          ∧ m.2 = f ((props.lookup (c_str m.1)).getD .undefined) := by
  intro suf
  induction suf with
  | nil => intro m h; simp [object_members] at h
  | cons p t ih =>
    intro m h
    rw [object_members_cons] at h
    by_cases hk : p.1 = []
    · rw [if_pos hk] at h
      obtain ⟨h1, h2, h3⟩ := ih m h
      exact ⟨h1, List.mem_cons_of_mem _ h2, h3⟩
    · rw [if_neg hk] at h
      rcases List.mem_cons.mp h with h | h
      · subst h
        exact ⟨hk, List.mem_cons_self _ _, rfl⟩
      · obtain ⟨h1, h2, h3⟩ := ih m h
        exact ⟨h1, List.mem_cons_of_mem _ h2, h3⟩

theorem mem_set_prop_key (props : List (List Char × JSValue)) (name : List Char) (x : JSValue)
    (p : List Char × JSValue) (h : p ∈ set_prop props name x) : p.1 = name ∨ p ∈ props := by
  induction props with
  | nil =>
    simp only [set_prop, List.mem_singleton] at h
    subst h; exact Or.inl rfl
  | cons q t ih =>
    obtain ⟨k, v⟩ := q
    simp only [set_prop] at h
    split at h
    · rename_i hk
      rcases List.mem_cons.mp h with h | h
      · subst h; exact Or.inl hk
      · exact Or.inr (List.mem_cons_of_mem _ h)
    · rcases List.mem_cons.mp h with h | h
      · subst h; exact Or.inr (List.mem_cons_self _ _)
      · rcases ih h with h | h
        · exact Or.inl h
        · exact Or.inr (List.mem_cons_of_mem _ h)

theorem read_members_key :
    ∀ (ms : List (List Char × List Char)) (done : List (List Char × JSValue))
      (p : List Char × JSValue), p ∈ read_members ms done →
        p ∈ done ∨ ∃ m ∈ ms, p.1 = c_str m.1 := by
  intro ms
  induction ms with
  | nil => intro done p h; exact Or.inl h
  | cons m t ih =>
    intro done p h
    rw [read_members_cons] at h
    rcases ih _ p h with h | ⟨m2, hm2, hp⟩
    · rcases mem_set_prop_key _ _ _ p h with h | h
      · exact Or.inr ⟨m, List.mem_cons_self _ _, h⟩
      · exact Or.inl h
    · exact Or.inr ⟨m2, List.mem_cons_of_mem _ hm2, hp⟩

theorem parses_back_parsed (t : List Char) (v : JSValue) (h : parses_back t v) :
    parses_back t (parsed_value t) := by
  rw [parsed_value_of_parses_back t v h]
  exact h

theorem member_text_no_nul (m : List Char × List Char) (hv : ∀ c ∈ m.2, c ≠ Char.ofNat 0) :
    ∀ c ∈ member_text m, c ≠ Char.ofNat 0 := by
  intro c hc
  simp only [member_text, List.mem_cons, List.mem_append] at hc
  rcases hc with rfl | hc | rfl | rfl | hc
  · decide
  · exact escape_json_string_no_nul _ c hc
  · decide
  · decide
  · exact hv c hc

theorem depth_props_pos (props : List (List Char × JSValue)) (h : props ≠ []) :
    1 ≤ depth_props props := by
  cases props with
  | nil => exact absurd rfl h
  | cons p t =>
    have h1 := depth_props_mem (p :: t) p (List.mem_cons_self _ _)
    have h2 := depth_pos p.2
    omega

/-- The text `value_to_json` writes for a value of the Envelope Domain (or for
`undefined`) is read whole by the parser; after the text of a Text, List or Record
anything may follow. -/
theorem value_to_json_whole (d : Nat) :
    ∀ e : JSValue, e.depth ≤ d → (EnvelopeDomain e ∨ e = .undefined) →
      parses_back (value_to_json d e) (parsed_value (value_to_json d e))
        ∧ ((∃ s, e = .string s) ∨ (∃ es, e = .array es) ∨ (∃ ps, e = .object ps)
            → reads_whole (value_to_json d e)) := by
  induction d with
  | zero =>
    intro e hd _
    have := depth_pos e
    omega
  | succ d ih =>
    intro e hd he
    have hnull : parses_back (value_to_json (d + 1) .null) .null :=
      value_to_json_parses_back (d + 1) .null (by simp [JSValue.depth]) rfl rfl
    rcases he with he | rfl
    · cases he with
      | null =>
        refine ⟨parses_back_parsed _ _ hnull, ?_⟩
        intro h
        rcases h with ⟨s, h⟩ | ⟨es, h⟩ | ⟨ps, h⟩ <;> cases h
      | boolean b =>
        refine ⟨parses_back_parsed _ _
          (value_to_json_parses_back (d + 1) (.boolean b) (by simp [JSValue.depth]) rfl rfl), ?_⟩
        intro h
        rcases h with ⟨s, h⟩ | ⟨es, h⟩ | ⟨ps, h⟩ <;> cases h
      | number x =>
        obtain ⟨y, hy⟩ := number_text_parses_back d x
        refine ⟨parses_back_parsed _ _ hy, ?_⟩
        intro h
        rcases h with ⟨s, h⟩ | ⟨es, h⟩ | ⟨ps, h⟩ <;> cases h
      | string s =>
        have hb := value_to_json_parses_back (d + 1) (.string s) (by simp [JSValue.depth])
          rfl rfl
        refine ⟨parses_back_parsed _ _ hb, ?_⟩
        intro _
        have ht : value_to_json (d + 1) (.string s) = '"' :: (escape_json_string s ++ ['"']) := by
          simp [value_to_json, napi_typeof, get_string_value]
        rw [ht]
        refine (reads_whole_of_parse _ (.string s) ?_).1
        intro fuel rest hf
        obtain ⟨f, rfl⟩ : ∃ f, fuel = f + 1 := ⟨fuel - 1, by omega⟩
        have := parse_value_string f s rest
        simpa using this
      | array elems h =>
        rw [json_array_eq]
        simp only [JSValue.depth] at hd
        have hall : ∀ t ∈ (elems.map some).map
            (fun slot => value_to_json d (slot.getD .undefined)),
            parses_back t (parsed_value t) := by
          intro t ht
          simp only [List.map_map, List.mem_map, Function.comp, Option.getD_some] at ht
          obtain ⟨x, hx, rfl⟩ := ht
          have hdx := depth_elems_mem (elems.map some) x (List.mem_map_of_mem _ hx)
          exact (ih x (by omega) (Or.inl (h x hx))).1
        generalize (elems.map some).map (fun slot => value_to_json d (slot.getD .undefined))
          = ts at hall
        have hw := reads_whole_of_parse ('[' :: (comma_join ts ++ [']']))
          (.array ((ts.map parsed_value).map some)) (by
            intro fuel rest hf
            have := parse_value_array_texts fuel ts rest hall (by
              simp only [List.length_cons, List.length_append, List.length_nil] at hf
              omega)
            simpa using this)
        refine ⟨parses_back_of_reads_whole _ ⟨'[', _, rfl, rfl⟩ ?_ hw.1, fun _ => hw.1⟩
        intro c hc
        simp only [List.mem_cons, List.mem_append, List.mem_singleton, List.mem_nil_iff,
          or_false] at hc
        rcases hc with rfl | hc | rfl
        · decide
        · rcases comma_join_mem _ c hc with rfl | ⟨x, hx, hcx⟩
          · decide
          · exact (hall x hx).2.1 c hcx
        · decide
      | object props h =>
        rw [json_object_members_eq]
        simp only [JSValue.depth] at hd
        have hall : ∀ m ∈ object_members (value_to_json d) props props,
            m.1 ≠ [] ∧ parses_back m.2 (parsed_value m.2) := by
          intro m hm
          obtain ⟨h1, h2, h3⟩ := object_members_mem _ props props m hm
          refine ⟨h1, ?_⟩
          rw [h3]
          cases hl : props.lookup (c_str m.1) with
          | none =>
            have hne : props ≠ [] := by
              intro e
              rw [e] at h2
              simp at h2
            have := depth_props_pos props hne
            exact (ih .undefined (by simp only [JSValue.depth]; omega) (Or.inr rfl)).1
          | some v =>
            obtain ⟨p, hp, rfl⟩ := lookup_mem props _ v hl
            have := depth_props_mem props p hp
            exact (ih p.2 (by omega) (Or.inl (h p hp))).1
        generalize object_members (value_to_json d) props props = ms at hall
        have hw := reads_whole_of_parse ('{' :: (comma_join (ms.map member_text) ++ ['}']))
          (.object (read_members ms [])) (by
            intro fuel rest hf
            have := parse_value_object_texts fuel ms rest hall (by
              simp only [List.length_cons, List.length_append, List.length_nil] at hf
              omega)
            simpa using this)
        refine ⟨parses_back_of_reads_whole _ ⟨'{', _, rfl, rfl⟩ ?_ hw.1, fun _ => hw.1⟩
        intro c hc
        simp only [List.mem_cons, List.mem_append, List.mem_singleton, List.mem_nil_iff,
          or_false] at hc
        rcases hc with rfl | hc | rfl
        · decide
        · rcases comma_join_mem _ c hc with rfl | ⟨x, hx, hcx⟩
          · decide
          · obtain ⟨m, hm, rfl⟩ := List.mem_map.mp hx
            exact member_text_no_nul m (hall m hm).2.2.1 c hcx
        · decide
    · refine ⟨parses_back_parsed _ _ hnull, ?_⟩
      intro h
      rcases h with ⟨s, h⟩ | ⟨es, h⟩ | ⟨ps, h⟩ <;> cases h

theorem c_str_append_of_no_nul (t s : List Char) (h : ∀ c ∈ t, c ≠ Char.ofNat 0) :
    c_str (t ++ s) = t ++ c_str s := by
  induction t with
  | nil => rfl
  | cons c t ih =>
    have hc : c ≠ Char.ofNat 0 := h c (List.mem_cons_self _ _)
    have := ih (fun x hx => h x (List.mem_cons_of_mem _ hx))
    have hp : decide (c ≠ Char.ofNat 0) = true := by simpa using hc
    simp only [c_str] at this ⊢
    rw [List.cons_append, List.takeWhile_cons, if_pos hp, this, List.cons_append]

theorem json_to_value_reads_whole (t s : List Char) (hne : t ≠ [])
    (hn : ∀ c ∈ t, c ≠ Char.ofNat 0) (h : reads_whole t) :
    json_to_value (t ++ s) = some (parsed_value t) := by
  have hne2 : t ++ s ≠ [] := by simp [hne]
  rw [json_to_value, if_neg hne2, c_str_append_of_no_nul t s hn,
    h _ (c_str s) (by simp only [List.length_append]; omega)]

theorem object_members_parse_back (d : Nat) (props : List (List Char × JSValue))
    (h : ∀ p, p ∈ props → EnvelopeDomain p.2) (hd : depth_props props ≤ d) :
    ∀ m ∈ object_members (value_to_json d) props props,
      m.1 ≠ [] ∧ parses_back m.2 (parsed_value m.2) := by
  intro m hm
  obtain ⟨h1, h2, h3⟩ := object_members_mem _ props props m hm
  refine ⟨h1, ?_⟩
  rw [h3]
  cases hl : props.lookup (c_str m.1) with
  | none =>
    have hne : props ≠ [] := by
      intro e
      rw [e] at h2
      simp at h2
    have := depth_props_pos props hne
    exact (value_to_json_whole d .undefined (by simp only [JSValue.depth]; omega)
      (Or.inr rfl)).1
  | some v =>
    obtain ⟨p, hp, rfl⟩ := lookup_mem props _ v hl
    have := depth_props_mem props p hp
    exact (value_to_json_whole d p.2 (by omega) (Or.inl (h p hp))).1

theorem object_text_head_no_nul (ms : List (List Char × List Char))
    (hms : ∀ m ∈ ms, m.1 ≠ [] ∧ parses_back m.2 (parsed_value m.2)) :
    ∀ c ∈ '{' :: ((if ms = [] then [] else comma_join (ms.map member_text) ++ [','])
        ++ ['"', '"']), c ≠ Char.ofNat 0 := by
  intro c hc
  simp only [List.mem_cons, List.mem_append, List.mem_singleton, List.mem_nil_iff,
    or_false] at hc
  rcases hc with rfl | hc | rfl | rfl
  · decide
  · split at hc
    · simp at hc
    · simp only [List.mem_append, List.mem_singleton] at hc
      rcases hc with hc | rfl
      · rcases comma_join_mem _ c hc with rfl | ⟨x, hx, hcx⟩
        · decide
        · obtain ⟨m, hm, rfl⟩ := List.mem_map.mp hx
          exact member_text_no_nul m (hms m hm).2.2.1 c hcx
      · decide
  · decide
  · decide

/-- C31, as the specification states it, fails: the Record with the members `""`
(value 1) and the key made of a NUL character and `x` (value 2) is a valid value of
the Envelope Domain; `value_to_json` skips the member with the empty key and reads
the value of the other member through the C string of its key, which is empty, so
the text is `{"\u0000x":1}`; the parser assigns the member through the C string
of the key it read, so `json_to_value` returns the Record with the one member `""`
of value 1: the result has a member with the empty key. -/
theorem json_round_trip_keeps_empty_key :
    EnvelopeDomain (.object [([], .number 1), ([Char.ofNat 0, 'x'], .number 2)])
      ∧ JSValue.valid (.object [([], .number 1), ([Char.ofNat 0, 'x'], .number 2)]) = true
      ∧ value_to_json 2 (.object [([], .number 1), ([Char.ofNat 0, 'x'], .number 2)])
          = ['{', '"', '\\', 'u', '0', '0', '0', '0', 'x', '"', ':', '1', '}']
      ∧ json_to_value
          (value_to_json 2 (.object [([], .number 1), ([Char.ofNat 0, 'x'], .number 2)]))
          = some (.object [([], .number ((1 : Int) : ℚ))])
      ∧ ∃ f ∈ [(([] : List Char), JSValue.number ((1 : Int) : ℚ))], f.1 = [] := by
  refine ⟨EnvelopeDomain.object _ ?_, by rfl, by rfl, by rfl, ⟨_, List.mem_cons_self _ _, rfl⟩⟩
  intro p hp
  simp only [List.mem_cons, List.mem_singleton, List.mem_nil_iff, or_false] at hp
  rcases hp with rfl | rfl
  · exact EnvelopeDomain.number _
  · exact EnvelopeDomain.number _

/-- C32, as the specification states it, fails: the text `"\u41"` parses as a complete
Text, the scan of the string stopping at the closing quote, which is the last
character: its `\u` escape has fewer than four characters before the end of the
input and is skipped, so the Text is `41`. With the text `x` appended the escape is
decoded from the four characters `41"x`, and `json_to_value` returns the Text `A`. -/
theorem json_to_value_trailing_changes :
    parse_string_loop 5 ['\\', 'u', '4', '1', '"'] [] = (['4', '1'], ['"'])
      ∧ parse_value 14 ['"', '\\', 'u', '4', '1', '"'] = (some (.string ['4', '1']), [])
      ∧ json_to_value ['"', '\\', 'u', '4', '1', '"'] = some (.string ['4', '1'])
      ∧ json_to_value (['"', '\\', 'u', '4', '1', '"'] ++ ['x']) = some (.string ['A'])
      ∧ json_to_value (['"', '\\', 'u', '4', '1', '"'] ++ ['x'])
          ≠ json_to_value ['"', '\\', 'u', '4', '1', '"'] := by
  have h1 : json_to_value ['"', '\\', 'u', '4', '1', '"'] = some (.string ['4', '1']) := by rfl
  have h2 : json_to_value (['"', '\\', 'u', '4', '1', '"'] ++ ['x']) = some (.string ['A']) := by
    rfl
  refine ⟨by decide, by rfl, h1, h2, ?_⟩
  rw [h1, h2]
  simp

/-- C32, amended: `json_to_value` accepts trailing content after a text that
`value_to_json` wrote for a Text, List or Record of the Envelope Domain. For every
such value `e` and every text `s`, `json_to_value` of the text of `e` followed by `s`
equals `json_to_value` of the text of `e` alone, which is a value (not `nullptr`),
and the parser, run on the text followed by `s`, stops right after the closing
delimiter with `s` left. -/
theorem json_to_value_trailing_accepted (d : Nat) (e : JSValue) (s : List Char)
    (he : EnvelopeDomain e) (hd : e.depth ≤ d)
    (hkind : (∃ x, e = .string x) ∨ (∃ es, e = .array es) ∨ (∃ ps, e = .object ps)) :
    json_to_value (value_to_json d e ++ s) = json_to_value (value_to_json d e)
      ∧ json_to_value (value_to_json d e) = some (parsed_value (value_to_json d e))
      ∧ parse_value (2 * (value_to_json d e).length + 2) (value_to_json d e ++ s)
          = (some (parsed_value (value_to_json d e)), s) := by
  have hw := value_to_json_whole d e hd (Or.inl he)
  have hread := hw.2 hkind
  have hne : value_to_json d e ≠ [] := by
    obtain ⟨c, tl, h, _⟩ := hw.1.1
    rw [h]
    simp
  have h1 := json_to_value_reads_whole _ s hne hw.1.2.1 hread
  have h2 := json_to_value_reads_whole _ [] hne hw.1.2.1 hread
  rw [List.append_nil] at h2
  exact ⟨h1.trans h2.symm, h2, hread _ s (by omega)⟩

theorem json_to_value_trailing_accepted_witness :
    json_to_value (['[', '"', 'a', '"', ',', '1', ']'] ++ ['x', ']'])
        = json_to_value ['[', '"', 'a', '"', ',', '1', ']']
      ∧ json_to_value ['[', '"', 'a', '"', ',', '1', ']']
        = some (.array [some (.string ['a']), some (.number ((1 : Int) : ℚ))]) :=
  have h := json_to_value_trailing_accepted 2
    (.array ([JSValue.string ['a'], JSValue.number 1].map some)) ['x', ']']
    (EnvelopeDomain.array _ (fun p hp => by
      simp only [List.mem_cons, List.mem_singleton, List.mem_nil_iff, or_false] at hp
      rcases hp with rfl | rfl
      · exact EnvelopeDomain.string _
      · exact EnvelopeDomain.number _))
    (by decide)
    (Or.inr (Or.inl ⟨_, rfl⟩))
  ⟨h.1, by rfl⟩

/-! ## The decoder with the pending exception -/

theorem decode_value_pending_typed (fuel : Nat) (tag : List Char) (payload : JSValue) :
    decode_value_pending (fuel + 1) (.object [(TYPE_KEY, .string tag), (VALUE_KEY, payload)]) =
      if tag = [] then (none, false)
      else if tag = TAG_NULL then (some .null, false)
      else if tag = TAG_UNDEFINED then (some .undefined, false)
      else if tag = TAG_NUMBER ∨ tag = TAG_STRING ∨ tag = TAG_BOOLEAN then (some payload, false)
      else if tag = TAG_BUFFER then
        (some (.buffer (base64_decode (get_string_value payload))), false)
      else if tag = TAG_ARRAY then
        match napi_get_array_length payload with
        | none => (none, false)
        | some length =>
          (some ((List.range length).foldl
              (decode_array_step_pending (decode_value_pending fuel) payload)
              (.array (List.replicate length none), false)).1,
            ((List.range length).foldl
              (decode_array_step_pending (decode_value_pending fuel) payload)
              (.array (List.replicate length none), false)).2)
      else if tag = TAG_OBJECT then
        match napi_get_property_names payload with
        | none => (none, true)
        | some prop_names =>
          (some (prop_names.foldl
              (decode_object_step_pending (decode_value_pending fuel) payload)
              (.object [], false)).1,
            (prop_names.foldl
              (decode_object_step_pending (decode_value_pending fuel) payload)
              (.object [], false)).2)
      else if tag = TAG_MAP then
        match napi_get_array_length payload with
        | none => (some (.map []), false)
        | some length =>
          (some (.map ((List.range length).foldl
              (decode_map_step_pending (decode_value_pending fuel) payload) ([], false)).1),
            ((List.range length).foldl
              (decode_map_step_pending (decode_value_pending fuel) payload) ([], false)).2)
      else (none, false) := by
  have h1 : (VALUE_KEY == TYPE_KEY) = false := by decide
  simp [decode_value_pending, napi_typeof, napi_has_named_property, napi_get_named_property,
    find_property, own_props, List.lookup, h1, get_string_value]

theorem decode_value_pending_record (fuel : Nat) (props : List (List Char × JSValue))
    (tag : List Char) (h : props.lookup TYPE_KEY = some (.string tag)) :
    decode_value_pending (fuel + 1) (.object props) =
      decode_value_pending (fuel + 1)
        (.object [(TYPE_KEY, .string tag),
          (VALUE_KEY, (props.lookup VALUE_KEY).getD .undefined)]) := by
  have h1 : (VALUE_KEY == TYPE_KEY) = false := by decide
  have hv := find_property_value_key props
  have hv2 := find_property_value_key
    [(TYPE_KEY, .string tag), (VALUE_KEY, (props.lookup VALUE_KEY).getD .undefined)]
  have ht : find_property (.object props) TYPE_KEY = some (.string tag) :=
    find_property_object props TYPE_KEY _ h
  have ht2 : find_property (.object [(TYPE_KEY, JSValue.string tag),
      (VALUE_KEY, (props.lookup VALUE_KEY).getD .undefined)]) TYPE_KEY = some (.string tag) :=
    find_property_object _ TYPE_KEY _ (by simp [List.lookup])
  have hv3 : (find_property (.object [(TYPE_KEY, JSValue.string tag),
      (VALUE_KEY, (props.lookup VALUE_KEY).getD .undefined)]) VALUE_KEY).getD .undefined
      = (props.lookup VALUE_KEY).getD .undefined := by
    rw [hv2]; simp [List.lookup, h1]
  simp only [decode_value_pending, napi_typeof, napi_has_named_property,
    napi_get_named_property, ht, ht2, hv, hv3]

theorem decode_value_pending_typed_array (fuel : Nat) (payload : JSValue) :
    decode_value_pending (fuel + 1)
        (.object [(TYPE_KEY, .string TAG_ARRAY), (VALUE_KEY, payload)])
      = match napi_get_array_length payload with
        | none => (none, false)
        | some length =>
          (some ((List.range length).foldl
              (decode_array_step_pending (decode_value_pending fuel) payload)
              (.array (List.replicate length none), false)).1,
            ((List.range length).foldl
              (decode_array_step_pending (decode_value_pending fuel) payload)
              (.array (List.replicate length none), false)).2) := by
  have h := decode_value_pending_typed fuel TAG_ARRAY payload
  rw [if_neg (by decide), if_neg (by decide), if_neg (by decide),
    if_neg (by decide), if_neg (by decide), if_pos rfl] at h
  exact h.trans (by cases napi_get_array_length payload <;> rfl)

theorem decode_value_pending_typed_object (fuel : Nat) (payload : JSValue) :
    decode_value_pending (fuel + 1)
        (.object [(TYPE_KEY, .string TAG_OBJECT), (VALUE_KEY, payload)])
      = match napi_get_property_names payload with
        | none => (none, true)
        | some prop_names =>
          (some (prop_names.foldl
              (decode_object_step_pending (decode_value_pending fuel) payload)
              (.object [], false)).1,
            (prop_names.foldl
              (decode_object_step_pending (decode_value_pending fuel) payload)
              (.object [], false)).2) := by
  have h := decode_value_pending_typed fuel TAG_OBJECT payload
  rw [if_neg (by decide), if_neg (by decide), if_neg (by decide),
    if_neg (by decide), if_neg (by decide), if_neg (by decide), if_pos rfl] at h
  exact h.trans (by cases napi_get_property_names payload <;> rfl)

theorem decode_value_pending_typed_map (fuel : Nat) (payload : JSValue) :
    decode_value_pending (fuel + 1)
        (.object [(TYPE_KEY, .string TAG_MAP), (VALUE_KEY, payload)])
      = match napi_get_array_length payload with
        | none => (some (.map []), false)
        | some length =>
          (some (.map ((List.range length).foldl
              (decode_map_step_pending (decode_value_pending fuel) payload) ([], false)).1),
            ((List.range length).foldl
              (decode_map_step_pending (decode_value_pending fuel) payload) ([], false)).2) := by
  have h := decode_value_pending_typed fuel TAG_MAP payload
  rw [if_neg (by decide), if_neg (by decide), if_neg (by decide),
    if_neg (by decide), if_neg (by decide), if_neg (by decide), if_neg (by decide),
    if_pos rfl] at h
  exact h.trans (by cases napi_get_array_length payload <;> rfl)

theorem decode_value_pending_primitive (fuel : Nat) (tag : List Char) (payload : JSValue)
    (ht : tag = TAG_NUMBER ∨ tag = TAG_STRING ∨ tag = TAG_BOOLEAN) :
    decode_value_pending (fuel + 1) (.object [(TYPE_KEY, .string tag), (VALUE_KEY, payload)])
      = (some payload, false) := by
  rw [decode_value_pending_typed]
  rcases ht with rfl | rfl | rfl
  · rw [if_neg (by decide), if_neg (by decide), if_neg (by decide), if_pos (Or.inl rfl)]
  · rw [if_neg (by decide), if_neg (by decide), if_neg (by decide),
      if_pos (Or.inr (Or.inl rfl))]
  · rw [if_neg (by decide), if_neg (by decide), if_neg (by decide),
      if_pos (Or.inr (Or.inr rfl))]

theorem decode_value_pending_buffer (fuel : Nat) (payload : JSValue) :
    decode_value_pending (fuel + 1)
        (.object [(TYPE_KEY, .string TAG_BUFFER), (VALUE_KEY, payload)])
      = (some (.buffer (base64_decode (get_string_value payload))), false) := by
  rw [decode_value_pending_typed]
  rw [if_neg (by decide), if_neg (by decide), if_neg (by decide), if_neg (by decide),
    if_pos rfl]

theorem slots_until_exception_length (dec : JSValue → Option JSValue × Bool) :
    ∀ slots : List (Option JSValue), (slots_until_exception dec slots).length = slots.length := by
  intro slots
  induction slots with
  | nil => rfl
  | cons slot rest ih =>
    simp only [slots_until_exception]
    split
    · simp
    · simp [ih]

theorem slots_until_exception_cons (dec : JSValue → Option JSValue × Bool)
    (slot : Option JSValue) (rest : List (Option JSValue)) :
    slots_until_exception dec (slot :: rest)
      = if (dec (slot.getD .undefined)).2 then List.replicate (rest.length + 1) none
        else (dec (slot.getD .undefined)).1 :: slots_until_exception dec rest := rfl

theorem slots_until_exception_concat (dec : JSValue → Option JSValue × Bool)
    (x : Option JSValue) :
    ∀ l : List (Option JSValue),
      slots_until_exception dec (l ++ [x])
        = slots_until_exception dec l
          ++ [if (l.any (fun slot => (dec (slot.getD .undefined)).2)
              || (dec (x.getD .undefined)).2) = true then none
            else (dec (x.getD .undefined)).1] := by
  intro l
  induction l with
  | nil =>
    rw [List.nil_append, slots_until_exception_cons]
    simp only [slots_until_exception, List.any_nil, Bool.false_or, List.length_nil,
      List.nil_append]
    split <;> simp
  | cons a l ih =>
    rw [List.cons_append, slots_until_exception_cons, slots_until_exception_cons, ih,
      List.any_cons]
    by_cases ha : (dec (a.getD .undefined)).2 = true
    · rw [if_pos ha, if_pos ha, ha, Bool.true_or, Bool.true_or, if_pos rfl,
        List.length_append, List.length_singleton, List.replicate_succ' (l.length + 1)]
    · rw [if_neg ha, if_neg ha]
      have ha2 : (dec (a.getD .undefined)).2 = false := by simpa using ha
      rw [ha2, Bool.false_or, List.cons_append]

theorem set_element_at_gap (A R : List (Option JSValue)) (x : JSValue) :
    napi_set_element (.array (A ++ none :: R)) A.length x = .array (A ++ some x :: R) := by
  simp only [napi_set_element, set_slot, List.length_append, List.length_cons]
  rw [if_pos (by omega)]
  congr 1
  rw [List.set_append_right _ _ (le_refl _)]
  simp

theorem decode_array_loop_pending (dec : JSValue → Option JSValue × Bool)
    (slots : List (Option JSValue)) :
    ∀ k, k ≤ slots.length →
      (List.range k).foldl (decode_array_step_pending dec (.array slots))
          (.array (List.replicate slots.length none), false)
        = (.array (slots_until_exception dec (slots.take k)
              ++ List.replicate (slots.length - k) none),
            (slots.take k).any (fun slot => (dec (slot.getD .undefined)).2)) := by
  intro k
  induction k with
  | zero => intro _; simp [slots_until_exception]
  | succ k ih =>
    intro hk
    have hk2 : k < slots.length := by omega
    rw [List.range_succ, List.foldl_append, ih (by omega)]
    have htake : slots.take (k + 1) = slots.take k ++ [slots[k]] := by
      rw [List.take_succ, List.getElem?_eq_getElem hk2]
      rfl
    have hrep : List.replicate (slots.length - k) (none : Option JSValue)
        = none :: List.replicate (slots.length - (k + 1)) none := by
      rw [show slots.length - k = (slots.length - (k + 1)) + 1 by omega, List.replicate_succ]
    have hlen : (slots_until_exception dec (slots.take k)).length = k := by
      rw [slots_until_exception_length, List.length_take]
      omega
    have hget : napi_get_element (.array slots) k = some (slots[k].getD .undefined) := by
      simp [napi_get_element, List.getD_eq_getElem?_getD, List.getElem?_eq_getElem hk2]
    rw [htake, slots_until_exception_concat, List.any_append, hrep]
    simp only [List.foldl_cons, List.foldl_nil, decode_array_step_pending, hget,
      List.any_cons, List.any_nil, Bool.or_false]
    by_cases hp : (slots.take k).any (fun slot => (dec (slot.getD .undefined)).2) = true
    · simp [hp]
    · simp only [hp, Bool.false_eq_true, if_false, Bool.false_or]
      by_cases hr : (dec (slots[k].getD .undefined)).2 = true
      · cases hd : (dec (slots[k].getD .undefined)).1 with
        | none => simp [hr]
        | some y => simp [hr]
      · cases hd : (dec (slots[k].getD .undefined)).1 with
        | none => simp [hr]
        | some y =>
          simp only [hr, Bool.false_eq_true, if_false]
          have := set_element_at_gap (slots_until_exception dec (slots.take k))
            (List.replicate (slots.length - (k + 1)) none) y
          rw [hlen] at this
          rw [this]
          simp

theorem decode_value_pending_array (fuel : Nat) (slots : List (Option JSValue)) :
    decode_value_pending (fuel + 1)
        (.object [(TYPE_KEY, .string TAG_ARRAY), (VALUE_KEY, .array slots)])
      = (some (.array (slots_until_exception (decode_value_pending fuel) slots)),
          slots.any (fun slot => (decode_value_pending fuel (slot.getD .undefined)).2)) := by
  rw [decode_value_pending_typed_array]
  have := decode_array_loop_pending (decode_value_pending fuel) slots slots.length (le_refl _)
  simp only [List.take_length, Nat.sub_self, List.replicate_zero, List.append_nil] at this
  simp only [napi_get_array_length, this]

theorem slots_until_exception_clean (dec : JSValue → Option JSValue × Bool) :
    ∀ (pre suf : List (Option JSValue)),
      (∀ slot ∈ pre, (dec (slot.getD .undefined)).2 = false) →
      slots_until_exception dec (pre ++ suf)
        = pre.map (fun slot => (dec (slot.getD .undefined)).1)
          ++ slots_until_exception dec suf := by
  intro pre
  induction pre with
  | nil => intro suf _; rfl
  | cons a l ih =>
    intro suf h
    have ha := h a (List.mem_cons_self _ _)
    rw [List.cons_append, slots_until_exception_cons, ha, if_neg (by simp),
      ih suf (fun s hs => h s (List.mem_cons_of_mem _ hs)), List.map_cons, List.cons_append]

theorem entries_until_exception_cons (dec : JSValue → Option JSValue × Bool)
    (key value : JSValue) (rest : List (JSValue × JSValue)) :
    entries_until_exception dec ((key, value) :: rest)
      = if (dec key).2 then []
        else if (dec value).2 then []
        else
          match (dec key).1, (dec value).1 with
          | some decoded_key, some decoded_value =>
            (decoded_key, decoded_value) :: entries_until_exception dec rest
          | _, _ => entries_until_exception dec rest := rfl

theorem decode_map_step_pending_pair (dec : JSValue → Option JSValue × Bool)
    (pairs : List (JSValue × JSValue)) (state : List (JSValue × JSValue) × Bool) (i : Nat)
    (hi : i < pairs.length) :
    decode_map_step_pending dec (.array (pairs.map pair_slot)) state i
      = if state.2 then state
        else if (dec (pairs.get ⟨i, hi⟩).1).2 then (state.1, true)
        else
          match (dec (pairs.get ⟨i, hi⟩).1).1, (dec (pairs.get ⟨i, hi⟩).2).1 with
          | some decoded_key, some decoded_value =>
            if (dec (pairs.get ⟨i, hi⟩).2).2 then (state.1, true)
            else (map_set state.1 decoded_key decoded_value, false)
          | _, _ => (state.1, (dec (pairs.get ⟨i, hi⟩).2).2) := by
  have hi2 : i < (pairs.map pair_slot).length := by simpa using hi
  simp only [decode_map_step_pending, napi_get_element, List.getD_eq_getElem?_getD,
    List.getElem?_eq_getElem hi2, List.getElem_map, pair_slot, Option.getD_some,
    List.getElem?_cons_zero, List.getElem?_cons_succ, List.get_eq_getElem]

theorem foldl_pending_absorbs {α β : Type} (h : β × Bool → α → β × Bool)
    (habs : ∀ acc x, h (acc, true) x = (acc, true)) :
    ∀ (l : List α) (acc : β), l.foldl h (acc, true) = (acc, true) := by
  intro l
  induction l with
  | nil => intro acc; rfl
  | cons x t ih => intro acc; rw [List.foldl_cons, habs, ih]

theorem decode_map_fold_pending (dec : JSValue → Option JSValue × Bool) :
    ∀ (pairs acc : List (JSValue × JSValue)),
      pairs.foldl (fun (state : List (JSValue × JSValue) × Bool) (p : JSValue × JSValue) =>
          if state.2 then state
          else if (dec p.1).2 then (state.1, true)
          else
            match (dec p.1).1, (dec p.2).1 with
            | some decoded_key, some decoded_value =>
              if (dec p.2).2 then (state.1, true)
              else (map_set state.1 decoded_key decoded_value, false)
            | _, _ => (state.1, (dec p.2).2)) (acc, false)
        = ((entries_until_exception dec pairs).foldl (fun m q => map_set m q.1 q.2) acc,
            pairs.any (fun p => (dec p.1).2 || (dec p.2).2)) := by
  intro pairs
  induction pairs with
  | nil => intro acc; rfl
  | cons q rest ih =>
    intro acc
    obtain ⟨key, value⟩ := q
    have habs := foldl_pending_absorbs
      (fun (state : List (JSValue × JSValue) × Bool) (p : JSValue × JSValue) =>
          if state.2 then state
          else if (dec p.1).2 then (state.1, true)
          else
            match (dec p.1).1, (dec p.2).1 with
            | some decoded_key, some decoded_value =>
              if (dec p.2).2 then (state.1, true)
              else (map_set state.1 decoded_key decoded_value, false)
            | _, _ => (state.1, (dec p.2).2))
      (fun acc x => by simp) rest acc
    rw [List.foldl_cons, entries_until_exception_cons, List.any_cons]
    by_cases hk : (dec key).2 = true
    · simp only [Bool.false_eq_true, if_false, hk, if_true, Bool.true_or, List.foldl_nil]
      exact habs
    · have hk2 : (dec key).2 = false := by simpa using hk
      by_cases hv : (dec value).2 = true
      · simp only [Bool.false_eq_true, if_false, hk2, hv, if_true, Bool.or_true, Bool.true_or,
          List.foldl_nil]
        cases (dec key).1 with
        | none => exact habs
        | some k =>
          cases (dec value).1 with
          | none => exact habs
          | some v => exact habs
      · have hv2 : (dec value).2 = false := by simpa using hv
        simp only [Bool.false_eq_true, if_false, hk2, hv2, Bool.or_false, Bool.false_or]
        cases (dec key).1 with
        | none => exact ih acc
        | some k =>
          cases (dec value).1 with
          | none => exact ih acc
          | some v => exact ih (map_set acc k v)

theorem decode_map_loop_pending (dec : JSValue → Option JSValue × Bool)
    (pairs : List (JSValue × JSValue)) :
    (List.range pairs.length).foldl
        (decode_map_step_pending dec (.array (pairs.map pair_slot))) ([], false)
      = ((entries_until_exception dec pairs).foldl (fun m q => map_set m q.1 q.2) [],
          pairs.any (fun p => (dec p.1).2 || (dec p.2).2)) := by
  rw [← decode_map_fold_pending dec pairs []]
  exact foldl_range_eq_foldl _ (decode_map_step_pending dec (.array (pairs.map pair_slot)))
    pairs ([], false) (fun acc i hi => decode_map_step_pending_pair dec pairs acc i hi)

theorem decode_value_pending_map (fuel : Nat) (pairs : List (JSValue × JSValue)) :
    decode_value_pending (fuel + 1)
        (.object [(TYPE_KEY, .string TAG_MAP), (VALUE_KEY, .array (pairs.map pair_slot))])
      = (some (.map ((entries_until_exception (decode_value_pending fuel) pairs).foldl
            (fun m q => map_set m q.1 q.2) [])),
          pairs.any (fun p =>
            (decode_value_pending fuel p.1).2 || (decode_value_pending fuel p.2).2)) := by
  rw [decode_value_pending_typed_map]
  have hl : (pairs.map pair_slot).length = pairs.length := by simp
  simp only [napi_get_array_length, hl, decode_map_loop_pending]

theorem entries_until_exception_clean (dec : JSValue → Option JSValue × Bool) :
    ∀ (pre suf : List (JSValue × JSValue)),
      (∀ p ∈ pre, (dec p.1).2 = false ∧ (dec p.2).2 = false) →
      entries_until_exception dec (pre ++ suf)
        = decode_entries (fun x => (dec x).1) pre ++ entries_until_exception dec suf := by
  intro pre
  induction pre with
  | nil => intro suf _; rfl
  | cons q l ih =>
    intro suf h
    obtain ⟨key, value⟩ := q
    obtain ⟨hk, hv⟩ := h (key, value) (List.mem_cons_self _ _)
    have hk' : (dec key).2 = false := hk
    have hv' : (dec value).2 = false := hv
    rw [List.cons_append, entries_until_exception_cons, hk', hv', if_neg (by simp),
      if_neg (by simp), ih suf (fun p hp => h p (List.mem_cons_of_mem _ hp))]
    simp only [decode_entries]
    cases (dec key).1 with
    | none => rfl
    | some k =>
      cases (dec value).1 with
      | none => rfl
      | some v => rfl

theorem entries_until_exception_raise (dec : JSValue → Option JSValue × Bool)
    (p : JSValue × JSValue) (rest : List (JSValue × JSValue))
    (h : (dec p.1).2 = true ∨ (dec p.2).2 = true) :
    entries_until_exception dec (p :: rest) = [] := by
  obtain ⟨key, value⟩ := p
  rw [entries_until_exception_cons]
  by_cases hk : (dec key).2 = true
  · rw [if_pos hk]
  · rw [if_neg hk]
    rcases h with h | h
    · exact absurd h hk
    · rw [if_pos h]

theorem foldl_pending_clean {α β : Type} (hP : β × Bool → α → β × Bool) (h : β → α → β)
    (habs : ∀ acc x, hP (acc, true) x = (acc, true))
    (hstep : ∀ acc x, (hP (acc, false) x).2 = false → (hP (acc, false) x).1 = h acc x) :
    ∀ (l : List α) (acc : β), (l.foldl hP (acc, false)).2 = false →
      (l.foldl hP (acc, false)).1 = l.foldl h acc := by
  intro l
  induction l with
  | nil => intro acc _; rfl
  | cons x t ih =>
    intro acc hfin
    rw [List.foldl_cons] at hfin ⊢
    rw [List.foldl_cons]
    have hs := hstep acc x
    generalize hP (acc, false) x = r at hfin hs ⊢
    obtain ⟨a, p⟩ := r
    cases p with
    | true =>
      rw [foldl_pending_absorbs hP habs t a] at hfin
      exact absurd hfin (by simp)
    | false =>
      have := hs rfl
      simp only at this
      rw [← this]
      exact ih a hfin

theorem pending_result_clean {β : Type} (r : Option JSValue × Bool) (d : Option JSValue)
    (acc : β) (set : JSValue → β) :
    (r.2 = false → r.1 = d) →
    ((match r.1 with
        | some x => if r.2 then (acc, true) else (set x, false)
        | none => (acc, r.2)) : β × Bool).2 = false →
    ((match r.1 with
        | some x => if r.2 then (acc, true) else (set x, false)
        | none => (acc, r.2)) : β × Bool).1
      = (match d with
        | some x => set x
        | none => acc) := by
  intro hd h
  obtain ⟨r1, r2⟩ := r
  cases r2 with
  | true => cases r1 <;> simp at h
  | false =>
    have := hd rfl
    simp only at this
    subst this
    cases r1 <;> rfl

theorem decode_array_step_pending_clean (decP : JSValue → Option JSValue × Bool)
    (dec : JSValue → Option JSValue)
    (hdec : ∀ x, (decP x).2 = false → (decP x).1 = dec x) (value_obj acc : JSValue) (i : Nat)
    (h : (decode_array_step_pending decP value_obj (acc, false) i).2 = false) :
    (decode_array_step_pending decP value_obj (acc, false) i).1
      = decode_array_step dec value_obj acc i := by
  simp only [decode_array_step_pending, decode_array_step, Bool.false_eq_true, if_false] at h ⊢
  revert h
  cases napi_get_element value_obj i with
  | none => intro _; rfl
  | some element =>
    dsimp only
    exact pending_result_clean (decP element) (dec element) acc
      (fun x => napi_set_element acc i x) (hdec element)

theorem decode_object_step_pending_clean (decP : JSValue → Option JSValue × Bool)
    (dec : JSValue → Option JSValue)
    (hdec : ∀ x, (decP x).2 = false → (decP x).1 = dec x) (value_obj acc : JSValue)
    (name : List Char)
    (h : (decode_object_step_pending decP value_obj (acc, false) name).2 = false) :
    (decode_object_step_pending decP value_obj (acc, false) name).1
      = decode_object_step dec value_obj acc name := by
  have key := fun prop_value : JSValue =>
    pending_result_clean (decP prop_value) (dec prop_value) acc
      (fun x => napi_set_named_property acc (c_str name) x) (hdec prop_value)
  simp only [decode_object_step_pending, decode_object_step, Bool.false_eq_true, if_false,
    get_string_value] at h ⊢
  by_cases hk : name = []
  · simp only [hk, if_true]
  · simp only [hk, if_false] at h ⊢
    revert h
    cases napi_get_named_property value_obj (c_str name) with
    | none => intro _; rfl
    | some prop_value =>
      cases prop_value with
      | undefined => intro _; rfl
      | null => dsimp only; exact key _
      | boolean b => dsimp only; exact key _
      | number x => dsimp only; exact key _
      | string s => dsimp only; exact key _
      | func => dsimp only; exact key _
      | buffer bytes => dsimp only; exact key _
      | array elems => dsimp only; exact key _
      | map entries => dsimp only; exact key _
      | object props => dsimp only; exact key _

theorem decode_map_step_pending_clean (decP : JSValue → Option JSValue × Bool)
    (dec : JSValue → Option JSValue)
    (hdec : ∀ x, (decP x).2 = false → (decP x).1 = dec x) (value_obj : JSValue)
    (acc : List (JSValue × JSValue)) (i : Nat)
    (h : (decode_map_step_pending decP value_obj (acc, false) i).2 = false) :
    (decode_map_step_pending decP value_obj (acc, false) i).1
      = decode_map_step dec value_obj acc i := by
  simp only [decode_map_step_pending, decode_map_step, Bool.false_eq_true, if_false] at h ⊢
  revert h
  cases napi_get_element value_obj i with
  | none => intro _; rfl
  | some pair =>
    simp only
    cases napi_get_element pair 0 with
    | none => intro h; exact absurd h (by simp)
    | some key =>
      simp only
      cases napi_get_element pair 1 with
      | none => intro h; exact absurd h (by simp)
      | some value =>
        simp only
        intro h
        have hk := hdec key
        have hv := hdec value
        generalize decP key = rk at h hk ⊢
        generalize decP value = rv at h hv ⊢
        obtain ⟨k1, k2⟩ := rk
        obtain ⟨v1, v2⟩ := rv
        cases k2 with
        | true => simp at h
        | false =>
          have e1 : k1 = dec key := hk rfl
          rw [← e1]
          cases v2 with
          | true => cases k1 <;> cases v1 <;> simp at h
          | false =>
            have e2 : v1 = dec value := hv rfl
            rw [← e2]
            cases k1 <;> cases v1 <;> rfl

theorem decode_value_pending_not_object (fuel : Nat) (obj : JSValue)
    (h : ∀ props, obj ≠ .object props) : decode_value_pending fuel obj = (none, false) := by
  cases fuel with
  | zero => rfl
  | succ fuel =>
    have hf := find_property_type_key_of_not_object obj h
    cases obj <;> simp [decode_value_pending, napi_typeof, napi_has_named_property, hf]

/-- When `decode_value_pending` returns with no exception pending, the value it
returns is the one `decode_value` gives. -/
theorem decode_value_pending_clean (fuel : Nat) :
    ∀ v, (decode_value_pending fuel v).2 = false →
      (decode_value_pending fuel v).1 = decode_value fuel v := by
  induction fuel with
  | zero => intro v _; rfl
  | succ fuel ih =>
    intro v h
    have harr : ∀ (value_obj : JSValue) (l : List Nat) (acc : JSValue),
        (l.foldl (decode_array_step_pending (decode_value_pending fuel) value_obj)
          (acc, false)).2 = false →
        (l.foldl (decode_array_step_pending (decode_value_pending fuel) value_obj)
          (acc, false)).1
          = l.foldl (decode_array_step (decode_value fuel) value_obj) acc :=
      fun value_obj => foldl_pending_clean _ _
        (fun acc x => by simp [decode_array_step_pending])
        (fun acc x => decode_array_step_pending_clean _ _ ih value_obj acc x)
    have hobj : ∀ (value_obj : JSValue) (l : List (List Char)) (acc : JSValue),
        (l.foldl (decode_object_step_pending (decode_value_pending fuel) value_obj)
          (acc, false)).2 = false →
        (l.foldl (decode_object_step_pending (decode_value_pending fuel) value_obj)
          (acc, false)).1
          = l.foldl (decode_object_step (decode_value fuel) value_obj) acc :=
      fun value_obj => foldl_pending_clean _ _
        (fun acc x => by simp [decode_object_step_pending])
        (fun acc x => decode_object_step_pending_clean _ _ ih value_obj acc x)
    have hmap : ∀ (value_obj : JSValue) (l : List Nat) (acc : List (JSValue × JSValue)),
        (l.foldl (decode_map_step_pending (decode_value_pending fuel) value_obj)
          (acc, false)).2 = false →
        (l.foldl (decode_map_step_pending (decode_value_pending fuel) value_obj)
          (acc, false)).1
          = l.foldl (decode_map_step (decode_value fuel) value_obj) acc :=
      fun value_obj => foldl_pending_clean _ _
        (fun acc x => by simp [decode_map_step_pending])
        (fun acc x => decode_map_step_pending_clean _ _ ih value_obj acc x)
    simp only [decode_value_pending, decode_value] at h ⊢
    by_cases hty : napi_typeof v = .napi_object
    · simp only [hty, ne_eq, not_true_eq_false, if_false] at h ⊢
      revert h
      cases napi_has_named_property v TYPE_KEY with
      | none => intro _; rfl
      | some b =>
        cases b with
        | false => intro _; rfl
        | true =>
          dsimp only
          cases napi_get_named_property v TYPE_KEY with
          | none => intro _; rfl
          | some type_val =>
            dsimp only
            by_cases h0 : get_string_value type_val = []
            · simp only [h0, if_true]; intro _; trivial
            · simp only [h0, if_false]
              by_cases h1 : get_string_value type_val = TAG_NULL
              · simp only [h1, if_true]; intro _; trivial
              · simp only [h1, if_false]
                by_cases h2 : get_string_value type_val = TAG_UNDEFINED
                · simp only [h2, if_true]; intro _; trivial
                · simp only [h2, if_false]
                  cases napi_get_named_property v VALUE_KEY with
                  | none => intro _; rfl
                  | some value_obj =>
                    dsimp only
                    by_cases h3 : get_string_value type_val = TAG_NUMBER
                        ∨ get_string_value type_val = TAG_STRING
                        ∨ get_string_value type_val = TAG_BOOLEAN
                    · simp only [h3, if_true]; intro _; trivial
                    · simp only [h3, if_false]
                      by_cases h4 : get_string_value type_val = TAG_BUFFER
                      · simp only [h4, if_true]; intro _; trivial
                      · simp only [h4, if_false]
                        by_cases h5 : get_string_value type_val = TAG_ARRAY
                        · simp only [h5, if_true]
                          cases napi_get_array_length value_obj with
                          | none => intro _; rfl
                          | some length =>
                            dsimp only
                            intro h
                            rw [harr value_obj _ _ h]
                        · simp only [h5, if_false]
                          by_cases h6 : get_string_value type_val = TAG_OBJECT
                          · simp only [h6, if_true]
                            cases napi_get_property_names value_obj with
                            | none => intro h; exact absurd h (by simp)
                            | some prop_names =>
                              dsimp only
                              intro h
                              rw [hobj value_obj _ _ h]
                          · simp only [h6, if_false]
                            by_cases h7 : get_string_value type_val = TAG_MAP
                            · simp only [h7, if_true]
                              cases napi_get_array_length value_obj with
                              | none => intro _; rfl
                              | some length =>
                                dsimp only
                                intro h
                                rw [hmap value_obj _ _ h]
                            · simp only [h7, if_false]; intro _; trivial
    · simp only [ne_eq, hty, not_false_eq_true, if_true]

theorem decode_entries_congr (f g : JSValue → Option JSValue) :
    ∀ (pairs : List (JSValue × JSValue)),
      (∀ p ∈ pairs, f p.1 = g p.1 ∧ f p.2 = g p.2) →
      decode_entries f pairs = decode_entries g pairs := by
  intro pairs
  induction pairs with
  | nil => intro _; rfl
  | cons q rest ih =>
    intro h
    obtain ⟨key, value⟩ := q
    obtain ⟨hk, hv⟩ := h (key, value) (List.mem_cons_self _ _)
    have hk' : f key = g key := hk
    have hv' : f value = g value := hv
    simp only [decode_entries, hk', hv', ih (fun p hp => h p (List.mem_cons_of_mem _ hp))]

theorem foldl_pending_stays {α β : Type} (hP : β × Bool → α → β × Bool)
    (hstep : ∀ acc x, (hP (acc, false) x).2 = false) :
    ∀ (l : List α) (acc : β), (l.foldl hP (acc, false)).2 = false := by
  intro l
  induction l with
  | nil => intro acc; rfl
  | cons x t ih =>
    intro acc
    rw [List.foldl_cons]
    have hs := hstep acc x
    generalize hP (acc, false) x = r at hs ⊢
    obtain ⟨a, p⟩ := r
    simp only at hs
    subst hs
    exact ih a

theorem decode_object_step_pending_stays (dec : JSValue → Option JSValue × Bool)
    (fields : List (List Char × JSValue)) (hdec : ∀ p ∈ fields, (dec p.2).2 = false)
    (acc : JSValue) (name : List Char) :
    (decode_object_step_pending dec (.object fields) (acc, false) name).2 = false := by
  have key : ∀ prop_value : JSValue, (dec prop_value).2 = false →
      ((match (dec prop_value).1 with
        | some decoded_value =>
          if (dec prop_value).2 then (acc, true)
          else (napi_set_named_property acc (c_str name) decoded_value, false)
        | none => (acc, (dec prop_value).2)) : JSValue × Bool).2 = false := by
    intro prop_value h
    rw [h]
    cases (dec prop_value).1 <;> rfl
  simp only [decode_object_step_pending, Bool.false_eq_true, if_false, get_string_value,
    napi_get_named_property, find_property_object_getD]
  by_cases hk : name = []
  · simp only [hk, if_true]
  · simp only [hk, if_false]
    cases hl : fields.lookup (c_str name) with
    | none => rfl
    | some v =>
      obtain ⟨p, hp, hv⟩ := lookup_mem fields _ v hl
      have hd := hdec p hp
      rw [hv] at hd
      simp only [Option.getD_some]
      cases v with
      | undefined => rfl
      | null => exact key _ hd
      | boolean b => exact key _ hd
      | number x => exact key _ hd
      | string s => exact key _ hd
      | func => exact key _ hd
      | buffer bytes => exact key _ hd
      | array elems => exact key _ hd
      | map entries => exact key _ hd
      | object props => exact key _ hd

/-- The decode of a well-formed envelope raises no exception. -/
theorem decode_value_pending_envelope (fuel : Nat) :
    ∀ e, Envelope e → (decode_value_pending fuel e).2 = false := by
  induction fuel with
  | zero => intro e _; rfl
  | succ fuel ih =>
    intro e he
    cases he with
    | null => rfl
    | undefined => rfl
    | number x h => rw [decode_value_pending_primitive fuel _ x (Or.inl rfl)]
    | string x h => rw [decode_value_pending_primitive fuel _ x (Or.inr (Or.inl rfl))]
    | boolean x h => rw [decode_value_pending_primitive fuel _ x (Or.inr (Or.inr rfl))]
    | buffer text => rw [decode_value_pending_buffer]
    | array slots h =>
      rw [decode_value_pending_array]
      simp only
      rw [List.any_eq_false]
      intro slot hs
      cases slot with
      | none =>
        rw [Option.getD_none, decode_value_pending_not_object fuel .undefined (by simp)]
        simp
      | some x =>
        rw [Option.getD_some, ih x (h x hs)]
        simp
    | object fields h =>
      rw [decode_value_pending_typed_object]
      simp only [napi_get_property_names, own_props]
      exact foldl_pending_stays _
        (fun acc name => decode_object_step_pending_stays _ fields
          (fun p hp => ih p.2 (h p hp)) acc name) _ _
    | map pairs hk hv =>
      rw [decode_value_pending_map]
      simp only
      rw [List.any_eq_false]
      intro p hp
      rw [ih p.1 (hk p hp), ih p.2 (hv p hp)]
      simp

/-! ## The decoder with the pending exception: the claims -/

/-- C2, amended: for every host value `v` (`valid`) with no unsupported value and no
unset List slot anywhere inside, in which no Record has an empty key, a key with a
NUL character or a number-valued property `length` (`plain`), and in which every
property name of a Record is ordinary (`ordinary_keys`: not `__proto__`, not a run of
digits), `encode_value` succeeds and `decode_value` of the result returns `v`, with
no exception pending, so that `rpc_decode` returns `v`; the fuel is the nesting depth
of `v`. The hypothesis on the property names is not used by the proof: it keeps the
statement to the names for which the assignment of the host is described exactly. -/
theorem decode_encode_value (fuel : Nat) (v : JSValue) (hfuel : v.depth ≤ fuel)
    (hvalid : v.valid = true) (hplain : v.plain = true)
    (_hkeys : v.ordinary_keys = true) :
    ∃ e, encode_value fuel v = some e ∧ decode_value fuel e = some v
      ∧ rpc_encode fuel v = .ok e ∧ rpc_decode fuel e = .ok v
      ∧ decode_value_pending fuel e = (some v, false)
      ∧ rpc_decode_pending fuel e = .returned v := by
  obtain ⟨e, h1, h2⟩ := encode_decode_roundtrip fuel v hfuel hvalid hplain
  have hc := decode_value_pending_envelope fuel e (encode_value_envelope fuel v e h1)
  have h3 : decode_value_pending fuel e = (some v, false) :=
    Prod.ext ((decode_value_pending_clean fuel e hc).trans h2) hc
  exact ⟨e, h1, h2, by simp [rpc_encode, h1], by simp [rpc_decode, h2], h3,
    by simp [rpc_decode_pending, h3]⟩

theorem decode_encode_value_witness :
    ∃ e, encode_value 3
        (.object [(['a'], .number 3), (['b'], .array [some .null, some (.string ['x'])]),
          (['m'], .map [(.string ['k'], .buffer [0, 1, 2]), (.undefined, .boolean true)])])
          = some e
      ∧ decode_value 3 e
          = some (.object [(['a'], .number 3), (['b'], .array [some .null, some (.string ['x'])]),
              (['m'], .map [(.string ['k'], .buffer [0, 1, 2]), (.undefined, .boolean true)])])
      ∧ rpc_encode 3
        (.object [(['a'], .number 3), (['b'], .array [some .null, some (.string ['x'])]),
          (['m'], .map [(.string ['k'], .buffer [0, 1, 2]), (.undefined, .boolean true)])])
          = .ok e
      ∧ rpc_decode 3 e
          = .ok (.object [(['a'], .number 3), (['b'], .array [some .null, some (.string ['x'])]),
              (['m'], .map [(.string ['k'], .buffer [0, 1, 2]), (.undefined, .boolean true)])])
      ∧ decode_value_pending 3 e
          = (some (.object [(['a'], .number 3),
              (['b'], .array [some .null, some (.string ['x'])]),
              (['m'], .map [(.string ['k'], .buffer [0, 1, 2]), (.undefined, .boolean true)])]),
            false)
      ∧ rpc_decode_pending 3 e
          = .returned (.object [(['a'], .number 3),
              (['b'], .array [some .null, some (.string ['x'])]),
              (['m'], .map [(.string ['k'], .buffer [0, 1, 2]), (.undefined, .boolean true)])]) :=
  decode_encode_value 3 _ (by decide) rfl rfl rfl

/-- C12, amended: for a Record with no `$value` field, `decode_value` returns
`nullptr` when the type tag is `Array` or `Object`. With the tag `Array` no exception
is pending and `rpc_decode` throws `Invalid encoded object`; with the tag `Object`
the failure is the `TypeError` of `napi_get_property_names` on `undefined`, which is
left pending and is what `rpc_decode` throws. With the tag `number`, `string` or
`boolean` the Record is decoded to `undefined`, with the tag `Buffer` to the empty
Blob, with the tag `Map` to the empty OrderedMap, and `rpc_decode` returns that
value. -/
theorem decode_value_missing_value (fuel : Nat) (props : List (List Char × JSValue))
    (tag : List Char) (h : props.lookup TYPE_KEY = some (.string tag))
    (hv : props.lookup VALUE_KEY = none) :
    (tag = TAG_ARRAY →
        decode_value_pending (fuel + 1) (.object props) = (none, false)
          ∧ rpc_decode_pending (fuel + 1) (.object props) = .invalid_encoded_object)
      ∧ (tag = TAG_OBJECT →
        decode_value_pending (fuel + 1) (.object props) = (none, true)
          ∧ rpc_decode_pending (fuel + 1) (.object props) = .host_type_error)
      ∧ ((tag = TAG_NUMBER ∨ tag = TAG_STRING ∨ tag = TAG_BOOLEAN) →
        decode_value_pending (fuel + 1) (.object props) = (some .undefined, false)
          ∧ rpc_decode_pending (fuel + 1) (.object props) = .returned .undefined)
      ∧ (tag = TAG_BUFFER →
        decode_value_pending (fuel + 1) (.object props) = (some (.buffer []), false)
          ∧ rpc_decode_pending (fuel + 1) (.object props) = .returned (.buffer []))
      ∧ (tag = TAG_MAP →
        decode_value_pending (fuel + 1) (.object props) = (some (.map []), false)
          ∧ rpc_decode_pending (fuel + 1) (.object props) = .returned (.map [])) := by
  have hrec := decode_value_pending_record fuel props tag h
  rw [hv] at hrec
  simp only [Option.getD_none] at hrec
  refine ⟨?_, ?_, ?_, ?_, ?_⟩
  · intro ht
    have hr : decode_value_pending (fuel + 1) (.object props) = (none, false) := by
      rw [hrec, ht, decode_value_pending_typed_array]; rfl
    exact ⟨hr, by simp only [rpc_decode_pending, hr]; rfl⟩
  · intro ht
    have hr : decode_value_pending (fuel + 1) (.object props) = (none, true) := by
      rw [hrec, ht, decode_value_pending_typed_object]; rfl
    exact ⟨hr, by simp only [rpc_decode_pending, hr]; rfl⟩
  · intro ht
    have hr : decode_value_pending (fuel + 1) (.object props) = (some .undefined, false) := by
      rw [hrec]; exact decode_value_pending_primitive fuel tag .undefined ht
    exact ⟨hr, by simp only [rpc_decode_pending, hr]; rfl⟩
  · intro ht
    have hr : decode_value_pending (fuel + 1) (.object props) = (some (.buffer []), false) := by
      rw [hrec, ht, decode_value_pending_buffer]; rfl
    exact ⟨hr, by simp only [rpc_decode_pending, hr]; rfl⟩
  · intro ht
    have hr : decode_value_pending (fuel + 1) (.object props) = (some (.map []), false) := by
      rw [hrec, ht, decode_value_pending_typed_map]; rfl
    exact ⟨hr, by simp only [rpc_decode_pending, hr]; rfl⟩

theorem decode_value_missing_value_witness :
    List.lookup TYPE_KEY [(TYPE_KEY, JSValue.string TAG_OBJECT), (['x'], .number 1)]
        = some (.string TAG_OBJECT)
      ∧ List.lookup VALUE_KEY [(TYPE_KEY, JSValue.string TAG_OBJECT), (['x'], .number 1)] = none
      ∧ decode_value_pending 1 (.object [(TYPE_KEY, .string TAG_OBJECT), (['x'], .number 1)])
          = (none, true)
      ∧ rpc_decode_pending 1 (.object [(TYPE_KEY, .string TAG_OBJECT), (['x'], .number 1)])
          = .host_type_error :=
  ⟨rfl, rfl,
    ((decode_value_missing_value 0 [(TYPE_KEY, .string TAG_OBJECT), (['x'], .number 1)]
      TAG_OBJECT rfl rfl).2.1 rfl).1,
    ((decode_value_missing_value 0 [(TYPE_KEY, .string TAG_OBJECT), (['x'], .number 1)]
      TAG_OBJECT rfl rfl).2.1 rfl).2⟩

/-- C18, as the specification states it, fails: in the `Array` payload made of the
`Object`-tagged Record without `$value` and the `null`-tagged Record, the decode of
the first element raises a `TypeError` that stays pending, so `napi_get_element`
fails for the second element: its slot is a gap although its decode, on its own,
succeeds with `null`; and `rpc_decode` throws the `TypeError`, so the failing
element does fail the decode of the array. -/
theorem decode_value_array_later_slots_lost :
    decode_value_pending 2 (.object [(TYPE_KEY, .string TAG_OBJECT)]) = (none, true)
      ∧ decode_value_pending 2 (.object [(TYPE_KEY, .string TAG_NULL)]) = (some .null, false)
      ∧ decode_value_pending 3 (.object [(TYPE_KEY, .string TAG_ARRAY),
          (VALUE_KEY, .array [some (.object [(TYPE_KEY, .string TAG_OBJECT)]),
            some (.object [(TYPE_KEY, .string TAG_NULL)])])])
          = (some (.array [none, none]), true)
      ∧ rpc_decode_pending 3 (.object [(TYPE_KEY, .string TAG_ARRAY),
          (VALUE_KEY, .array [some (.object [(TYPE_KEY, .string TAG_OBJECT)]),
            some (.object [(TYPE_KEY, .string TAG_NULL)])])])
          = .host_type_error
      ∧ ([none, none] : List (Option JSValue))[1]? ≠ some (some .null) := by
  refine ⟨rfl, rfl, rfl, rfl, by simp⟩

/-- C18, amended: for every `Array`-tagged envelope whose payload is a List `L`,
`decode_value` returns a List of the same length as `L`. As long as no decode of an
element has raised a host exception, slot `i` holds `decode_value (L[i])` when that
decode succeeds and is a gap otherwise (an unset slot of `L` leaves a gap); when the
decode of an element raises an exception, the slot of that element and all later
slots are gaps and the exception is pending when `decode_value` returns. When no
element raises an exception, every slot is the image of its element and the values
are those of `decode_value`. The property names of the Records inside `L` are
ordinary (`ordinary_elems`); this hypothesis is not used by the proof: it keeps the
statement to the names for which the assignment of the host is described exactly. -/
theorem decode_value_array_slots (fuel : Nat) (props : List (List Char × JSValue))
    (slots : List (Option JSValue))
    (h : props.lookup TYPE_KEY = some (.string TAG_ARRAY))
    (hv : props.lookup VALUE_KEY = some (.array slots))
    (_hkeys : ordinary_elems slots = true) :
    decode_value_pending (fuel + 1) (.object props)
        = (some (.array (slots_until_exception (decode_value_pending fuel) slots)),
            slots.any (fun slot => (decode_value_pending fuel (slot.getD .undefined)).2))
      ∧ (slots_until_exception (decode_value_pending fuel) slots).length = slots.length
      ∧ ((∀ slot ∈ slots, (decode_value_pending fuel (slot.getD .undefined)).2 = false) →
          decode_value_pending (fuel + 1) (.object props)
            = (some (.array (slots.map (fun slot => slot.bind (decode_value fuel)))), false))
      ∧ (∀ (pre rest : List (Option JSValue)) (slot : Option JSValue),
          slots = pre ++ slot :: rest →
          (∀ s ∈ pre, (decode_value_pending fuel (s.getD .undefined)).2 = false) →
          (decode_value_pending fuel (slot.getD .undefined)).2 = true →
          decode_value_pending (fuel + 1) (.object props)
            = (some (.array (pre.map (fun s => s.bind (decode_value fuel))
                ++ List.replicate (rest.length + 1) none)), true)) := by
  have hmain : decode_value_pending (fuel + 1) (.object props)
      = (some (.array (slots_until_exception (decode_value_pending fuel) slots)),
          slots.any (fun slot => (decode_value_pending fuel (slot.getD .undefined)).2)) := by
    rw [decode_value_pending_record fuel props TAG_ARRAY h, hv, Option.getD_some,
      decode_value_pending_array]
  have himage : ∀ l : List (Option JSValue),
      (∀ s ∈ l, (decode_value_pending fuel (s.getD .undefined)).2 = false) →
      l.map (fun s => (decode_value_pending fuel (s.getD .undefined)).1)
        = l.map (fun s => s.bind (decode_value fuel)) := by
    intro l hl
    apply List.map_congr_left
    intro s hs
    rw [decode_value_pending_clean fuel _ (hl s hs), decode_value_slot]
  refine ⟨hmain, slots_until_exception_length _ _, ?_, ?_⟩
  · intro hclean
    have h1 := slots_until_exception_clean (decode_value_pending fuel) slots [] hclean
    rw [List.append_nil] at h1
    have h2 : slots.any (fun slot => (decode_value_pending fuel (slot.getD .undefined)).2)
        = false := by
      rw [List.any_eq_false]
      intro s hs
      rw [hclean s hs]
      simp
    rw [hmain, h1, h2, himage slots hclean]
    simp [slots_until_exception]
  · intro pre rest slot hsplit hpre hraise
    have h1 := slots_until_exception_clean (decode_value_pending fuel) pre (slot :: rest) hpre
    have h2 : slots.any (fun slot => (decode_value_pending fuel (slot.getD .undefined)).2)
        = true := by
      rw [List.any_eq_true]
      exact ⟨slot, by rw [hsplit]; simp, hraise⟩
    rw [hmain, h2, hsplit, h1, slots_until_exception_cons, if_pos hraise, himage pre hpre]

theorem decode_value_array_slots_witness :
    decode_value_pending 2 (.object [(TYPE_KEY, .string TAG_ARRAY),
        (VALUE_KEY, .array [some (.object [(TYPE_KEY, .string TAG_NULL)]), some (.number 7),
          none, some (.object [(TYPE_KEY, .string TAG_BOOLEAN), (VALUE_KEY, .boolean true)])])])
      = (some (.array [some .null, none, none, some (.boolean true)]), false)
    ∧ decode_value_pending 2 (.object [(TYPE_KEY, .string TAG_ARRAY),
        (VALUE_KEY, .array [some (.object [(TYPE_KEY, .string TAG_NULL)]),
          some (.object [(TYPE_KEY, .string TAG_OBJECT)]),
          some (.object [(TYPE_KEY, .string TAG_NULL)])])])
      = (some (.array [some .null, none, none]), true) :=
  ⟨(decode_value_array_slots 1
    [(TYPE_KEY, .string TAG_ARRAY),
      (VALUE_KEY, .array [some (.object [(TYPE_KEY, .string TAG_NULL)]), some (.number 7),
        none, some (.object [(TYPE_KEY, .string TAG_BOOLEAN), (VALUE_KEY, .boolean true)])])]
    [some (.object [(TYPE_KEY, .string TAG_NULL)]), some (.number 7), none,
      some (.object [(TYPE_KEY, .string TAG_BOOLEAN), (VALUE_KEY, .boolean true)])] rfl rfl
    rfl).1,
   (decode_value_array_slots 1
    [(TYPE_KEY, .string TAG_ARRAY),
      (VALUE_KEY, .array [some (.object [(TYPE_KEY, .string TAG_NULL)]),
          some (.object [(TYPE_KEY, .string TAG_OBJECT)]),
          some (.object [(TYPE_KEY, .string TAG_NULL)])])]
    [some (.object [(TYPE_KEY, .string TAG_NULL)]),
          some (.object [(TYPE_KEY, .string TAG_OBJECT)]),
          some (.object [(TYPE_KEY, .string TAG_NULL)])] rfl rfl rfl).1⟩

/-- C20, amended: for every `Map`-tagged envelope whose payload is a List of pairs,
`decode_value` returns an OrderedMap. The pairs are decoded in payload order until
the decode of a key or of a value raises a host exception: that pair and all later
pairs are left out and the exception is pending when `decode_value` returns. Of the
pairs decoded before, exactly those whose key and value both decode are inserted
with `map.set`, in payload order; a pair with a failing key or value is left out.
When no decode raises an exception the values are those of `decode_value`; when,
moreover, the decoded keys are pairwise different the OrderedMap holds exactly
these entries in payload order, while a decoded key equal to an earlier one
replaces the value of that entry instead of adding one. The property names of the
Records inside the pairs are ordinary (`ordinary_entries`); this hypothesis is not
used by the proof: it keeps the statement to the names for which the assignment of
the host is described exactly. -/
theorem decode_value_map_entries (fuel : Nat) (props : List (List Char × JSValue))
    (pairs : List (JSValue × JSValue))
    (h : props.lookup TYPE_KEY = some (.string TAG_MAP))
    (hv : props.lookup VALUE_KEY = some (.array (pairs.map pair_slot)))
    (_hkeys : ordinary_entries pairs = true) :
    decode_value_pending (fuel + 1) (.object props)
        = (some (.map ((entries_until_exception (decode_value_pending fuel) pairs).foldl
            (fun m q => map_set m q.1 q.2) [])),
          pairs.any (fun p =>
            (decode_value_pending fuel p.1).2 || (decode_value_pending fuel p.2).2))
      ∧ ((∀ p ∈ pairs, (decode_value_pending fuel p.1).2 = false
            ∧ (decode_value_pending fuel p.2).2 = false) →
          decode_value_pending (fuel + 1) (.object props)
              = (some (.map ((decode_entries (decode_value fuel) pairs).foldl
                  (fun m q => map_set m q.1 q.2) [])), false)
            ∧ (∀ k v, (k, v) ∈ decode_entries (decode_value fuel) pairs ↔
                ∃ p ∈ pairs, decode_value fuel p.1 = some k ∧ decode_value fuel p.2 = some v)
            ∧ (distinct_map_keys (decode_entries (decode_value fuel) pairs) = true →
                decode_value_pending (fuel + 1) (.object props)
                  = (some (.map (decode_entries (decode_value fuel) pairs)), false)))
      ∧ (∀ (pre rest : List (JSValue × JSValue)) (p : JSValue × JSValue),
          pairs = pre ++ p :: rest →
          (∀ q ∈ pre, (decode_value_pending fuel q.1).2 = false
            ∧ (decode_value_pending fuel q.2).2 = false) →
          ((decode_value_pending fuel p.1).2 = true
            ∨ (decode_value_pending fuel p.2).2 = true) →
          decode_value_pending (fuel + 1) (.object props)
            = (some (.map ((decode_entries (decode_value fuel) pre).foldl
                (fun m q => map_set m q.1 q.2) [])), true)) := by
  have hmain : decode_value_pending (fuel + 1) (.object props)
      = (some (.map ((entries_until_exception (decode_value_pending fuel) pairs).foldl
            (fun m q => map_set m q.1 q.2) [])),
          pairs.any (fun p =>
            (decode_value_pending fuel p.1).2 || (decode_value_pending fuel p.2).2)) := by
    rw [decode_value_pending_record fuel props TAG_MAP h, hv, Option.getD_some,
      decode_value_pending_map]
  have hentries : ∀ l : List (JSValue × JSValue),
      (∀ q ∈ l, (decode_value_pending fuel q.1).2 = false
        ∧ (decode_value_pending fuel q.2).2 = false) →
      decode_entries (fun x => (decode_value_pending fuel x).1) l
        = decode_entries (decode_value fuel) l := by
    intro l hl
    apply decode_entries_congr
    intro q hq
    exact ⟨decode_value_pending_clean fuel _ (hl q hq).1,
      decode_value_pending_clean fuel _ (hl q hq).2⟩
  refine ⟨hmain, ?_, ?_⟩
  · intro hclean
    have h1 := entries_until_exception_clean (decode_value_pending fuel) pairs [] hclean
    rw [List.append_nil] at h1
    have h2 : pairs.any (fun p =>
        (decode_value_pending fuel p.1).2 || (decode_value_pending fuel p.2).2) = false := by
      rw [List.any_eq_false]
      intro p hp
      rw [(hclean p hp).1, (hclean p hp).2]
      simp
    have h3 : entries_until_exception (decode_value_pending fuel) pairs
        = decode_entries (decode_value fuel) pairs := by
      rw [h1, hentries pairs hclean]
      simp [entries_until_exception]
    have h4 : decode_value_pending (fuel + 1) (.object props)
        = (some (.map ((decode_entries (decode_value fuel) pairs).foldl
            (fun m q => map_set m q.1 q.2) [])), false) := by
      rw [hmain, h2, h3]
    refine ⟨h4, decode_entries_mem (decode_value fuel) pairs, ?_⟩
    intro hd
    rw [h4, foldl_map_set_distinct _ [] (by simpa using hd)]
    simp
  · intro pre rest p hsplit hpre hraise
    have h1 := entries_until_exception_clean (decode_value_pending fuel) pre (p :: rest) hpre
    have h2 : pairs.any (fun p =>
        (decode_value_pending fuel p.1).2 || (decode_value_pending fuel p.2).2) = true := by
      rw [List.any_eq_true]
      refine ⟨p, by rw [hsplit]; simp, ?_⟩
      rcases hraise with hr | hr
      · rw [hr]; simp
      · rw [hr]; simp
    rw [hmain, h2, hsplit, h1, entries_until_exception_raise _ p rest hraise, List.append_nil,
      hentries pre hpre]

theorem decode_value_map_entries_witness :
    decode_value_pending 2 (.object [(TYPE_KEY, .string TAG_MAP),
        (VALUE_KEY, .array [
          some (.array [
            some (.object [(TYPE_KEY, .string TAG_STRING), (VALUE_KEY, .string ['b'])]),
            some (.object [(TYPE_KEY, .string TAG_NULL)])]),
          some (.array [
            some (.object [(TYPE_KEY, .string TAG_STRING), (VALUE_KEY, .string ['x'])]),
            some (.string ['y'])]),
          some (.array [
            some (.object [(TYPE_KEY, .string TAG_STRING), (VALUE_KEY, .string ['a'])]),
            some (.object [(TYPE_KEY, .string TAG_BOOLEAN), (VALUE_KEY, .boolean true)])])])])
      = (some (.map [(.string ['b'], .null), (.string ['a'], .boolean true)]), false) :=
  ((decode_value_map_entries 1
    [(TYPE_KEY, .string TAG_MAP),
      (VALUE_KEY, .array [
        some (.array [
          some (.object [(TYPE_KEY, .string TAG_STRING), (VALUE_KEY, .string ['b'])]),
          some (.object [(TYPE_KEY, .string TAG_NULL)])]),
        some (.array [
          some (.object [(TYPE_KEY, .string TAG_STRING), (VALUE_KEY, .string ['x'])]),
          some (.string ['y'])]),
        some (.array [
          some (.object [(TYPE_KEY, .string TAG_STRING), (VALUE_KEY, .string ['a'])]),
          some (.object [(TYPE_KEY, .string TAG_BOOLEAN), (VALUE_KEY, .boolean true)])])])]
    [(.object [(TYPE_KEY, .string TAG_STRING), (VALUE_KEY, .string ['b'])],
        .object [(TYPE_KEY, .string TAG_NULL)]),
      (.object [(TYPE_KEY, .string TAG_STRING), (VALUE_KEY, .string ['x'])], .string ['y']),
      (.object [(TYPE_KEY, .string TAG_STRING), (VALUE_KEY, .string ['a'])],
        .object [(TYPE_KEY, .string TAG_BOOLEAN), (VALUE_KEY, .boolean true)])]
    rfl rfl rfl).2.1 (by
      intro p hp
      simp only [List.mem_cons, List.mem_singleton, List.mem_nil_iff, or_false] at hp
      rcases hp with rfl | rfl | rfl <;> exact ⟨rfl, rfl⟩)).2.2 rfl

/-! ## Ordinary property names: the claims -/

theorem ordinary_key_c_str (k : List Char) (h : ordinary_key k = true) : c_str k = k := by
  simp only [ordinary_key, Bool.and_eq_true, beq_iff_eq] at h
  exact h.1.1

theorem ordinary_props_mem (props : List (List Char × JSValue))
    (h : ordinary_props props = true) (p : List Char × JSValue) (hp : p ∈ props) :
    ordinary_key p.1 = true ∧ p.2.ordinary_keys = true := by
  induction props with
  | nil => simp at hp
  | cons q t ih =>
    obtain ⟨k, v⟩ := q
    simp only [ordinary_props, Bool.and_eq_true] at h
    rcases List.mem_cons.mp hp with rfl | hp
    · exact ⟨h.1.1, h.1.2⟩
    · exact ih h.2 hp

/-- The members of an exact Record, written by `value_to_json`, parse back. -/
theorem record_members_parse_back (d : Nat) (props : List (List Char × JSValue))
    (hd : (JSValue.object props).depth ≤ d + 1)
    (hvalid : (JSValue.object props).valid = true)
    (hjson : (JSValue.object props).jsonable = true) :
    (props.map Prod.fst).Nodup
      ∧ ∀ p ∈ props, (p.1 ≠ [] ∧ c_str p.1 = p.1)
          ∧ parses_back (value_to_json d p.2) p.2 := by
  simp only [JSValue.depth] at hd
  simp only [JSValue.valid, Bool.and_eq_true] at hvalid
  simp only [JSValue.jsonable] at hjson
  refine ⟨(distinct_names_iff props).mp hvalid.2, ?_⟩
  intro p hp
  obtain ⟨h1, h2⟩ := jsonable_props_mem props hjson p hp
  exact ⟨h1, value_to_json_parses_back d p.2 (by have := depth_props_mem props p hp; omega)
    (valid_props_mem props hvalid.1 p hp) h2⟩

theorem read_members_exact (j : JSValue → List Char) :
    ∀ (ps done : List (List Char × JSValue)),
      ((done ++ ps).map Prod.fst).Nodup →
      (∀ p ∈ ps, c_str p.1 = p.1 ∧ parsed_value (j p.2) = p.2) →
      read_members (ps.map (fun p => (p.1, j p.2))) done = done ++ ps := by
  intro ps
  induction ps with
  | nil => intro done _ _; simp [read_members]
  | cons p t ih =>
    intro done hnd hall
    obtain ⟨h1, h2⟩ := hall p (List.mem_cons_self _ _)
    have hnot : ∀ q ∈ done, q.1 ≠ p.1 := by
      intro q hq e
      rw [List.map_append, List.nodup_append] at hnd
      exact hnd.2.2 (List.mem_map_of_mem _ hq) (by rw [e]; simp)
    rw [List.map_cons, read_members_cons]
    simp only
    rw [h1, h2, set_prop_append done p.1 p.2 hnot,
      ih (done ++ [p]) (by simpa using hnd) (fun q hq => hall q (List.mem_cons_of_mem _ hq))]
    simp

theorem member_text_map (j : JSValue → List Char) (ps : List (List Char × JSValue)) :
    (ps.map (fun p => (p.1, j p.2))).map member_text = ps.map (json_member j) := by
  rw [List.map_map]
  rfl

/-- An object text whose member after the members `ms` has the empty key is parsed by
`json_to_value` to the Record built from `ms`. -/
theorem json_to_value_object_texts_empty_key (ms : List (List Char × List Char))
    (tail : List Char)
    (hms : ∀ m ∈ ms, m.1 ≠ [] ∧ parses_back m.2 (parsed_value m.2)) :
    json_to_value
        ('{' :: ((if ms = [] then [] else comma_join (ms.map member_text) ++ [','])
          ++ '"' :: '"' :: tail))
      = some (.object (read_members ms [])) := by
  have hsplit : '{' :: ((if ms = [] then [] else comma_join (ms.map member_text) ++ [','])
        ++ '"' :: '"' :: tail)
      = ('{' :: ((if ms = [] then [] else comma_join (ms.map member_text) ++ [','])
        ++ ['"', '"'])) ++ tail := by
    simp
  have hpre := c_str_append_of_no_nul _ tail (object_text_head_no_nul ms hms)
  have hlen : (comma_join (ms.map member_text)).length
      ≤ (if ms = [] then [] else comma_join (ms.map member_text) ++ [',']).length := by
    split
    · rename_i h0
      rw [h0]
      simp [comma_join]
    · simp
  rw [hsplit, json_to_value, if_neg (by simp), hpre]
  have := parse_value_object_texts_empty_key
    (2 * (('{' :: ((if ms = [] then [] else comma_join (ms.map member_text) ++ [','])
        ++ ['"', '"'])) ++ c_str tail).length + 2) ms (c_str tail) hms (by
      simp only [List.length_cons, List.length_append, List.length_nil]
      omega)
  have hsplit2 : '{' :: ((if ms = [] then [] else comma_join (ms.map member_text) ++ [','])
        ++ '"' :: '"' :: c_str tail)
      = ('{' :: ((if ms = [] then [] else comma_join (ms.map member_text) ++ [','])
        ++ ['"', '"'])) ++ c_str tail := by
    simp
  rw [hsplit2] at this
  rw [this]

/-- C22, as the specification states it, fails: in the text `{"a\u0000b":1,` the
member before the cut has the key made of `a`, a NUL character and `b`; the parser
assigns it through the C string of that key, so `json_to_value` returns the Record
with the field `a`, which is not the member read. And in the text `{"":1,` the
parser stops at the empty key: `json_to_value` returns the empty Record, without the
member that precedes the cut. -/
theorem json_to_value_truncated_object_key_lost :
    parse_string ['"', 'a', '\\', 'u', '0', '0', '0', '0', 'b', '"', ':', '1', ',']
        = (['a', Char.ofNat 0, 'b'], [':', '1', ','])
      ∧ json_to_value ['{', '"', 'a', '\\', 'u', '0', '0', '0', '0', 'b', '"', ':', '1', ',']
          = some (.object [(['a'], .number ((1 : Int) : ℚ))])
      ∧ json_to_value ['{', '"', '"', ':', '1', ','] = some (.object []) := by
  refine ⟨by decide, by rfl, by rfl⟩

/-- C22, amended: the text `value_to_json` writes for a non-empty Record of the exact
round-trip domain, cut off right after the comma that follows a complete member, is
parsed by `json_to_value` to the Record of the members before the cut. The Record
`r` with the members `p :: t` is valid (pairwise different keys), `jsonable` (keys
non-empty and without NUL, values Null, Bool, Text, integral Numbers below `2 ^ 53`,
Lists and such Records) and has only ordinary property names; the text is `{`, the
members `"key":value` of `r` as `value_to_json` writes them, separated by commas,
and a final comma, that is, the text of a longer Record cut after the members of
`r`. The hypothesis on the property names is not used by the proof: it keeps the
statement to the names for which the assignment of the host is described exactly. -/
theorem json_to_value_truncated_object (d : Nat) (p : List Char × JSValue)
    (t : List (List Char × JSValue))
    (hd : (JSValue.object (p :: t)).depth ≤ d + 1)
    (hvalid : (JSValue.object (p :: t)).valid = true)
    (hjson : (JSValue.object (p :: t)).jsonable = true)
    (_hkeys : (JSValue.object (p :: t)).ordinary_keys = true) :
    value_to_json (d + 1) (.object (p :: t))
        = '{' :: (comma_join ((p :: t).map (json_member (value_to_json d))) ++ ['}'])
      ∧ json_to_value
          (['{'] ++ comma_join ((p :: t).map (json_member (value_to_json d))) ++ [','])
        = some (.object (p :: t)) := by
  obtain ⟨hnd, hall⟩ := record_members_parse_back d (p :: t) hd hvalid hjson
  exact ⟨json_object_eq d (p :: t) hnd (fun q hq => (hall q hq).1),
    json_to_value_truncated_members (value_to_json d) p t hall hnd⟩

theorem json_to_value_truncated_object_witness :
    json_to_value ['{', '"', 'a', '"', ':', '1', ',']
      = some (.object [(['a'], .number ((1 : Int) : ℚ))]) :=
  (json_to_value_truncated_object 1 (['a'], .number ((1 : Int) : ℚ)) []
    (by decide) rfl rfl rfl).2

theorem object_members_keys (f : JSValue → List Char) (props : List (List Char × JSValue)) :
    ∀ suf : List (List Char × JSValue),
      (object_members f props suf).map Prod.fst
        = (suf.map Prod.fst).filter (fun k => !(k == [])) := by
  intro suf
  induction suf with
  | nil => rfl
  | cons p t ih =>
    rw [object_members_cons, List.map_cons, List.filter_cons]
    by_cases hk : p.1 = []
    · rw [if_pos hk, ih]
      simp [hk]
    · rw [if_neg hk, List.map_cons, ih]
      simp [hk]

theorem set_prop_keys (ps : List (List Char × JSValue)) (name : List Char) (x : JSValue)
    (k : List Char) :
    k ∈ (set_prop ps name x).map Prod.fst ↔ k = name ∨ k ∈ ps.map Prod.fst := by
  induction ps with
  | nil => simp [set_prop]
  | cons q t ih =>
    obtain ⟨k2, v2⟩ := q
    simp only [set_prop]
    by_cases h : k2 = name
    · rw [if_pos h]
      simp only [List.map_cons, List.mem_cons]
      constructor
      · rintro (hk | hk)
        · exact Or.inr (Or.inl hk)
        · exact Or.inr (Or.inr hk)
      · rintro (hk | hk | hk)
        · exact Or.inl (hk.trans h.symm)
        · exact Or.inl hk
        · exact Or.inr hk
    · rw [if_neg h]
      simp only [List.map_cons, List.mem_cons, ih]
      constructor
      · rintro (hk | hk | hk)
        · exact Or.inr (Or.inl hk)
        · exact Or.inl hk
        · exact Or.inr (Or.inr hk)
      · rintro (hk | hk | hk)
        · exact Or.inr (Or.inl hk)
        · exact Or.inl hk
        · exact Or.inr (Or.inr hk)

theorem read_members_keys :
    ∀ (ms : List (List Char × List Char)) (done : List (List Char × JSValue))
      (k : List Char),
      k ∈ (read_members ms done).map Prod.fst
        ↔ k ∈ done.map Prod.fst ∨ ∃ m ∈ ms, k = c_str m.1 := by
  intro ms
  induction ms with
  | nil => intro done k; simp [read_members]
  | cons m t ih =>
    intro done k
    rw [read_members_cons, ih, set_prop_keys]
    constructor
    · rintro ((hk | hk) | ⟨m2, hm2, hk⟩)
      · exact Or.inr ⟨m, List.mem_cons_self _ _, hk⟩
      · exact Or.inl hk
      · exact Or.inr ⟨m2, List.mem_cons_of_mem _ hm2, hk⟩
    · rintro (hk | ⟨m2, hm2, hk⟩)
      · exact Or.inl (Or.inr hk)
      · rcases List.mem_cons.mp hm2 with rfl | hm2
        · exact Or.inl (Or.inl hk)
        · exact Or.inr ⟨m2, hm2, hk⟩

/-- C31, amended: a Record member with the empty text as key does not survive the
JSON codec when the property names of the Record are ordinary (no NUL character, not
`__proto__`, not a run of digits; the empty name is ordinary). For every such Record
of the Envelope Domain, the text of `value_to_json` is `{`, members separated by
commas, and `}`, with one member for each key of the Record that is not empty, in
order, and none for the empty key; `json_to_value` of the text is a Record whose
keys are the keys of the Record that are not empty: no member of it has the empty
key. And for every object text in
which the members of a Record `ps` of the exact round-trip domain (possibly none),
written as `value_to_json` writes them, are followed by a member with the key `""`,
the parser stops at that member: `parse_value` returns the Record `ps` and leaves the
input after the empty key, and `json_to_value` returns the Record `ps`. -/
theorem json_codec_drops_empty_key (d : Nat) (props ps : List (List Char × JSValue))
    (tail : List Char) (fuel : Nat)
    (he : EnvelopeDomain (.object props)) (hd : (JSValue.object props).depth ≤ d + 1)
    (hkeys : (JSValue.object props).ordinary_keys = true)
    (hpd : (JSValue.object ps).depth ≤ d + 1)
    (hpvalid : (JSValue.object ps).valid = true)
    (hpjson : (JSValue.object ps).jsonable = true)
    (_hpkeys : (JSValue.object ps).ordinary_keys = true)
    (hfuel : 2 * (comma_join (ps.map (json_member (value_to_json d)))).length + 3 ≤ fuel) :
    (∃ ms : List (List Char × List Char),
        value_to_json (d + 1) (.object props)
          = '{' :: (comma_join (ms.map member_text) ++ ['}'])
        ∧ ms.map Prod.fst = (props.map Prod.fst).filter (fun k => !(k == []))
        ∧ ∀ m ∈ ms, m.1 ≠ [])
      ∧ (∃ fields, json_to_value (value_to_json (d + 1) (.object props))
            = some (.object fields)
          ∧ (∀ k, k ∈ fields.map Prod.fst ↔ (k ∈ props.map Prod.fst ∧ k ≠ []))
          ∧ ∀ f ∈ fields, f.1 ≠ [])
      ∧ parse_value fuel
          ('{' :: ((if ps.isEmpty then []
              else comma_join (ps.map (json_member (value_to_json d))) ++ [','])
            ++ '"' :: '"' :: tail))
          = (some (.object ps), tail)
      ∧ json_to_value
          ('{' :: ((if ps.isEmpty then []
              else comma_join (ps.map (json_member (value_to_json d))) ++ [','])
            ++ '"' :: '"' :: tail))
          = some (.object ps) := by
  have hprops : ∀ p, p ∈ props → EnvelopeDomain p.2 := by
    cases he with
    | object _ h => exact h
  have hdp : depth_props props ≤ d := by
    simp only [JSValue.depth] at hd
    omega
  have hall := object_members_parse_back d props hprops hdp
  have hw := value_to_json_whole (d + 1) (.object props) hd (Or.inl he)
  have hread := hw.2 (Or.inr (Or.inr ⟨props, rfl⟩))
  have hjson := json_to_value_reads_whole _ [] (by rw [json_object_members_eq]; simp)
    hw.1.2.1 hread
  rw [List.append_nil] at hjson
  have hval : parsed_value (value_to_json (d + 1) (.object props))
      = .object (read_members (object_members (value_to_json d) props props) []) := by
    rw [json_object_members_eq]
    refine (reads_whole_of_parse _ _ ?_).2
    intro fuel rest hf
    have := parse_value_object_texts fuel _ rest hall (by
      simp only [List.length_cons, List.length_append, List.length_nil] at hf
      omega)
    simpa using this
  obtain ⟨hnd, hpall⟩ := record_members_parse_back d ps hpd hpvalid hpjson
  have hms : ∀ m ∈ ps.map (fun p => (p.1, value_to_json d p.2)),
      m.1 ≠ [] ∧ parses_back m.2 (parsed_value m.2) := by
    intro m hm
    obtain ⟨p, hp, rfl⟩ := List.mem_map.mp hm
    exact ⟨(hpall p hp).1.1, parses_back_parsed _ _ (hpall p hp).2⟩
  have hexact : read_members (ps.map (fun p => (p.1, value_to_json d p.2))) [] = ps := by
    have := read_members_exact (value_to_json d) ps [] (by simpa using hnd)
      (fun p hp => ⟨(hpall p hp).1.2, parsed_value_of_parses_back _ _ (hpall p hp).2⟩)
    simpa using this
  have hhead : (if ps.map (fun p => (p.1, value_to_json d p.2)) = [] then []
        else comma_join (ps.map (json_member (value_to_json d))) ++ [','])
      = (if ps.isEmpty then []
        else comma_join (ps.map (json_member (value_to_json d))) ++ [',']) := by
    cases ps with
    | nil => rfl
    | cons q r => simp
  have h1 := parse_value_object_texts_empty_key fuel
    (ps.map (fun p => (p.1, value_to_json d p.2))) tail hms
    (by rw [member_text_map]; exact hfuel)
  have h2 := json_to_value_object_texts_empty_key
    (ps.map (fun p => (p.1, value_to_json d p.2))) tail hms
  rw [member_text_map, hexact, hhead] at h1 h2
  have hcstr : ∀ m ∈ object_members (value_to_json d) props props, c_str m.1 = m.1 := by
    intro m hm
    obtain ⟨_, h2, _⟩ := object_members_mem _ props props m hm
    obtain ⟨p, hp, hpm⟩ := List.mem_map.mp h2
    have hk := (ordinary_props_mem props (by simpa [JSValue.ordinary_keys] using hkeys) p hp).1
    rw [← hpm]
    exact ordinary_key_c_str p.1 hk
  have hkeysiff : ∀ k, k ∈ (read_members (object_members (value_to_json d) props props)
      []).map Prod.fst ↔ (k ∈ props.map Prod.fst ∧ k ≠ []) := by
    intro k
    rw [read_members_keys]
    constructor
    · rintro (hk | ⟨m, hm, hk⟩)
      · simp at hk
      · obtain ⟨h1, h2, _⟩ := object_members_mem _ props props m hm
        rw [hk, hcstr m hm]
        exact ⟨h2, h1⟩
    · rintro ⟨hk1, hk2⟩
      have hmem : k ∈ (object_members (value_to_json d) props props).map Prod.fst := by
        rw [object_members_keys, List.mem_filter]
        exact ⟨hk1, by simpa using hk2⟩
      obtain ⟨m, hm, hmk⟩ := List.mem_map.mp hmem
      exact Or.inr ⟨m, hm, by rw [hcstr m hm, hmk]⟩
  refine ⟨⟨_, json_object_members_eq d props, object_members_keys _ props props,
      fun m hm => (hall m hm).1⟩,
    ⟨_, hjson.trans (congrArg some hval), hkeysiff, ?_⟩, h1, h2⟩
  intro f hf
  exact ((hkeysiff f.1).mp (List.mem_map_of_mem _ hf)).2

theorem json_codec_drops_empty_key_witness :
    (∃ fields, json_to_value (value_to_json 2 (.object [([], .number 1), (['a'], .number 2)]))
        = some (.object fields)
        ∧ (∀ k, k ∈ fields.map Prod.fst
            ↔ (k ∈ [([], JSValue.number 1), (['a'], JSValue.number 2)].map Prod.fst ∧ k ≠ []))
        ∧ ∀ f ∈ fields, f.1 ≠ [])
      ∧ parse_value 3 ['{', '"', '"', ':', '1', ',', '"', 'a', '"', ':', '2', '}']
          = (some (.object []), [':', '1', ',', '"', 'a', '"', ':', '2', '}'])
      ∧ json_to_value ['{', '"', '"', ':', '1', ',', '"', 'a', '"', ':', '2', '}']
          = some (.object []) :=
  have h := json_codec_drops_empty_key 1 [([], .number 1), (['a'], .number 2)] []
    [':', '1', ',', '"', 'a', '"', ':', '2', '}'] 3
    (EnvelopeDomain.object _ (fun p hp => by
      simp only [List.mem_cons, List.mem_singleton, List.mem_nil_iff, or_false] at hp
      rcases hp with rfl | rfl
      · exact EnvelopeDomain.number _
      · exact EnvelopeDomain.number _))
    (by decide) rfl (by decide) rfl rfl rfl (by decide)
  ⟨h.2.1, h.2.2.1, h.2.2.2⟩

end Serialize
